import Mathlib

/-!
# CAPL compiler front end: a verification development

A shallow embedding of the lexer (`src/src/lexer.cpp`, `src/src/token.cpp`),
the recursive-descent parser (`src/src/parser.cpp`), the symbol table
(`src/src/symbol_table.cpp`), the semantic analyzer
(`src/src/semantic_analyzer.cpp`) and the code generator
(`src/src/code_generator.cpp`), followed by theorems about them.

Conventions of the embedding.

* The source text `source_` is a `List Char`; one `Char` stands for one `char`
  of the C++ string.  A guarded read `position_ < source_.length() && P(source_[position_])`
  is the match `source[position]? = some c` together with `P c`.
* `position_`, `line_`, `column_` are `Nat` (the C++ `size_t`/`int` counters
  cannot wrap on inputs shorter than 2^31 characters).
* A C++ `while` loop is a recursive function with a fuel argument that bounds the
  number of iterations.  A lexer loop is given the number of characters left,
  which it cannot exhaust (theorems `skipWhitespace_fuel`, `scanHex_spec`, ...).
  A parser method returns `none` when its fuel runs out, and only then; every
  caller passes `none` on, so a result `some r` is the result of a complete run
  (theorems `parse_terminates`, `parse_of_le`).
-/

namespace Capl

/-! ## Tokens (`include/token.h`, `src/token.cpp`) -/

/-- The enumeration `TokenType` of `include/token.h`, in declaration order. -/
inductive TokenType
  | INTEGER | FLOAT | STRING | CHAR
  | IDENTIFIER
  | VARIABLES | ON | MESSAGE | TIMER | KEY | START | STOP | IF | ELSE | WHILE | FOR
  | SWITCH | CASE | DEFAULT | BREAK | CONTINUE | RETURN | VOID | INT | FLOAT_KW | CHAR_KW
  | BYTE | WORD | DWORD | LONG
  | CAN | CANDB | SIGNAL | ENVVAR | SYSVAR
  | ASSIGN | PLUS | MINUS | MULTIPLY | DIVIDE | MODULO | INCREMENT | DECREMENT
  | PLUS_ASSIGN | MINUS_ASSIGN
  | EQUAL | NOT_EQUAL | LESS | LESS_EQUAL | GREATER | GREATER_EQUAL
  | LOGICAL_AND | LOGICAL_OR | LOGICAL_NOT
  | BITWISE_AND | BITWISE_OR | BITWISE_XOR | BITWISE_NOT | LEFT_SHIFT | RIGHT_SHIFT
  | SEMICOLON | COMMA | DOT | COLON | QUESTION
  | LEFT_PAREN | RIGHT_PAREN | LEFT_BRACE | RIGHT_BRACE | LEFT_BRACKET | RIGHT_BRACKET
  | NEWLINE | EOF_TOKEN | UNKNOWN
  | COMMENT
  | INCLUDE | PRAGMA
  deriving DecidableEq, Repr

/-- The class `Token`: kind, lexeme, line and column. -/
structure Token where
  type : TokenType
  value : String
  line : Nat
  column : Nat
  deriving DecidableEq, Repr

/-- The table filled by `KeywordMap::initializeKeywords`, in the order of the
assignments; the keys are pairwise distinct, so the order is immaterial. -/
def keywords : List (String × TokenType) :=
  [("variables", .VARIABLES), ("on", .ON), ("message", .MESSAGE), ("timer", .TIMER),
   ("key", .KEY), ("start", .START), ("stop", .STOP), ("if", .IF), ("else", .ELSE),
   ("while", .WHILE), ("for", .FOR), ("switch", .SWITCH), ("case", .CASE),
   ("default", .DEFAULT), ("break", .BREAK), ("continue", .CONTINUE),
   ("return", .RETURN), ("void", .VOID), ("int", .INT), ("float", .FLOAT_KW),
   ("char", .CHAR_KW), ("byte", .BYTE), ("word", .WORD), ("dword", .DWORD),
   ("long", .LONG), ("can", .CAN), ("candb", .CANDB), ("signal", .SIGNAL),
   ("envvar", .ENVVAR), ("sysvar", .SYSVAR)]

/-- The method `KeywordMap::isKeyword`: the word is a key of the table. -/
def isKeyword (word : String) : Bool :=
  (keywords.lookup word).isSome

/-- The method `KeywordMap::getKeywordType`: the kind stored under the word,
`UNKNOWN` when there is none. -/
def getKeywordType (word : String) : TokenType :=
  match keywords.lookup word with
  | some t => t
  | none => .UNKNOWN

/-! ## Character classes of `<cctype>` in the "C" locale

No character above 127 belongs to any of these classes. -/

/-- `std::isspace`: space, `\t`, `\n`, `\v`, `\f`, `\r`. -/
def isspace (c : Char) : Bool :=
  c.toNat = 32 || (9 ≤ c.toNat && c.toNat ≤ 13)

/-- `std::isdigit`: `0`..`9`. -/
def isdigit (c : Char) : Bool :=
  48 ≤ c.toNat && c.toNat ≤ 57

/-- `std::isalpha`: `A`..`Z` and `a`..`z`. -/
def isalpha (c : Char) : Bool :=
  (65 ≤ c.toNat && c.toNat ≤ 90) || (97 ≤ c.toNat && c.toNat ≤ 122)

/-- `std::isalnum`: a letter or a digit. -/
def isalnum (c : Char) : Bool :=
  isalpha c || isdigit c

/-- `std::isxdigit`: `0`..`9`, `A`..`F`, `a`..`f`. -/
def isxdigit (c : Char) : Bool :=
  isdigit c || (65 ≤ c.toNat && c.toNat ≤ 70) || (97 ≤ c.toNat && c.toNat ≤ 102)

/-! ## Lexer (`src/lexer.cpp`) -/

/-- The state of `class Lexer`: the source and the cursor. -/
structure Lexer where
  source : List Char
  position : Nat
  line : Nat
  column : Nat
  deriving DecidableEq, Repr

namespace Lexer

/-- The constructor `Lexer::Lexer(source)`: cursor at 0, line 1, column 1. -/
def new (source : List Char) : Lexer :=
  { source := source, position := 0, line := 1, column := 1 }

/-- One step over a character that is not part of a token being built:
`position_++; column_++`. -/
def bump (L : Lexer) : Lexer :=
  { L with position := L.position + 1, column := L.column + 1 }

/-- One step over a character with line tracking: a newline starts a new line,
anything else moves the column; then `position_++`. -/
def bumpLine (L : Lexer) (c : Char) : Lexer :=
  if c = '\n' then { L with position := L.position + 1, line := L.line + 1, column := 1 }
  else { L with position := L.position + 1, column := L.column + 1 }

/-- The whitespace loop at the head of `nextToken` (lines 18-26). -/
def skipWhitespace : Nat → Lexer → Lexer
  | 0, L => L
  | fuel + 1, L =>
    match L.source[L.position]? with
    | some c => if isspace c then skipWhitespace fuel (L.bumpLine c) else L
    | none => L

/-- The line-comment loop (lines 41-44): up to, not including, the newline. -/
def skipLineComment : Nat → Lexer → Lexer
  | 0, L => L
  | fuel + 1, L =>
    match L.source[L.position]? with
    | some c => if c ≠ '\n' then skipLineComment fuel L.bump else L
    | none => L

/-- The block-comment loop (lines 50-63): runs while `position_ + 1` is in
bounds; stops just past the first `*/`. -/
def skipBlockComment : Nat → Lexer → Lexer
  | 0, L => L
  | fuel + 1, L =>
    match L.source[L.position]?, L.source[L.position + 1]? with
    | some c, some d =>
      if c = '*' ∧ d = '/' then
        { L with position := L.position + 2, column := L.column + 2 }
      else skipBlockComment fuel (L.bumpLine c)
    | _, _ => L

/-- The hexadecimal digit loop (lines 86-91). -/
def scanHex : Nat → Lexer → String → String × Lexer
  | 0, L, number => (number, L)
  | fuel + 1, L, number =>
    match L.source[L.position]? with
    | some c => if isxdigit c then scanHex fuel L.bump (number.push c) else (number, L)
    | none => (number, L)

/-- The decimal loop (lines 94-103): digits and dots, leaving at a second dot. -/
def scanDecimal : Nat → Lexer → String → Bool → String × Bool × Lexer
  | 0, L, number, isFloat => (number, isFloat, L)
  | fuel + 1, L, number, isFloat =>
    match L.source[L.position]? with
    | some c =>
      if isdigit c ∨ c = '.' then
        if c = '.' ∧ isFloat then (number, isFloat, L)
        else scanDecimal fuel L.bump (number.push c) (if c = '.' then true else isFloat)
      else (number, isFloat, L)
    | none => (number, isFloat, L)

/-- The identifier loop (lines 114-119). -/
def scanIdentifier : Nat → Lexer → String → String × Lexer
  | 0, L, identifier => (identifier, L)
  | fuel + 1, L, identifier =>
    match L.source[L.position]? with
    | some c =>
      if isalnum c ∨ c = '_' then scanIdentifier fuel L.bump (identifier.push c)
      else (identifier, L)
    | none => (identifier, L)

/-- The escape `switch` of a string literal (lines 142-149), applied to the
character after the backslash. -/
def stringEscape (c : Char) : Char :=
  if c = 'n' then '\n'
  else if c = 't' then '\t'
  else if c = 'r' then '\r'
  else if c = '\\' then '\\'
  else if c = '"' then '"'
  else c

/-- The escape `switch` of a character literal (lines 176-183). -/
def charEscape (c : Char) : Char :=
  if c = 'n' then '\n'
  else if c = 't' then '\t'
  else if c = 'r' then '\r'
  else if c = '\\' then '\\'
  else if c = Char.ofNat 39 then Char.ofNat 39
  else c

/-- The character after a backslash when `c` is a backslash that is not the
last character of the source (the test `source_[position_] == backslash &&
position_ + 1 < source_.length()`), else nothing. -/
def escaped (L : Lexer) (c : Char) : Option Char :=
  if c = '\\' then L.source[L.position + 1]? else none

/-- The string body loop (lines 137-155): up to the closing quote or the end.
An escape takes two characters, anything else one. -/
def scanString : Nat → Lexer → String → String × Lexer
  | 0, L, str => (str, L)
  | fuel + 1, L, str =>
    match L.source[L.position]? with
    | some c =>
      if c ≠ '"' then
        match L.escaped c with
        | some e => scanString fuel L.bump.bump (str.push (stringEscape e))
        | none => scanString fuel L.bump (str.push c)
      else (str, L)
    | none => (str, L)

/-- The number of characters from the cursor to the end of the source: the
iteration bound of every scanning loop. -/
def remaining (L : Lexer) : Nat :=
  L.source.length - L.position

/-- The lexeme of a one- or two-character operator starting with `current`
(the `switch` of lines 203-261), with `next` the character after it if any:
the kind, the lexeme, and whether the second character is consumed. -/
def operatorToken (current : Char) (next : Option Char) : TokenType × String × Bool :=
  if current = '+' then (.PLUS, "+", false)
  else if current = '-' then (.MINUS, "-", false)
  else if current = '*' then (.MULTIPLY, "*", false)
  else if current = '/' then (.DIVIDE, "/", false)
  else if current = '=' then
    if next = some '=' then (.EQUAL, "==", true) else (.ASSIGN, "=", false)
  else if current = '!' then
    if next = some '=' then (.NOT_EQUAL, "!=", true) else (.LOGICAL_NOT, "!", false)
  else if current = '<' then
    if next = some '=' then (.LESS_EQUAL, "<=", true) else (.LESS, "<", false)
  else if current = '>' then
    if next = some '=' then (.GREATER_EQUAL, ">=", true) else (.GREATER, ">", false)
  else if current = '&' then
    if next = some '&' then (.LOGICAL_AND, "&&", true) else (.BITWISE_AND, "&", false)
  else if current = '|' then
    if next = some '|' then (.LOGICAL_OR, "||", true) else (.BITWISE_OR, "|", false)
  else if current = '(' then (.LEFT_PAREN, "(", false)
  else if current = ')' then (.RIGHT_PAREN, ")", false)
  else if current = '\x7b' then (.LEFT_BRACE, "\x7b", false)
  else if current = '\x7d' then (.RIGHT_BRACE, "\x7d", false)
  else if current = '[' then (.LEFT_BRACKET, "[", false)
  else if current = ']' then (.RIGHT_BRACKET, "]", false)
  else if current = ';' then (.SEMICOLON, ";", false)
  else if current = ',' then (.COMMA, ",", false)
  else if current = '.' then (.DOT, ".", false)
  else (.UNKNOWN, String.singleton current, false)

/-- The test of line 75-76: `current` is `0` and the next character exists and
is `x` or `X`; the result is that next character. -/
def hexPrefix (L : Lexer) (current : Char) : Option Char :=
  match L.source[L.position + 1]? with
  | some x => if current = '0' ∧ (x = 'x' ∨ x = 'X') then some x else none
  | none => none

/-- The body of a character literal (lines 171-189), with the cursor just past
the opening quote: at most one logical character. -/
def scanChar (L : Lexer) : String × Lexer :=
  match L.source[L.position]? with
  | some c =>
    match L.escaped c with
    | some e => ("".push (charEscape e), L.bump.bump)
    | none => ("".push c, L.bump)
  | none => ("", L)

/-- The body of `nextToken` after the whitespace loop and the comment test,
for a cursor on the character `current` (lines 68-261): numbers, identifiers
and keywords, string and character literals, operators and punctuation. -/
def lexToken (L : Lexer) (current : Char) : Token × Lexer :=
  let start_column := L.column
  if isdigit current then
    match L.hexPrefix current with
    | some x =>
      let r := scanHex L.remaining L.bump.bump (("".push current).push x)
      (⟨.INTEGER, r.1, r.2.line, start_column⟩, r.2)
    | none =>
      let r := scanDecimal L.remaining L "" false
      (⟨if r.2.1 then .FLOAT else .INTEGER, r.1, r.2.2.line, start_column⟩, r.2.2)
  else if isalpha current ∨ current = '_' then
    let r := scanIdentifier L.remaining L ""
    if isKeyword r.1 then (⟨getKeywordType r.1, r.1, r.2.line, start_column⟩, r.2)
    else (⟨.IDENTIFIER, r.1, r.2.line, start_column⟩, r.2)
  else if current = '"' then
    let r := scanString L.remaining L.bump ""
    let L2 := if r.2.position < r.2.source.length then r.2.bump else r.2
    (⟨.STRING, r.1, L2.line, start_column⟩, L2)
  else if current = Char.ofNat 39 then
    let r := scanChar L.bump
    let L2 := if r.2.source[r.2.position]? = some (Char.ofNat 39) then r.2.bump else r.2
    (⟨.CHAR, r.1, L2.line, start_column⟩, L2)
  else
    let L1 := L.bump
    let op := operatorToken current L1.source[L1.position]?
    let L2 := if op.2.2 then L1.bump else L1
    (⟨op.1, op.2.1, L2.line, start_column⟩, L2)

/-- The method `Lexer::nextToken` with a bound on the depth of its
self-calls (one per comment skipped): `none` only when the bound is hit. -/
def nextTokenAux : Nat → Lexer → Option (Token × Lexer)
  | 0, _ => none
  | fuel + 1, L =>
    let L1 := skipWhitespace L.remaining L
    match L1.source[L1.position]? with
    | none => some (⟨.EOF_TOKEN, "", L1.line, L1.column⟩, L1)
    | some current =>
      if current = '/' ∧ L1.source[L1.position + 1]? = some '/' then
        nextTokenAux fuel (skipLineComment L1.remaining L1)
      else if current = '/' ∧ L1.source[L1.position + 1]? = some '*' then
        nextTokenAux fuel
          (skipBlockComment L1.remaining
            { L1 with position := L1.position + 2, column := L1.column + 2 })
      else some (lexToken L1 current)

/-- The method `Lexer::nextToken`: the self-call depth is bounded by the number
of characters left, every comment being at least two characters long. -/
def nextToken (L : Lexer) : Token × Lexer :=
  match nextTokenAux (L.remaining + 1) L with
  | some r => r
  | none => (⟨.EOF_TOKEN, "", L.line, L.column⟩, L)

/-- The tokens delivered by at most `fuel` successive `nextToken` calls, the
end-of-input token included and last. -/
def tokensAux : Nat → Lexer → List Token
  | 0, _ => []
  | fuel + 1, L =>
    let r := nextToken L
    if r.1.type = .EOF_TOKEN then [r.1] else r.1 :: tokensAux fuel r.2

/-- The token sequence of a lexer state: every token up to and including the
first end-of-input token. -/
def tokens (L : Lexer) : List Token :=
  tokensAux (L.remaining + 1) L

end Lexer

/-- The token sequence of a source text. -/
def tokenize (source : String) : List Token :=
  (Lexer.new source.toList).tokens

/-! ## AST nodes (`include/ast.h`, `src/ast.cpp`) -/

/-- The enumeration `ASTNodeType` of `include/ast.h`, in declaration order. -/
inductive ASTNodeType
  | PROGRAM | FUNCTION | VARIABLE_DECL
  | EXPRESSION_STMT | IF_STMT | WHILE_STMT | FOR_STMT | SWITCH_STMT | CASE_STMT
  | BREAK_STMT | CONTINUE_STMT | RETURN_STMT | BLOCK_STMT
  | BINARY_EXPR | UNARY_EXPR | ASSIGNMENT_EXPR | CALL_EXPR | MEMBER_EXPR | INDEX_EXPR
  | CONDITIONAL_EXPR
  | INTEGER_LITERAL | FLOAT_LITERAL | STRING_LITERAL | CHAR_LITERAL | BOOLEAN_LITERAL
  | IDENTIFIER
  | ON_MESSAGE | ON_TIMER | ON_KEY | ON_START | ON_STOP
  | SIGNAL_ACCESS | ENVVAR_ACCESS | SYSVAR_ACCESS | MESSAGE_SEND | TIMER_SET
  deriving DecidableEq, Repr

/-- The C++ class an AST object was constructed as, with the fields that class
adds to the base class `ASTNode`.  `dynamic_cast` succeeds on the matching
class only; the node kind `type_` is stored separately and need not agree. -/
inductive NodeClass
  | ASTNode
  | ProgramNode
  | FunctionNode (name return_type : String)
  | VariableDeclNode (name var_type : String)
  | BinaryExprNode (op : String)
  | UnaryExprNode (op : String)
  | LiteralNode (value : String)
  | IdentifierNode (name : String)
  | OnEventNode (event_name : String)
  | CallExprNode (function_name : String)
  deriving DecidableEq, Repr

/-- An object of class `ASTNode` or of one of its subclasses: the kind `type_`,
the dynamic class with its fields, the owned children in order, and the
position fields `line_`, `column_` (0 unless set). -/
inductive ASTNode
  | mk (type : ASTNodeType) (cls : NodeClass) (children : List ASTNode)
      (line column : Nat)
  deriving Repr

namespace ASTNode

/-- The getter `getType`. -/
def type : ASTNode → ASTNodeType
  | mk t _ _ _ _ => t

/-- The dynamic class of the object. -/
def cls : ASTNode → NodeClass
  | mk _ c _ _ _ => c

/-- The getter `getChildren`. -/
def children : ASTNode → List ASTNode
  | mk _ _ cs _ _ => cs

/-- The getter `getLine`. -/
def line : ASTNode → Nat
  | mk _ _ _ l _ => l

/-- The getter `getColumn`. -/
def column : ASTNode → Nat
  | mk _ _ _ _ c => c

/-- The expression `std::make_unique<ASTNode>(type)` followed by `addChild` of
each of `children` in order: a base-class object of the given kind. -/
def base (type : ASTNodeType) (children : List ASTNode) : ASTNode :=
  mk type .ASTNode children 0 0

end ASTNode

/-! ## Parser (`src/parser.cpp`) -/

/-- The state of `class Parser`: the lexer it pulls from, the lookahead token,
the diagnostics and the error flag. -/
structure Parser where
  lexer : Lexer
  current_token : Token
  errors : List String
  has_errors : Bool
  deriving DecidableEq, Repr

/-- The result of a parsing method: the node (`none` for `nullptr`) and the
parser state afterwards. -/
abbrev ParseResult := Option ASTNode × Parser

namespace Parser

/-- The method `Parser::advance`. -/
def advance (P : Parser) : Parser :=
  let r := P.lexer.nextToken
  { P with lexer := r.2, current_token := r.1 }

/-- The constructor `Parser::Parser(lexer)`: no errors, the default token
`Token()` as lookahead, then `advance()`. -/
def new (lexer : Lexer) : Parser :=
  advance { lexer := lexer, current_token := ⟨.UNKNOWN, "", 0, 0⟩, errors := [],
            has_errors := false }

/-- The method `Parser::reportError`: sets the flag and appends the message,
prefixed with the position of the lookahead token. -/
def reportError (P : Parser) (message : String) : Parser :=
  { P with
    has_errors := true
    errors := P.errors ++
      ["语法错误 (行 " ++ toString P.current_token.line ++ ", 列 " ++
        toString P.current_token.column ++ "): " ++ message] }

/-- The method `Parser::tokenTypeToString`. -/
def tokenTypeToString : TokenType → String
  | .SEMICOLON => ";"
  | .LEFT_BRACE => "\x7b"
  | .RIGHT_BRACE => "\x7d"
  | .LEFT_PAREN => "("
  | .RIGHT_PAREN => ")"
  | .IDENTIFIER => "标识符"
  | .INTEGER => "整数"
  | .ASSIGN => "="
  | _ => "未知"

/-- The method `Parser::expect`. -/
def expect (P : Parser) (expected_type : TokenType) : Bool × Parser :=
  if P.current_token.type = expected_type then (true, P.advance)
  else
    (false, P.reportError ("期望 \x27" ++ tokenTypeToString expected_type ++
      "\x27, 但得到 \x27" ++ P.current_token.value ++ "\x27"))

/-- The operand test of `parseExpression`. -/
def isOperand (t : TokenType) : Bool :=
  t = .IDENTIFIER || t = .INTEGER || t = .FLOAT || t = .CHAR

/-- The operator test of `parseExpression`. -/
def isBinaryOperator (t : TokenType) : Bool :=
  t = .PLUS || t = .MINUS || t = .MULTIPLY || t = .DIVIDE || t = .EQUAL || t = .NOT_EQUAL ||
  t = .LESS || t = .GREATER || t = .LESS_EQUAL || t = .GREATER_EQUAL

/-- The method `Parser::parseExpression`: one operand, optionally an operator
and a second operand; the node is a childless `BINARY_EXPR`. -/
def parseExpression (P : Parser) : ParseResult :=
  if isOperand P.current_token.type then
    let P1 := P.advance
    if isBinaryOperator P1.current_token.type then
      let P2 := P1.advance
      if isOperand P2.current_token.type then (some (.base .BINARY_EXPR []), P2.advance)
      else (none, P2.reportError "期望表达式的右操作数")
    else (some (.base .BINARY_EXPR []), P1)
  else (none, P.reportError "期望表达式")

/-- The argument loop of `parseAssignmentOrCall` (lines 318-321): skip to the
next `)` or the end of input. -/
def skipArguments : Nat → Parser → Option Parser
  | 0, _ => none
  | fuel + 1, P =>
    if P.current_token.type ≠ .RIGHT_PAREN ∧ P.current_token.type ≠ .EOF_TOKEN then
      skipArguments fuel P.advance
    else some P

/-- The method `Parser::parseAssignmentOrCall`. -/
def parseAssignmentOrCall (fuel : Nat) (P : Parser) : Option ParseResult :=
  if P.current_token.type ≠ .IDENTIFIER then some (none, P.reportError "期望标识符")
  else
    let P1 := P.advance
    if P1.current_token.type = .ASSIGN then
      let P2 := P1.advance
      match parseExpression P2 with
      | (none, P3) => some (none, P3)
      | (some _, P3) =>
        match P3.expect .SEMICOLON with
        | (false, P4) => some (none, P4)
        | (true, P4) => some (some (.base .EXPRESSION_STMT []), P4)
    else if P1.current_token.type = .LEFT_PAREN then
      match skipArguments fuel P1.advance with
      | none => none
      | some P2 =>
        match P2.expect .RIGHT_PAREN with
        | (false, P3) => some (none, P3)
        | (true, P3) =>
          match P3.expect .SEMICOLON with
          | (false, P4) => some (none, P4)
          | (true, P4) => some (some (.base .EXPRESSION_STMT []), P4)
    else
      some (none, P1.reportError "期望 \x27=\x27 或 \x27(\x27 在标识符后")

/-- The header loop of `parseForStatement` (lines 500-507): skip to the next
`)` or the end of input, counting the semicolons passed. -/
def scanForHeader : Nat → Parser → Nat → Option (Nat × Parser)
  | 0, _, _ => none
  | fuel + 1, P, semicolon_count =>
    if P.current_token.type ≠ .RIGHT_PAREN ∧ P.current_token.type ≠ .EOF_TOKEN then
      scanForHeader fuel P.advance
        (if P.current_token.type = .SEMICOLON then semicolon_count + 1 else semicolon_count)
    else some (semicolon_count, P)

mutual

/-- The method `Parser::parseStatement`. -/
def parseStatement : Nat → Parser → Option ParseResult
  | 0, _ => none
  | fuel + 1, P =>
    match P.current_token.type with
    | .IDENTIFIER => parseAssignmentOrCall fuel P
    | .IF => parseIfStatement fuel P
    | .WHILE => parseWhileStatement fuel P
    | .FOR => parseForStatement fuel P
    | .RIGHT_BRACE => some (none, P)
    | .EOF_TOKEN => some (none, P)
    | _ => some (none, (P.reportError ("意外的语句: " ++ P.current_token.value)).advance)

/-- The statement loop shared, with identical text, by `parseEventHandler`
(lines 235-248), `parseIfStatement` (373-386 and 403-416) and
`parseWhileStatement` (460-473): statements are appended to `children` until
`}` or the end of input; after a failed statement one more token is skipped
unless the cursor is on `}` or at the end. -/
def parseBlockBody : Nat → Parser → List ASTNode → Option (List ASTNode × Parser)
  | 0, _, _ => none
  | fuel + 1, P, children =>
    if P.current_token.type ≠ .RIGHT_BRACE ∧ P.current_token.type ≠ .EOF_TOKEN then
      match parseStatement fuel P with
      | none => none
      | some (some stmt, P1) => parseBlockBody fuel P1 (children ++ [stmt])
      | some (none, P1) =>
        if P1.current_token.type ≠ .RIGHT_BRACE ∧ P1.current_token.type ≠ .EOF_TOKEN then
          parseBlockBody fuel P1.advance children
        else parseBlockBody fuel P1 children
    else some (children, P)

/-- The statement loop of `parseForStatement` (lines 525-531): as
`parseBlockBody`, but nothing is skipped after a failed statement. -/
def parseForBody : Nat → Parser → List ASTNode → Option (List ASTNode × Parser)
  | 0, _, _ => none
  | fuel + 1, P, children =>
    if P.current_token.type ≠ .RIGHT_BRACE ∧ P.current_token.type ≠ .EOF_TOKEN then
      match parseStatement fuel P with
      | none => none
      | some (some stmt, P1) => parseForBody fuel P1 (children ++ [stmt])
      | some (none, P1) => parseForBody fuel P1 children
    else some (children, P)

/-- The method `Parser::parseIfStatement`.  The condition node is parsed and
dropped; the statements of the then-block and of the else-block are all added
to the one `IF_STMT` node. -/
def parseIfStatement : Nat → Parser → Option ParseResult
  | 0, _ => none
  | fuel + 1, P =>
    match P.expect .IF with
    | (false, P1) => some (none, P1)
    | (true, P1) =>
    match P1.expect .LEFT_PAREN with
    | (false, P2) => some (none, P2)
    | (true, P2) =>
    match parseExpression P2 with
    | (none, P3) => some (none, P3)
    | (some _, P3) =>
    match P3.expect .RIGHT_PAREN with
    | (false, P4) => some (none, P4)
    | (true, P4) =>
    match P4.expect .LEFT_BRACE with
    | (false, P5) => some (none, P5)
    | (true, P5) =>
    match parseBlockBody fuel P5 [] with
    | none => none
    | some (children, P6) =>
    match P6.expect .RIGHT_BRACE with
    | (false, P7) => some (none, P7)
    | (true, P7) =>
    if P7.current_token.type = .ELSE then
      match P7.advance.expect .LEFT_BRACE with
      | (false, P8) => some (none, P8)
      | (true, P8) =>
      match parseBlockBody fuel P8 children with
      | none => none
      | some (children2, P9) =>
      match P9.expect .RIGHT_BRACE with
      | (false, P10) => some (none, P10)
      | (true, P10) => some (some (.base .IF_STMT children2), P10)
    else some (some (.base .IF_STMT children), P7)

/-- The method `Parser::parseWhileStatement`. -/
def parseWhileStatement : Nat → Parser → Option ParseResult
  | 0, _ => none
  | fuel + 1, P =>
    match P.expect .WHILE with
    | (false, P1) => some (none, P1)
    | (true, P1) =>
    match P1.expect .LEFT_PAREN with
    | (false, P2) => some (none, P2)
    | (true, P2) =>
    match parseExpression P2 with
    | (none, P3) => some (none, P3)
    | (some _, P3) =>
    match P3.expect .RIGHT_PAREN with
    | (false, P4) => some (none, P4)
    | (true, P4) =>
    match P4.expect .LEFT_BRACE with
    | (false, P5) => some (none, P5)
    | (true, P5) =>
    match parseBlockBody fuel P5 [] with
    | none => none
    | some (children, P6) =>
    match P6.expect .RIGHT_BRACE with
    | (false, P7) => some (none, P7)
    | (true, P7) => some (some (.base .WHILE_STMT children), P7)

/-- The method `Parser::parseForStatement`. -/
def parseForStatement : Nat → Parser → Option ParseResult
  | 0, _ => none
  | fuel + 1, P =>
    match P.expect .FOR with
    | (false, P1) => some (none, P1)
    | (true, P1) =>
    match P1.expect .LEFT_PAREN with
    | (false, P2) => some (none, P2)
    | (true, P2) =>
    match scanForHeader fuel P2 0 with
    | none => none
    | some (semicolon_count, P3) =>
    if semicolon_count ≠ 2 then some (none, P3.reportError "for 循环应该有两个分号")
    else
    match P3.expect .RIGHT_PAREN with
    | (false, P4) => some (none, P4)
    | (true, P4) =>
    match P4.expect .LEFT_BRACE with
    | (false, P5) => some (none, P5)
    | (true, P5) =>
    match parseForBody fuel P5 [] with
    | none => none
    | some (children, P6) =>
    match P6.expect .RIGHT_BRACE with
    | (false, P7) => some (none, P7)
    | (true, P7) => some (some (.base .FOR_STMT children), P7)

end

/-- The method `Parser::parseVariableDeclaration`. -/
def parseVariableDeclaration (P : Parser) : ParseResult :=
  if P.current_token.type ≠ .INT ∧ P.current_token.type ≠ .FLOAT_KW ∧
      P.current_token.type ≠ .CHAR_KW then
    (none, (P.reportError ("期望变量类型 (int, float, char), 但得到 \x27" ++
      P.current_token.value ++ "\x27")).advance)
  else
    let P1 := P.advance
    if P1.current_token.type ≠ .IDENTIFIER then
      (none, (P1.reportError "期望变量名").advance)
    else
      match P1.advance.expect .SEMICOLON with
      | (false, P2) => (none, P2)
      | (true, P2) => (some (.base .VARIABLE_DECL []), P2)

/-- The recovery loop of `parseVariablesBlock` (lines 147-151): skip to the
next `;`, `}` or the end of input. -/
def skipToSemicolon : Nat → Parser → Option Parser
  | 0, _ => none
  | fuel + 1, P =>
    if P.current_token.type ≠ .SEMICOLON ∧ P.current_token.type ≠ .RIGHT_BRACE ∧
        P.current_token.type ≠ .EOF_TOKEN then
      skipToSemicolon fuel P.advance
    else some P

/-- The declaration loop of `parseVariablesBlock` (lines 140-156). -/
def parseVariableDeclarations : Nat → Parser → List ASTNode → Option (List ASTNode × Parser)
  | 0, _, _ => none
  | fuel + 1, P, children =>
    if P.current_token.type ≠ .RIGHT_BRACE ∧ P.current_token.type ≠ .EOF_TOKEN then
      match parseVariableDeclaration P with
      | (some var_decl, P1) => parseVariableDeclarations fuel P1 (children ++ [var_decl])
      | (none, P1) =>
        match skipToSemicolon fuel P1 with
        | none => none
        | some P2 =>
          parseVariableDeclarations fuel
            (if P2.current_token.type = .SEMICOLON then P2.advance else P2) children
    else some (children, P)

/-- The method `Parser::parseVariablesBlock`. -/
def parseVariablesBlock (fuel : Nat) (P : Parser) : Option ParseResult :=
  match P.expect .VARIABLES with
  | (false, P1) => some (none, P1)
  | (true, P1) =>
  match P1.expect .LEFT_BRACE with
  | (false, P2) => some (none, P2)
  | (true, P2) =>
  match parseVariableDeclarations fuel P2 [] with
  | none => none
  | some (children, P3) =>
  match P3.expect .RIGHT_BRACE with
  | (false, P4) => some (none, P4)
  | (true, P4) => some (some (.base .BLOCK_STMT children), P4)

/-- The event-kind test of `parseEventHandler` (lines 214-217). -/
def isEventKind (t : TokenType) : Bool :=
  t = .START || t = .MESSAGE || t = .TIMER || t = .KEY

/-- The method `Parser::parseEventHandler`. -/
def parseEventHandler (fuel : Nat) (P : Parser) : Option ParseResult :=
  match P.expect .ON with
  | (false, P1) => some (none, P1)
  | (true, P1) =>
  if isEventKind P1.current_token.type then
    let P2 := P1.advance
    let P3 := if P2.current_token.type = .INTEGER then P2.advance else P2
    match P3.expect .LEFT_BRACE with
    | (false, P4) => some (none, P4)
    | (true, P4) =>
    match parseBlockBody fuel P4 [] with
    | none => none
    | some (children, P5) =>
    match P5.expect .RIGHT_BRACE with
    | (false, P6) => some (none, P6)
    | (true, P6) => some (some (.base .FUNCTION children), P6)
  else some (none, P1.reportError "期望事件类型 (start, message, timer, key)")

/-- The method `Parser::parseTopLevelDeclaration`. -/
def parseTopLevelDeclaration (fuel : Nat) (P : Parser) : Option ParseResult :=
  match P.current_token.type with
  | .VARIABLES => parseVariablesBlock fuel P
  | .ON => parseEventHandler fuel P
  | _ => some (none, P.reportError ("意外的顶级声明: " ++ P.current_token.value))

/-- The loop of `parseProgram` (lines 81-102): it runs until the end of input
or the first diagnostic.  No parsing method throws, so the `catch` block is
not entered. -/
def parseDeclarations : Nat → Parser → List ASTNode → Option (List ASTNode × Parser)
  | 0, _, _ => none
  | fuel + 1, P, children =>
    if P.current_token.type ≠ .EOF_TOKEN ∧ P.has_errors = false then
      match parseTopLevelDeclaration fuel P with
      | none => none
      | some (some stmt, P1) => parseDeclarations fuel P1 (children ++ [stmt])
      | some (none, P1) =>
        parseDeclarations fuel
          (if P1.current_token.type ≠ .EOF_TOKEN then P1.advance else P1) children
    else some (children, P)

/-- The method `Parser::parseProgram`: a `PROGRAM` node over the declarations
parsed by the loop; never `nullptr`. -/
def parseProgram (fuel : Nat) (P : Parser) : Option (ASTNode × Parser) :=
  match parseDeclarations fuel P [] with
  | none => none
  | some (children, P1) => some (.base .PROGRAM children, P1)

/-- The method `Parser::parse`: the program node, or `nullptr` when the error
flag is set. -/
def parse (fuel : Nat) (P : Parser) : Option ParseResult :=
  match parseProgram fuel P with
  | none => none
  | some (result, P1) => if P1.has_errors then some (none, P1) else some (some result, P1)

/-- The method `Parser::getErrors`. -/
def getErrors (P : Parser) : List String :=
  P.errors

end Parser

/-- A fuel that no parse of `source` exhausts: three per character, plus five. -/
def parseFuel (source : String) : Nat :=
  3 * source.length + 5

/-- The steps `Lexer lexer(source); Parser parser(lexer); parser.parse()` of the
compiler driver: the node returned and the final parser state.  The fuel
`parseFuel source` is never exhausted (theorem `parse_terminates`), so the
second branch is not taken. -/
def parseSource (source : String) : ParseResult :=
  match Parser.parse (parseFuel source) (Parser.new (Lexer.new source.toList)) with
  | some r => r
  | none => (none, Parser.new (Lexer.new source.toList))

/-! ## Symbol table (`include/symbol_table.h`, `src/symbol_table.cpp`) -/

/-- The enumeration `SymbolType`. -/
inductive SymbolType
  | VARIABLE | FUNCTION | PARAMETER | UNKNOWN
  deriving DecidableEq, Repr

/-- The struct `Symbol`; `line` and `column` are C++ `int`. -/
structure Symbol where
  name : String
  type : SymbolType
  data_type : String
  line : Int
  column : Int
  deriving DecidableEq, Repr

/-- The constructor `Symbol(n, t, dt)` with the defaults `l = 0`, `c = 0`. -/
def Symbol.new (n : String) (t : SymbolType) (dt : String) : Symbol :=
  { name := n, type := t, data_type := dt, line := 0, column := 0 }

/-- The class `SymbolTable`: the entries of the `std::unordered_map` `symbols_`,
as key-value pairs.  The iteration order of an unordered map is unspecified;
the model keeps the entries in insertion order. -/
structure SymbolTable where
  symbols : List (String × Symbol)
  deriving DecidableEq, Repr

namespace SymbolTable

/-- The constructor: an empty table. -/
def empty : SymbolTable :=
  { symbols := [] }

/-- The map assignment `m[key] = value`: the value under an existing key is
replaced, a new key gets a new entry. -/
def assign : List (String × Symbol) → String → Symbol → List (String × Symbol)
  | [], key, value => [(key, value)]
  | (k, v) :: rest, key, value =>
    if k = key then (k, value) :: rest else (k, v) :: assign rest key value

/-- The method `SymbolTable::findSymbol`: the symbol stored under the name, or
`none` for `nullptr`. -/
def findSymbol (T : SymbolTable) (name : String) : Option Symbol :=
  T.symbols.lookup name

/-- The method `SymbolTable::hasSymbol`. -/
def hasSymbol (T : SymbolTable) (name : String) : Bool :=
  (T.symbols.lookup name).isSome

/-- The method `SymbolTable::addSymbol`: `false` and no change when the name is
present, else the symbol is stored under its name. -/
def addSymbol (T : SymbolTable) (symbol : Symbol) : Bool × SymbolTable :=
  if (T.symbols.lookup symbol.name).isSome then (false, T)
  else (true, { symbols := assign T.symbols symbol.name symbol })

/-- The method `SymbolTable::getAllSymbols`. -/
def getAllSymbols (T : SymbolTable) : List Symbol :=
  T.symbols.map Prod.snd

/-- The method `SymbolTable::clear`. -/
def clear (_T : SymbolTable) : SymbolTable :=
  { symbols := [] }

/-- The method `SymbolTable::size`. -/
def size (T : SymbolTable) : Nat :=
  T.symbols.length

end SymbolTable

/-! ## Semantic analyzer (`src/semantic_analyzer.cpp`) -/

/-- The state of `class SemanticAnalyzer`, the symbol table it owns, together
with the lines it has written to `std::cerr`. -/
structure SemanticAnalyzer where
  symbol_table : SymbolTable
  diagnostics : List String
  deriving DecidableEq, Repr

namespace SemanticAnalyzer

/-- The constructor: a new empty table. -/
def new : SemanticAnalyzer :=
  { symbol_table := SymbolTable.empty, diagnostics := [] }

/-- The `switch` of the lambda `analyzeNode` (lines 27-64) for one node: what
is done for the node itself, before its children.  Each case acts only when
the `dynamic_cast` to the node class succeeds. -/
def visit (A : SemanticAnalyzer) (type : ASTNodeType) (cls : NodeClass) : SemanticAnalyzer :=
  match type, cls with
  | .FUNCTION, .FunctionNode name return_type =>
    { A with symbol_table := (A.symbol_table.addSymbol (Symbol.new name .FUNCTION return_type)).2 }
  | .VARIABLE_DECL, .VariableDeclNode name var_type =>
    { A with symbol_table := (A.symbol_table.addSymbol (Symbol.new name .VARIABLE var_type)).2 }
  | .IDENTIFIER, .IdentifierNode name =>
    if A.symbol_table.hasSymbol name then A
    else { A with diagnostics := A.diagnostics ++ ["Error: Undefined identifier \x27" ++ name ++ "\x27"] }
  | .CALL_EXPR, .CallExprNode function_name =>
    if A.symbol_table.hasSymbol function_name then A
    else { A with diagnostics := A.diagnostics ++ ["Error: Undefined function \x27" ++ function_name ++ "\x27"] }
  | _, _ => A

mutual

/-- The lambda `analyzeNode`: the node, then its children in order. -/
def analyzeNode : ASTNode → SemanticAnalyzer → SemanticAnalyzer
  | .mk type cls children _ _, A => analyzeChildren children (A.visit type cls)

/-- The loop over `node->getChildren()` of `analyzeNode` (lines 67-69). -/
def analyzeChildren : List ASTNode → SemanticAnalyzer → SemanticAnalyzer
  | [], A => A
  | child :: rest, A => analyzeChildren rest (analyzeNode child A)

end

/-- The method `SemanticAnalyzer::analyze`: `false` on a null tree, else the
walk and `true`. -/
def analyze (A : SemanticAnalyzer) (ast : Option ASTNode) : Bool × SemanticAnalyzer :=
  match ast with
  | none => (false, A)
  | some node => (true, analyzeNode node A)

/-- The method `SemanticAnalyzer::getSymbolTable`. -/
def getSymbolTable (A : SemanticAnalyzer) : SymbolTable :=
  A.symbol_table

end SemanticAnalyzer

/-! ## Code generator (`src/code_generator.cpp`) -/

namespace CodeGenerator

/-- The text written before the tree is walked (lines 42-63). -/
def prologue : String :=
  "// 由 CAPL 编译器生成的 C++ 代码\n" ++
  "#include <iostream>\n" ++
  "#include <string>\n" ++
  "#include <vector>\n" ++
  "#include <map>\n\n" ++
  "// CAPL 运行时支持函数\n" ++
  "namespace capl_runtime \x7b\n" ++
  "    void write(const std::string& msg) \x7b\n" ++
  "        std::cout << msg << std::endl;\n" ++
  "    \x7d\n" ++
  "    \n" ++
  "    void setTimer(const std::string& name, int ms) \x7b\n" ++
  "        // 定时器实现占位符\n" ++
  "    \x7d\n" ++
  "    \n" ++
  "    void output(int value) \x7b\n" ++
  "        std::cout << \"输出: \" << value << std::endl;\n" ++
  "    \x7d\n" ++
  "\x7d\n\n" ++
  "using namespace capl_runtime;\n\n"

/-- The string `indentStr(indent * 4, ' ')`. -/
def indentStr (indent : Nat) : String :=
  String.mk (List.replicate (indent * 4) ' ')

/-- The reads `static_cast<FunctionNode*>(node)->getReturnType()` and
`->getName()`.  The cast is chosen by the kind `type_` alone.  On an object of
class `FunctionNode` it gives the two fields; on an object of any other class
the behaviour of the cast and of the reads is undefined in C++ (the base-class
object has no such members), and the model gives no result. -/
def functionFields : NodeClass → Option (String × String)
  | .FunctionNode name return_type => some (return_type, name)
  | _ => none

/-- The reads `static_cast<VariableDeclNode*>(node)->getVarType()` and
`->getName()`; no result on an object of another class, where the behaviour is
undefined. -/
def variableFields : NodeClass → Option (String × String)
  | .VariableDeclNode name var_type => some (var_type, name)
  | _ => none

/-- The read `static_cast<CallExprNode*>(node)->getFunctionName()`; no result
on an object of another class, where the behaviour is undefined. -/
def callName : NodeClass → Option String
  | .CallExprNode function_name => some function_name
  | _ => none

/-- The read `static_cast<LiteralNode*>(node)->getValue()`; no result on an
object of another class, where the behaviour is undefined. -/
def literalValue : NodeClass → Option String
  | .LiteralNode value => some value
  | _ => none

/-- The read `static_cast<IdentifierNode*>(node)->getName()`; no result on an
object of another class, where the behaviour is undefined. -/
def identifierName : NodeClass → Option String
  | .IdentifierNode name => some name
  | _ => none

mutual

/-- The lambda `generateNode` (lines 66-143): the text written for a node at an
indent level.  The result is `none` when the walk reaches a `static_cast` on an
object of another class: from there on the behaviour of the program is
undefined and nothing is said about what it writes or returns. -/
def generateNode : ASTNode → Nat → Option String
  | .mk type cls children _ _, indent =>
    match type with
    | .PROGRAM =>
      match generateChildren children (indent + 1) with
      | none => none
      | some body =>
        some ("int main() \x7b\n" ++ "    // CAPL 程序开始\n" ++ body ++ "    return 0;\n" ++ "\x7d\n")
    | .FUNCTION =>
      match functionFields cls with
      | none => none
      | some fields =>
        match generateChildren children (indent + 1) with
        | none => none
        | some body =>
          some (indentStr indent ++ fields.1 ++ " " ++ fields.2 ++ "() \x7b\n" ++ body ++
            indentStr indent ++ "\x7d\n\n")
    | .VARIABLE_DECL =>
      match variableFields cls with
      | none => none
      | some fields => some (indentStr indent ++ fields.1 ++ " " ++ fields.2 ++ ";\n")
    | .ON_START =>
      match generateChildren children (indent + 1) with
      | none => none
      | some body =>
        some (indentStr indent ++ "// on start 事件处理\n" ++ indentStr indent ++
          "void onStart() \x7b\n" ++ body ++ indentStr indent ++ "\x7d\n\n")
    | .ON_MESSAGE =>
      match generateChildren children (indent + 1) with
      | none => none
      | some body =>
        some (indentStr indent ++ "// on message 事件处理\n" ++ indentStr indent ++
          "void onMessage() \x7b\n" ++ body ++ indentStr indent ++ "\x7d\n\n")
    | .CALL_EXPR =>
      match callName cls with
      | none => none
      | some name => some (indentStr indent ++ name ++ "();\n")
    | .INTEGER_LITERAL => literalValue cls
    | .FLOAT_LITERAL => literalValue cls
    | .STRING_LITERAL => literalValue cls
    | .IDENTIFIER => identifierName cls
    | _ => generateChildren children indent

/-- The loops over `node->getChildren()` of `generateNode`: the texts of the
children in order; `none` as soon as the walk of a child is undefined. -/
def generateChildren : List ASTNode → Nat → Option String
  | [], _ => some ""
  | child :: rest, indent =>
    match generateNode child indent with
    | none => none
    | some first =>
      match generateChildren rest indent with
      | none => none
      | some others => some (first ++ others)

end

/-- The method `CodeGenerator::generate`: whether it succeeded and the text
written to the output file.  `writable` says whether the output file could be
opened; the symbol table argument is not read.  The result is `none` when the
walk of the tree is undefined (see `generateNode`). -/
def generate (ast : Option ASTNode) (_symbol_table : SymbolTable) (writable : Bool) :
    Option (Bool × Option String) :=
  match ast with
  | none => some (false, none)
  | some node =>
    if writable then
      match generateNode node 0 with
      | none => none
      | some text => some (true, some (prologue ++ text))
    else some (false, none)

end CodeGenerator

/-! ## Compiler driver (`src/capl_compiler.cpp`) -/

/-- The state of `class CAPLCompiler` that outlives a call: the analyzer and the
error and warning lists.  The lexer and the parser are created anew by every
call. -/
structure CAPLCompiler where
  semantic_analyzer : SemanticAnalyzer
  errors : List String
  warnings : List String
  deriving DecidableEq, Repr

namespace CAPLCompiler

/-- The constructor `CAPLCompiler::CAPLCompiler`. -/
def new : CAPLCompiler :=
  { semantic_analyzer := SemanticAnalyzer.new, errors := [], warnings := [] }

/-- The method `CAPLCompiler::compileFromString`: the return value, the state
afterwards and the text written to the output file, if any.  The result is
`none` when the code generation step is undefined (see
`CodeGenerator.generateNode`). -/
def compileFromString (C : CAPLCompiler) (source_code : String) (writable : Bool) :
    Option (Bool × CAPLCompiler × Option String) :=
  let C0 := { C with errors := [], warnings := [] }
  match parseSource source_code with
  | (none, _) => some (false, { C0 with errors := C0.errors ++ ["语法分析失败"] }, none)
  | (some ast, _) =>
    match C0.semantic_analyzer.analyze (some ast) with
    | (false, A) =>
      some (false, { C0 with semantic_analyzer := A, errors := C0.errors ++ ["语义分析失败"] },
        none)
    | (true, A) =>
      match CodeGenerator.generate (some ast) A.getSymbolTable writable with
      | none => none
      | some (false, out) =>
        some (false, { C0 with semantic_analyzer := A, errors := C0.errors ++ ["代码生成失败"] },
          out)
      | some (true, out) => some (true, { C0 with semantic_analyzer := A }, out)

/-- The method `CAPLCompiler::syntaxCheckFromString`. -/
def syntaxCheckFromString (C : CAPLCompiler) (source_code : String) : Bool × CAPLCompiler :=
  let C0 := { C with errors := [], warnings := [] }
  match parseSource source_code with
  | (ast, P) =>
    if P.getErrors ≠ [] then (false, { C0 with errors := C0.errors ++ P.getErrors })
    else
      match ast with
      | none => (false, { C0 with errors := C0.errors ++ ["语法分析失败"] })
      | some node =>
        match C0.semantic_analyzer.analyze (some node) with
        | (false, A) =>
          (false, { C0 with semantic_analyzer := A, errors := C0.errors ++ ["语义分析失败"] })
        | (true, A) => (true, { C0 with semantic_analyzer := A })

/-- The method `CAPLCompiler::getErrors`. -/
def getErrors (C : CAPLCompiler) : List String :=
  C.errors

end CAPLCompiler

/-! ## Notions used to state and prove the properties -/

namespace Lexer

/-- The loop test of the identifier loop: a letter, a digit or an underscore. -/
def isIdentChar (c : Char) : Bool :=
  isalnum c || c == '_'

end Lexer

/-- A word of the form `[A-Za-z_][A-Za-z0-9_]*`. -/
def isWord (w : String) : Bool :=
  match w.data with
  | [] => false
  | c :: cs => (isalpha c || c == '_') && cs.all Lexer.isIdentChar

/-- Specification of escape sequences: the character that the character after
a backslash stands for.  `n`, `t` and `r` give newline, tab and carriage
return; a backslash, a quote and every other character give themselves. -/
def escapeValue (e : Char) : Char :=
  if e = 'n' then '\n' else if e = 't' then '\t' else if e = 'r' then '\r' else e

/-- Specification of a string literal, read from just after the opening
quote: the decoded lexeme, and what follows the closing quote (`none` when no
unescaped double quote closes the literal).  A backslash followed by a
character is an escape; every other character is copied. -/
def decodeString : List Char → List Char × Option (List Char)
  | [] => ([], none)
  | c :: tail =>
    if c = '"' then ([], some tail)
    else if c = '\\' then
      match tail with
      | e :: tail2 => (escapeValue e :: (decodeString tail2).1, (decodeString tail2).2)
      | [] => ([c], none)
    else (c :: (decodeString tail).1, (decodeString tail).2)

/-- The characters that start a token rule or are skipped: whitespace, a digit,
a letter, an underscore, a double or single quote, and the characters of the
operators and punctuation. -/
def startsToken (c : Char) : Bool :=
  isspace c || isdigit c || isalpha c || c == '_' || c == '"' || c == Char.ofNat 39 ||
    "+-*/=!<>&|()\x7b\x7d[];,.".toList.contains c

namespace SymbolTable

/-- The table after `addSymbol` of each symbol of a list in order. -/
def addAll (T : SymbolTable) : List Symbol → SymbolTable
  | [] => T
  | s :: rest => addAll (T.addSymbol s).2 rest

end SymbolTable

namespace ASTNode

mutual

/-- The nodes of a tree in pre-order, each as its kind and its class with the
fields of that class. -/
def preorder : ASTNode → List (ASTNodeType × NodeClass)
  | mk type cls children _ _ => (type, cls) :: preorderOfList children

/-- The nodes of a sequence of trees in pre-order. -/
def preorderOfList : List ASTNode → List (ASTNodeType × NodeClass)
  | [] => []
  | child :: rest => preorder child ++ preorderOfList rest

end

/-- The symbol a node declares by itself: a function symbol with the declared
return type for a function node that carries a name, a variable symbol with
the declared type for a variable declaration node that carries a name. -/
def declared (type : ASTNodeType) (cls : NodeClass) : List Symbol :=
  match type, cls with
  | .FUNCTION, .FunctionNode name return_type => [Symbol.new name .FUNCTION return_type]
  | .VARIABLE_DECL, .VariableDeclNode name var_type => [Symbol.new name .VARIABLE var_type]
  | _, _ => []

/-- The symbols declared by the nodes of a list, in order. -/
def declaredAmong : List (ASTNodeType × NodeClass) → List Symbol
  | [] => []
  | node :: rest => declared node.1 node.2 ++ declaredAmong rest

/-- The symbols declared in a tree, in pre-order. -/
def declarations (ast : ASTNode) : List Symbol :=
  declaredAmong ast.preorder

end ASTNode

namespace SemanticAnalyzer

/-- The analyzer after the visits of the nodes of a list in order. -/
def visitAll (A : SemanticAnalyzer) : List (ASTNodeType × NodeClass) → SemanticAnalyzer
  | [] => A
  | node :: rest => visitAll (A.visit node.1 node.2) rest

end SemanticAnalyzer

namespace SymbolTable

/-- The table states a caller can reach: the new table, and what `addSymbol`
and `clear` make of a reachable one. -/
inductive Reachable : SymbolTable → Prop
  | empty : Reachable SymbolTable.empty
  | addSymbol (T : SymbolTable) (symbol : Symbol) : Reachable T → Reachable (T.addSymbol symbol).2
  | clear (T : SymbolTable) : Reachable T → Reachable T.clear

/-- The keys of the map are pairwise distinct and every symbol is stored under
its own name. -/
def WellKeyed (T : SymbolTable) : Prop :=
  (T.symbols.map Prod.fst).Nodup ∧ ∀ e ∈ T.symbols, e.2.name = e.1

end SymbolTable

namespace Main

/-- The value `std::string::npos` of a 64-bit `size_t`. -/
def npos : Nat := 2 ^ 64 - 1

/-- The index of the last character of `s` that is one of `chars`, as
`std::string::find_last_of` returns it; `npos` when there is none. -/
def find_last_of (s chars : List Char) : Nat :=
  match s.reverse.findIdx? (fun c => chars.contains c) with
  | some i => s.length - 1 - i
  | none => npos

/-- The characters of `s` from index `pos` on, at most `len` of them, as
`std::string::substr` returns them. -/
def substr (s : List Char) (pos len : Nat) : List Char :=
  (s.drop pos).take len

/-- The function `getBaseName` of `main.cpp`. -/
def getBaseName (filepath : String) : String :=
  let lastSlash := find_last_of filepath.data ['/', '\\']
  let lastDot := find_last_of filepath.data ['.']
  let filename :=
    if lastSlash = npos then filepath.data else substr filepath.data (lastSlash + 1) npos
  if lastDot ≠ npos ∧ lastDot > lastSlash then
    String.mk (substr filename 0 (lastDot - (if lastSlash = npos then 0 else lastSlash + 1)))
  else
    String.mk filename

/-- The output file `parseCommandLine` chooses for a plain compilation when no
`-o` option is given. -/
def defaultOutputFile (input_file : String) : String :=
  getBaseName input_file ++ ".cbf"

/-- The final component of a path: what follows its last `/` or `\`, the whole
path when it has neither. -/
def finalComponent (path : List Char) : List Char :=
  (path.reverse.takeWhile (fun c => !(['/', '\\'].contains c))).reverse

/-- A file name with everything from its last `.` on removed. -/
def withoutExtension (name : List Char) : List Char :=
  if name.contains '.' then ((name.reverse.dropWhile (fun c => c != '.')).drop 1).reverse
  else name

/-- The base name as the specification words it: the final path component
without its extension. -/
def baseNameSpec (path : String) : String :=
  String.mk (withoutExtension (finalComponent path.data))

end Main

namespace ASTNode

/-- The kinds of the nodes the parser puts into the tree. -/
def parserKinds : List ASTNodeType :=
  [.PROGRAM, .BLOCK_STMT, .VARIABLE_DECL, .FUNCTION, .EXPRESSION_STMT, .IF_STMT, .WHILE_STMT,
    .FOR_STMT]

mutual

/-- A tree as the parser builds it: every node is a base-class object (no
name, type, operator or literal field) of one of the kinds `parserKinds`, and
the `VARIABLE_DECL` and `EXPRESSION_STMT` nodes have no children. -/
def plain : ASTNode → Bool
  | .mk type cls children _ _ =>
    decide (cls = .ASTNode) && parserKinds.contains type &&
      (!(type = .VARIABLE_DECL || type = .EXPRESSION_STMT) || children.isEmpty) &&
      plainList children

/-- Every tree of the list is `plain`. -/
def plainList : List ASTNode → Bool
  | [] => true
  | node :: rest => plain node && plainList rest

end

end ASTNode

namespace Parser

/-- The line `reportError` records for a message at a position. -/
def diagnostic (line column : Nat) (message : String) : String :=
  "语法错误 (行 " ++ toString line ++ ", 列 " ++ toString column ++ "): " ++ message

/-- The message of a failed `expect`: the name of the expected kind and the
lexeme found. -/
def expectMessage (expected found : String) : String :=
  "期望 \x27" ++ expected ++ "\x27, 但得到 \x27" ++ found ++ "\x27"

/-- The kinds `expect` is called with at a token that may be of another kind. -/
def punctuationKinds : List TokenType :=
  [.SEMICOLON, .LEFT_BRACE, .RIGHT_BRACE, .LEFT_PAREN, .RIGHT_PAREN]

/-- The messages of the `reportError` calls a parse reaches. -/
inductive KnownMessage : String → Prop
  | expect (ty : TokenType) (value : String) : ty ∈ punctuationKinds →
      KnownMessage (expectMessage (tokenTypeToString ty) value)
  | operand : KnownMessage "期望表达式的右操作数"
  | expression : KnownMessage "期望表达式"
  | assignOrCall : KnownMessage "期望 \x27=\x27 或 \x27(\x27 在标识符后"
  | statement (value : String) : KnownMessage ("意外的语句: " ++ value)
  | forHeader : KnownMessage "for 循环应该有两个分号"
  | variableType (value : String) :
      KnownMessage ("期望变量类型 (int, float, char), 但得到 \x27" ++ value ++ "\x27")
  | variableName : KnownMessage "期望变量名"
  | eventKind : KnownMessage "期望事件类型 (start, message, timer, key)"
  | topLevel (value : String) : KnownMessage ("意外的顶级声明: " ++ value)

/-- A recorded line that carries one of the known messages. -/
def KnownDiagnostic (m : String) : Prop :=
  ∃ (line column : Nat) (message : String), KnownMessage message ∧
    m = diagnostic line column message

/-- Every diagnostic recorded so far carries a known message. -/
def Good (P : Parser) : Prop :=
  ∀ m ∈ P.errors, KnownDiagnostic m

/-- A result of a parsing method with known diagnostics and a plain node. -/
def Sound (r : ParseResult) : Prop :=
  Good r.2 ∧ ∀ node, r.1 = some node → node.plain = true

/-- A result of a statement loop with known diagnostics and plain nodes. -/
def SoundList (r : List ASTNode × Parser) : Prop :=
  Good r.2 ∧ ASTNode.plainList r.1 = true

/-- With fuel `n` the method `f`, entered at a parser that satisfies `ok`,
gives sound results. -/
def SoundAt (f : Nat → Parser → Option ParseResult) (ok : Parser → Prop) (n : Nat) : Prop :=
  ∀ P r, Good P → ok P → f n P = some r → Sound r

/-- With fuel `n` the statement loop `f` gives sound results. -/
def SoundLoop (f : Nat → Parser → List ASTNode → Option (List ASTNode × Parser)) (n : Nat) :
    Prop :=
  ∀ P children r, Good P → ASTNode.plainList children = true → f n P children = some r →
    SoundList r

end Parser

namespace Lexer

/-- The state after `k` successive calls of `nextToken`. -/
def afterCalls : Nat → Lexer → Lexer
  | 0, L => L
  | k + 1, L => afterCalls k (nextToken L).2

/-- The part of `nextTokenAux` that comes before a token is built (lines
18-66): whitespace and comments are skipped.  The result is the state with
the cursor on the first character of the next token, or at the end of the
source. -/
def tokenStartAux : Nat → Lexer → Option Lexer
  | 0, _ => none
  | fuel + 1, L =>
    let L1 := skipWhitespace L.remaining L
    match L1.source[L1.position]? with
    | none => some L1
    | some current =>
      if current = '/' ∧ L1.source[L1.position + 1]? = some '/' then
        tokenStartAux fuel (skipLineComment L1.remaining L1)
      else if current = '/' ∧ L1.source[L1.position + 1]? = some '*' then
        tokenStartAux fuel
          (skipBlockComment L1.remaining
            { L1 with position := L1.position + 2, column := L1.column + 2 })
      else some L1

/-- The state in which `nextToken`, called at `L`, starts to build its token. -/
def tokenStart (L : Lexer) : Lexer :=
  match tokenStartAux (L.remaining + 1) L with
  | some S => S
  | none => L

/-- The part of `nextTokenAux` that builds the token, at a cursor past
whitespace and comments: the end-of-input token (lines 29-31) or `lexToken`. -/
def tokenAt (S : Lexer) : Token × Lexer :=
  match S.source[S.position]? with
  | none => (⟨.EOF_TOKEN, "", S.line, S.column⟩, S)
  | some current => lexToken S current

/-- The characters of the source from offset `i` up to, not including, offset
`j`. -/
def slice (source : List Char) (i j : Nat) : List Char :=
  (source.drop i).take (j - i)

/-- The true line of the character at `offset`, counted from 1: one more than
the number of newlines before it. -/
def lineAt (source : List Char) (offset : Nat) : Nat :=
  1 + (source.take offset).count '\n'

/-- The true column of the character at `offset`, counted from 1: one more
than the number of characters since the preceding newline, or since the start
of the source. -/
def columnAt (source : List Char) (offset : Nat) : Nat :=
  1 + ((source.take offset).reverse.takeWhile (fun c => c != '\n')).length

/-- The cursor is within the source. -/
def Within (L : Lexer) : Prop :=
  L.position ≤ L.source.length

/-- The cursor is within the source and the counters `line_` and `column_` are
the true line and column of the cursor. -/
def Tracked (L : Lexer) : Prop :=
  L.position ≤ L.source.length ∧ L.line = lineAt L.source L.position ∧
    L.column = columnAt L.source L.position

/-- The call of `nextToken` at `L` consumes no newline as part of a string or
character literal: if the token is of kind STRING or CHAR, no character from
its first one up to the cursor after the call is a newline. -/
@[reducible]
def CleanCall (L : Lexer) : Prop :=
  ((nextToken L).1.type = .STRING ∨ (nextToken L).1.type = .CHAR) →
    '\n' ∉ slice L.source (tokenStart L).position (nextToken L).2.position

/-- No call of `nextToken` on the source consumes a newline as part of a string
or character literal. -/
def CleanLiterals (source : List Char) : Prop :=
  ∀ k, CleanCall ((Lexer.new source).afterCalls k)

end Lexer

namespace Lexer

/-- The characters from the cursor on. -/
def rest (L : Lexer) : List Char :=
  L.source.drop L.position

/-- The cursor moved `k` characters along the line. -/
def shift (L : Lexer) (k : Nat) : Lexer :=
  { L with position := L.position + k, column := L.column + k }

/-- The cursor of `L2` is in the same source as that of `L1` and not before it. -/
def Follows (L1 L2 : Lexer) : Prop :=
  L2.source = L1.source ∧ L1.position ≤ L2.position

end Lexer

namespace Parser

/-- The tokens the parser has still to look at: the lookahead token, then what
the lexer will deliver, up to and including the first end-of-input token. -/
def stream (P : Parser) : List Token :=
  if P.current_token.type = .EOF_TOKEN then [P.current_token]
  else P.current_token :: P.lexer.tokens

/-- The kinds of the tokens of `stream`. -/
def kinds (P : Parser) : List TokenType :=
  P.stream.map Token.type

/-- The number of tokens ahead of the parser, end-of-input not counted. -/
def pending (P : Parser) : Nat :=
  P.stream.length - 1

/-- A lookahead token of kind end-of-input was delivered by a lexer that has
reached the end of its source. -/
def AtEnd (P : Parser) : Prop :=
  P.current_token.type = .EOF_TOKEN →
    P.lexer.remaining = 0 ∧
    P.current_token = ⟨.EOF_TOKEN, "", P.lexer.line, P.lexer.column⟩

/-- The error flag is set exactly when a diagnostic has been recorded. -/
def FlagMatches (P : Parser) : Prop :=
  P.has_errors = true ↔ P.errors ≠ []

/-- The state `P2` can follow `P1` in a run of the parser: it is consistent
(`AtEnd`, `FlagMatches`) and has no more tokens ahead than `P1`. -/
def Next (P1 P2 : Parser) : Prop :=
  P2.AtEnd ∧ P2.FlagMatches ∧ P2.pending ≤ P1.pending

/-- More fuel does not change a result that `f` has reached. -/
def Stable {α β : Type} (f : Nat → α → Option β) (n : Nat) : Prop :=
  ∀ (a : α) (r : β), f n a = some r → f (n + 1) a = some r

/-- The same for a loop that carries the children built so far. -/
def StableLoop (f : Nat → Parser → List ASTNode → Option (List ASTNode × Parser)) (n : Nat) :
    Prop :=
  ∀ (P : Parser) (children : List ASTNode) (r : List ASTNode × Parser),
    f n P children = some r → f (n + 1) P children = some r

/-- Fuel `n` suffices for `parseStatement` on every consistent state with
`3 * pending + 3 ≤ n`; the state returned has no more tokens ahead, and fewer
when the lookahead is neither `}` nor end-of-input. -/
def StatementTotal (n : Nat) : Prop :=
  ∀ P : Parser, Next P P → 3 * P.pending + 3 ≤ n →
    ∃ r P1, parseStatement n P = some (r, P1) ∧ Next P P1 ∧
      (P.current_token.type ≠ .RIGHT_BRACE → P.current_token.type ≠ .EOF_TOKEN →
        P1.pending < P.pending)

/-- Fuel `n` suffices for the statement loop `parseBlockBody`. -/
def BlockTotal (n : Nat) : Prop :=
  ∀ (P : Parser) (children : List ASTNode), Next P P → 3 * P.pending + 4 ≤ n →
    ∃ cs P1, parseBlockBody n P children = some (cs, P1) ∧ Next P P1

/-- Fuel `n` suffices for the statement loop `parseForBody`. -/
def ForBodyTotal (n : Nat) : Prop :=
  ∀ (P : Parser) (children : List ASTNode), Next P P → 3 * P.pending + 4 ≤ n →
    ∃ cs P1, parseForBody n P children = some (cs, P1) ∧ Next P P1

/-- Fuel `n` suffices for the compound statement parser `f` on a lookahead of
kind `kw`, and that keyword at least is consumed. -/
def CompoundTotal (f : Nat → Parser → Option ParseResult) (kw : TokenType) (n : Nat) : Prop :=
  ∀ P : Parser, Next P P → P.current_token.type = kw → 3 * P.pending + 2 ≤ n →
    ∃ r P1, f n P = some (r, P1) ∧ Next P P1 ∧ P1.pending < P.pending

end Parser

/-! ## The end-to-end scenario of the specification (section 8) -/

/-- The source of the end-to-end scenario: a variables block declaring `speed`,
then a `start` handler that assigns 1 to it. -/
def speedSource : String :=
  "variables \x7b int speed; \x7d\non start \x7b speed = 1; \x7d"

/-- The text `needle` occurs in the text `text`. -/
def occursIn (needle text : String) : Bool :=
  decide (needle.data <:+: text.data)

/-! ## The grammar of the specification (section 4.2), over token kinds -/

/-- The kinds of `operand := IDENTIFIER | INTEGER | FLOAT | CHAR`. -/
def operandKinds : List TokenType :=
  [.IDENTIFIER, .INTEGER, .FLOAT, .CHAR]

/-- The kinds of the binary operators `+ - * / == != < > <= >=`. -/
def binaryOperatorKinds : List TokenType :=
  [.PLUS, .MINUS, .MULTIPLY, .DIVIDE, .EQUAL, .NOT_EQUAL, .LESS, .GREATER, .LESS_EQUAL,
   .GREATER_EQUAL]

/-- The kinds of `'int' | 'float' | 'char'`. -/
def typeKinds : List TokenType :=
  [.INT, .FLOAT_KW, .CHAR_KW]

/-- The kinds of `eventKind := 'start' | 'message' | 'timer' | 'key'`. -/
def eventKinds : List TokenType :=
  [.START, .MESSAGE, .TIMER, .KEY]

/-- A derivation of `expression := operand [binOp operand]`. -/
inductive Expression
  | operand (a : TokenType)
  | binary (a op b : TokenType)
  deriving DecidableEq, Repr

namespace Expression

/-- The token kinds of an expression. -/
def kinds : Expression → List TokenType
  | operand a => [a]
  | binary a op b => [a, op, b]

/-- The operands are operand kinds and the operator is a binary operator kind. -/
def wellFormed : Expression → Bool
  | operand a => decide (a ∈ operandKinds)
  | binary a op b =>
    decide (a ∈ operandKinds) && decide (op ∈ binaryOperatorKinds) && decide (b ∈ operandKinds)

end Expression

/-- A derivation of `statement := assignOrCall | ifStmt | whileStmt | forStmt`.
The arguments of a call and the header of a `for` are token sequences. -/
inductive Statement
  | assign (value : Expression)
  | call (arguments : List TokenType)
  | ifThen (condition : Expression) (thenBody : List Statement)
  | ifElse (condition : Expression) (thenBody elseBody : List Statement)
  | whileLoop (condition : Expression) (body : List Statement)
  | forLoop (header : List TokenType) (body : List Statement)
  deriving Repr

namespace Statement

mutual

/-- The token kinds of a statement, in order. -/
def kinds : Statement → List TokenType
  | assign value => .IDENTIFIER :: .ASSIGN :: (value.kinds ++ [.SEMICOLON])
  | call arguments => .IDENTIFIER :: .LEFT_PAREN :: (arguments ++ [.RIGHT_PAREN, .SEMICOLON])
  | ifThen condition thenBody =>
    .IF :: .LEFT_PAREN :: (condition.kinds ++
      .RIGHT_PAREN :: .LEFT_BRACE :: (kindsOfList thenBody ++ [.RIGHT_BRACE]))
  | ifElse condition thenBody elseBody =>
    .IF :: .LEFT_PAREN :: (condition.kinds ++
      .RIGHT_PAREN :: .LEFT_BRACE :: (kindsOfList thenBody ++
        .RIGHT_BRACE :: .ELSE :: .LEFT_BRACE :: (kindsOfList elseBody ++ [.RIGHT_BRACE])))
  | whileLoop condition body =>
    .WHILE :: .LEFT_PAREN :: (condition.kinds ++
      .RIGHT_PAREN :: .LEFT_BRACE :: (kindsOfList body ++ [.RIGHT_BRACE]))
  | forLoop header body =>
    .FOR :: .LEFT_PAREN :: (header ++
      .RIGHT_PAREN :: .LEFT_BRACE :: (kindsOfList body ++ [.RIGHT_BRACE]))

/-- The token kinds of a sequence of statements. -/
def kindsOfList : List Statement → List TokenType
  | [] => []
  | s :: rest => kinds s ++ kindsOfList rest

end

mutual

/-- The side conditions of the grammar: expressions are well formed, the
arguments of a call hold no `)`, and the header of a `for` holds no
parenthesis and exactly two `;`. -/
def wellFormed : Statement → Bool
  | assign value => value.wellFormed
  | call arguments => decide (TokenType.RIGHT_PAREN ∉ arguments)
  | ifThen condition thenBody => condition.wellFormed && wellFormedList thenBody
  | ifElse condition thenBody elseBody =>
    condition.wellFormed && wellFormedList thenBody && wellFormedList elseBody
  | whileLoop condition body => condition.wellFormed && wellFormedList body
  | forLoop header body =>
    decide (TokenType.LEFT_PAREN ∉ header) && decide (TokenType.RIGHT_PAREN ∉ header) &&
      decide (header.count .SEMICOLON = 2) && wellFormedList body

/-- Every statement of the sequence is well formed. -/
def wellFormedList : List Statement → Bool
  | [] => true
  | s :: rest => wellFormed s && wellFormedList rest

end

mutual

/-- The node the parser is to build for a statement: an `EXPRESSION_STMT` without
children for an assignment or a call, and for a compound statement a node of
its kind with one child per statement of its body (for an `if` with `else`:
of both bodies). -/
def node : Statement → ASTNode
  | assign _ => .base .EXPRESSION_STMT []
  | call _ => .base .EXPRESSION_STMT []
  | ifThen _ thenBody => .base .IF_STMT (nodes thenBody)
  | ifElse _ thenBody elseBody => .base .IF_STMT (nodes thenBody ++ nodes elseBody)
  | whileLoop _ body => .base .WHILE_STMT (nodes body)
  | forLoop _ body => .base .FOR_STMT (nodes body)

/-- The nodes of a sequence of statements, in order. -/
def nodes : List Statement → List ASTNode
  | [] => []
  | s :: rest => node s :: nodes rest

end

end Statement

/-- A derivation of `topLevelDecl := variablesBlock | eventHandler`: the type
keywords of the declarations of a variables block (each is followed by an
identifier and `;`), or the event kind, whether an integer follows it, and
the body of a handler. -/
inductive Declaration
  | variablesBlock (types : List TokenType)
  | eventHandler (event : TokenType) (withId : Bool) (body : List Statement)
  deriving Repr

namespace Declaration

/-- The token kinds of the declarations `T id;` of a variables block. -/
def variableKinds : List TokenType → List TokenType
  | [] => []
  | t :: rest => t :: .IDENTIFIER :: .SEMICOLON :: variableKinds rest

/-- The token kinds of a top-level declaration, in order. -/
def kinds : Declaration → List TokenType
  | variablesBlock types => .VARIABLES :: .LEFT_BRACE :: (variableKinds types ++ [.RIGHT_BRACE])
  | eventHandler event withId body =>
    .ON :: event :: ((if withId then [.INTEGER] else []) ++
      .LEFT_BRACE :: (Statement.kindsOfList body ++ [.RIGHT_BRACE]))

/-- The side conditions: type keywords, an event kind, well-formed statements. -/
def wellFormed : Declaration → Bool
  | variablesBlock types => types.all (fun t => decide (t ∈ typeKinds))
  | eventHandler event _ body => decide (event ∈ eventKinds) && Statement.wellFormedList body

/-- The node the parser is to build: a `BLOCK_STMT` with one `VARIABLE_DECL` child
per declaration, or a `FUNCTION` with one child per statement of the body. -/
def node : Declaration → ASTNode
  | variablesBlock types => .base .BLOCK_STMT (types.map (fun _ => .base .VARIABLE_DECL []))
  | eventHandler _ _ body => .base .FUNCTION (Statement.nodes body)

/-- The token kinds of a program: those of its declarations, in order. -/
def kindsOfList : List Declaration → List TokenType
  | [] => []
  | d :: rest => kinds d ++ kindsOfList rest

end Declaration

/-! ## Acceptance of the grammar by the parser: the statements proved by induction -/

namespace Parser

/-- The state `P2` is reached from `P1` without any diagnostic, and has the
token kinds `ks` ahead. -/
def Accepts (P1 P2 : Parser) (ks : List TokenType) : Prop :=
  P2.kinds = ks ∧ P2.errors = P1.errors ∧ P2.has_errors = P1.has_errors

/-- The parsing method that `parseStatement` dispatches to on the first token of
a statement of the grammar. -/
def parserOf : Statement → Nat → Parser → Option ParseResult
  | .assign _ => parseAssignmentOrCall
  | .call _ => parseAssignmentOrCall
  | .ifThen _ _ => parseIfStatement
  | .ifElse _ _ _ => parseIfStatement
  | .whileLoop _ _ => parseWhileStatement
  | .forLoop _ _ => parseForStatement

/-- With fuel `n`, `parseStatement` accepts every well-formed statement of the
grammar that is not followed by `else`, builds its node and stops right after it. -/
def StatementAccepted (n : Nat) : Prop :=
  ∀ (P : Parser) (s : Statement) (rest : List TokenType), s.wellFormed = true →
    P.kinds = s.kinds ++ rest → rest ≠ [] → rest.head? ≠ some .ELSE →
    3 * P.kinds.length ≤ n →
    ∃ P1, parseStatement n P = some (some s.node, P1) ∧ Accepts P P1 rest

/-- The same for the method `parseStatement` dispatches to, with one unit of fuel less. -/
def DispatchAccepted (n : Nat) : Prop :=
  ∀ (P : Parser) (s : Statement) (rest : List TokenType), s.wellFormed = true →
    P.kinds = s.kinds ++ rest → rest ≠ [] → rest.head? ≠ some .ELSE →
    3 * P.kinds.length ≤ n + 1 →
    ∃ P1, parserOf s n P = some (some s.node, P1) ∧ Accepts P P1 rest

/-- With fuel `n`, the statement loop `loop` (`parseBlockBody` or
`parseForBody`) accepts every sequence of well-formed statements up to the
closing `}`, and appends their nodes to the children. -/
def BodyAccepted (loop : Nat → Parser → List ASTNode → Option (List ASTNode × Parser))
    (n : Nat) : Prop :=
  ∀ (P : Parser) (body : List Statement) (rest : List TokenType) (children : List ASTNode),
    Statement.wellFormedList body = true →
    P.kinds = Statement.kindsOfList body ++ .RIGHT_BRACE :: rest → rest ≠ [] →
    3 * P.kinds.length + 1 ≤ n →
    ∃ P1, loop n P children = some (children ++ Statement.nodes body, P1) ∧
      Accepts P P1 (.RIGHT_BRACE :: rest)

end Parser

/-! ## The lexer: progress and end of input -/

namespace Lexer

theorem Follows.same (L : Lexer) : Follows L L := ⟨rfl, Nat.le_refl _⟩

theorem Follows.chain {L1 L2 L3 : Lexer} (h1 : Follows L1 L2) (h2 : Follows L2 L3) :
    Follows L1 L3 := ⟨Eq.trans h2.1 h1.1, Nat.le_trans h1.2 h2.2⟩

theorem follows_bump (L : Lexer) : Follows L L.bump := ⟨rfl, Nat.le_succ _⟩

theorem follows_bumpLine (L : Lexer) (c : Char) : Follows L (L.bumpLine c) := by
  unfold bumpLine
  split <;> exact ⟨rfl, Nat.le_succ _⟩

theorem skipWhitespace_follows (fuel : Nat) (L : Lexer) : Follows L (skipWhitespace fuel L) := by
  induction fuel generalizing L with
  | zero => exact Follows.same L
  | succ n ih =>
    unfold skipWhitespace
    split
    · split
      · exact (follows_bumpLine L _).chain (ih _)
      · exact Follows.same L
    · exact Follows.same L

theorem skipLineComment_follows (fuel : Nat) (L : Lexer) :
    Follows L (skipLineComment fuel L) := by
  induction fuel generalizing L with
  | zero => exact Follows.same L
  | succ n ih =>
    unfold skipLineComment
    split
    · split
      · exact (follows_bump L).chain (ih _)
      · exact Follows.same L
    · exact Follows.same L

theorem skipBlockComment_follows (fuel : Nat) (L : Lexer) :
    Follows L (skipBlockComment fuel L) := by
  induction fuel generalizing L with
  | zero => exact Follows.same L
  | succ n ih =>
    unfold skipBlockComment
    split
    · split
      · exact ⟨rfl, Nat.le_add_right _ _⟩
      · exact (follows_bumpLine L _).chain (ih _)
    · exact Follows.same L

theorem scanHex_follows (fuel : Nat) (L : Lexer) (number : String) :
    Follows L (scanHex fuel L number).2 := by
  induction fuel generalizing L number with
  | zero => exact Follows.same L
  | succ n ih =>
    unfold scanHex
    split
    · split
      · exact (follows_bump L).chain (ih _ _)
      · exact Follows.same L
    · exact Follows.same L

theorem scanDecimal_follows (fuel : Nat) (L : Lexer) (number : String) (isFloat : Bool) :
    Follows L (scanDecimal fuel L number isFloat).2.2 := by
  induction fuel generalizing L number isFloat with
  | zero => exact Follows.same L
  | succ n ih =>
    unfold scanDecimal
    split
    · split
      · split
        · exact Follows.same L
        · exact (follows_bump L).chain (ih _ _ _)
      · exact Follows.same L
    · exact Follows.same L

theorem scanIdentifier_follows (fuel : Nat) (L : Lexer) (identifier : String) :
    Follows L (scanIdentifier fuel L identifier).2 := by
  induction fuel generalizing L identifier with
  | zero => exact Follows.same L
  | succ n ih =>
    unfold scanIdentifier
    split
    · split
      · exact (follows_bump L).chain (ih _ _)
      · exact Follows.same L
    · exact Follows.same L

theorem scanString_follows (fuel : Nat) (L : Lexer) (str : String) :
    Follows L (scanString fuel L str).2 := by
  induction fuel generalizing L str with
  | zero => exact Follows.same L
  | succ n ih =>
    unfold scanString
    split
    · split
      · split
        · exact ((follows_bump L).chain (follows_bump _)).chain (ih _ _)
        · exact (follows_bump L).chain (ih _ _)
      · exact Follows.same L
    · exact Follows.same L

theorem scanChar_follows (L : Lexer) : Follows L (scanChar L).2 := by
  unfold scanChar
  split
  · split
    · exact (follows_bump L).chain (follows_bump _)
    · exact follows_bump L
  · exact Follows.same L

/-- A cursor inside the source leaves at least one character. -/
theorem remaining_pos {L : Lexer} {c : Char} (h : L.source[L.position]? = some c) :
    0 < L.remaining := by
  have := (List.getElem?_eq_some_iff.mp h).1
  unfold remaining
  omega

theorem lookup_mem_values {α : Type} (m : List (String × α)) (k : String) (v : α)
    (h : m.lookup k = some v) : v ∈ m.map Prod.snd := by
  induction m with
  | nil => simp [List.lookup] at h
  | cons e rest ih =>
    obtain ⟨k', v'⟩ := e
    simp only [List.lookup] at h
    split at h
    · simp at h; simp [h]
    · simp [ih h]

theorem getKeywordType_ne_eof (w : String) (h : isKeyword w = true) :
    getKeywordType w ≠ .EOF_TOKEN := by
  unfold isKeyword at h
  unfold getKeywordType
  cases hl : keywords.lookup w with
  | none => simp [hl] at h
  | some t =>
    have hmem : t ∈ keywords.map Prod.snd := lookup_mem_values _ _ _ hl
    simp only
    intro ht
    subst ht
    revert hmem
    decide

theorem operatorToken_ne_eof (c : Char) (n : Option Char) :
    (operatorToken c n).1 ≠ .EOF_TOKEN := by
  unfold operatorToken
  by_cases h0 : c = '+'
  · rw [if_pos h0]; decide
  rw [if_neg h0]
  by_cases h1 : c = '-'
  · rw [if_pos h1]; decide
  rw [if_neg h1]
  by_cases h2 : c = '*'
  · rw [if_pos h2]; decide
  rw [if_neg h2]
  by_cases h3 : c = '/'
  · rw [if_pos h3]; decide
  rw [if_neg h3]
  by_cases h4 : c = '='
  · rw [if_pos h4]; split <;> decide
  rw [if_neg h4]
  by_cases h5 : c = '!'
  · rw [if_pos h5]; split <;> decide
  rw [if_neg h5]
  by_cases h6 : c = '<'
  · rw [if_pos h6]; split <;> decide
  rw [if_neg h6]
  by_cases h7 : c = '>'
  · rw [if_pos h7]; split <;> decide
  rw [if_neg h7]
  by_cases h8 : c = '&'
  · rw [if_pos h8]; split <;> decide
  rw [if_neg h8]
  by_cases h9 : c = '|'
  · rw [if_pos h9]; split <;> decide
  rw [if_neg h9]
  by_cases h10 : c = '('
  · rw [if_pos h10]; decide
  rw [if_neg h10]
  by_cases h11 : c = ')'
  · rw [if_pos h11]; decide
  rw [if_neg h11]
  by_cases h12 : c = '\x7b'
  · rw [if_pos h12]; decide
  rw [if_neg h12]
  by_cases h13 : c = '\x7d'
  · rw [if_pos h13]; decide
  rw [if_neg h13]
  by_cases h14 : c = '['
  · rw [if_pos h14]; decide
  rw [if_neg h14]
  by_cases h15 : c = ']'
  · rw [if_pos h15]; decide
  rw [if_neg h15]
  by_cases h16 : c = ';'
  · rw [if_pos h16]; decide
  rw [if_neg h16]
  by_cases h17 : c = ','
  · rw [if_pos h17]; decide
  rw [if_neg h17]
  by_cases h18 : c = '.'
  · rw [if_pos h18]; decide
  rw [if_neg h18]
  simp

/-- Lexing a token at a cursor inside the source moves the cursor forward and
never yields the end-of-input kind. -/
theorem lexToken_progress (L : Lexer) (current : Char)
    (h : L.source[L.position]? = some current) :
    (lexToken L current).2.source = L.source ∧
    L.position < (lexToken L current).2.position ∧
    (lexToken L current).1.type ≠ .EOF_TOKEN := by
  have hrem := remaining_pos h
  unfold lexToken
  simp only
  split
  · -- number
    rename_i hd
    split
    · rename_i x hx
      have hf := (scanHex_follows L.remaining L.bump.bump (("".push current).push x))
      refine ⟨hf.1, ?_, by simp⟩
      have := hf.2
      simp only [bump] at this ⊢
      omega
    · obtain ⟨n, hn⟩ : ∃ n, L.remaining = n + 1 := ⟨L.remaining - 1, by omega⟩
      rw [hn]
      unfold scanDecimal
      simp only [h, hd, true_or, if_true]
      have hf := scanDecimal_follows n L.bump ("".push current) (if current = '.' then true else false)
      simp only [Bool.false_eq_true, and_false, if_false]
      refine ⟨hf.1, ?_, ?_⟩
      · have := hf.2
        simp only [bump] at this ⊢
        omega
      · repeat' split
        all_goals simp
  · split
    · rename_i hd ha
      obtain ⟨n, hn⟩ : ∃ n, L.remaining = n + 1 := ⟨L.remaining - 1, by omega⟩
      rw [hn]
      unfold scanIdentifier
      have ha2 : isalnum current = true ∨ current = '_' := by
        rcases ha with ha | ha
        · left; simp [isalnum, ha]
        · right; exact ha
      simp only [h, ha2, if_true]
      have hf := scanIdentifier_follows n L.bump ("".push current)
      have hp : L.position < (scanIdentifier n L.bump ("".push current)).2.position := by
        have := hf.2
        simp only [bump] at this ⊢
        omega
      split
      · rename_i hk
        exact ⟨hf.1, hp, getKeywordType_ne_eof _ hk⟩
      · exact ⟨hf.1, hp, by simp⟩
    · split
      · have hf := scanString_follows L.remaining L.bump ""
        refine ⟨?_, ?_, by simp⟩
        · split
          · exact hf.1
          · exact hf.1
        · have := hf.2
          split
          · simp only [bump] at this ⊢; omega
          · simp only [bump] at this ⊢; omega
      · split
        · have hf := scanChar_follows L.bump
          refine ⟨?_, ?_, by simp⟩
          · split
            · exact hf.1
            · exact hf.1
          · have := hf.2
            split
            · simp only [bump] at this ⊢; omega
            · simp only [bump] at this ⊢; omega
        · refine ⟨?_, ?_, operatorToken_ne_eof _ _⟩
          · split <;> rfl
          · split
            · simp only [bump]; omega
            · simp only [bump]; omega


theorem remaining_le_of_follows {L1 L2 : Lexer} (h : Follows L1 L2) :
    L2.remaining ≤ L1.remaining := by
  unfold remaining
  rw [h.1]
  have := h.2
  omega

theorem remaining_lt_of_follows {L1 L2 : Lexer} (h : L2.source = L1.source)
    (hp : L1.position < L2.position) (hin : 0 < L1.remaining) :
    L2.remaining < L1.remaining := by
  unfold remaining at *
  rw [h]
  omega

theorem skipLineComment_progress (L : Lexer) (c : Char) (h : L.source[L.position]? = some c)
    (hc : c ≠ '\n') : L.position < (skipLineComment L.remaining L).position := by
  obtain ⟨n, hn⟩ : ∃ n, L.remaining = n + 1 := ⟨L.remaining - 1, by have := remaining_pos h; omega⟩
  rw [hn]
  unfold skipLineComment
  simp only [h, hc, ne_eq, not_false_eq_true, if_true]
  have := (skipLineComment_follows n L.bump).2
  simp only [bump] at this ⊢
  omega

/-- The specification of `nextTokenAux` used for termination: with fuel above
the number of characters left it returns; the source is unchanged and the
cursor does not move back; a token other than end-of-input consumes at least
one character; end-of-input is returned only with the cursor at the end, as
the token `EOF_TOKEN ""` at the current line and column. -/
theorem nextTokenAux_spec (fuel : Nat) (L : Lexer) (hf : L.remaining < fuel) :
    ∃ t L2, nextTokenAux fuel L = some (t, L2) ∧ Follows L L2 ∧
      (t.type ≠ .EOF_TOKEN → L2.remaining < L.remaining) ∧
      (t.type = .EOF_TOKEN → L2.remaining = 0 ∧ t = ⟨.EOF_TOKEN, "", L2.line, L2.column⟩) := by
  induction fuel generalizing L with
  | zero => omega
  | succ n ih =>
    unfold nextTokenAux
    simp only
    have hws := skipWhitespace_follows L.remaining L
    generalize skipWhitespace L.remaining L = L1 at hws ⊢
    have hr1 := remaining_le_of_follows hws
    cases hcur : L1.source[L1.position]? with
    | none =>
      refine ⟨_, _, rfl, hws, by simp, fun _ => ⟨?_, rfl⟩⟩
      have := List.getElem?_eq_none_iff.mp hcur
      unfold remaining
      omega
    | some current =>
      have hpos := remaining_pos hcur
      simp only
      split
      · rename_i hc
        have hp := skipLineComment_progress L1 current hcur (by rw [hc.1]; decide)
        have hfo := skipLineComment_follows L1.remaining L1
        have hlt := remaining_lt_of_follows hfo.1 hp hpos
        obtain ⟨t, L2, h1, h2, h3, h4⟩ := ih (skipLineComment L1.remaining L1) (by omega)
        refine ⟨t, L2, h1, hws.chain (hfo.chain h2), fun ht => ?_, h4⟩
        have := h3 ht
        omega
      · split
        · have hfo := skipBlockComment_follows L1.remaining
            { L1 with position := L1.position + 2, column := L1.column + 2 }
          have hlt : (skipBlockComment L1.remaining
              { L1 with position := L1.position + 2, column := L1.column + 2 }).remaining
              < L1.remaining := by
            apply @remaining_lt_of_follows L1 _ hfo.1 _ hpos
            have := hfo.2
            simp only at this
            omega
          obtain ⟨t, L2, h1, h2, h3, h4⟩ := ih _ (Nat.lt_of_lt_of_le hlt (by omega))
          refine ⟨t, L2, h1, hws.chain (Follows.chain ⟨hfo.1, ?_⟩ h2), fun ht => ?_, h4⟩
          · have := hfo.2
            simp only at this
            omega
          · have := h3 ht
            omega
        · have hl := lexToken_progress L1 current hcur
          refine ⟨_, _, rfl, hws.chain ⟨hl.1, Nat.le_of_lt hl.2.1⟩, fun _ => ?_,
            fun ht => absurd ht hl.2.2⟩
          exact Nat.lt_of_lt_of_le (remaining_lt_of_follows hl.1 hl.2.1 hpos) hr1

/-- The specification of `nextToken`, from `nextTokenAux_spec` at the fuel the
definition uses. -/
theorem nextToken_spec (L : Lexer) :
    nextTokenAux (L.remaining + 1) L = some (nextToken L) ∧ Follows L (nextToken L).2 ∧
      ((nextToken L).1.type ≠ .EOF_TOKEN → (nextToken L).2.remaining < L.remaining) ∧
      ((nextToken L).1.type = .EOF_TOKEN → (nextToken L).2.remaining = 0 ∧
        (nextToken L).1 = ⟨.EOF_TOKEN, "", (nextToken L).2.line, (nextToken L).2.column⟩) := by
  obtain ⟨t, L2, h1, h2, h3, h4⟩ := nextTokenAux_spec (L.remaining + 1) L (Nat.lt_succ_self _)
  have : nextToken L = (t, L2) := by
    unfold nextToken
    rw [h1]
  rw [this]
  exact ⟨h1, h2, h3, h4⟩

/-- End of input is absorbing: with no character left, `nextToken` returns the
end-of-input token at the current line and column and leaves the state as is. -/
theorem nextToken_at_end (L : Lexer) (h : L.remaining = 0) :
    nextToken L = (⟨.EOF_TOKEN, "", L.line, L.column⟩, L) := by
  have hnone : L.source[L.position]? = none := by
    apply List.getElem?_eq_none_iff.mpr
    unfold remaining at h
    omega
  unfold nextToken
  rw [h]
  simp [nextTokenAux, skipWhitespace, hnone, h]

theorem tokensAux_fuel (f1 f2 : Nat) (L : Lexer) (h1 : L.remaining < f1) (h2 : L.remaining < f2) :
    tokensAux f1 L = tokensAux f2 L := by
  induction f1 generalizing f2 L with
  | zero => omega
  | succ n ih =>
    cases f2 with
    | zero => omega
    | succ m =>
      unfold tokensAux
      simp only
      split
      · rfl
      · rename_i hne
        have := (nextToken_spec L).2.2.1 hne
        rw [ih m _ (by omega) (by omega)]

/-- The token sequence unfolds along `nextToken`. -/
theorem tokens_unfold (L : Lexer) :
    tokens L = if (nextToken L).1.type = .EOF_TOKEN then [(nextToken L).1]
      else (nextToken L).1 :: tokens (nextToken L).2 := by
  unfold tokens
  rw [tokensAux]
  split
  · rfl
  · rename_i hne
    have := (nextToken_spec L).2.2.1 hne
    rw [tokensAux_fuel L.remaining ((nextToken L).2.remaining + 1) _ (by omega) (by omega)]

theorem tokensAux_length (fuel : Nat) (L : Lexer) : (tokensAux fuel L).length ≤ fuel := by
  induction fuel generalizing L with
  | zero => simp [tokensAux]
  | succ n ih =>
    unfold tokensAux
    simp only
    split
    · simp
    · simp only [List.length_cons]
      have := ih (nextToken L).2
      omega

end Lexer

/-! ## The lexer: scanning loops and numeric literals -/

namespace Lexer

theorem rest_of_some {L : Lexer} {c : Char} (h : L.source[L.position]? = some c) :
    L.rest = c :: L.bump.rest := by
  unfold rest bump
  obtain ⟨hlt, hget⟩ := List.getElem?_eq_some_iff.mp h
  rw [← hget]
  exact List.drop_eq_getElem_cons hlt

theorem rest_of_none {L : Lexer} (h : L.source[L.position]? = none) : L.rest = [] := by
  unfold rest
  exact List.drop_eq_nil_of_le (List.getElem?_eq_none_iff.mp h)

theorem remaining_bump {L : Lexer} {c : Char} (h : L.source[L.position]? = some c) :
    L.bump.remaining + 1 = L.remaining := by
  have := (List.getElem?_eq_some_iff.mp h).1
  unfold remaining bump
  dsimp only
  omega

theorem shift_zero (L : Lexer) : L.shift 0 = L := rfl

theorem bump_shift (L : Lexer) (k : Nat) : L.bump.shift k = L.shift (k + 1) := by
  unfold bump shift
  simp only [Lexer.mk.injEq, true_and]
  omega

/-- The identifier loop takes the longest run of letters, digits and
underscores at the cursor. -/
theorem scanIdentifier_spec (fuel : Nat) (L : Lexer) (acc : String)
    (hf : L.remaining ≤ fuel) :
    scanIdentifier fuel L acc =
      (⟨acc.data ++ L.rest.takeWhile isIdentChar⟩,
        L.shift (L.rest.takeWhile isIdentChar).length) := by
  induction fuel generalizing L acc with
  | zero =>
    have hnone : L.source[L.position]? = none := by
      apply List.getElem?_eq_none_iff.mpr
      unfold remaining at hf
      omega
    simp [scanIdentifier, rest_of_none hnone, shift_zero]
  | succ n ih =>
    unfold scanIdentifier
    cases hc : L.source[L.position]? with
    | none => simp [rest_of_none hc, shift_zero]
    | some c =>
      have hb := remaining_bump hc
      rw [rest_of_some hc]
      dsimp only
      split
      · rename_i hp
        have hp2 : isIdentChar c = true := by
          unfold isIdentChar
          rcases hp with h | h
          · simp [h]
          · simp [h]
        rw [ih L.bump (acc.push c) (by omega), List.takeWhile_cons_of_pos hp2, bump_shift]
        simp [String.push]
      · rename_i hp
        have hp2 : ¬ isIdentChar c = true := by
          intro h
          apply hp
          simpa [isIdentChar] using h
        rw [List.takeWhile_cons_of_neg hp2]
        simp [shift_zero]

/-- The hexadecimal loop takes the longest run of hexadecimal digits at the cursor. -/
theorem scanHex_spec (fuel : Nat) (L : Lexer) (acc : String) (hf : L.remaining ≤ fuel) :
    scanHex fuel L acc =
      (⟨acc.data ++ L.rest.takeWhile isxdigit⟩, L.shift (L.rest.takeWhile isxdigit).length) := by
  induction fuel generalizing L acc with
  | zero =>
    have hnone : L.source[L.position]? = none := by
      apply List.getElem?_eq_none_iff.mpr
      unfold remaining at hf
      omega
    simp [scanHex, rest_of_none hnone, shift_zero]
  | succ n ih =>
    unfold scanHex
    cases hc : L.source[L.position]? with
    | none => simp [rest_of_none hc, shift_zero]
    | some c =>
      have hb := remaining_bump hc
      rw [rest_of_some hc]
      dsimp only
      split
      · rename_i hp
        rw [ih L.bump (acc.push c) (by omega), List.takeWhile_cons_of_pos hp, bump_shift]
        simp [String.push]
      · rename_i hp
        rw [List.takeWhile_cons_of_neg hp]
        simp [shift_zero]


/-- The decimal loop takes a run of digits and dots at the cursor that holds at
most one dot (none if a dot was seen before) and cannot be extended: what
follows is not a digit, and is a dot only when a dot has been seen. -/
theorem scanDecimal_spec (fuel : Nat) (L : Lexer) (acc : String) (isFloat : Bool)
    (hf : L.remaining ≤ fuel) :
    ∃ run tail, L.rest = run ++ tail ∧
      scanDecimal fuel L acc isFloat =
        (⟨acc.data ++ run⟩, (isFloat || run.contains '.'), L.shift run.length) ∧
      (∀ c ∈ run, isdigit c = true ∨ c = '.') ∧
      run.count '.' + (if isFloat then 1 else 0) ≤ 1 ∧
      (∀ d tail2, tail = d :: tail2 →
        isdigit d = false ∧ (d = '.' → (isFloat || run.contains '.') = true)) := by
  induction fuel generalizing L acc isFloat with
  | zero =>
    have hnone : L.source[L.position]? = none := by
      apply List.getElem?_eq_none_iff.mpr
      unfold remaining at hf
      omega
    refine ⟨[], [], by simp [rest_of_none hnone], by simp [scanDecimal, shift_zero], by simp,
      by cases isFloat <;> simp, by simp⟩
  | succ n ih =>
    unfold scanDecimal
    cases hc : L.source[L.position]? with
    | none =>
      refine ⟨[], [], by simp [rest_of_none hc], by simp [shift_zero], by simp,
        by cases isFloat <;> simp, by simp⟩
    | some c =>
      have hb := remaining_bump hc
      rw [rest_of_some hc]
      dsimp only
      split
      · rename_i hp
        split
        · rename_i hdot
          refine ⟨[], c :: L.bump.rest, by simp, by simp [shift_zero], by simp,
            by cases isFloat <;> simp, ?_⟩
          intro d tail2 hd
          simp only [List.cons.injEq] at hd
          rw [← hd.1, hdot.1, hdot.2]
          exact ⟨by decide, fun _ => by simp⟩
        · rename_i hdot
          obtain ⟨run, tail, h1, h2, h3, h4, h5⟩ :=
            ih L.bump (acc.push c) (if c = '.' then true else isFloat) (by omega)
          refine ⟨c :: run, tail, by simp [h1], ?_, ?_, ?_, ?_⟩
          · rw [h2, bump_shift]
            by_cases hcd : c = '.'
            · simp [hcd, String.push]
            · have hne : ¬ '.' = c := fun h => hcd h.symm
              simp [hcd, String.push, List.contains_cons, hne]
          · intro x hx
            rcases List.mem_cons.mp hx with h | h
            · rw [h]; exact hp
            · exact h3 x h
          · by_cases hcd : c = '.'
            · have hfl : isFloat = false := by
                cases isFloat with
                | false => rfl
                | true => exact absurd ⟨hcd, rfl⟩ hdot
              simp only [hcd, if_true] at h4
              simp only [hcd, hfl, List.count_cons_self]
              simp only [Bool.false_eq_true, if_false]
              omega
            · simp only [hcd, if_false] at h4
              rw [List.count_cons_of_ne (fun h => hcd h.symm)]
              exact h4
          · intro d tail2 hd
            obtain ⟨h6, h7⟩ := h5 d tail2 hd
            refine ⟨h6, fun hdd => ?_⟩
            have := h7 hdd
            by_cases hcd : c = '.'
            · simp [hcd]
            · have hne : ¬ '.' = c := fun h => hcd h.symm
              simpa [hcd, List.contains_cons, hne] using this
      · rename_i hp
        refine ⟨[], c :: L.bump.rest, by simp, by simp [shift_zero], by simp,
          by cases isFloat <;> simp, ?_⟩
        intro d tail2 hd
        simp only [List.cons.injEq] at hd
        rw [← hd.1]
        constructor
        · cases hdig : isdigit c with
          | false => rfl
          | true => exact absurd (Or.inl hdig) hp
        · intro hcd
          exact absurd (Or.inr hcd) hp

/-- A cursor on a character that is neither whitespace nor `/` goes straight
to the token rules. -/
theorem nextToken_of_start (L : Lexer) (c : Char) (h : L.source[L.position]? = some c)
    (hs : isspace c = false) (hc : c ≠ '/') : nextToken L = lexToken L c := by
  have hrem := remaining_pos h
  obtain ⟨n, hn⟩ : ∃ n, L.remaining = n + 1 := ⟨L.remaining - 1, by omega⟩
  unfold nextToken nextTokenAux
  rw [hn]
  simp [skipWhitespace, h, hs, hc]


theorem getElem?_none_of_remaining {L : Lexer} (h : L.remaining = 0) :
    L.source[L.position]? = none := by
  apply List.getElem?_eq_none_iff.mpr
  unfold remaining at h
  omega

theorem remaining_bumpLine {L : Lexer} {c d : Char} (h : L.source[L.position]? = some c) :
    (L.bumpLine d).remaining + 1 = L.remaining := by
  have := (List.getElem?_eq_some_iff.mp h).1
  unfold remaining bumpLine
  split <;> dsimp only <;> omega

/-- The fuel `remaining` is enough for the whitespace loop: more fuel changes nothing. -/
theorem skipWhitespace_fuel (fuel : Nat) (L : Lexer) (hf : L.remaining ≤ fuel) :
    skipWhitespace (fuel + 1) L = skipWhitespace fuel L := by
  induction fuel generalizing L with
  | zero =>
    simp [skipWhitespace, getElem?_none_of_remaining (Nat.le_zero.mp hf)]
  | succ n ih =>
    rw [skipWhitespace]
    conv => rhs; rw [skipWhitespace]
    cases hc : L.source[L.position]? with
    | none => rfl
    | some c =>
      have := remaining_bumpLine (d := c) hc
      dsimp only
      split
      · exact ih _ (by omega)
      · rfl

/-- The fuel `remaining` is enough for the line-comment loop. -/
theorem skipLineComment_fuel (fuel : Nat) (L : Lexer) (hf : L.remaining ≤ fuel) :
    skipLineComment (fuel + 1) L = skipLineComment fuel L := by
  induction fuel generalizing L with
  | zero =>
    simp [skipLineComment, getElem?_none_of_remaining (Nat.le_zero.mp hf)]
  | succ n ih =>
    rw [skipLineComment]
    conv => rhs; rw [skipLineComment]
    cases hc : L.source[L.position]? with
    | none => rfl
    | some c =>
      have := remaining_bump hc
      dsimp only
      split
      · exact ih _ (by omega)
      · rfl

/-- The fuel `remaining` is enough for the block-comment loop. -/
theorem skipBlockComment_fuel (fuel : Nat) (L : Lexer) (hf : L.remaining ≤ fuel) :
    skipBlockComment (fuel + 1) L = skipBlockComment fuel L := by
  induction fuel generalizing L with
  | zero =>
    simp [skipBlockComment, getElem?_none_of_remaining (Nat.le_zero.mp hf)]
  | succ n ih =>
    rw [skipBlockComment]
    conv => rhs; rw [skipBlockComment]
    cases hc : L.source[L.position]? with
    | none => rfl
    | some c =>
      cases hd : L.source[L.position + 1]? with
      | none => rfl
      | some d =>
        have := remaining_bumpLine (d := c) hc
        dsimp only
        split
        · rfl
        · exact ih _ (by omega)

/-- The fuel `remaining` is enough for the string loop. -/
theorem scanString_fuel (fuel : Nat) (L : Lexer) (str : String) (hf : L.remaining ≤ fuel) :
    scanString (fuel + 1) L str = scanString fuel L str := by
  induction fuel generalizing L str with
  | zero =>
    simp [scanString, getElem?_none_of_remaining (Nat.le_zero.mp hf)]
  | succ n ih =>
    rw [scanString]
    conv => rhs; rw [scanString]
    cases hc : L.source[L.position]? with
    | none => rfl
    | some c =>
      have hb := remaining_bump hc
      have hbb : L.bump.bump.remaining ≤ L.bump.remaining := by
        unfold remaining bump
        dsimp only
        omega
      dsimp only
      split
      · split
        · exact ih _ _ (by omega)
        · exact ih _ _ (by omega)
      · rfl

theorem digit_not_space (c : Char) (h : isdigit c = true) : isspace c = false ∧ c ≠ '/' := by
  constructor
  · unfold isdigit at h
    unfold isspace
    simp only [Bool.and_eq_true, decide_eq_true_eq] at h
    simp only [Bool.or_eq_false_iff, decide_eq_false_iff_not, Bool.and_eq_false_iff]
    omega
  · intro hc
    rw [hc] at h
    exact absurd h (by decide)

end Lexer

/-- C9: numeric literals.  On an input that starts with a digit, `nextToken`
returns: after `0x` or `0X`, an `INTEGER` whose lexeme is that prefix followed
by the longest run of hexadecimal digits; otherwise the longest run of digits
and dots that holds at most one dot (the scan stops before a second dot), of
kind `FLOAT` when it holds a dot and `INTEGER` when not.  So `0x1A` is the
integer `0x1A`, `3.14` the float `3.14`, and `3.14.5` starts with the float
`3.14`. -/
theorem number_token (c : Char) (rest : List Char) (hd : isdigit c = true) :
    (∀ x tail, c = '0' → rest = x :: tail → x = 'x' ∨ x = 'X' →
      (Lexer.nextToken (Lexer.new (c :: rest))).1.type = .INTEGER ∧
      (Lexer.nextToken (Lexer.new (c :: rest))).1.value =
        String.mk (c :: x :: tail.takeWhile isxdigit)) ∧
    (¬ (c = '0' ∧ ∃ x tail, rest = x :: tail ∧ (x = 'x' ∨ x = 'X')) →
      ∃ tail, c :: rest = (Lexer.nextToken (Lexer.new (c :: rest))).1.value.data ++ tail ∧
        (∀ d ∈ (Lexer.nextToken (Lexer.new (c :: rest))).1.value.data,
          isdigit d = true ∨ d = '.') ∧
        (Lexer.nextToken (Lexer.new (c :: rest))).1.value.data.count '.' ≤ 1 ∧
        (∀ d tail2, tail = d :: tail2 → isdigit d = false ∧
          (d = '.' → '.' ∈ (Lexer.nextToken (Lexer.new (c :: rest))).1.value.data)) ∧
        (Lexer.nextToken (Lexer.new (c :: rest))).1.type =
          if '.' ∈ (Lexer.nextToken (Lexer.new (c :: rest))).1.value.data then .FLOAT
          else .INTEGER) ∧
    (Lexer.nextToken (Lexer.new "0x1A".toList)).1 = ⟨.INTEGER, "0x1A", 1, 1⟩ ∧
    (Lexer.nextToken (Lexer.new "3.14".toList)).1 = ⟨.FLOAT, "3.14", 1, 1⟩ ∧
    (Lexer.nextToken (Lexer.new "3.14.5".toList)).1 = ⟨.FLOAT, "3.14", 1, 1⟩ := by
  have hget : (Lexer.new (c :: rest)).source[(Lexer.new (c :: rest)).position]? = some c := by
    simp [Lexer.new]
  obtain ⟨hsp, hsl⟩ := Lexer.digit_not_space c hd
  have hnt := Lexer.nextToken_of_start _ c hget hsp hsl
  rw [hnt]
  refine ⟨?_, ?_, by decide, by decide, by decide⟩
  · intro x tail hc0 hrest hx
    subst hrest
    have hhex : (Lexer.new (c :: x :: tail)).hexPrefix c = some x := by
      simp [Lexer.hexPrefix, Lexer.new, hc0, hx]
    unfold Lexer.lexToken
    simp only [hd, if_true, hhex]
    rw [Lexer.scanHex_spec _ _ _ (by simp [Lexer.remaining, Lexer.bump, Lexer.new]; omega)]
    have hr : (Lexer.new (c :: x :: tail)).bump.bump.rest = tail := by
      simp [Lexer.rest, Lexer.bump, Lexer.new]
    rw [hr]
    simp [String.push]
  · intro hnot
    have hhex : (Lexer.new (c :: rest)).hexPrefix c = none := by
      unfold Lexer.hexPrefix
      cases rest with
      | nil => rfl
      | cons x tail =>
        have : ¬ (c = '0' ∧ (x = 'x' ∨ x = 'X')) := fun h => hnot ⟨h.1, x, tail, rfl, h.2⟩
        simp [Lexer.new, this]
    unfold Lexer.lexToken
    simp only [hd, if_true, hhex]
    obtain ⟨run, tail, h1, h2, h3, h4, h5⟩ :=
      Lexer.scanDecimal_spec (Lexer.new (c :: rest)).remaining (Lexer.new (c :: rest)) "" false
        (Nat.le_refl _)
    rw [h2]
    have hrest : (Lexer.new (c :: rest)).rest = c :: rest := rfl
    rw [hrest] at h1
    refine ⟨tail, by simpa using h1, by simpa using h3, by simpa using h4, ?_, ?_⟩
    · intro d tail2 hd2
      obtain ⟨h6, h7⟩ := h5 d tail2 hd2
      exact ⟨h6, fun hdd => by simpa using h7 hdd⟩
    · simp

/-- C9 at the inputs `0x1Ag`, a hexadecimal literal, and `12.5.7`, a decimal one. -/
theorem number_token_witness :
    isdigit '0' = true ∧ isdigit '1' = true ∧
    (Lexer.nextToken (Lexer.new ('0' :: 'x' :: "1Ag".toList))).1.value =
      String.mk ('0' :: 'x' :: "1Ag".toList.takeWhile isxdigit) ∧
    (Lexer.nextToken (Lexer.new "3.14.5".toList)).1 = ⟨.FLOAT, "3.14", 1, 1⟩ :=
  ⟨by decide, by decide,
   ((number_token '0' ('x' :: "1Ag".toList) (by decide)).1 'x' "1Ag".toList rfl rfl
      (Or.inl rfl)).2,
   (number_token '1' "2.5.7".toList (by decide)).2.2.2.2⟩

/-! ## The lexer: keywords and operators -/

namespace Lexer

theorem takeWhile_of_all (p : Char → Bool) (cs : List Char) (h : cs.all p = true) :
    cs.takeWhile p = cs := by
  induction cs with
  | nil => rfl
  | cons c rest ih =>
    simp only [List.all_cons, Bool.and_eq_true] at h
    rw [List.takeWhile_cons_of_pos h.1, ih h.2]

theorem letter_not_space (c : Char) (h : isalpha c = true ∨ c = '_') :
    isspace c = false ∧ c ≠ '/' ∧ isdigit c = false ∧ isIdentChar c = true := by
  rcases h with h | h
  · refine ⟨?_, ?_, ?_, by simp [isIdentChar, isalnum, h]⟩
    · unfold isalpha at h
      unfold isspace
      simp only [Bool.or_eq_true, Bool.and_eq_true, decide_eq_true_eq] at h
      simp only [Bool.or_eq_false_iff, decide_eq_false_iff_not, Bool.and_eq_false_iff]
      omega
    · intro hc
      rw [hc] at h
      exact absurd h (by decide)
    · unfold isalpha at h
      unfold isdigit
      simp only [Bool.or_eq_true, Bool.and_eq_true, decide_eq_true_eq] at h
      simp only [Bool.and_eq_false_iff, decide_eq_false_iff_not]
      omega
  · rw [h]
    decide

/-- Lexing a word that fills the whole source: one token holding the word, a
keyword kind if the word is in the table and `IDENTIFIER` if not, then
end-of-input. -/
theorem tokens_of_word (w : String) (hw : isWord w = true) :
    (Lexer.new w.toList).tokens =
      [⟨if isKeyword w then getKeywordType w else .IDENTIFIER, w, 1, 1⟩,
       ⟨.EOF_TOKEN, "", 1, w.length + 1⟩] := by
  obtain ⟨data⟩ := w
  unfold isWord at hw
  cases data with
  | nil => simp at hw
  | cons c cs =>
    simp only [Bool.and_eq_true, Bool.or_eq_true, beq_iff_eq] at hw
    obtain ⟨hc, hcs⟩ := hw
    obtain ⟨h1, h2, h3, h4⟩ := letter_not_space c hc
    have hget : (Lexer.new (c :: cs)).source[(Lexer.new (c :: cs)).position]? = some c := by
      simp [Lexer.new]
    have hnt := nextToken_of_start _ c hget h1 h2
    have hall : (c :: cs).takeWhile isIdentChar = c :: cs :=
      takeWhile_of_all _ _ (by simp [h4, hcs])
    have hscan := scanIdentifier_spec (Lexer.new (c :: cs)).remaining (Lexer.new (c :: cs)) ""
      (Nat.le_refl _)
    have hrest : (Lexer.new (c :: cs)).rest = c :: cs := rfl
    rw [hrest, hall] at hscan
    have hlex : (Lexer.new (c :: cs)).lexToken c =
        (⟨if isKeyword ⟨c :: cs⟩ then getKeywordType ⟨c :: cs⟩ else .IDENTIFIER, ⟨c :: cs⟩, 1, 1⟩,
          (Lexer.new (c :: cs)).shift (c :: cs).length) := by
      unfold lexToken
      simp only [h3, hc, hscan]
      have he : ("" : String).data = [] := rfl
      simp only [Bool.false_eq_true, if_false, if_true, he, List.nil_append]
      split <;> rfl
    have hend : ((Lexer.new (c :: cs)).shift (c :: cs).length).remaining = 0 := by
      simp [remaining, shift, Lexer.new]
    show (Lexer.new (c :: cs)).tokens = _
    rw [tokens_unfold, hnt, hlex]
    have hne : (if isKeyword ⟨c :: cs⟩ = true then getKeywordType ⟨c :: cs⟩
        else TokenType.IDENTIFIER) ≠ .EOF_TOKEN := by
      split
      · rename_i hk
        exact getKeywordType_ne_eof _ hk
      · decide
    simp only [hne, if_false]
    rw [tokens_unfold, nextToken_at_end _ hend]
    simp [shift, Lexer.new, String.length]
    omega

end Lexer

/-- C8: keywords.  Each of the 30 words of the keyword table, lexed alone, gives
one token of its keyword kind, never `IDENTIFIER`, with the word as lexeme,
then end-of-input.  The match is exact and case-sensitive: every word of the
form `[A-Za-z_][A-Za-z0-9_]*` that is not in the table, such as `IF`,
`Variables` or `ints`, gives one `IDENTIFIER` token. -/
theorem keyword_tokens :
    keywords.length = 30 ∧
    (∀ e ∈ keywords,
      tokenize e.1 = [⟨e.2, e.1, 1, 1⟩, ⟨.EOF_TOKEN, "", 1, e.1.length + 1⟩] ∧
      e.2 ≠ .IDENTIFIER) ∧
    (∀ w : String, isWord w = true → isKeyword w = false →
      tokenize w = [⟨.IDENTIFIER, w, 1, 1⟩, ⟨.EOF_TOKEN, "", 1, w.length + 1⟩]) ∧
    tokenize "IF" = [⟨.IDENTIFIER, "IF", 1, 1⟩, ⟨.EOF_TOKEN, "", 1, 3⟩] ∧
    tokenize "Variables" = [⟨.IDENTIFIER, "Variables", 1, 1⟩, ⟨.EOF_TOKEN, "", 1, 10⟩] ∧
    tokenize "ints" = [⟨.IDENTIFIER, "ints", 1, 1⟩, ⟨.EOF_TOKEN, "", 1, 5⟩] := by
  refine ⟨rfl, by decide, ?_, by decide, by decide, by decide⟩
  intro w hw hk
  unfold tokenize
  rw [Lexer.tokens_of_word w hw, hk]
  rfl

/-- C8 at the identifier `speed` and at the table entry `if`. -/
theorem keyword_tokens_witness :
    isWord "speed" = true ∧ isKeyword "speed" = false ∧
    tokenize "speed" = [⟨.IDENTIFIER, "speed", 1, 1⟩, ⟨.EOF_TOKEN, "", 1, 6⟩] ∧
    tokenize "if" = [⟨.IF, "if", 1, 1⟩, ⟨.EOF_TOKEN, "", 1, 3⟩] :=
  ⟨by decide, by decide, keyword_tokens.2.2.1 "speed" (by decide) (by decide),
   (keyword_tokens.2.1 ("if", .IF) (by decide)).1⟩

theorem single_operator (c partner : Char) (single : TokenType)
    (hop : ∀ n, n ≠ some partner → Lexer.operatorToken c n = (single, String.singleton c, false))
    (hclass : isspace c = false ∧ c ≠ '/' ∧ isdigit c = false ∧ isalpha c = false ∧ c ≠ '_' ∧
      c ≠ '"' ∧ c ≠ Char.ofNat 39)
    (rest : List Char) (h : rest.head? ≠ some partner) :
    Lexer.nextToken (Lexer.new (c :: rest)) =
      (⟨single, String.singleton c, 1, 1⟩, ⟨c :: rest, 1, 1, 2⟩) := by
  obtain ⟨h1, h2, h3, h4, h5, h6, h7⟩ := hclass
  have hget : (Lexer.new (c :: rest)).source[(Lexer.new (c :: rest)).position]? = some c := by
    simp [Lexer.new]
  rw [Lexer.nextToken_of_start _ c hget h1 h2]
  have hn : (Lexer.new (c :: rest)).bump.source[(Lexer.new (c :: rest)).bump.position]?
      = rest.head? := by
    cases rest <;> simp [Lexer.new, Lexer.bump]
  unfold Lexer.lexToken
  simp only [h3, h4, h5, h6, h7, hn, hop _ h]
  simp [Lexer.new, Lexer.bump]

/-- C10: operators.  Each of `==`, `!=`, `<=`, `>=`, `&&`, `||`, lexed alone,
gives exactly one token of the two-character kind, then end-of-input; and a
`=`, `!`, `<`, `>`, `&` or `|` that is not followed by its partner character
gives the one-character kind and consumes that one character. -/
theorem operator_tokens :
    tokenize "==" = [⟨.EQUAL, "==", 1, 1⟩, ⟨.EOF_TOKEN, "", 1, 3⟩] ∧
    tokenize "!=" = [⟨.NOT_EQUAL, "!=", 1, 1⟩, ⟨.EOF_TOKEN, "", 1, 3⟩] ∧
    tokenize "<=" = [⟨.LESS_EQUAL, "<=", 1, 1⟩, ⟨.EOF_TOKEN, "", 1, 3⟩] ∧
    tokenize ">=" = [⟨.GREATER_EQUAL, ">=", 1, 1⟩, ⟨.EOF_TOKEN, "", 1, 3⟩] ∧
    tokenize "&&" = [⟨.LOGICAL_AND, "&&", 1, 1⟩, ⟨.EOF_TOKEN, "", 1, 3⟩] ∧
    tokenize "||" = [⟨.LOGICAL_OR, "||", 1, 1⟩, ⟨.EOF_TOKEN, "", 1, 3⟩] ∧
    (∀ rest : List Char, rest.head? ≠ some '=' →
      Lexer.nextToken (Lexer.new ('=' :: rest)) =
        (⟨.ASSIGN, "=", 1, 1⟩, ⟨'=' :: rest, 1, 1, 2⟩)) ∧
    (∀ rest : List Char, rest.head? ≠ some '=' →
      Lexer.nextToken (Lexer.new ('!' :: rest)) =
        (⟨.LOGICAL_NOT, "!", 1, 1⟩, ⟨'!' :: rest, 1, 1, 2⟩)) ∧
    (∀ rest : List Char, rest.head? ≠ some '=' →
      Lexer.nextToken (Lexer.new ('<' :: rest)) =
        (⟨.LESS, "<", 1, 1⟩, ⟨'<' :: rest, 1, 1, 2⟩)) ∧
    (∀ rest : List Char, rest.head? ≠ some '=' →
      Lexer.nextToken (Lexer.new ('>' :: rest)) =
        (⟨.GREATER, ">", 1, 1⟩, ⟨'>' :: rest, 1, 1, 2⟩)) ∧
    (∀ rest : List Char, rest.head? ≠ some '&' →
      Lexer.nextToken (Lexer.new ('&' :: rest)) =
        (⟨.BITWISE_AND, "&", 1, 1⟩, ⟨'&' :: rest, 1, 1, 2⟩)) ∧
    (∀ rest : List Char, rest.head? ≠ some '|' →
      Lexer.nextToken (Lexer.new ('|' :: rest)) =
        (⟨.BITWISE_OR, "|", 1, 1⟩, ⟨'|' :: rest, 1, 1, 2⟩)) := by
  refine ⟨by decide, by decide, by decide, by decide, by decide, by decide,
    ?_, ?_, ?_, ?_, ?_, ?_⟩
  · exact single_operator '=' '=' .ASSIGN
      (fun n hn => by simp [Lexer.operatorToken, hn]; rfl) (by decide)
  · exact single_operator '!' '=' .LOGICAL_NOT
      (fun n hn => by simp [Lexer.operatorToken, hn]; rfl) (by decide)
  · exact single_operator '<' '=' .LESS
      (fun n hn => by simp [Lexer.operatorToken, hn]; rfl) (by decide)
  · exact single_operator '>' '=' .GREATER
      (fun n hn => by simp [Lexer.operatorToken, hn]; rfl) (by decide)
  · exact single_operator '&' '&' .BITWISE_AND
      (fun n hn => by simp [Lexer.operatorToken, hn]; rfl) (by decide)
  · exact single_operator '|' '|' .BITWISE_OR
      (fun n hn => by simp [Lexer.operatorToken, hn]; rfl) (by decide)

/-- C10 at `= 1`, `<>` and `&|`: the second character is not the partner. -/
theorem operator_tokens_witness :
    " 1".toList.head? ≠ some '=' ∧
    Lexer.nextToken (Lexer.new ('=' :: " 1".toList)) =
      (⟨.ASSIGN, "=", 1, 1⟩, ⟨'=' :: " 1".toList, 1, 1, 2⟩) ∧
    Lexer.nextToken (Lexer.new ('<' :: ">".toList)) =
      (⟨.LESS, "<", 1, 1⟩, ⟨'<' :: ">".toList, 1, 1, 2⟩) ∧
    Lexer.nextToken (Lexer.new ('&' :: "|".toList)) =
      (⟨.BITWISE_AND, "&", 1, 1⟩, ⟨'&' :: "|".toList, 1, 1, 2⟩) :=
  ⟨by decide, operator_tokens.2.2.2.2.2.2.1 " 1".toList (by decide),
   operator_tokens.2.2.2.2.2.2.2.2.1 ">".toList (by decide),
   operator_tokens.2.2.2.2.2.2.2.2.2.2.1 "|".toList (by decide)⟩

/-! ## The parser: termination and the error flag -/

namespace Parser

theorem advance_atEnd (P : Parser) : P.advance.AtEnd := by
  intro h
  exact (Lexer.nextToken_spec P.lexer).2.2.2 h

theorem advance_of_eof (P : Parser) (hP : P.AtEnd) (h : P.current_token.type = .EOF_TOKEN) :
    P.advance = P := by
  obtain ⟨h1, h2⟩ := hP h
  unfold advance
  rw [Lexer.nextToken_at_end _ h1]
  simp only
  cases P
  simp_all

theorem stream_advance (P : Parser) (h : P.current_token.type ≠ .EOF_TOKEN) :
    P.stream = P.current_token :: P.advance.stream := by
  unfold stream
  rw [if_neg h, Lexer.tokens_unfold]
  rfl

theorem stream_ne_nil (P : Parser) : P.stream ≠ [] := by
  unfold stream
  split <;> simp

theorem pending_advance (P : Parser) (h : P.current_token.type ≠ .EOF_TOKEN) :
    P.advance.pending + 1 = P.pending := by
  unfold pending
  rw [stream_advance P h]
  have := List.length_pos.mpr (stream_ne_nil P.advance)
  simp only [List.length_cons]
  omega

theorem pending_advance_le (P : Parser) (hP : P.AtEnd) : P.advance.pending ≤ P.pending := by
  by_cases h : P.current_token.type = .EOF_TOKEN
  · rw [advance_of_eof P hP h]
  · have := pending_advance P h
    omega

theorem pending_of_eof (P : Parser) (h : P.current_token.type = .EOF_TOKEN) : P.pending = 0 := by
  unfold pending stream
  rw [if_pos h]
  rfl

theorem pending_pos (P : Parser) (h : P.current_token.type ≠ .EOF_TOKEN) : 0 < P.pending := by
  have := pending_advance P h
  omega

/-- The states that a run of the parser passes through. -/
theorem Next.stay {P : Parser} (h1 : P.AtEnd) (h2 : P.FlagMatches) : Next P P :=
  ⟨h1, h2, Nat.le_refl _⟩

theorem Next.andThen {P1 P2 P3 : Parser} (h12 : Next P1 P2) (h23 : Next P2 P3) : Next P1 P3 :=
  ⟨h23.1, h23.2.1, Nat.le_trans h23.2.2 h12.2.2⟩

theorem next_advance {P0 P : Parser} (h : Next P0 P) : Next P0 P.advance :=
  ⟨advance_atEnd P, h.2.1, Nat.le_trans (pending_advance_le P h.1) h.2.2⟩

theorem next_reportError {P0 P : Parser} (h : Next P0 P) (message : String) :
    Next P0 (P.reportError message) := by
  refine ⟨h.1, ?_, h.2.2⟩
  unfold FlagMatches reportError
  simp

theorem next_expect {P0 P : Parser} (h : Next P0 P) (ty : TokenType) :
    Next P0 (P.expect ty).2 := by
  unfold expect
  split
  · exact next_advance h
  · exact next_reportError h _

/-- A successful `expect` is an `advance` on a lookahead token of the expected kind. -/
theorem expect_true {P P1 : Parser} {ty : TokenType} (h : P.expect ty = (true, P1)) :
    P.current_token.type = ty ∧ P1 = P.advance := by
  unfold expect at h
  split at h
  · rename_i hty
    simp only [Prod.mk.injEq, true_and] at h
    exact ⟨hty, h.symm⟩
  · simp at h

theorem next_parseExpression {P0 P : Parser} (h : Next P0 P) :
    Next P0 (parseExpression P).2 := by
  unfold parseExpression
  split
  · dsimp only
    split
    · split
      · exact next_advance (next_advance (next_advance h))
      · exact next_reportError (next_advance (next_advance h)) _
    · exact next_advance h
  · exact next_reportError h _

theorem skipArguments_total (fuel : Nat) (P0 P : Parser) (h : Next P0 P)
    (hf : P.pending < fuel) :
    ∃ P1, skipArguments fuel P = some P1 ∧ Next P0 P1 := by
  induction fuel generalizing P with
  | zero => omega
  | succ n ih =>
    unfold skipArguments
    split
    · rename_i hc
      have := pending_advance P hc.2
      exact ih P.advance (next_advance h) (by omega)
    · exact ⟨P, rfl, h⟩

theorem scanForHeader_total (fuel : Nat) (P0 P : Parser) (count : Nat) (h : Next P0 P)
    (hf : P.pending < fuel) :
    ∃ c P1, scanForHeader fuel P count = some (c, P1) ∧ Next P0 P1 := by
  induction fuel generalizing P count with
  | zero => omega
  | succ n ih =>
    unfold scanForHeader
    split
    · rename_i hc
      have := pending_advance P hc.2
      exact ih P.advance _ (next_advance h) (by omega)
    · exact ⟨_, P, rfl, h⟩

theorem skipToSemicolon_total (fuel : Nat) (P0 P : Parser) (h : Next P0 P)
    (hf : P.pending < fuel) :
    ∃ P1, skipToSemicolon fuel P = some P1 ∧ Next P0 P1 := by
  induction fuel generalizing P with
  | zero => omega
  | succ n ih =>
    unfold skipToSemicolon
    split
    · rename_i hc
      have := pending_advance P hc.2.2
      exact ih P.advance (next_advance h) (by omega)
    · exact ⟨P, rfl, h⟩

/-- With fuel above the number of tokens ahead, `parseAssignmentOrCall` returns;
on an identifier it consumes at least that identifier. -/
theorem parseAssignmentOrCall_total (fuel : Nat) (P : Parser) (hP : Next P P)
    (hid : P.current_token.type = .IDENTIFIER) (hf : P.pending ≤ fuel) :
    ∃ r P1, parseAssignmentOrCall fuel P = some (r, P1) ∧ Next P P1 ∧ P1.pending < P.pending := by
  have hne : P.current_token.type ≠ .EOF_TOKEN := by rw [hid]; decide
  have hadv := pending_advance P hne
  have h1 : Next P P.advance := next_advance hP
  have key : ∀ Q, Next P.advance Q → Next P Q ∧ Q.pending < P.pending := by
    intro Q hQ
    refine ⟨h1.andThen hQ, ?_⟩
    have := hQ.2.2
    omega
  have hself : Next P.advance P.advance := Next.stay h1.1 h1.2.1
  unfold parseAssignmentOrCall
  rw [if_neg (by simp [hid])]
  simp only
  split
  · -- assignment
    have he := next_parseExpression (next_advance hself)
    split
    · rename_i P3 heq
      rw [heq] at he
      exact ⟨_, _, rfl, key _ he⟩
    · rename_i e P3 heq
      rw [heq] at he
      have hx := next_expect he .SEMICOLON
      split
      · rename_i P4 heq2
        rw [heq2] at hx
        exact ⟨_, _, rfl, key _ hx⟩
      · rename_i P4 heq2
        rw [heq2] at hx
        exact ⟨_, _, rfl, key _ hx⟩
  · split
    · have hadv2 := pending_advance_le P.advance h1.1
      obtain ⟨P2, hs, hN⟩ := skipArguments_total fuel P.advance P.advance.advance
        (next_advance hself) (by omega)
      rw [hs]
      simp only
      have hx := next_expect hN .RIGHT_PAREN
      split
      · rename_i P3 heq
        rw [heq] at hx
        exact ⟨_, _, rfl, key _ hx⟩
      · rename_i P3 heq
        rw [heq] at hx
        have hy := next_expect hx .SEMICOLON
        split
        · rename_i P4 heq2
          rw [heq2] at hy
          exact ⟨_, _, rfl, key _ hy⟩
        · rename_i P4 heq2
          rw [heq2] at hy
          exact ⟨_, _, rfl, key _ hy⟩
    · exact ⟨_, _, rfl, key _ (next_reportError hself _)⟩


theorem blockTotal_succ (n : Nat) (hs : StatementTotal n) (hb : BlockTotal n) :
    BlockTotal (n + 1) := by
  intro P children hP hf
  rw [parseBlockBody]
  split
  · rename_i hc
    have hpos := pending_pos P hc.2
    obtain ⟨r, P1, h1, hN, hlt⟩ := hs P hP (by omega)
    have hlt := hlt hc.1 hc.2
    rw [h1]
    cases r with
    | some stmt =>
      obtain ⟨cs, P2, h2, hN2⟩ := hb P1 (children ++ [stmt]) (Next.stay hN.1 hN.2.1) (by omega)
      exact ⟨cs, P2, h2, hN.andThen hN2⟩
    | none =>
      dsimp only
      split
      · have ha := next_advance hN
        obtain ⟨cs, P2, h2, hN2⟩ := hb P1.advance children (Next.stay ha.1 ha.2.1)
          (by have := pending_advance_le P1 hN.1; omega)
        exact ⟨cs, P2, h2, ha.andThen hN2⟩
      · obtain ⟨cs, P2, h2, hN2⟩ := hb P1 children (Next.stay hN.1 hN.2.1) (by omega)
        exact ⟨cs, P2, h2, hN.andThen hN2⟩
  · exact ⟨children, P, rfl, hP⟩

theorem forBodyTotal_succ (n : Nat) (hs : StatementTotal n) (hb : ForBodyTotal n) :
    ForBodyTotal (n + 1) := by
  intro P children hP hf
  rw [parseForBody]
  split
  · rename_i hc
    have hpos := pending_pos P hc.2
    obtain ⟨r, P1, h1, hN, hlt⟩ := hs P hP (by omega)
    have hlt := hlt hc.1 hc.2
    rw [h1]
    cases r with
    | some stmt =>
      obtain ⟨cs, P2, h2, hN2⟩ := hb P1 (children ++ [stmt]) (Next.stay hN.1 hN.2.1) (by omega)
      exact ⟨cs, P2, h2, hN.andThen hN2⟩
    | none =>
      obtain ⟨cs, P2, h2, hN2⟩ := hb P1 children (Next.stay hN.1 hN.2.1) (by omega)
      exact ⟨cs, P2, h2, hN.andThen hN2⟩
  · exact ⟨children, P, rfl, hP⟩

/-- After the keyword of a compound statement has been consumed, every later
state has fewer tokens ahead than the state the statement started in. -/
theorem next_after_keyword {P : Parser} (hP : Next P P)
    (hne : P.current_token.type ≠ .EOF_TOKEN) :
    Next P.advance P.advance ∧
      ∀ Q, Next P.advance Q → Next P Q ∧ Q.pending < P.pending := by
  have hadv := pending_advance P hne
  have h1 : Next P P.advance := next_advance hP
  refine ⟨Next.stay h1.1 h1.2.1, fun Q hQ => ⟨h1.andThen hQ, ?_⟩⟩
  have := hQ.2.2
  omega

theorem whileTotal_succ (n : Nat) (hb : BlockTotal n) :
    CompoundTotal parseWhileStatement .WHILE (n + 1) := by
  intro P hP hkw hf
  have hne : P.current_token.type ≠ .EOF_TOKEN := by rw [hkw]; decide
  obtain ⟨hQ, key⟩ := next_after_keyword hP hne
  have hadv := pending_advance P hne
  rw [parseWhileStatement]
  have e1 : P.expect .WHILE = (true, P.advance) := by simp [expect, hkw]
  rw [e1]
  dsimp only
  have hx2 := next_expect hQ .LEFT_PAREN
  split
  · rename_i P2 heq
    rw [heq] at hx2
    exact ⟨_, _, rfl, key _ hx2⟩
  · rename_i P2 heq
    rw [heq] at hx2
    have hx3 := next_parseExpression hx2
    split
    · rename_i P3 heq3
      rw [heq3] at hx3
      exact ⟨_, _, rfl, key _ hx3⟩
    · rename_i e P3 heq3
      rw [heq3] at hx3
      have hx4 := next_expect hx3 .RIGHT_PAREN
      split
      · rename_i P4 heq4
        rw [heq4] at hx4
        exact ⟨_, _, rfl, key _ hx4⟩
      · rename_i P4 heq4
        rw [heq4] at hx4
        have hx5 := next_expect hx4 .LEFT_BRACE
        split
        · rename_i P5 heq5
          rw [heq5] at hx5
          exact ⟨_, _, rfl, key _ hx5⟩
        · rename_i P5 heq5
          rw [heq5] at hx5
          obtain ⟨cs, P6, h6, hN6⟩ := hb P5 [] (Next.stay hx5.1 hx5.2.1)
            (by have := hx5.2.2; dsimp only at this; omega)
          rw [h6]
          dsimp only
          have hx6 : Next P.advance P6 := hx5.andThen hN6
          have hx7 := next_expect hx6 .RIGHT_BRACE
          split
          · rename_i P7 heq7
            rw [heq7] at hx7
            exact ⟨_, _, rfl, key _ hx7⟩
          · rename_i P7 heq7
            rw [heq7] at hx7
            exact ⟨_, _, rfl, key _ hx7⟩

theorem ifTotal_succ (n : Nat) (hb : BlockTotal n) :
    CompoundTotal parseIfStatement .IF (n + 1) := by
  intro P hP hkw hf
  have hne : P.current_token.type ≠ .EOF_TOKEN := by rw [hkw]; decide
  obtain ⟨hQ, key⟩ := next_after_keyword hP hne
  have hadv := pending_advance P hne
  rw [parseIfStatement]
  have e1 : P.expect .IF = (true, P.advance) := by simp [expect, hkw]
  rw [e1]
  dsimp only
  have hx2 := next_expect hQ .LEFT_PAREN
  split
  · rename_i P2 heq
    rw [heq] at hx2
    exact ⟨_, _, rfl, key _ hx2⟩
  · rename_i P2 heq
    rw [heq] at hx2
    have hx3 := next_parseExpression hx2
    split
    · rename_i P3 heq3
      rw [heq3] at hx3
      exact ⟨_, _, rfl, key _ hx3⟩
    · rename_i e P3 heq3
      rw [heq3] at hx3
      have hx4 := next_expect hx3 .RIGHT_PAREN
      split
      · rename_i P4 heq4
        rw [heq4] at hx4
        exact ⟨_, _, rfl, key _ hx4⟩
      · rename_i P4 heq4
        rw [heq4] at hx4
        have hx5 := next_expect hx4 .LEFT_BRACE
        split
        · rename_i P5 heq5
          rw [heq5] at hx5
          exact ⟨_, _, rfl, key _ hx5⟩
        · rename_i P5 heq5
          rw [heq5] at hx5
          obtain ⟨cs, P6, h6, hN6⟩ := hb P5 [] (Next.stay hx5.1 hx5.2.1)
            (by have := hx5.2.2; dsimp only at this; omega)
          rw [h6]
          dsimp only
          have hx6 : Next P.advance P6 := hx5.andThen hN6
          have hx7 := next_expect hx6 .RIGHT_BRACE
          split
          · rename_i P7 heq7
            rw [heq7] at hx7
            exact ⟨_, _, rfl, key _ hx7⟩
          · rename_i P7 heq7
            rw [heq7] at hx7
            split
            · have hx8 := next_expect (next_advance hx7) .LEFT_BRACE
              split
              · rename_i P8 heq8
                rw [heq8] at hx8
                exact ⟨_, _, rfl, key _ hx8⟩
              · rename_i P8 heq8
                rw [heq8] at hx8
                obtain ⟨cs2, P9, h9, hN9⟩ := hb P8 cs (Next.stay hx8.1 hx8.2.1)
                  (by have := hx8.2.2; dsimp only at this; omega)
                rw [h9]
                dsimp only
                have hx9 : Next P.advance P9 := hx8.andThen hN9
                have hx10 := next_expect hx9 .RIGHT_BRACE
                split
                · rename_i P10 heq10
                  rw [heq10] at hx10
                  exact ⟨_, _, rfl, key _ hx10⟩
                · rename_i P10 heq10
                  rw [heq10] at hx10
                  exact ⟨_, _, rfl, key _ hx10⟩
            · exact ⟨_, _, rfl, key _ hx7⟩

theorem forTotal_succ (n : Nat) (hb : ForBodyTotal n) :
    CompoundTotal parseForStatement .FOR (n + 1) := by
  intro P hP hkw hf
  have hne : P.current_token.type ≠ .EOF_TOKEN := by rw [hkw]; decide
  obtain ⟨hQ, key⟩ := next_after_keyword hP hne
  have hadv := pending_advance P hne
  rw [parseForStatement]
  have e1 : P.expect .FOR = (true, P.advance) := by simp [expect, hkw]
  rw [e1]
  dsimp only
  have hx2 := next_expect hQ .LEFT_PAREN
  split
  · rename_i P2 heq
    rw [heq] at hx2
    exact ⟨_, _, rfl, key _ hx2⟩
  · rename_i P2 heq
    rw [heq] at hx2
    obtain ⟨c, P3, h3, hx3⟩ := scanForHeader_total n P.advance P2 0 hx2
      (by have := hx2.2.2; dsimp only at this; omega)
    rw [h3]
    dsimp only
    split
    · exact ⟨_, _, rfl, key _ (next_reportError hx3 _)⟩
    · have hx4 := next_expect hx3 .RIGHT_PAREN
      split
      · rename_i P4 heq4
        rw [heq4] at hx4
        exact ⟨_, _, rfl, key _ hx4⟩
      · rename_i P4 heq4
        rw [heq4] at hx4
        have hx5 := next_expect hx4 .LEFT_BRACE
        split
        · rename_i P5 heq5
          rw [heq5] at hx5
          exact ⟨_, _, rfl, key _ hx5⟩
        · rename_i P5 heq5
          rw [heq5] at hx5
          obtain ⟨cs, P6, h6, hN6⟩ := hb P5 [] (Next.stay hx5.1 hx5.2.1)
            (by have := hx5.2.2; dsimp only at this; omega)
          rw [h6]
          dsimp only
          have hx6 : Next P.advance P6 := hx5.andThen hN6
          have hx7 := next_expect hx6 .RIGHT_BRACE
          split
          · rename_i P7 heq7
            rw [heq7] at hx7
            exact ⟨_, _, rfl, key _ hx7⟩
          · rename_i P7 heq7
            rw [heq7] at hx7
            exact ⟨_, _, rfl, key _ hx7⟩

theorem statementTotal_succ (n : Nat) (hi : CompoundTotal parseIfStatement .IF n)
    (hw : CompoundTotal parseWhileStatement .WHILE n)
    (hfo : CompoundTotal parseForStatement .FOR n) : StatementTotal (n + 1) := by
  intro P hP hf
  rw [parseStatement]
  split
  · rename_i hk
    obtain ⟨r, P1, h1, hN, hlt⟩ := parseAssignmentOrCall_total n P hP hk (by omega)
    exact ⟨r, P1, h1, hN, fun _ _ => hlt⟩
  · rename_i hk
    obtain ⟨r, P1, h1, hN, hlt⟩ := hi P hP hk (by omega)
    exact ⟨r, P1, h1, hN, fun _ _ => hlt⟩
  · rename_i hk
    obtain ⟨r, P1, h1, hN, hlt⟩ := hw P hP hk (by omega)
    exact ⟨r, P1, h1, hN, fun _ _ => hlt⟩
  · rename_i hk
    obtain ⟨r, P1, h1, hN, hlt⟩ := hfo P hP hk (by omega)
    exact ⟨r, P1, h1, hN, fun _ _ => hlt⟩
  · rename_i hk
    exact ⟨_, _, rfl, hP, fun h _ => absurd hk h⟩
  · rename_i hk
    exact ⟨_, _, rfl, hP, fun _ h => absurd hk h⟩
  · refine ⟨_, _, rfl, next_advance (next_reportError hP _), fun _ hne => ?_⟩
    have := pending_advance (P.reportError ("意外的语句: " ++ P.current_token.value)) hne
    have h2 : (P.reportError ("意外的语句: " ++ P.current_token.value)).pending = P.pending := rfl
    omega

/-- Every fuel suffices for the statement parsers on the states it covers. -/
theorem statement_parsers_total (n : Nat) :
    StatementTotal n ∧ BlockTotal n ∧ ForBodyTotal n ∧
      CompoundTotal parseIfStatement .IF n ∧ CompoundTotal parseWhileStatement .WHILE n ∧
      CompoundTotal parseForStatement .FOR n := by
  induction n with
  | zero =>
    refine ⟨?_, ?_, ?_, ?_, ?_, ?_⟩
    · intro P _ hf; omega
    · intro P _ _ hf; omega
    · intro P _ _ hf; omega
    · intro P _ _ hf; omega
    · intro P _ _ hf; omega
    · intro P _ _ hf; omega
  | succ n ih =>
    obtain ⟨hs, hb, hfb, hi, hw, hfo⟩ := ih
    exact ⟨statementTotal_succ n hi hw hfo, blockTotal_succ n hs hb, forBodyTotal_succ n hs hfb,
      ifTotal_succ n hb, whileTotal_succ n hb, forTotal_succ n hfb⟩

/-- A variable declaration attempted on a lookahead other than end-of-input
consumes at least one token. -/
theorem next_parseVariableDeclaration {P : Parser} (hP : Next P P) :
    Next P (parseVariableDeclaration P).2 ∧
      (P.current_token.type ≠ .EOF_TOKEN → (parseVariableDeclaration P).2.pending < P.pending) := by
  have hstrict : ∀ Q, Next P.advance Q → P.current_token.type ≠ .EOF_TOKEN →
      Q.pending < P.pending := by
    intro Q hQ hne
    have := pending_advance P hne
    have := hQ.2.2
    omega
  have hQ : Next P.advance P.advance := by
    have := next_advance hP
    exact Next.stay this.1 this.2.1
  unfold parseVariableDeclaration
  split
  · refine ⟨next_advance (next_reportError hP _), fun hne => ?_⟩
    have := pending_advance (P.reportError ("期望变量类型 (int, float, char), 但得到 \x27" ++
      P.current_token.value ++ "\x27")) hne
    have h2 : (P.reportError ("期望变量类型 (int, float, char), 但得到 \x27" ++
      P.current_token.value ++ "\x27")).pending = P.pending := rfl
    dsimp only
    omega
  · dsimp only
    split
    · have h := next_advance (next_reportError hQ "期望变量名")
      exact ⟨(next_advance hP).andThen h, hstrict _ h⟩
    · have h := next_expect (next_advance hQ) .SEMICOLON
      split
      · rename_i P2 heq
        rw [heq] at h
        exact ⟨(next_advance hP).andThen h, hstrict _ h⟩
      · rename_i P2 heq
        rw [heq] at h
        exact ⟨(next_advance hP).andThen h, hstrict _ h⟩

theorem parseVariableDeclarations_total (fuel : Nat) (P : Parser) (children : List ASTNode)
    (hP : Next P P) (hf : P.pending < fuel) :
    ∃ cs P1, parseVariableDeclarations fuel P children = some (cs, P1) ∧ Next P P1 := by
  induction fuel generalizing P children with
  | zero => omega
  | succ n ih =>
    rw [parseVariableDeclarations]
    split
    · rename_i hc
      obtain ⟨hN, hlt⟩ := next_parseVariableDeclaration hP
      have hlt := hlt hc.2
      split
      · rename_i v P1 heq
        rw [heq] at hN hlt
        obtain ⟨cs, P2, h2, hN2⟩ := ih P1 (children ++ [v]) (Next.stay hN.1 hN.2.1)
          (by dsimp only at hlt; omega)
        exact ⟨cs, P2, h2, hN.andThen hN2⟩
      · rename_i P1 heq
        rw [heq] at hN hlt
        dsimp only at hlt hN
        obtain ⟨P2, h2, hN2⟩ := skipToSemicolon_total n P1 P1 (Next.stay hN.1 hN.2.1) (by omega)
        rw [h2]
        dsimp only
        have hN3 : Next P1 (if P2.current_token.type = .SEMICOLON then P2.advance else P2) := by
          split
          · exact next_advance hN2
          · exact hN2
        obtain ⟨cs, P4, h4, hN4⟩ := ih _ children (Next.stay hN3.1 hN3.2.1)
          (by have := hN3.2.2; omega)
        exact ⟨cs, P4, h4, hN.andThen (hN3.andThen hN4)⟩
    · exact ⟨children, P, rfl, hP⟩

theorem parseVariablesBlock_total (fuel : Nat) (P : Parser) (hP : Next P P)
    (hkw : P.current_token.type = .VARIABLES) (hf : P.pending ≤ fuel) :
    ∃ r P1, parseVariablesBlock fuel P = some (r, P1) ∧ Next P P1 ∧ P1.pending < P.pending := by
  have hne : P.current_token.type ≠ .EOF_TOKEN := by rw [hkw]; decide
  obtain ⟨hQ, key⟩ := next_after_keyword hP hne
  have hadv := pending_advance P hne
  unfold parseVariablesBlock
  have e1 : P.expect .VARIABLES = (true, P.advance) := by simp [expect, hkw]
  rw [e1]
  dsimp only
  have hx2 := next_expect hQ .LEFT_BRACE
  split
  · rename_i P2 heq
    rw [heq] at hx2
    exact ⟨_, _, rfl, key _ hx2⟩
  · rename_i P2 heq
    rw [heq] at hx2
    obtain ⟨cs, P3, h3, hN3⟩ := parseVariableDeclarations_total fuel P2 []
      (Next.stay hx2.1 hx2.2.1) (by have := hx2.2.2; dsimp only at this; omega)
    rw [h3]
    dsimp only
    have hx4 := next_expect (hx2.andThen hN3) .RIGHT_BRACE
    split
    · rename_i P4 heq4
      rw [heq4] at hx4
      exact ⟨_, _, rfl, key _ hx4⟩
    · rename_i P4 heq4
      rw [heq4] at hx4
      exact ⟨_, _, rfl, key _ hx4⟩

theorem parseEventHandler_total (fuel : Nat) (P : Parser) (hP : Next P P)
    (hkw : P.current_token.type = .ON) (hf : 3 * P.pending + 1 ≤ fuel) :
    ∃ r P1, parseEventHandler fuel P = some (r, P1) ∧ Next P P1 ∧ P1.pending < P.pending := by
  have hne : P.current_token.type ≠ .EOF_TOKEN := by rw [hkw]; decide
  obtain ⟨hQ, key⟩ := next_after_keyword hP hne
  have hadv := pending_advance P hne
  unfold parseEventHandler
  have e1 : P.expect .ON = (true, P.advance) := by simp [expect, hkw]
  rw [e1]
  dsimp only
  split
  · have h3 : Next P.advance
        (if P.advance.advance.current_token.type = .INTEGER then P.advance.advance.advance
          else P.advance.advance) := by
      split
      · exact next_advance (next_advance hQ)
      · exact next_advance hQ
    have hx4 := next_expect h3 .LEFT_BRACE
    split
    · rename_i P4 heq
      rw [heq] at hx4
      exact ⟨_, _, rfl, key _ hx4⟩
    · rename_i P4 heq
      rw [heq] at hx4
      obtain ⟨cs, P5, h5, hN5⟩ := (statement_parsers_total fuel).2.1 P4 []
        (Next.stay hx4.1 hx4.2.1) (by have := hx4.2.2; dsimp only at this; omega)
      rw [h5]
      dsimp only
      have hx6 := next_expect (hx4.andThen hN5) .RIGHT_BRACE
      split
      · rename_i P6 heq6
        rw [heq6] at hx6
        exact ⟨_, _, rfl, key _ hx6⟩
      · rename_i P6 heq6
        rw [heq6] at hx6
        exact ⟨_, _, rfl, key _ hx6⟩
  · exact ⟨_, _, rfl, key _ (next_reportError hQ _)⟩

/-- A top-level declaration either consumes a token or fails without moving
the lookahead (then `parseProgram` skips one token itself). -/
theorem parseTopLevelDeclaration_total (fuel : Nat) (P : Parser) (hP : Next P P)
    (hf : 3 * P.pending + 1 ≤ fuel) :
    ∃ r P1, parseTopLevelDeclaration fuel P = some (r, P1) ∧ Next P P1 ∧
      (P1.pending < P.pending ∨ (r = none ∧ P1.current_token = P.current_token)) := by
  unfold parseTopLevelDeclaration
  split
  · rename_i hk
    obtain ⟨r, P1, h1, hN, hlt⟩ := parseVariablesBlock_total fuel P hP hk (by omega)
    exact ⟨r, P1, h1, hN, Or.inl hlt⟩
  · rename_i hk
    obtain ⟨r, P1, h1, hN, hlt⟩ := parseEventHandler_total fuel P hP hk hf
    exact ⟨r, P1, h1, hN, Or.inl hlt⟩
  · exact ⟨_, _, rfl, next_reportError hP _, Or.inr ⟨rfl, rfl⟩⟩

theorem parseDeclarations_total (fuel : Nat) (P : Parser) (children : List ASTNode)
    (hP : Next P P) (hf : 3 * P.pending + 2 ≤ fuel) :
    ∃ cs P1, parseDeclarations fuel P children = some (cs, P1) ∧ Next P P1 := by
  induction fuel generalizing P children with
  | zero => omega
  | succ n ih =>
    rw [parseDeclarations]
    split
    · rename_i hc
      have hpos := pending_pos P hc.1
      obtain ⟨r, P1, h1, hN, hlt⟩ := parseTopLevelDeclaration_total n P hP (by omega)
      rw [h1]
      cases r with
      | some stmt =>
        have hlt : P1.pending < P.pending := by
          rcases hlt with h | ⟨h, _⟩
          · exact h
          · cases h
        obtain ⟨cs, P2, h2, hN2⟩ := ih P1 (children ++ [stmt]) (Next.stay hN.1 hN.2.1) (by omega)
        exact ⟨cs, P2, h2, hN.andThen hN2⟩
      | none =>
        dsimp only
        have hN3 : Next P (if P1.current_token.type ≠ .EOF_TOKEN then P1.advance else P1) ∧
            (if P1.current_token.type ≠ .EOF_TOKEN then P1.advance else P1).pending
              < P.pending := by
          split
          · rename_i hne
            refine ⟨next_advance hN, ?_⟩
            have := pending_advance P1 hne
            have := hN.2.2
            omega
          · rename_i he
            refine ⟨hN, ?_⟩
            rcases hlt with h | ⟨_, h⟩
            · exact h
            · rw [h] at he
              exact absurd hc.1 he
        obtain ⟨cs, P2, h2, hN2⟩ := ih _ children (Next.stay hN3.1.1 hN3.1.2.1) (by omega)
        exact ⟨cs, P2, h2, hN3.1.andThen hN2⟩
    · exact ⟨children, P, rfl, hP⟩

/-- The parser built on a fresh lexer is consistent, and has at most as many
tokens ahead as the source has characters. -/
theorem new_next (source : List Char) :
    Next (Parser.new (Lexer.new source)) (Parser.new (Lexer.new source)) ∧
      (Parser.new (Lexer.new source)).pending ≤ source.length := by
  refine ⟨Next.stay (advance_atEnd _) (by simp [FlagMatches, Parser.new, advance]), ?_⟩
  have hs : (Parser.new (Lexer.new source)).stream = (Lexer.new source).tokens := by
    rw [Lexer.tokens_unfold]
    rfl
  unfold pending
  rw [hs]
  have := Lexer.tokensAux_length ((Lexer.new source).remaining + 1) (Lexer.new source)
  have hr : (Lexer.new source).remaining = source.length := rfl
  unfold Lexer.tokens
  omega

/-- With the fuel `parseFuel source` the method `parse` returns, in a consistent
state. -/
theorem parse_total (source : String) :
    ∃ r, Parser.parse (parseFuel source) (Parser.new (Lexer.new source.toList)) = some r ∧
      r.2.FlagMatches ∧ (r.1.isSome ↔ r.2.has_errors = false) ∧
      ∀ ast, r.1 = some ast → ast.type = .PROGRAM := by
  obtain ⟨hN, hlen⟩ := new_next source.toList
  obtain ⟨cs, P1, h1, hN1⟩ := parseDeclarations_total (parseFuel source) _ [] hN
    (by unfold parseFuel; have : source.length = source.toList.length := rfl; omega)
  unfold Parser.parse parseProgram
  rw [h1]
  dsimp only
  cases hflag : P1.has_errors with
  | true =>
    refine ⟨_, rfl, hN1.2.1, by simp [hflag], ?_⟩
    intro ast h
    simp at h
  | false =>
    refine ⟨_, rfl, hN1.2.1, by simp [hflag], ?_⟩
    intro ast h
    simp only [Bool.false_eq_true, if_false, Option.some.injEq] at h
    rw [← h]
    rfl

theorem skipArguments_stable (n : Nat) : Stable skipArguments n := by
  induction n with
  | zero => intro P r h; simp [skipArguments] at h
  | succ n ih =>
    intro P r h
    rw [skipArguments] at h ⊢
    split
    · rename_i hc
      rw [if_pos hc] at h
      exact ih _ _ h
    · rename_i hc
      rw [if_neg hc] at h
      exact h

theorem skipToSemicolon_stable (n : Nat) : Stable skipToSemicolon n := by
  induction n with
  | zero => intro P r h; simp [skipToSemicolon] at h
  | succ n ih =>
    intro P r h
    rw [skipToSemicolon] at h ⊢
    split
    · rename_i hc
      rw [if_pos hc] at h
      exact ih _ _ h
    · rename_i hc
      rw [if_neg hc] at h
      exact h

theorem scanForHeader_stable (n : Nat) (P : Parser) (count : Nat) (r : Nat × Parser)
    (h : scanForHeader n P count = some r) : scanForHeader (n + 1) P count = some r := by
  induction n generalizing P count with
  | zero => simp [scanForHeader] at h
  | succ n ih =>
    rw [scanForHeader] at h ⊢
    split
    · rename_i hc
      rw [if_pos hc] at h
      exact ih _ _ h
    · rename_i hc
      rw [if_neg hc] at h
      exact h

theorem parseAssignmentOrCall_stable (n : Nat) : Stable parseAssignmentOrCall n := by
  intro P r h
  unfold parseAssignmentOrCall at h ⊢
  split
  · rename_i hc
    rw [if_pos hc] at h
    exact h
  · rename_i hc
    rw [if_neg hc] at h
    dsimp only at h ⊢
    split
    · rename_i hc2
      rw [if_pos hc2] at h
      exact h
    · rename_i hc2
      rw [if_neg hc2] at h
      split
      · rename_i hc3
        rw [if_pos hc3] at h
        cases hs : skipArguments n P.advance.advance with
        | none => rw [hs] at h; simp at h
        | some P2 =>
          rw [hs] at h
          rw [skipArguments_stable n _ _ hs]
          exact h
      · rename_i hc3
        rw [if_neg hc3] at h
        exact h


theorem parseBlockBody_stable_succ (n : Nat) (hs : Stable parseStatement n)
    (hb : StableLoop parseBlockBody n) : StableLoop parseBlockBody (n + 1) := by
  intro P children r h
  rw [parseBlockBody] at h ⊢
  split
  · rename_i hc
    rw [if_pos hc] at h
    cases hst : parseStatement n P with
    | none => rw [hst] at h; simp at h
    | some v =>
      obtain ⟨o, P1⟩ := v
      rw [hst] at h
      rw [hs _ _ hst]
      cases o with
      | some stmt => exact hb _ _ _ h
      | none =>
        dsimp only at h ⊢
        split
        · rename_i hc2
          rw [if_pos hc2] at h
          exact hb _ _ _ h
        · rename_i hc2
          rw [if_neg hc2] at h
          exact hb _ _ _ h
  · rename_i hc
    rw [if_neg hc] at h
    exact h

theorem parseForBody_stable_succ (n : Nat) (hs : Stable parseStatement n)
    (hb : StableLoop parseForBody n) : StableLoop parseForBody (n + 1) := by
  intro P children r h
  rw [parseForBody] at h ⊢
  split
  · rename_i hc
    rw [if_pos hc] at h
    cases hst : parseStatement n P with
    | none => rw [hst] at h; simp at h
    | some v =>
      obtain ⟨o, P1⟩ := v
      rw [hst] at h
      rw [hs _ _ hst]
      cases o with
      | some stmt => exact hb _ _ _ h
      | none => exact hb _ _ _ h
  · rename_i hc
    rw [if_neg hc] at h
    exact h

theorem parseWhileStatement_stable_succ (n : Nat) (hb : StableLoop parseBlockBody n) :
    Stable parseWhileStatement (n + 1) := by
  intro P r h
  rw [parseWhileStatement] at h ⊢
  split at h
  · exact h
  · split at h
    · exact h
    · split at h
      · exact h
      · split at h
        · exact h
        · split at h
          · exact h
          · split at h
            · simp at h
            · rename_i cs P6 heq6
              rw [hb _ _ _ heq6]
              exact h

theorem parseIfStatement_stable_succ (n : Nat) (hb : StableLoop parseBlockBody n) :
    Stable parseIfStatement (n + 1) := by
  intro P r h
  rw [parseIfStatement] at h ⊢
  split at h
  · exact h
  · split at h
    · exact h
    · split at h
      · exact h
      · split at h
        · exact h
        · split at h
          · exact h
          · split at h
            · simp at h
            · rename_i cs P6 heq6
              rw [hb _ _ _ heq6]
              dsimp only
              split at h
              · exact h
              · rename_i P7 heq7
                by_cases hc : P7.current_token.type = .ELSE
                · rw [if_pos hc] at h ⊢
                  split at h
                  · exact h
                  · split at h
                    · simp at h
                    · rename_i cs2 P9 heq9
                      rw [hb _ _ _ heq9]
                      exact h
                · rw [if_neg hc] at h ⊢
                  exact h

theorem parseForStatement_stable_succ (n : Nat) (hb : StableLoop parseForBody n) :
    Stable parseForStatement (n + 1) := by
  intro P r h
  rw [parseForStatement] at h ⊢
  split at h
  · exact h
  · split at h
    · exact h
    · split at h
      · simp at h
      · rename_i c P3 heq3
        rw [scanForHeader_stable _ _ _ _ heq3]
        dsimp only
        by_cases hc : c ≠ 2
        · rw [if_pos hc] at h ⊢
          exact h
        · rw [if_neg hc] at h ⊢
          split at h
          · exact h
          · split at h
            · exact h
            · split at h
              · simp at h
              · rename_i cs P6 heq6
                rw [hb _ _ _ heq6]
                exact h

theorem parseStatement_stable_succ (n : Nat) (hi : Stable parseIfStatement n)
    (hw : Stable parseWhileStatement n) (hf : Stable parseForStatement n) :
    Stable parseStatement (n + 1) := by
  intro P r h
  rw [parseStatement] at h ⊢
  split at h
  · exact parseAssignmentOrCall_stable n _ _ h
  · exact hi _ _ h
  · exact hw _ _ h
  · exact hf _ _ h
  · exact h
  · exact h
  · exact h

/-- More fuel does not change a result of the statement parsers. -/
theorem statement_parsers_stable (n : Nat) :
    Stable parseStatement n ∧ StableLoop parseBlockBody n ∧ StableLoop parseForBody n ∧
      Stable parseIfStatement n ∧ Stable parseWhileStatement n ∧ Stable parseForStatement n := by
  induction n with
  | zero =>
    refine ⟨?_, ?_, ?_, ?_, ?_, ?_⟩
    · intro P r h; simp [parseStatement] at h
    · intro P cs r h; simp [parseBlockBody] at h
    · intro P cs r h; simp [parseForBody] at h
    · intro P r h; simp [parseIfStatement] at h
    · intro P r h; simp [parseWhileStatement] at h
    · intro P r h; simp [parseForStatement] at h
  | succ n ih =>
    obtain ⟨hs, hb, hfb, hi, hw, hf⟩ := ih
    exact ⟨parseStatement_stable_succ n hi hw hf, parseBlockBody_stable_succ n hs hb,
      parseForBody_stable_succ n hs hfb, parseIfStatement_stable_succ n hb,
      parseWhileStatement_stable_succ n hb, parseForStatement_stable_succ n hfb⟩

theorem parseVariableDeclarations_stable (n : Nat) : StableLoop parseVariableDeclarations n := by
  induction n with
  | zero => intro P cs r h; simp [parseVariableDeclarations] at h
  | succ n ih =>
    intro P children r h
    rw [parseVariableDeclarations] at h ⊢
    by_cases hc : P.current_token.type ≠ .RIGHT_BRACE ∧ P.current_token.type ≠ .EOF_TOKEN
    · rw [if_pos hc] at h ⊢
      split at h
      · exact ih _ _ _ h
      · split at h
        · simp at h
        · rename_i P2 heq2
          rw [skipToSemicolon_stable n _ _ heq2]
          exact ih _ _ _ h
    · rw [if_neg hc] at h ⊢
      exact h

theorem parseVariablesBlock_stable (n : Nat) : Stable parseVariablesBlock n := by
  intro P r h
  unfold parseVariablesBlock at h ⊢
  split at h
  · exact h
  · split at h
    · exact h
    · split at h
      · simp at h
      · rename_i cs P3 heq3
        rw [parseVariableDeclarations_stable n _ _ _ heq3]
        exact h

theorem parseEventHandler_stable (n : Nat) : Stable parseEventHandler n := by
  intro P r h
  unfold parseEventHandler at h ⊢
  split at h
  · exact h
  · rename_i P1 heq1
    by_cases hc : isEventKind P1.current_token.type = true
    · rw [if_pos hc] at h ⊢
      dsimp only at h ⊢
      split at h
      · exact h
      · split at h
        · simp at h
        · rename_i cs P5 heq5
          rw [(statement_parsers_stable n).2.1 _ _ _ heq5]
          exact h
    · rw [if_neg hc] at h ⊢
      exact h

theorem parseTopLevelDeclaration_stable (n : Nat) : Stable parseTopLevelDeclaration n := by
  intro P r h
  unfold parseTopLevelDeclaration at h ⊢
  split at h
  · exact parseVariablesBlock_stable n _ _ h
  · exact parseEventHandler_stable n _ _ h
  · exact h

theorem parseDeclarations_stable (n : Nat) : StableLoop parseDeclarations n := by
  induction n with
  | zero => intro P cs r h; simp [parseDeclarations] at h
  | succ n ih =>
    intro P children r h
    rw [parseDeclarations] at h ⊢
    by_cases hc : P.current_token.type ≠ .EOF_TOKEN ∧ P.has_errors = false
    · rw [if_pos hc] at h ⊢
      split at h
      · simp at h
      · rename_i stmt P1 heq
        rw [parseTopLevelDeclaration_stable n _ _ heq]
        exact ih _ _ _ h
      · rename_i P1 heq
        rw [parseTopLevelDeclaration_stable n _ _ heq]
        exact ih _ _ _ h
    · rw [if_neg hc] at h ⊢
      exact h

theorem parse_stable (n : Nat) : Stable parse n := by
  intro P r h
  unfold parse parseProgram at h ⊢
  cases hd : parseDeclarations n P [] with
  | none => rw [hd] at h; simp at h
  | some v =>
    rw [hd] at h
    rw [parseDeclarations_stable n _ _ _ hd]
    exact h

/-- A result reached with some fuel is reached with any larger fuel. -/
theorem parse_of_le (n m : Nat) (hnm : n ≤ m) (P : Parser) (r : ParseResult)
    (h : parse n P = some r) : parse m P = some r := by
  induction m with
  | zero =>
    have : n = 0 := by omega
    rw [this] at h
    exact h
  | succ m ih =>
    by_cases hn : n = m + 1
    · rw [← hn]; exact h
    · exact parse_stable m _ _ (ih (by omega))


end Parser

/-- C7: `Parser::parse` terminates on every source text.  Every call of
`nextToken` returns, and every loop of the parser either consumes a token or
stops at `}` or end-of-input (the progress lemmas above), so three units of
fuel per character, plus five, are never exhausted: with that much fuel or
more, `parse` returns, and always the one result `parseSource source`. -/
theorem parse_terminates (source : String) :
    (∀ L : Lexer, Lexer.nextTokenAux (L.remaining + 1) L = some L.nextToken) ∧
    ∀ fuel, parseFuel source ≤ fuel →
      Parser.parse fuel (Parser.new (Lexer.new source.toList)) = some (parseSource source) := by
  refine ⟨fun L => (Lexer.nextToken_spec L).1, fun fuel hfuel => ?_⟩
  obtain ⟨r, h, _⟩ := Parser.parse_total source
  have hr : parseSource source = r := by
    unfold parseSource
    rw [h]
  rw [hr]
  exact Parser.parse_of_le _ _ hfuel _ _ h

/-- C7 at the source `on start { }` and one unit of fuel more than `parseFuel`. -/
theorem parse_terminates_witness :
    parseFuel "on start \x7b \x7d" ≤ parseFuel "on start \x7b \x7d" + 1 ∧
    Parser.parse (parseFuel "on start \x7b \x7d" + 1)
      (Parser.new (Lexer.new "on start \x7b \x7d".toList)) =
        some (parseSource "on start \x7b \x7d") :=
  ⟨Nat.le_succ _, (parse_terminates "on start \x7b \x7d").2 _ (Nat.le_succ _)⟩

/-- C1: for every source text, `Parser::parse` returns (its result is
`parseSource source`), and it returns a tree exactly when the diagnostic list
is empty at the end of the walk; the tree it returns is rooted at a `PROGRAM`
node, and with one diagnostic or more the result is absent. -/
theorem parse_returns_ast_iff_no_diagnostics (source : String) :
    Parser.parse (parseFuel source) (Parser.new (Lexer.new source.toList)) =
      some (parseSource source) ∧
    ((parseSource source).1.isSome ↔ (parseSource source).2.getErrors = []) ∧
    (∀ ast, (parseSource source).1 = some ast → ast.type = .PROGRAM) ∧
    ((parseSource source).2.getErrors ≠ [] → (parseSource source).1 = none) := by
  obtain ⟨r, h, hflag, hiff, hroot⟩ := Parser.parse_total source
  have hr : parseSource source = r := by
    unfold parseSource
    rw [h]
  rw [hr]
  have hiff2 : r.1.isSome ↔ r.2.getErrors = [] := by
    unfold Parser.FlagMatches at hflag
    unfold Parser.getErrors
    rw [hiff]
    constructor
    · intro hf
      by_contra hne
      have := hflag.mpr hne
      rw [hf] at this
      exact Bool.noConfusion this
    · intro he
      cases hfl : r.2.has_errors with
      | false => rfl
      | true => exact absurd he (hflag.mp hfl)
  refine ⟨h, hiff2, hroot, fun hne => ?_⟩
  cases hopt : r.1 with
  | none => rfl
  | some a =>
    have : r.1.isSome = true := by rw [hopt]; rfl
    exact absurd (hiff2.mp this) hne

/-- C1 at the source `;`, which records a diagnostic, and at `on start { }`,
which records none. -/
theorem parse_returns_ast_iff_no_diagnostics_witness :
    (parseSource ";").2.getErrors ≠ [] ∧ (parseSource ";").1 = none ∧
    (parseSource "on start \x7b \x7d").2.getErrors = [] ∧
    (parseSource "on start \x7b \x7d").1.isSome = true :=
  ⟨by decide, (parse_returns_ast_iff_no_diagnostics ";").2.2.2 (by decide), by decide,
   (parse_returns_ast_iff_no_diagnostics "on start \x7b \x7d").2.1.mpr (by decide)⟩

/-! ## The parser accepts the grammar -/

namespace Parser

theorem kinds_eq_cons (P : Parser) : ∃ ks, P.kinds = P.current_token.type :: ks := by
  unfold kinds stream
  split
  · exact ⟨[], rfl⟩
  · exact ⟨_, rfl⟩

theorem type_of_kinds {P : Parser} {k : TokenType} {ks : List TokenType}
    (h : P.kinds = k :: ks) : P.current_token.type = k := by
  obtain ⟨ks2, h2⟩ := kinds_eq_cons P
  rw [h2] at h
  exact (List.cons.inj h).1

/-- A token kind that is followed by another one in the stream is not end-of-input. -/
theorem kinds_ne_eof {P : Parser} {k : TokenType} {ks : List TokenType}
    (h : P.kinds = k :: ks) (hne : ks ≠ []) : k ≠ .EOF_TOKEN := by
  intro hk
  have ht := type_of_kinds h
  rw [hk] at ht
  unfold kinds stream at h
  rw [if_pos ht] at h
  simp only [List.map_cons, List.map_nil, List.cons.injEq] at h
  exact hne h.2.symm

theorem kinds_advance {P : Parser} {k : TokenType} {ks : List TokenType}
    (h : P.kinds = k :: ks) (hne : ks ≠ []) : P.advance.kinds = ks := by
  have hk := kinds_ne_eof h hne
  have ht := type_of_kinds h
  have hs := stream_advance P (by rw [ht]; exact hk)
  unfold kinds at h ⊢
  rw [hs] at h
  simp only [List.map_cons, List.cons.injEq] at h
  exact h.2

theorem kinds_length_pending (P : Parser) : P.kinds.length = P.pending + 1 := by
  unfold kinds pending
  have := List.length_pos.mpr (stream_ne_nil P)
  rw [List.length_map]
  omega

theorem Accepts.start {P : Parser} {ks : List TokenType} (h : P.kinds = ks) : Accepts P P ks :=
  ⟨h, rfl, rfl⟩

theorem Accepts.next {P0 P : Parser} {k : TokenType} {ks : List TokenType}
    (h : Accepts P0 P (k :: ks)) (hne : ks ≠ []) : Accepts P0 P.advance ks :=
  ⟨kinds_advance h.1 hne, h.2.1, h.2.2⟩

theorem Accepts.andAlso {P0 P1 P2 : Parser} {ks1 ks2 : List TokenType}
    (h1 : Accepts P0 P1 ks1) (h2 : Accepts P1 P2 ks2) : Accepts P0 P2 ks2 :=
  ⟨h2.1, h2.2.1.trans h1.2.1, h2.2.2.trans h1.2.2⟩

/-- On a lookahead of the expected kind that is not the last token, `expect`
succeeds and advances. -/
theorem expect_accepts {P0 P : Parser} {ty : TokenType} {ks : List TokenType}
    (h : Accepts P0 P (ty :: ks)) (hne : ks ≠ []) :
    P.expect ty = (true, P.advance) ∧ Accepts P0 P.advance ks := by
  refine ⟨?_, h.next hne⟩
  unfold expect
  rw [if_pos (type_of_kinds h.1)]

theorem isOperand_of_mem {k : TokenType} (h : k ∈ operandKinds) : isOperand k = true := by
  simp only [operandKinds, List.mem_cons, List.mem_singleton, List.not_mem_nil, or_false] at h
  rcases h with rfl | rfl | rfl | rfl <;> rfl

theorem isBinaryOperator_of_mem {k : TokenType} (h : k ∈ binaryOperatorKinds) :
    isBinaryOperator k = true := by
  simp only [binaryOperatorKinds, List.mem_cons, List.mem_singleton, List.not_mem_nil,
    or_false] at h
  rcases h with rfl | rfl | rfl | rfl | rfl | rfl | rfl | rfl | rfl | rfl <;> rfl

/-- A well-formed expression followed by a token that is not a binary operator
is accepted by `parseExpression`, which stops right after it. -/
theorem parseExpression_accepts {P0 P : Parser} (e : Expression) (rest : List TokenType)
    (hwf : e.wellFormed = true) (h : Accepts P0 P (e.kinds ++ rest)) (hrest : rest ≠ [])
    (hfollow : ∀ k ks, rest = k :: ks → isBinaryOperator k = false) :
    ∃ P1, parseExpression P = (some (.base .BINARY_EXPR []), P1) ∧ Accepts P0 P1 rest := by
  obtain ⟨k, ks, hk⟩ := List.exists_cons_of_ne_nil hrest
  cases e with
  | operand a =>
    simp only [Expression.wellFormed, decide_eq_true_eq] at hwf
    have ha : Accepts P0 P (a :: rest) := h
    have h1 := ha.next hrest
    have ht1 : P.advance.current_token.type = k := type_of_kinds (hk ▸ h1.1)
    refine ⟨P.advance, ?_, h1⟩
    unfold parseExpression
    simp only [type_of_kinds ha.1, isOperand_of_mem hwf, if_true, ht1, hfollow k ks hk]
    rfl
  | binary a op b =>
    simp only [Expression.wellFormed, Bool.and_eq_true, decide_eq_true_eq] at hwf
    have ha : Accepts P0 P (a :: op :: b :: rest) := h
    have h1 := ha.next (by simp)
    have h2 := h1.next (by simp)
    have h3 := h2.next hrest
    refine ⟨P.advance.advance.advance, ?_, h3⟩
    unfold parseExpression
    simp only [type_of_kinds ha.1, isOperand_of_mem hwf.1.1, if_true, type_of_kinds h1.1,
      isBinaryOperator_of_mem hwf.1.2, type_of_kinds h2.1, isOperand_of_mem hwf.2]

theorem skipArguments_accepts (fuel : Nat) {P0 P : Parser} (arguments rest : List TokenType)
    (hno : TokenType.RIGHT_PAREN ∉ arguments)
    (h : Accepts P0 P (arguments ++ .RIGHT_PAREN :: rest)) (hf : arguments.length < fuel) :
    ∃ P1, skipArguments fuel P = some P1 ∧ Accepts P0 P1 (.RIGHT_PAREN :: rest) := by
  induction arguments generalizing fuel P with
  | nil =>
    obtain ⟨n, rfl⟩ : ∃ n, fuel = n + 1 := ⟨fuel - 1, by simp at hf; omega⟩
    refine ⟨P, ?_, h⟩
    have ht : P.current_token.type = .RIGHT_PAREN := type_of_kinds h.1
    simp [skipArguments, ht]
  | cons a as ih =>
    obtain ⟨n, rfl⟩ : ∃ n, fuel = n + 1 := ⟨fuel - 1, by simp at hf; omega⟩
    have ha : Accepts P0 P (a :: (as ++ .RIGHT_PAREN :: rest)) := h
    have ht : P.current_token.type = a := type_of_kinds ha.1
    have hne : a ≠ .EOF_TOKEN := kinds_ne_eof ha.1 (by simp)
    have hnp : a ≠ .RIGHT_PAREN := fun hc => hno (by simp [hc])
    obtain ⟨P1, h1, h2⟩ := ih n (fun hc => hno (List.mem_cons_of_mem _ hc)) (ha.next (by simp))
      (by simp at hf; omega)
    refine ⟨P1, ?_, h2⟩
    rw [skipArguments, ht, if_pos ⟨hnp, hne⟩, h1]

theorem scanForHeader_accepts (fuel : Nat) {P0 P : Parser} (header rest : List TokenType)
    (count : Nat) (hno : TokenType.RIGHT_PAREN ∉ header)
    (h : Accepts P0 P (header ++ .RIGHT_PAREN :: rest)) (hf : header.length < fuel) :
    ∃ P1, scanForHeader fuel P count = some (count + header.count .SEMICOLON, P1) ∧
      Accepts P0 P1 (.RIGHT_PAREN :: rest) := by
  induction header generalizing fuel P count with
  | nil =>
    obtain ⟨n, rfl⟩ : ∃ n, fuel = n + 1 := ⟨fuel - 1, by simp at hf; omega⟩
    refine ⟨P, ?_, h⟩
    have ht : P.current_token.type = .RIGHT_PAREN := type_of_kinds h.1
    simp [scanForHeader, ht]
  | cons a as ih =>
    obtain ⟨n, rfl⟩ : ∃ n, fuel = n + 1 := ⟨fuel - 1, by simp at hf; omega⟩
    have ha : Accepts P0 P (a :: (as ++ .RIGHT_PAREN :: rest)) := h
    have ht : P.current_token.type = a := type_of_kinds ha.1
    have hne : a ≠ .EOF_TOKEN := kinds_ne_eof ha.1 (by simp)
    have hnp : a ≠ .RIGHT_PAREN := fun hc => hno (by simp [hc])
    obtain ⟨P1, h1, h2⟩ := ih n (if a = .SEMICOLON then count + 1 else count)
      (fun hc => hno (List.mem_cons_of_mem _ hc)) (ha.next (by simp)) (by simp at hf; omega)
    refine ⟨P1, ?_, h2⟩
    rw [scanForHeader, ht, if_pos ⟨hnp, hne⟩, h1]
    by_cases hs : a = .SEMICOLON
    · subst hs
      simp only [if_true, List.count_cons_self]
      congr 2
      omega
    · simp only [hs, if_false]
      rw [List.count_cons_of_ne (fun hc => hs hc.symm)]

/-- An assignment or a call of the grammar is accepted by `parseAssignmentOrCall`. -/
theorem parseAssignmentOrCall_accepts (fuel : Nat) (P : Parser) (s : Statement)
    (rest : List TokenType) (hs : (∃ e, s = .assign e) ∨ (∃ a, s = .call a))
    (hwf : s.wellFormed = true) (hk : P.kinds = s.kinds ++ rest) (hrest : rest ≠ [])
    (hf : P.kinds.length ≤ fuel) :
    ∃ P1, parseAssignmentOrCall fuel P = some (some s.node, P1) ∧ Accepts P P1 rest := by
  rcases hs with ⟨e, rfl⟩ | ⟨a, rfl⟩
  · simp only [Statement.wellFormed] at hwf
    have h0 : Accepts P P (.IDENTIFIER :: .ASSIGN :: (e.kinds ++ .SEMICOLON :: rest)) :=
      Accepts.start (by rw [hk]; simp [Statement.kinds])
    have h1 := h0.next (by simp)
    have h2 := h1.next (by simp)
    obtain ⟨P3, e3, h3⟩ := parseExpression_accepts e (.SEMICOLON :: rest) hwf h2 (by simp)
      (by intro k ks hc; simp only [List.cons.injEq] at hc; rw [← hc.1]; rfl)
    obtain ⟨e4, h4⟩ := expect_accepts h3 hrest
    refine ⟨P3.advance, ?_, h4⟩
    unfold parseAssignmentOrCall
    simp only [type_of_kinds h0.1, type_of_kinds h1.1, e3, e4]
    rfl
  · simp only [Statement.wellFormed, decide_eq_true_eq] at hwf
    have h0 : Accepts P P (.IDENTIFIER :: .LEFT_PAREN :: (a ++ .RIGHT_PAREN :: .SEMICOLON :: rest)) :=
      Accepts.start (by rw [hk]; simp [Statement.kinds])
    have h1 := h0.next (by simp)
    have h2 := h1.next (by simp)
    obtain ⟨P3, e3, h3⟩ := skipArguments_accepts fuel a (.SEMICOLON :: rest) hwf h2
      (by rw [hk] at hf; simp [Statement.kinds] at hf; omega)
    obtain ⟨e4, h4⟩ := expect_accepts h3 (by simp)
    obtain ⟨e5, h5⟩ := expect_accepts h4 hrest
    refine ⟨P3.advance.advance, ?_, h5⟩
    unfold parseAssignmentOrCall
    simp only [type_of_kinds h0.1, type_of_kinds h1.1, e3, e4, e5]
    rfl

/-- A statement of the grammar starts with an identifier, `if`, `while` or `for`. -/
theorem statement_kinds_head (s : Statement) :
    ∃ k ks, s.kinds = k :: ks ∧ (k = .IDENTIFIER ∨ k = .IF ∨ k = .WHILE ∨ k = .FOR) := by
  cases s <;> simp [Statement.kinds]

/-- What follows a statement inside a body is not `else`. -/
theorem body_head_ne_else (body : List Statement) (rest : List TokenType) :
    (Statement.kindsOfList body ++ .RIGHT_BRACE :: rest).head? ≠ some .ELSE := by
  cases body with
  | nil => simp [Statement.kindsOfList]
  | cons s ss =>
    obtain ⟨k, ks, hk, hh⟩ := statement_kinds_head s
    simp only [Statement.kindsOfList, hk, List.cons_append, List.head?_cons]
    rcases hh with rfl | rfl | rfl | rfl <;> simp

theorem bodyAccepted_block_succ (n : Nat) (hs : StatementAccepted n)
    (hb : BodyAccepted parseBlockBody n) : BodyAccepted parseBlockBody (n + 1) := by
  intro P body rest children hwf hk hrest hf
  cases body with
  | nil =>
    have ht : P.current_token.type = .RIGHT_BRACE := type_of_kinds hk
    refine ⟨P, ?_, Accepts.start hk⟩
    simp [parseBlockBody, ht, Statement.nodes]
  | cons s ss =>
    simp only [Statement.wellFormedList, Bool.and_eq_true] at hwf
    obtain ⟨k, ks, hsk, hh⟩ := statement_kinds_head s
    have hk2 : P.kinds = s.kinds ++ (Statement.kindsOfList ss ++ .RIGHT_BRACE :: rest) := by
      rw [hk]; simp [Statement.kindsOfList]
    have ht : P.current_token.type = k := type_of_kinds (by rw [hk2, hsk]; rfl)
    have hcond : P.current_token.type ≠ .RIGHT_BRACE ∧ P.current_token.type ≠ .EOF_TOKEN := by
      rw [ht]
      rcases hh with rfl | rfl | rfl | rfl <;> exact ⟨by decide, by decide⟩
    obtain ⟨P1, e1, h1⟩ := hs P s _ hwf.1 hk2 (by simp) (body_head_ne_else ss rest) (by omega)
    have hlen : P1.kinds.length < P.kinds.length := by
      rw [h1.1, hk2, hsk]
      simp
      omega
    obtain ⟨P2, e2, h2⟩ := hb P1 ss rest (children ++ [s.node]) hwf.2 h1.1 hrest (by omega)
    refine ⟨P2, ?_, h1.andAlso h2⟩
    rw [parseBlockBody, if_pos hcond, e1]
    simp only [e2, Statement.nodes, List.append_assoc, List.singleton_append]

theorem bodyAccepted_for_succ (n : Nat) (hs : StatementAccepted n)
    (hb : BodyAccepted parseForBody n) : BodyAccepted parseForBody (n + 1) := by
  intro P body rest children hwf hk hrest hf
  cases body with
  | nil =>
    have ht : P.current_token.type = .RIGHT_BRACE := type_of_kinds hk
    refine ⟨P, ?_, Accepts.start hk⟩
    simp [parseForBody, ht, Statement.nodes]
  | cons s ss =>
    simp only [Statement.wellFormedList, Bool.and_eq_true] at hwf
    obtain ⟨k, ks, hsk, hh⟩ := statement_kinds_head s
    have hk2 : P.kinds = s.kinds ++ (Statement.kindsOfList ss ++ .RIGHT_BRACE :: rest) := by
      rw [hk]; simp [Statement.kindsOfList]
    have ht : P.current_token.type = k := type_of_kinds (by rw [hk2, hsk]; rfl)
    have hcond : P.current_token.type ≠ .RIGHT_BRACE ∧ P.current_token.type ≠ .EOF_TOKEN := by
      rw [ht]
      rcases hh with rfl | rfl | rfl | rfl <;> exact ⟨by decide, by decide⟩
    obtain ⟨P1, e1, h1⟩ := hs P s _ hwf.1 hk2 (by simp) (body_head_ne_else ss rest) (by omega)
    have hlen : P1.kinds.length < P.kinds.length := by
      rw [h1.1, hk2, hsk]
      simp
      omega
    obtain ⟨P2, e2, h2⟩ := hb P1 ss rest (children ++ [s.node]) hwf.2 h1.1 hrest (by omega)
    refine ⟨P2, ?_, h1.andAlso h2⟩
    rw [parseForBody, if_pos hcond, e1]
    simp only [e2, Statement.nodes, List.append_assoc, List.singleton_append]

theorem statementAccepted_succ (n : Nat) (hd : DispatchAccepted n) :
    StatementAccepted (n + 1) := by
  intro P s rest hwf hk hrest helse hf
  obtain ⟨P1, e1, h1⟩ := hd P s rest hwf hk hrest helse (by omega)
  refine ⟨P1, ?_, h1⟩
  rw [← e1, parseStatement]
  cases s with
  | assign e =>
    have ht : P.current_token.type = .IDENTIFIER := type_of_kinds (by rw [hk]; rfl)
    simp only [ht, parserOf]
  | call a =>
    have ht : P.current_token.type = .IDENTIFIER := type_of_kinds (by rw [hk]; rfl)
    simp only [ht, parserOf]
  | ifThen c t =>
    have ht : P.current_token.type = .IF := type_of_kinds (by rw [hk]; rfl)
    simp only [ht, parserOf]
  | ifElse c t e =>
    have ht : P.current_token.type = .IF := type_of_kinds (by rw [hk]; rfl)
    simp only [ht, parserOf]
  | whileLoop c b =>
    have ht : P.current_token.type = .WHILE := type_of_kinds (by rw [hk]; rfl)
    simp only [ht, parserOf]
  | forLoop h b =>
    have ht : P.current_token.type = .FOR := type_of_kinds (by rw [hk]; rfl)
    simp only [ht, parserOf]

theorem type_ne_of_head {P : Parser} {rest : List TokenType} {k : TokenType}
    (h : P.kinds = rest) (hne : rest.head? ≠ some k) : P.current_token.type ≠ k := by
  obtain ⟨ks, hks⟩ := kinds_eq_cons P
  rw [← h, hks] at hne
  intro hc
  exact hne (by rw [hc]; rfl)

theorem paren_not_operator (ks0 : List TokenType) :
    ∀ k ks, TokenType.RIGHT_PAREN :: ks0 = k :: ks → isBinaryOperator k = false := by
  intro k ks hc
  simp only [List.cons.injEq] at hc
  rw [← hc.1]
  rfl

theorem dispatchAccepted_succ (n : Nat) (hb : BodyAccepted parseBlockBody n)
    (hfb : BodyAccepted parseForBody n) : DispatchAccepted (n + 1) := by
  intro P s rest hwf hk hrest helse hf
  cases s with
  | assign e =>
    exact parseAssignmentOrCall_accepts (n + 1) P _ rest (Or.inl ⟨e, rfl⟩) hwf hk hrest (by omega)
  | call a =>
    exact parseAssignmentOrCall_accepts (n + 1) P _ rest (Or.inr ⟨a, rfl⟩) hwf hk hrest (by omega)
  | ifThen c t =>
    simp only [Statement.wellFormed, Bool.and_eq_true] at hwf
    have h0 : Accepts P P (.IF :: .LEFT_PAREN :: (c.kinds ++
        .RIGHT_PAREN :: .LEFT_BRACE :: (Statement.kindsOfList t ++ .RIGHT_BRACE :: rest))) :=
      Accepts.start (by rw [hk]; simp [Statement.kinds])
    obtain ⟨e1, h1⟩ := expect_accepts h0 (by simp)
    obtain ⟨e2, h2⟩ := expect_accepts h1 (by simp)
    obtain ⟨P3, e3, h3⟩ := parseExpression_accepts c _ hwf.1 h2 (by simp) (paren_not_operator _)
    obtain ⟨e4, h4⟩ := expect_accepts h3 (by simp)
    obtain ⟨e5, h5⟩ := expect_accepts h4 (by simp)
    obtain ⟨P6, e6, h6⟩ := hb _ t rest [] hwf.2 h5.1 hrest
      (by rw [h5.1]; rw [h0.1] at hf; simp at hf ⊢; omega)
    have h6a := h5.andAlso h6
    obtain ⟨e7, h7⟩ := expect_accepts h6a hrest
    have hne := type_ne_of_head h7.1 helse
    refine ⟨P6.advance, ?_, h7⟩
    simp only [parserOf]
    rw [parseIfStatement]
    simp only [e1, e2, e3, e4, e5, e6, e7, hne, if_false, Statement.node, List.nil_append]
  | ifElse c t e =>
    simp only [Statement.wellFormed, Bool.and_eq_true] at hwf
    have h0 : Accepts P P (.IF :: .LEFT_PAREN :: (c.kinds ++
        .RIGHT_PAREN :: .LEFT_BRACE :: (Statement.kindsOfList t ++
          .RIGHT_BRACE :: .ELSE :: .LEFT_BRACE :: (Statement.kindsOfList e ++
            .RIGHT_BRACE :: rest)))) :=
      Accepts.start (by rw [hk]; simp [Statement.kinds])
    obtain ⟨e1, h1⟩ := expect_accepts h0 (by simp)
    obtain ⟨e2, h2⟩ := expect_accepts h1 (by simp)
    obtain ⟨P3, e3, h3⟩ := parseExpression_accepts c _ hwf.1.1 h2 (by simp) (paren_not_operator _)
    obtain ⟨e4, h4⟩ := expect_accepts h3 (by simp)
    obtain ⟨e5, h5⟩ := expect_accepts h4 (by simp)
    obtain ⟨P6, e6, h6⟩ := hb _ t _ [] hwf.1.2 h5.1 (by simp)
      (by rw [h5.1]; rw [h0.1] at hf; simp at hf ⊢; omega)
    have h6a := h5.andAlso h6
    obtain ⟨e7, h7⟩ := expect_accepts h6a (by simp)
    have ht7 : P6.advance.current_token.type = .ELSE := type_of_kinds h7.1
    have h8 := h7.next (by simp)
    obtain ⟨e9, h9⟩ := expect_accepts h8 (by simp)
    obtain ⟨P10, e10, h10⟩ := hb _ e rest (Statement.nodes t) hwf.2 h9.1 hrest
      (by rw [h9.1]; rw [h0.1] at hf; simp at hf ⊢; omega)
    have h10a := h9.andAlso h10
    obtain ⟨e11, h11⟩ := expect_accepts h10a hrest
    refine ⟨P10.advance, ?_, h11⟩
    simp only [parserOf]
    rw [parseIfStatement]
    simp only [e1, e2, e3, e4, e5, e6, e7, ht7, if_true, e9, e10, e11, Statement.node,
      List.nil_append]
  | whileLoop c b =>
    simp only [Statement.wellFormed, Bool.and_eq_true] at hwf
    have h0 : Accepts P P (.WHILE :: .LEFT_PAREN :: (c.kinds ++
        .RIGHT_PAREN :: .LEFT_BRACE :: (Statement.kindsOfList b ++ .RIGHT_BRACE :: rest))) :=
      Accepts.start (by rw [hk]; simp [Statement.kinds])
    obtain ⟨e1, h1⟩ := expect_accepts h0 (by simp)
    obtain ⟨e2, h2⟩ := expect_accepts h1 (by simp)
    obtain ⟨P3, e3, h3⟩ := parseExpression_accepts c _ hwf.1 h2 (by simp) (paren_not_operator _)
    obtain ⟨e4, h4⟩ := expect_accepts h3 (by simp)
    obtain ⟨e5, h5⟩ := expect_accepts h4 (by simp)
    obtain ⟨P6, e6, h6⟩ := hb _ b rest [] hwf.2 h5.1 hrest
      (by rw [h5.1]; rw [h0.1] at hf; simp at hf ⊢; omega)
    have h6a := h5.andAlso h6
    obtain ⟨e7, h7⟩ := expect_accepts h6a hrest
    refine ⟨P6.advance, ?_, h7⟩
    simp only [parserOf]
    rw [parseWhileStatement]
    simp only [e1, e2, e3, e4, e5, e6, e7, Statement.node, List.nil_append]
  | forLoop header b =>
    simp only [Statement.wellFormed, Bool.and_eq_true, decide_eq_true_eq] at hwf
    have h0 : Accepts P P (.FOR :: .LEFT_PAREN :: (header ++
        .RIGHT_PAREN :: .LEFT_BRACE :: (Statement.kindsOfList b ++ .RIGHT_BRACE :: rest))) :=
      Accepts.start (by rw [hk]; simp [Statement.kinds])
    obtain ⟨e1, h1⟩ := expect_accepts h0 (by simp)
    obtain ⟨e2, h2⟩ := expect_accepts h1 (by simp)
    obtain ⟨P3, e3, h3⟩ := scanForHeader_accepts n header _ 0 hwf.1.1.2 h2
      (by rw [h0.1] at hf; simp at hf; omega)
    obtain ⟨e4, h4⟩ := expect_accepts h3 (by simp)
    obtain ⟨e5, h5⟩ := expect_accepts h4 (by simp)
    obtain ⟨P6, e6, h6⟩ := hfb _ b rest [] hwf.2 h5.1 hrest
      (by rw [h5.1]; rw [h0.1] at hf; simp at hf ⊢; omega)
    have h6a := h5.andAlso h6
    obtain ⟨e7, h7⟩ := expect_accepts h6a hrest
    refine ⟨P6.advance, ?_, h7⟩
    simp only [parserOf]
    rw [parseForStatement]
    simp only [e1, e2, e3, hwf.1.2, e4, e5, e6, e7, Statement.node, List.nil_append, Nat.zero_add,
      ne_eq, not_true_eq_false, if_false]

/-- Every fuel suffices for the statement parsers on the statements of the
grammar it covers. -/
theorem statements_accepted (n : Nat) :
    StatementAccepted n ∧ DispatchAccepted n ∧ BodyAccepted parseBlockBody n ∧
      BodyAccepted parseForBody n := by
  induction n with
  | zero =>
    refine ⟨?_, ?_, ?_, ?_⟩
    · intro P s rest _ hk _ _ hf
      have := kinds_length_pending P
      omega
    · intro P s rest _ hk hrest _ hf
      obtain ⟨k, ks, hsk, _⟩ := statement_kinds_head s
      obtain ⟨r, rs, hr⟩ := List.exists_cons_of_ne_nil hrest
      have hl := congrArg List.length hk
      rw [hsk, hr] at hl
      simp only [List.length_append, List.length_cons] at hl
      omega
    · intro P _ _ _ _ _ _ hf
      omega
    · intro P _ _ _ _ _ _ hf
      omega
  | succ n ih =>
    obtain ⟨hs, hd, hb, hfb⟩ := ih
    exact ⟨statementAccepted_succ n hd, dispatchAccepted_succ n hb hfb,
      bodyAccepted_block_succ n hs hb, bodyAccepted_for_succ n hs hfb⟩

theorem parseVariableDeclaration_accepts {P0 P : Parser} (t : TokenType) (rest : List TokenType)
    (ht : t ∈ typeKinds) (h : Accepts P0 P (t :: .IDENTIFIER :: .SEMICOLON :: rest))
    (hrest : rest ≠ []) :
    ∃ P1, parseVariableDeclaration P = (some (.base .VARIABLE_DECL []), P1) ∧
      Accepts P0 P1 rest := by
  have h1 := h.next (by simp)
  have h2 := h1.next (by simp)
  obtain ⟨e3, h3⟩ := expect_accepts h2 hrest
  refine ⟨P.advance.advance.advance, ?_, h3⟩
  have hty : ¬ (P.current_token.type ≠ .INT ∧ P.current_token.type ≠ .FLOAT_KW ∧
      P.current_token.type ≠ .CHAR_KW) := by
    rw [type_of_kinds h.1]
    simp only [typeKinds, List.mem_cons, List.mem_singleton, List.not_mem_nil, or_false] at ht
    rcases ht with rfl | rfl | rfl <;> simp
  unfold parseVariableDeclaration
  rw [if_neg hty]
  simp only [type_of_kinds h1.1, ne_eq, not_true_eq_false, if_false, e3]

theorem parseVariableDeclarations_accepts (fuel : Nat) {P0 P : Parser} (types : List TokenType)
    (rest : List TokenType) (children : List ASTNode)
    (hty : ∀ t ∈ types, t ∈ typeKinds)
    (h : Accepts P0 P (Declaration.variableKinds types ++ .RIGHT_BRACE :: rest))
    (hf : types.length < fuel) :
    ∃ P1, parseVariableDeclarations fuel P children =
        some (children ++ types.map (fun _ => ASTNode.base .VARIABLE_DECL []), P1) ∧
      Accepts P0 P1 (.RIGHT_BRACE :: rest) := by
  induction types generalizing fuel P children with
  | nil =>
    obtain ⟨n, rfl⟩ : ∃ n, fuel = n + 1 := ⟨fuel - 1, by simp at hf; omega⟩
    have ht : P.current_token.type = .RIGHT_BRACE := type_of_kinds h.1
    refine ⟨P, ?_, h⟩
    simp [parseVariableDeclarations, ht]
  | cons t ts ih =>
    obtain ⟨n, rfl⟩ : ∃ n, fuel = n + 1 := ⟨fuel - 1, by simp at hf; omega⟩
    have ha : Accepts P0 P (t :: .IDENTIFIER :: .SEMICOLON ::
        (Declaration.variableKinds ts ++ .RIGHT_BRACE :: rest)) := h
    have htk := hty t (by simp)
    have hcur : P.current_token.type ≠ .RIGHT_BRACE ∧ P.current_token.type ≠ .EOF_TOKEN := by
      rw [type_of_kinds ha.1]
      simp only [typeKinds, List.mem_cons, List.mem_singleton, List.not_mem_nil, or_false] at htk
      rcases htk with rfl | rfl | rfl <;> exact ⟨by decide, by decide⟩
    obtain ⟨P1, e1, h1⟩ := parseVariableDeclaration_accepts t _ htk ha (by simp)
    obtain ⟨P2, e2, h2⟩ := ih n (children ++ [ASTNode.base .VARIABLE_DECL []])
      (fun x hx => hty x (List.mem_cons_of_mem _ hx)) h1 (by simp at hf; omega)
    refine ⟨P2, ?_, h2⟩
    rw [parseVariableDeclarations, if_pos hcur, e1]
    simp only [e2, List.map_cons, List.append_assoc, List.singleton_append]

theorem variableKinds_length (types : List TokenType) :
    (Declaration.variableKinds types).length = 3 * types.length := by
  induction types with
  | nil => rfl
  | cons t ts ih =>
    simp only [Declaration.variableKinds, List.length_cons, ih]
    omega

/-- A variables block of the grammar is accepted by `parseVariablesBlock`. -/
theorem parseVariablesBlock_accepts (fuel : Nat) (P : Parser) (types rest : List TokenType)
    (hwf : (Declaration.variablesBlock types).wellFormed = true)
    (hk : P.kinds = (Declaration.variablesBlock types).kinds ++ rest) (hrest : rest ≠ [])
    (hf : P.kinds.length ≤ fuel) :
    ∃ P1, parseVariablesBlock fuel P =
        some (some (Declaration.variablesBlock types).node, P1) ∧ Accepts P P1 rest := by
  simp only [Declaration.wellFormed, List.all_eq_true, decide_eq_true_eq] at hwf
  have h0 : Accepts P P (.VARIABLES :: .LEFT_BRACE ::
      (Declaration.variableKinds types ++ .RIGHT_BRACE :: rest)) :=
    Accepts.start (by rw [hk]; simp [Declaration.kinds])
  have hlen : types.length < fuel := by
    have hl := variableKinds_length types
    rw [h0.1] at hf
    simp only [List.length_cons, List.length_append, hl] at hf
    omega
  obtain ⟨e1, h1⟩ := expect_accepts h0 (by simp)
  obtain ⟨e2, h2⟩ := expect_accepts h1 (by simp)
  obtain ⟨P3, e3, h3⟩ := parseVariableDeclarations_accepts fuel types rest [] hwf h2 hlen
  obtain ⟨e4, h4⟩ := expect_accepts h3 hrest
  refine ⟨P3.advance, ?_, h4⟩
  unfold parseVariablesBlock
  simp only [e1, e2, e3, e4, Declaration.node, List.nil_append]

/-- An event handler of the grammar is accepted by `parseEventHandler`. -/
theorem parseEventHandler_accepts (fuel : Nat) (P : Parser) (event : TokenType) (withId : Bool)
    (body : List Statement) (rest : List TokenType)
    (hwf : (Declaration.eventHandler event withId body).wellFormed = true)
    (hk : P.kinds = (Declaration.eventHandler event withId body).kinds ++ rest)
    (hrest : rest ≠ []) (hf : 3 * P.kinds.length ≤ fuel + 2) :
    ∃ P1, parseEventHandler fuel P =
        some (some (Declaration.eventHandler event withId body).node, P1) ∧
      Accepts P P1 rest := by
  simp only [Declaration.wellFormed, Bool.and_eq_true, decide_eq_true_eq] at hwf
  have hev : isEventKind event = true := by
    have := hwf.1
    simp only [eventKinds, List.mem_cons, List.mem_singleton, List.not_mem_nil, or_false] at this
    rcases this with rfl | rfl | rfl | rfl <;> rfl
  have h0 : Accepts P P (.ON :: event :: ((if withId then [TokenType.INTEGER] else []) ++
      .LEFT_BRACE :: (Statement.kindsOfList body ++ .RIGHT_BRACE :: rest))) :=
    Accepts.start (by rw [hk]; simp [Declaration.kinds])
  obtain ⟨e1, h1⟩ := expect_accepts h0 (by simp)
  have h2 := h1.next (by simp)
  have h3 : ∃ P3, (if P.advance.advance.current_token.type = .INTEGER
        then P.advance.advance.advance else P.advance.advance) = P3 ∧
      Accepts P P3 (.LEFT_BRACE :: (Statement.kindsOfList body ++ .RIGHT_BRACE :: rest)) := by
    cases withId with
    | true =>
      have h2a : Accepts P P.advance.advance (.INTEGER :: .LEFT_BRACE ::
          (Statement.kindsOfList body ++ .RIGHT_BRACE :: rest)) := h2
      exact ⟨_, by rw [if_pos (type_of_kinds h2a.1)], h2a.next (by simp)⟩
    | false =>
      have h2a : Accepts P P.advance.advance (.LEFT_BRACE ::
          (Statement.kindsOfList body ++ .RIGHT_BRACE :: rest)) := h2
      exact ⟨_, by rw [if_neg (by rw [type_of_kinds h2a.1]; decide)], h2a⟩
  obtain ⟨P3, e3, h3⟩ := h3
  obtain ⟨e4, h4⟩ := expect_accepts h3 (by simp)
  obtain ⟨P5, e5, h5⟩ := (statements_accepted fuel).2.2.1 _ body rest [] hwf.2 h4.1 hrest
    (by
      rw [h4.1]
      rw [h0.1] at hf
      simp only [List.length_cons, List.length_append] at hf ⊢
      omega)
  have h5a := h4.andAlso h5
  obtain ⟨e6, h6⟩ := expect_accepts h5a hrest
  refine ⟨P5.advance, ?_, h6⟩
  unfold parseEventHandler
  simp only [e1, type_of_kinds h1.1, hev, if_true, e3, e4, e5, e6, Declaration.node,
    List.nil_append]

/-- A declaration of the grammar starts with `variables` or `on`. -/
theorem declaration_kinds_head (d : Declaration) :
    ∃ k ks, d.kinds = k :: ks ∧ (k = .VARIABLES ∨ k = .ON) := by
  cases d <;> simp [Declaration.kinds]

theorem parseTopLevelDeclaration_accepts (fuel : Nat) (P : Parser) (d : Declaration)
    (rest : List TokenType) (hwf : d.wellFormed = true) (hk : P.kinds = d.kinds ++ rest)
    (hrest : rest ≠ []) (hf : 3 * P.kinds.length ≤ fuel + 2) :
    ∃ P1, parseTopLevelDeclaration fuel P = some (some d.node, P1) ∧ Accepts P P1 rest := by
  cases d with
  | variablesBlock types =>
    have ht : P.current_token.type = .VARIABLES := type_of_kinds (by rw [hk]; rfl)
    have hl := kinds_length_pending P
    obtain ⟨P1, e1, h1⟩ := parseVariablesBlock_accepts fuel P types rest hwf hk hrest
      (by
        have hl2 := congrArg List.length hk
        obtain ⟨r, rs, hr⟩ := List.exists_cons_of_ne_nil hrest
        simp only [Declaration.kinds, List.length_cons, List.length_append, hr] at hl2
        omega)
    refine ⟨P1, ?_, h1⟩
    unfold parseTopLevelDeclaration
    simp only [ht, e1]
  | eventHandler event withId body =>
    have ht : P.current_token.type = .ON := type_of_kinds (by rw [hk]; rfl)
    obtain ⟨P1, e1, h1⟩ := parseEventHandler_accepts fuel P event withId body rest hwf hk hrest hf
    refine ⟨P1, ?_, h1⟩
    unfold parseTopLevelDeclaration
    simp only [ht, e1]

theorem parseDeclarations_accepts (fuel : Nat) {P0 P : Parser} (program : List Declaration)
    (children : List ASTNode) (hwf : ∀ d ∈ program, d.wellFormed = true)
    (h : Accepts P0 P (Declaration.kindsOfList program ++ [.EOF_TOKEN]))
    (hflag : P0.has_errors = false) (hf : 3 * P.kinds.length ≤ fuel) :
    ∃ P1, parseDeclarations fuel P children = some (children ++ program.map Declaration.node, P1) ∧
      Accepts P0 P1 [.EOF_TOKEN] := by
  induction program generalizing fuel P children with
  | nil =>
    have hl := kinds_length_pending P
    obtain ⟨n, rfl⟩ : ∃ n, fuel = n + 1 := ⟨fuel - 1, by omega⟩
    have ht : P.current_token.type = .EOF_TOKEN := type_of_kinds h.1
    refine ⟨P, ?_, h⟩
    simp [parseDeclarations, ht]
  | cons d ds ih =>
    have hl := kinds_length_pending P
    obtain ⟨n, rfl⟩ : ∃ n, fuel = n + 1 := ⟨fuel - 1, by omega⟩
    obtain ⟨k, ks, hdk, hh⟩ := declaration_kinds_head d
    have hk2 : P.kinds = d.kinds ++ (Declaration.kindsOfList ds ++ [.EOF_TOKEN]) := by
      rw [h.1]; simp [Declaration.kindsOfList]
    have ht : P.current_token.type = k := type_of_kinds (by rw [hk2, hdk]; rfl)
    have hcond : P.current_token.type ≠ .EOF_TOKEN ∧ P.has_errors = false := by
      rw [ht, h.2.2, hflag]
      rcases hh with rfl | rfl <;> exact ⟨by decide, rfl⟩
    obtain ⟨P1, e1, h1⟩ := parseTopLevelDeclaration_accepts n P d _ (hwf d (by simp)) hk2
      (by simp) (by omega)
    have hlen : P1.kinds.length < P.kinds.length := by
      rw [h1.1, hk2, hdk]
      simp
      omega
    obtain ⟨P2, e2, h2⟩ := ih n (children ++ [d.node])
      (fun x hx => hwf x (List.mem_cons_of_mem _ hx)) (h.andAlso h1) (by omega)
    refine ⟨P2, ?_, h2⟩
    rw [parseDeclarations, if_pos hcond, e1]
    simp only [e2, List.map_cons, List.append_assoc, List.singleton_append]

theorem kinds_new (source : String) :
    (Parser.new (Lexer.new source.toList)).kinds = (tokenize source).map Token.type := by
  have hs : (Parser.new (Lexer.new source.toList)).stream = (Lexer.new source.toList).tokens := by
    rw [Lexer.tokens_unfold]
    rfl
  unfold kinds tokenize
  rw [hs]

end Parser

/-- C6: every program derivable from the grammar of section 4.2 (operands and
binary operators as listed, call arguments without `)`, `for` headers
without parentheses and with exactly two `;`) is accepted by `Parser::parse`
with zero diagnostics.  The `PROGRAM` node returned has one child per top-level
declaration, in source order: a `BLOCK_STMT` with one `VARIABLE_DECL` child per
declaration for a variables block, and a `FUNCTION` node with one child per
statement of the body for an event handler. -/
theorem grammar_accepted (source : String) (program : List Declaration)
    (hwf : ∀ d ∈ program, d.wellFormed = true)
    (hk : (tokenize source).map Token.type =
      Declaration.kindsOfList program ++ [.EOF_TOKEN]) :
    (parseSource source).2.getErrors = [] ∧
    (parseSource source).1 = some (ASTNode.base .PROGRAM (program.map Declaration.node)) := by
  have hk0 := Parser.kinds_new source
  rw [hk] at hk0
  have hlen := (Parser.new_next source.toList).2
  have hl := Parser.kinds_length_pending (Parser.new (Lexer.new source.toList))
  obtain ⟨P1, e1, h1⟩ := Parser.parseDeclarations_accepts (parseFuel source) program [] hwf
    (Parser.Accepts.start hk0) rfl
    (by unfold parseFuel; have : source.length = source.toList.length := rfl; omega)
  have herr : P1.errors = [] := h1.2.1
  have hflag : P1.has_errors = false := h1.2.2
  have hp : Parser.parse (parseFuel source) (Parser.new (Lexer.new source.toList)) =
      some (some (ASTNode.base .PROGRAM (program.map Declaration.node)), P1) := by
    unfold Parser.parse Parser.parseProgram
    rw [e1]
    simp only [hflag, List.nil_append]
    rfl
  unfold parseSource
  rw [hp]
  exact ⟨herr, rfl⟩

/-- C6 at the program of the end-to-end scenario: one variables block with one
declaration, and a `start` handler with one assignment. -/
theorem grammar_accepted_witness :
    (parseSource "variables \x7b int speed; \x7d\non start \x7b speed = 1; \x7d").2.getErrors = [] ∧
    (parseSource "variables \x7b int speed; \x7d\non start \x7b speed = 1; \x7d").1 =
      some (ASTNode.base .PROGRAM
        [ASTNode.base .BLOCK_STMT [ASTNode.base .VARIABLE_DECL []],
         ASTNode.base .FUNCTION [ASTNode.base .EXPRESSION_STMT []]]) :=
  grammar_accepted "variables \x7b int speed; \x7d\non start \x7b speed = 1; \x7d"
    [.variablesBlock [.INT], .eventHandler .START false [.assign (.operand .INTEGER)]]
    (by decide) (by decide)

/-! ## The end-to-end scenario -/

/-- C2 (defect in the code): for the scenario source the parser records no
diagnostic and returns a tree, and the analysis of that tree succeeds and
writes no diagnostic, but the symbol table read back after it is empty, where
the claim has two symbols, the variable `speed` and a function for the `start`
handler.  The parser builds base-class nodes without a name, so no
`dynamic_cast` of the analyzer succeeds and `addSymbol` is never called.
`syntaxCheckFromString`, which runs the two steps, returns `true` and leaves
the same empty table. -/
theorem compile_speed_symbol_table :
    (parseSource speedSource).2.getErrors = [] ∧
    (parseSource speedSource).1.isSome = true ∧
    (SemanticAnalyzer.new.analyze (parseSource speedSource).1).1 = true ∧
    (SemanticAnalyzer.new.analyze (parseSource speedSource).1).2.diagnostics = [] ∧
    (SemanticAnalyzer.new.analyze (parseSource speedSource).1).2.getSymbolTable.size = 0 ∧
    (SemanticAnalyzer.new.analyze (parseSource speedSource).1).2.getSymbolTable.getAllSymbols
      = [] ∧
    (SemanticAnalyzer.new.analyze (parseSource speedSource).1).2.getSymbolTable.findSymbol
      "speed" = none ∧
    (CAPLCompiler.new.syntaxCheckFromString speedSource).1 = true ∧
    (CAPLCompiler.new.syntaxCheckFromString speedSource).2.getErrors = [] ∧
    (CAPLCompiler.new.syntaxCheckFromString
      speedSource).2.semantic_analyzer.getSymbolTable.size = 0 := by
  decide

/-- C3 (defect in the code): the tree the parser returns for the scenario
source holds neither the name `speed`, nor its type, nor the assignment: the
declaration is a childless base-class `VARIABLE_DECL` node and the handler a
base-class `FUNCTION` node over a childless `EXPRESSION_STMT`.  The generator
casts a `VARIABLE_DECL` or `FUNCTION` node to `VariableDeclNode` or
`FunctionNode` by its kind alone; on a base-class object the cast and the
reads are undefined, so the generation for this tree, and with it the
compilation of the source, has no defined result: no text with a declaration
of `speed` and an assignment is produced. -/
theorem compile_speed_output :
    (parseSource speedSource).1 =
      some (ASTNode.base .PROGRAM
        [ASTNode.base .BLOCK_STMT [ASTNode.base .VARIABLE_DECL []],
         ASTNode.base .FUNCTION [ASTNode.base .EXPRESSION_STMT []]]) ∧
    (∀ (children : List ASTNode) (line column indent : Nat),
      CodeGenerator.generateNode (.mk .VARIABLE_DECL .ASTNode children line column) indent
        = none ∧
      CodeGenerator.generateNode (.mk .FUNCTION .ASTNode children line column) indent = none) ∧
    (∀ T : SymbolTable, CodeGenerator.generate (parseSource speedSource).1 T true = none) ∧
    CAPLCompiler.new.compileFromString speedSource true = none := by
  refine ⟨by rfl, fun children line column indent => ⟨?_, ?_⟩, fun T => by rfl, by rfl⟩
  · rw [CodeGenerator.generateNode]
    rfl
  · rw [CodeGenerator.generateNode]
    rfl

/-! ## The symbol table: insertion -/

namespace SymbolTable

theorem assign_of_lookup_none (m : List (String × Symbol)) (key : String) (value : Symbol)
    (h : m.lookup key = none) : assign m key value = m ++ [(key, value)] := by
  induction m with
  | nil => rfl
  | cons e rest ih =>
    obtain ⟨k, v⟩ := e
    by_cases hk : k = key
    · subst hk
      simp [List.lookup] at h
    · have hk2 : (key == k) = false := by
        simpa using fun h' => hk h'.symm
      rw [List.lookup, hk2] at h
      simp [assign, hk, ih h]

theorem lookup_append_new (m : List (String × Symbol)) (key : String) (value : Symbol)
    (h : m.lookup key = none) : (m ++ [(key, value)]).lookup key = some value := by
  induction m with
  | nil => simp [List.lookup]
  | cons e rest ih =>
    obtain ⟨k, v⟩ := e
    by_cases hk : key = k
    · subst hk
      simp [List.lookup] at h
    · have hk2 : (key == k) = false := by simpa using hk
      rw [List.lookup, hk2] at h
      simp only [List.cons_append, List.lookup, hk2]
      exact ih h

theorem lookup_append_other (m : List (String × Symbol)) (key n : String) (value : Symbol)
    (hn : n ≠ key) : (m ++ [(key, value)]).lookup n = m.lookup n := by
  induction m with
  | nil =>
    have : (n == key) = false := by simpa using hn
    simp [List.lookup, this]
  | cons e rest ih =>
    obtain ⟨k, v⟩ := e
    simp only [List.cons_append, List.lookup]
    cases (n == k) <;> simp [ih]

end SymbolTable

/-- C4: two symbols with the same name.  Once `addSymbol s1` has succeeded,
`addSymbol s2` returns `false` and leaves the table as it was: `findSymbol`
of the name still returns `s1`, every field included, and `size` is unchanged. -/
theorem addSymbol_duplicate_rejected (T : SymbolTable) (s1 s2 : Symbol)
    (hname : s1.name = s2.name) (hadd : (T.addSymbol s1).1 = true) :
    ((T.addSymbol s1).2.addSymbol s2).1 = false ∧
    ((T.addSymbol s1).2.addSymbol s2).2 = (T.addSymbol s1).2 ∧
    ((T.addSymbol s1).2.addSymbol s2).2.findSymbol s1.name = some s1 ∧
    ((T.addSymbol s1).2.addSymbol s2).2.size = (T.addSymbol s1).2.size := by
  have hnone : T.symbols.lookup s1.name = none := by
    unfold SymbolTable.addSymbol at hadd
    cases h : T.symbols.lookup s1.name with
    | none => rfl
    | some v => simp [h] at hadd
  have h1 : (T.addSymbol s1).2 = { symbols := T.symbols ++ [(s1.name, s1)] } := by
    simp [SymbolTable.addSymbol, hnone, SymbolTable.assign_of_lookup_none]
  have hfind : (T.symbols ++ [(s1.name, s1)]).lookup s2.name = some s1 := by
    rw [← hname]; exact SymbolTable.lookup_append_new _ _ _ hnone
  have h2 : ((T.addSymbol s1).2.addSymbol s2) = (false, (T.addSymbol s1).2) := by
    rw [h1]; simp [SymbolTable.addSymbol, hfind]
  rw [h2]
  refine ⟨rfl, rfl, ?_, rfl⟩
  rw [h1]
  exact SymbolTable.lookup_append_new _ _ _ hnone

/-- C4 at the table holding nothing, a variable `speed` and a function `speed`. -/
theorem addSymbol_duplicate_rejected_witness :
    ((SymbolTable.empty.addSymbol (Symbol.new "speed" .VARIABLE "int")).2.addSymbol
        ⟨"speed", .FUNCTION, "void", 3, 7⟩).1 = false ∧
    ((SymbolTable.empty.addSymbol (Symbol.new "speed" .VARIABLE "int")).2.addSymbol
        ⟨"speed", .FUNCTION, "void", 3, 7⟩).2 =
      (SymbolTable.empty.addSymbol (Symbol.new "speed" .VARIABLE "int")).2 ∧
    ((SymbolTable.empty.addSymbol (Symbol.new "speed" .VARIABLE "int")).2.addSymbol
        ⟨"speed", .FUNCTION, "void", 3, 7⟩).2.findSymbol "speed" =
      some (Symbol.new "speed" .VARIABLE "int") ∧
    ((SymbolTable.empty.addSymbol (Symbol.new "speed" .VARIABLE "int")).2.addSymbol
        ⟨"speed", .FUNCTION, "void", 3, 7⟩).2.size =
      (SymbolTable.empty.addSymbol (Symbol.new "speed" .VARIABLE "int")).2.size :=
  addSymbol_duplicate_rejected SymbolTable.empty (Symbol.new "speed" .VARIABLE "int")
    ⟨"speed", .FUNCTION, "void", 3, 7⟩ (by decide) (by decide)

/-- C5: a symbol whose name is not in the table.  `addSymbol` returns `true`;
afterwards `findSymbol` of the name returns the symbol, `hasSymbol` is true,
`size` has grown by exactly one and `findSymbol` of every other name is
unchanged. -/
theorem addSymbol_new_name (T : SymbolTable) (s : Symbol)
    (hnew : T.hasSymbol s.name = false) :
    (T.addSymbol s).1 = true ∧
    (T.addSymbol s).2.findSymbol s.name = some s ∧
    (T.addSymbol s).2.hasSymbol s.name = true ∧
    (T.addSymbol s).2.size = T.size + 1 ∧
    ∀ n : String, n ≠ s.name → (T.addSymbol s).2.findSymbol n = T.findSymbol n := by
  have hnone : T.symbols.lookup s.name = none := by
    unfold SymbolTable.hasSymbol at hnew
    cases h : T.symbols.lookup s.name with
    | none => rfl
    | some v => simp [h] at hnew
  have h1 : T.addSymbol s = (true, { symbols := T.symbols ++ [(s.name, s)] }) := by
    simp [SymbolTable.addSymbol, hnone, SymbolTable.assign_of_lookup_none]
  rw [h1]
  refine ⟨rfl, ?_, ?_, ?_, ?_⟩
  · exact SymbolTable.lookup_append_new _ _ _ hnone
  · simp [SymbolTable.hasSymbol, SymbolTable.lookup_append_new _ _ _ hnone]
  · simp [SymbolTable.size]
  · intro n hn
    exact SymbolTable.lookup_append_other _ _ _ _ hn

/-- C5 at the empty table and a variable `speed`. -/
theorem addSymbol_new_name_witness :
    SymbolTable.empty.hasSymbol "speed" = false ∧
    (SymbolTable.empty.addSymbol (Symbol.new "speed" .VARIABLE "int")).1 = true ∧
    (SymbolTable.empty.addSymbol (Symbol.new "speed" .VARIABLE "int")).2.findSymbol "speed" =
      some (Symbol.new "speed" .VARIABLE "int") ∧
    (SymbolTable.empty.addSymbol (Symbol.new "speed" .VARIABLE "int")).2.size =
      SymbolTable.empty.size + 1 :=
  have h := addSymbol_new_name SymbolTable.empty (Symbol.new "speed" .VARIABLE "int") (by decide)
  ⟨by decide, h.1, h.2.1, h.2.2.2.1⟩

/-! ## The lexer: comments, string and character literals, unknown characters -/

namespace Lexer

theorem getElem?_rest (L : Lexer) (i : Nat) : L.source[L.position + i]? = L.rest[i]? := by
  unfold rest
  rw [List.getElem?_drop]

theorem head_of_rest {L : Lexer} {c : Char} {r : List Char} (h : L.rest = c :: r) :
    L.source[L.position]? = some c := by
  have := getElem?_rest L 0
  rw [h] at this
  simpa using this

theorem second_of_rest {L : Lexer} {c : Char} {r : List Char} (h : L.rest = c :: r) :
    L.source[L.position + 1]? = r.head? := by
  have := getElem?_rest L 1
  rw [h] at this
  rw [this]
  cases r <;> simp

theorem none_of_rest {L : Lexer} (h : L.rest = []) : L.source[L.position]? = none := by
  have := getElem?_rest L 0
  rw [h] at this
  simpa using this

theorem rest_shift (L : Lexer) (k : Nat) : (L.shift k).rest = L.rest.drop k := by
  unfold rest shift
  simp only [List.drop_drop]

theorem rest_bump {L : Lexer} {c : Char} {r : List Char} (h : L.rest = c :: r) :
    L.bump.rest = r := by
  have := rest_of_some (head_of_rest h)
  rw [h] at this
  exact (List.cons.inj this).2.symm

theorem rest_bumpLine {L : Lexer} {c : Char} {r : List Char} (d : Char) (h : L.rest = c :: r) :
    (L.bumpLine d).rest = r := by
  have : (L.bumpLine d).rest = L.bump.rest := by
    unfold bumpLine bump rest
    split <;> rfl
  rw [this, rest_bump h]

theorem remaining_eq_rest (L : Lexer) : L.remaining = L.rest.length := by
  unfold remaining rest
  rw [List.length_drop]

theorem nextTokenAux_mono (fuel : Nat) (L : Lexer) (r : Token × Lexer)
    (h : nextTokenAux fuel L = some r) : nextTokenAux (fuel + 1) L = some r := by
  induction fuel generalizing L with
  | zero => simp [nextTokenAux] at h
  | succ n ih =>
    rw [nextTokenAux] at h ⊢
    generalize skipWhitespace L.remaining L = L1 at h ⊢
    cases hcur : L1.source[L1.position]? with
    | none =>
      rw [hcur] at h
      exact h
    | some current =>
      rw [hcur] at h
      dsimp only at h ⊢
      by_cases h1 : current = '/' ∧ L1.source[L1.position + 1]? = some '/'
      · rw [if_pos h1] at h ⊢
        exact ih _ h
      · rw [if_neg h1] at h ⊢
        by_cases h2 : current = '/' ∧ L1.source[L1.position + 1]? = some '*'
        · rw [if_pos h2] at h ⊢
          exact ih _ h
        · rw [if_neg h2] at h ⊢
          exact h

/-- Fuel above the number of characters left is enough for `nextTokenAux`. -/
theorem nextTokenAux_fuel (fuel : Nat) (L : Lexer) (hf : L.remaining < fuel) :
    nextTokenAux fuel L = some (nextToken L) := by
  obtain ⟨d, rfl⟩ : ∃ d, fuel = L.remaining + 1 + d := ⟨fuel - (L.remaining + 1), by omega⟩
  induction d with
  | zero => exact (nextToken_spec L).1
  | succ k ih => exact nextTokenAux_mono _ _ _ (ih (by omega))

theorem skipWhitespace_of_not_space (fuel : Nat) (L : Lexer) (c : Char)
    (h : L.source[L.position]? = some c) (hs : isspace c = false) :
    skipWhitespace fuel L = L := by
  cases fuel with
  | zero => rfl
  | succ n => simp [skipWhitespace, h, hs]

/-- The body of `nextToken` without the bound on its self-calls. -/
theorem nextToken_unfold (L L1 : Lexer) (h1 : L1 = skipWhitespace L.remaining L) :
    nextToken L =
      match L1.source[L1.position]? with
      | none => (⟨.EOF_TOKEN, "", L1.line, L1.column⟩, L1)
      | some current =>
        if current = '/' ∧ L1.source[L1.position + 1]? = some '/' then
          nextToken (skipLineComment L1.remaining L1)
        else if current = '/' ∧ L1.source[L1.position + 1]? = some '*' then
          nextToken (skipBlockComment L1.remaining (L1.shift 2))
        else lexToken L1 current := by
  have hs := (nextToken_spec L).1
  rw [nextTokenAux] at hs
  have hws := skipWhitespace_follows L.remaining L
  rw [← h1] at hs hws
  have hr1 := remaining_le_of_follows hws
  cases hcur : L1.source[L1.position]? with
  | none =>
    rw [hcur] at hs
    exact (Option.some.inj hs).symm
  | some current =>
    rw [hcur] at hs
    have hpos := remaining_pos hcur
    simp only at hs ⊢
    by_cases c1 : current = '/' ∧ L1.source[L1.position + 1]? = some '/'
    · rw [if_pos c1] at hs ⊢
      have hp := skipLineComment_progress L1 current hcur (by rw [c1.1]; decide)
      have hfo := skipLineComment_follows L1.remaining L1
      have hlt := remaining_lt_of_follows hfo.1 hp hpos
      rw [nextTokenAux_fuel _ _ (by omega)] at hs
      exact (Option.some.inj hs).symm
    · rw [if_neg c1] at hs ⊢
      by_cases c2 : current = '/' ∧ L1.source[L1.position + 1]? = some '*'
      · rw [if_pos c2] at hs ⊢
        have hfo := skipBlockComment_follows L1.remaining (L1.shift 2)
        have hlt : (skipBlockComment L1.remaining (L1.shift 2)).remaining < L1.remaining := by
          apply @remaining_lt_of_follows L1 _ hfo.1 _ hpos
          have : L1.position + 2 ≤
              (skipBlockComment L1.remaining (L1.shift 2)).position := hfo.2
          omega
        have hs2 : nextTokenAux L.remaining (skipBlockComment L1.remaining (L1.shift 2)) =
            some (nextToken L) := hs
        rw [nextTokenAux_fuel _ _ (by omega)] at hs2
        exact (Option.some.inj hs2).symm
      · rw [if_neg c2] at hs ⊢
        exact (Option.some.inj hs).symm

/-- A whitespace character at the cursor is passed over, the line counter
moving on a newline. -/
theorem nextToken_space (L : Lexer) (c : Char) (h : L.source[L.position]? = some c)
    (hs : isspace c = true) : nextToken L = nextToken (L.bumpLine c) := by
  have hrem := remaining_bumpLine (d := c) h
  have hsk : skipWhitespace L.remaining L =
      skipWhitespace (L.bumpLine c).remaining (L.bumpLine c) := by
    rw [← hrem, skipWhitespace]
    simp [h, hs]
  rw [nextToken_unfold L _ rfl, nextToken_unfold (L.bumpLine c) _ rfl, hsk]

/-- A line comment at the cursor is passed over. -/
theorem nextToken_line_comment (L : Lexer) (h0 : L.source[L.position]? = some '/')
    (h1 : L.source[L.position + 1]? = some '/') :
    nextToken L = nextToken (skipLineComment L.remaining L) := by
  rw [nextToken_unfold L L (skipWhitespace_of_not_space _ L '/' h0 (by decide)).symm]
  simp [h0, h1]

/-- A block comment at the cursor is passed over. -/
theorem nextToken_block_comment (L : Lexer) (h0 : L.source[L.position]? = some '/')
    (h1 : L.source[L.position + 1]? = some '*') :
    nextToken L = nextToken (skipBlockComment L.remaining (L.shift 2)) := by
  rw [nextToken_unfold L L (skipWhitespace_of_not_space _ L '/' h0 (by decide)).symm]
  simp [h0, h1]

/-- The line-comment loop stops at the first newline, or at the end of the
input when there is none, and counts one column for each character passed. -/
theorem skipLineComment_spec (fuel : Nat) (L : Lexer) (c tail : List Char)
    (hr : L.rest = c ++ tail) (hc : '\n' ∉ c) (ht : ∀ d, tail.head? = some d → d = '\n')
    (hf : L.remaining ≤ fuel) : skipLineComment fuel L = L.shift c.length := by
  induction c generalizing L fuel with
  | nil =>
    cases tail with
    | nil =>
      have := none_of_rest hr
      cases fuel <;> simp [skipLineComment, this, shift_zero]
    | cons d tail2 =>
      have hd := head_of_rest hr
      have := ht d rfl
      cases fuel <;> simp [skipLineComment, hd, this, shift_zero]
  | cons a c2 ih =>
    have ha := head_of_rest hr
    have hb := remaining_bump ha
    cases fuel with
    | zero => omega
    | succ n =>
      have hne : a ≠ '\n' := fun e => hc (by simp [e])
      rw [skipLineComment]
      simp only [ha, hne, ne_eq, not_false_eq_true, if_true]
      rw [ih n L.bump (rest_bump hr) (fun hm => hc (List.mem_cons_of_mem _ hm)) (by omega),
        bump_shift]
      rfl


theorem takeWhile_append_of_all (p : Char → Bool) (cs tail : List Char)
    (h : cs.all p = true) (ht : ∀ d, tail.head? = some d → p d = false) :
    (cs ++ tail).takeWhile p = cs := by
  induction cs with
  | nil =>
    cases tail with
    | nil => rfl
    | cons d t =>
      have := ht d rfl
      simp [List.takeWhile_cons, this]
  | cons c rest ih =>
    simp only [List.all_cons, Bool.and_eq_true] at h
    rw [List.cons_append, List.takeWhile_cons_of_pos h.1, ih h.2]

/-- A word at the cursor, followed by a character that cannot continue it or by
the end of the input, is one token: its keyword kind if it is in the table,
`IDENTIFIER` if not. -/
theorem nextToken_word (L : Lexer) (w : String) (tail : List Char) (hw : isWord w = true)
    (hr : L.rest = w.data ++ tail) (ht : ∀ d, tail.head? = some d → isIdentChar d = false) :
    nextToken L =
      (⟨if isKeyword w then getKeywordType w else .IDENTIFIER, w, L.line, L.column⟩,
        L.shift w.length) := by
  obtain ⟨data⟩ := w
  unfold isWord at hw
  cases data with
  | nil => simp at hw
  | cons c cs =>
    simp only [Bool.and_eq_true, Bool.or_eq_true, beq_iff_eq] at hw
    obtain ⟨hc, hcs⟩ := hw
    obtain ⟨h1, h2, h3, h4⟩ := letter_not_space c hc
    have hget : L.source[L.position]? = some c := head_of_rest hr
    have hall : (c :: cs ++ tail).takeWhile isIdentChar = c :: cs :=
      takeWhile_append_of_all _ _ _ (by simp [h4, hcs]) ht
    have hscan := scanIdentifier_spec L.remaining L "" (Nat.le_refl _)
    rw [hr, hall] at hscan
    rw [nextToken_of_start _ c hget h1 h2]
    unfold lexToken
    simp only [h3, hc, hscan]
    have he : ("" : String).data = [] := rfl
    simp only [Bool.false_eq_true, if_false, if_true, he, List.nil_append]
    split <;> rfl

end Lexer

/-- C11: line comments.  For every comment text `c` without a newline, lexing
`a //` + `c` + newline + `b` gives exactly the identifier `a` on line 1, the
identifier `b` on line 2 at column 1, and end-of-input: the comment gives no
token and ends at the newline. -/
theorem line_comment_tokens (c : String) (hc : '\n' ∉ c.toList) :
    tokenize ("a //" ++ c ++ "\n" ++ "b") =
      [⟨.IDENTIFIER, "a", 1, 1⟩, ⟨.IDENTIFIER, "b", 2, 1⟩, ⟨.EOF_TOKEN, "", 2, 2⟩] := by
  obtain ⟨cs⟩ := c
  have hsrc : ("a //" ++ (⟨cs⟩ : String) ++ "\n" ++ "b").toList =
      'a' :: ' ' :: '/' :: '/' :: (cs ++ ['\n', 'b']) := by
    simp [String.toList]
  unfold tokenize
  rw [hsrc]
  generalize hL0 : Lexer.new ('a' :: ' ' :: '/' :: '/' :: (cs ++ ['\n', 'b'])) = L0
  have r0 : L0.rest = "a".data ++ ' ' :: '/' :: '/' :: (cs ++ ['\n', 'b']) := by
    rw [← hL0]; rfl
  have p0 : L0.line = 1 ∧ L0.column = 1 := by rw [← hL0]; exact ⟨rfl, rfl⟩
  have t1 := Lexer.nextToken_word L0 "a" _ (by decide) r0 (by simp; decide)
  have r1 : (L0.shift 1).rest = ' ' :: '/' :: '/' :: (cs ++ ['\n', 'b']) := by
    rw [Lexer.rest_shift, r0]; rfl
  have t2 := Lexer.nextToken_space _ ' ' (Lexer.head_of_rest r1) (by decide)
  have r2 := Lexer.rest_bumpLine ' ' r1
  generalize hL2 : (L0.shift 1).bumpLine ' ' = L2 at t2 r2
  have p2 : L2.line = 1 := by rw [← hL2]; simp [Lexer.bumpLine, Lexer.shift, Lexer.bump, p0.1]
  have t3 := Lexer.nextToken_line_comment L2 (Lexer.head_of_rest r2)
    (by rw [Lexer.second_of_rest r2]; rfl)
  rw [Lexer.skipLineComment_spec _ L2 ('/' :: '/' :: cs) ['\n', 'b'] r2
    (by simpa using hc) (by simp) (Nat.le_refl _)] at t3
  have r3 : (L2.shift ('/' :: '/' :: cs).length).rest = ['\n', 'b'] := by
    rw [Lexer.rest_shift, r2]
    simp
  have t4 := Lexer.nextToken_space _ '\n' (Lexer.head_of_rest r3) (by decide)
  have r4 := Lexer.rest_bumpLine '\n' r3
  have p4 : ((L2.shift ('/' :: '/' :: cs).length).bumpLine '\n').line = 2 ∧
      ((L2.shift ('/' :: '/' :: cs).length).bumpLine '\n').column = 1 := by
    simp [Lexer.bumpLine, Lexer.shift, p2]
  generalize hL4 : (L2.shift ('/' :: '/' :: cs).length).bumpLine '\n' = L4 at t4 r4 p4
  have t5 := Lexer.nextToken_word L4 "b" [] (by decide) r4 (by simp)
  have r5 : (L4.shift 1).remaining = 0 := by
    rw [Lexer.remaining_eq_rest, Lexer.rest_shift, r4]; rfl
  have t6 := Lexer.nextToken_at_end _ r5
  rw [Lexer.tokens_unfold, t1]
  simp only [show (if isKeyword "a" = true then getKeywordType "a" else TokenType.IDENTIFIER)
    = TokenType.IDENTIFIER by decide]
  rw [if_neg (by decide)]
  rw [show ("a" : String).length = 1 by decide]
  rw [Lexer.tokens_unfold, t2, t3, t4, t5]
  simp only [show (if isKeyword "b" = true then getKeywordType "b" else TokenType.IDENTIFIER)
    = TokenType.IDENTIFIER by decide]
  rw [if_neg (by decide)]
  rw [show ("b" : String).length = 1 by decide]
  rw [Lexer.tokens_unfold, t6]
  simp [p0.1, p0.2, p4.1, p4.2, Lexer.shift]

/-- C11 at the comment text `total = 1; /* kept */`. -/
theorem line_comment_tokens_witness :
    '\n' ∉ "total = 1; /* kept */".toList ∧
    tokenize ("a //" ++ "total = 1; /* kept */" ++ "\n" ++ "b") =
      [⟨.IDENTIFIER, "a", 1, 1⟩, ⟨.IDENTIFIER, "b", 2, 1⟩, ⟨.EOF_TOKEN, "", 2, 2⟩] :=
  ⟨by decide, line_comment_tokens "total = 1; /* kept */" (by decide)⟩

namespace Lexer

/-- The block-comment loop, started inside a comment that is closed: it stops
just past the first `*/`. -/
theorem skipBlockComment_closed (fuel : Nat) (L : Lexer) (c tail : List Char)
    (hr : L.rest = c ++ '*' :: '/' :: tail) (hc : ¬ ['*', '/'] <:+: c)
    (hf : L.remaining ≤ fuel) : (skipBlockComment fuel L).rest = tail := by
  induction c generalizing L fuel with
  | nil =>
    have h0 := head_of_rest hr
    have h1 := second_of_rest hr
    have hlen : L.remaining = (tail.length + 1) + 1 := by rw [remaining_eq_rest, hr]; rfl
    cases fuel with
    | zero => omega
    | succ n =>
      rw [skipBlockComment]
      simp only [h0, h1, List.head?_cons, List.nil_append, and_self, if_true]
      show (L.shift 2).rest = tail
      rw [rest_shift, hr]
      rfl
  | cons a c2 ih =>
    have h0 := head_of_rest hr
    have hb := remaining_bumpLine (d := a) h0
    have hc2 : ¬ ['*', '/'] <:+: c2 := fun ⟨s, t, h⟩ => hc ⟨a :: s, t, by rw [← h]; rfl⟩
    cases fuel with
    | zero => omega
    | succ n =>
      rw [skipBlockComment]
      cases c2 with
      | nil =>
        have h1 : L.source[L.position + 1]? = some '*' := by rw [second_of_rest hr]; rfl
        simp only [h0, h1]
        rw [if_neg (by intro h; exact absurd h.2 (by decide))]
        exact ih n _ (rest_bumpLine a hr) hc2 (by omega)
      | cons b c3 =>
        have h1 : L.source[L.position + 1]? = some b := by rw [second_of_rest hr]; rfl
        simp only [h0, h1]
        rw [if_neg (by
          intro h
          apply hc
          rw [h.1, h.2]
          exact ⟨[], c3, rfl⟩)]
        exact ih n _ (rest_bumpLine a hr) hc2 (by omega)

end Lexer

/-- C12: block comments.  For every text `c` free of `*/`, lexing `x /*` + `c`
+ `*/ y` gives the identifier `x`, the identifier `y` and end-of-input: no
character of a closed comment contributes to a token.  For an unclosed comment
the loop test `position + 1 < length` leaves the last character of the input
unread: `x /*abc` gives the identifier `x`, then the identifier `c`, then
end-of-input. -/
theorem block_comment_tokens :
    (∀ c : String, ¬ ['*', '/'] <:+: c.toList →
      (tokenize ("x /*" ++ c ++ "*/ y")).map (fun t => (t.type, t.value)) =
        [(.IDENTIFIER, "x"), (.IDENTIFIER, "y"), (.EOF_TOKEN, "")]) ∧
    tokenize "x /*abc" =
      [⟨.IDENTIFIER, "x", 1, 1⟩, ⟨.IDENTIFIER, "c", 1, 7⟩, ⟨.EOF_TOKEN, "", 1, 8⟩] := by
  refine ⟨?_, by decide⟩
  intro c hc
  obtain ⟨cs⟩ := c
  have hsrc : ("x /*" ++ (⟨cs⟩ : String) ++ "*/ y").toList =
      'x' :: ' ' :: '/' :: '*' :: (cs ++ ['*', '/', ' ', 'y']) := by
    simp [String.toList]
  unfold tokenize
  rw [hsrc]
  generalize hL0 : Lexer.new ('x' :: ' ' :: '/' :: '*' :: (cs ++ ['*', '/', ' ', 'y'])) = L0
  have r0 : L0.rest = "x".data ++ ' ' :: '/' :: '*' :: (cs ++ ['*', '/', ' ', 'y']) := by
    rw [← hL0]; rfl
  have t1 := Lexer.nextToken_word L0 "x" _ (by decide) r0 (by simp; decide)
  have r1 : (L0.shift 1).rest = ' ' :: '/' :: '*' :: (cs ++ ['*', '/', ' ', 'y']) := by
    rw [Lexer.rest_shift, r0]; rfl
  have t2 := Lexer.nextToken_space _ ' ' (Lexer.head_of_rest r1) (by decide)
  have r2 := Lexer.rest_bumpLine ' ' r1
  generalize (L0.shift 1).bumpLine ' ' = L2 at t2 r2
  have t3 := Lexer.nextToken_block_comment L2 (Lexer.head_of_rest r2)
    (by rw [Lexer.second_of_rest r2]; rfl)
  have r2b : (L2.shift 2).rest = cs ++ '*' :: '/' :: [' ', 'y'] := by
    rw [Lexer.rest_shift, r2]; rfl
  have r3 := Lexer.skipBlockComment_closed L2.remaining (L2.shift 2) cs [' ', 'y'] r2b hc
    (by simp only [Lexer.remaining, Lexer.shift]; omega)
  generalize Lexer.skipBlockComment L2.remaining (L2.shift 2) = L3 at t3 r3
  have t4 := Lexer.nextToken_space _ ' ' (Lexer.head_of_rest r3) (by decide)
  have r4 := Lexer.rest_bumpLine ' ' r3
  generalize L3.bumpLine ' ' = L4 at t4 r4
  have t5 := Lexer.nextToken_word L4 "y" [] (by decide) r4 (by simp)
  have r5 : (L4.shift 1).remaining = 0 := by
    rw [Lexer.remaining_eq_rest, Lexer.rest_shift, r4]; rfl
  have t6 := Lexer.nextToken_at_end _ r5
  rw [Lexer.tokens_unfold, t1]
  simp only [show (if isKeyword "x" = true then getKeywordType "x" else TokenType.IDENTIFIER)
    = TokenType.IDENTIFIER by decide]
  rw [if_neg (by decide)]
  rw [show ("x" : String).length = 1 by decide]
  rw [Lexer.tokens_unfold, t2, t3, t4, t5]
  simp only [show (if isKeyword "y" = true then getKeywordType "y" else TokenType.IDENTIFIER)
    = TokenType.IDENTIFIER by decide]
  rw [if_neg (by decide)]
  rw [show ("y" : String).length = 1 by decide]
  rw [Lexer.tokens_unfold, t6]
  simp

/-- C12 at a comment text with stars, slashes and a newline. -/
theorem block_comment_tokens_witness :
    ¬ ['*', '/'] <:+: "* a / b\n **".toList ∧
    (tokenize ("x /*" ++ "* a / b\n **" ++ "*/ y")).map (fun t => (t.type, t.value)) =
      [(.IDENTIFIER, "x"), (.IDENTIFIER, "y"), (.EOF_TOKEN, "")] :=
  ⟨by decide, block_comment_tokens.1 "* a / b\n **" (by decide)⟩

theorem decodeString_quote (tail : List Char) : decodeString ('"' :: tail) = ([], some tail) := by
  cases tail <;> simp [decodeString]

theorem decodeString_other (c : Char) (tail : List Char) (hq : c ≠ '"') (hb : c ≠ '\\') :
    decodeString (c :: tail) = (c :: (decodeString tail).1, (decodeString tail).2) := by
  cases tail <;> simp [decodeString, hq, hb]

theorem decodeString_escape (e : Char) (tail : List Char) :
    decodeString ('\\' :: e :: tail) =
      (escapeValue e :: (decodeString tail).1, (decodeString tail).2) := by
  simp [decodeString]

theorem decodeString_lone : decodeString ['\\'] = (['\\'], none) := by
  simp [decodeString]

namespace Lexer

theorem stringEscape_eq (e : Char) : stringEscape e = escapeValue e := by
  unfold stringEscape escapeValue
  by_cases h1 : e = 'n'
  · rw [if_pos h1, if_pos h1]
  rw [if_neg h1, if_neg h1]
  by_cases h2 : e = 't'
  · rw [if_pos h2, if_pos h2]
  rw [if_neg h2, if_neg h2]
  by_cases h3 : e = 'r'
  · rw [if_pos h3, if_pos h3]
  rw [if_neg h3, if_neg h3]
  by_cases h4 : e = '\\'
  · rw [if_pos h4, h4]
  rw [if_neg h4]
  by_cases h5 : e = '"'
  · rw [if_pos h5, h5]
  rw [if_neg h5]

theorem charEscape_eq (e : Char) : charEscape e = escapeValue e := by
  unfold charEscape escapeValue
  by_cases h1 : e = 'n'
  · rw [if_pos h1, if_pos h1]
  rw [if_neg h1, if_neg h1]
  by_cases h2 : e = 't'
  · rw [if_pos h2, if_pos h2]
  rw [if_neg h2, if_neg h2]
  by_cases h3 : e = 'r'
  · rw [if_pos h3, if_pos h3]
  rw [if_neg h3, if_neg h3]
  by_cases h4 : e = '\\'
  · rw [if_pos h4, h4]
  rw [if_neg h4]
  by_cases h5 : e = Char.ofNat 39
  · rw [if_pos h5, h5]
  rw [if_neg h5]

/-- The string loop computes the specified decoding: it appends the decoded
content to the lexeme and stops on the closing quote, or at the end of the
input when the literal is not closed. -/
theorem scanString_spec (fuel : Nat) (L : Lexer) (acc : String) (hf : L.remaining ≤ fuel) :
    (scanString fuel L acc).1 = ⟨acc.data ++ (decodeString L.rest).1⟩ ∧
      match (decodeString L.rest).2 with
      | some tail => (scanString fuel L acc).2.rest = '"' :: tail
      | none => (scanString fuel L acc).2.rest = [] := by
  induction fuel generalizing L acc with
  | zero =>
    have h0 : L.rest = [] := by
      have := remaining_eq_rest L
      exact List.length_eq_zero.mp (by omega)
    simp [scanString, h0, decodeString]
  | succ n ih =>
    rw [scanString]
    cases hrest : L.rest with
    | nil =>
      simp [none_of_rest hrest, decodeString, hrest]
    | cons c r =>
      have h0 := head_of_rest hrest
      have hb := remaining_bump h0
      have rb := rest_bump hrest
      simp only [h0]
      by_cases hq : c = '"'
      · simp [hq, decodeString_quote, hrest]
      · rw [if_pos hq]
        by_cases hbs : c = '\\'
        · cases r with
          | nil =>
            have h1 : L.source[L.position + 1]? = none := by
              rw [second_of_rest hrest]; rfl
            have := ih L.bump (acc.push c) (by omega)
            rw [rb] at this
            simp only [escaped, hbs, h1, if_true]
            rw [hbs] at this
            simpa [decodeString_lone, decodeString, String.push] using this
          | cons e r2 =>
            have h1 : L.source[L.position + 1]? = some e := by
              rw [second_of_rest hrest]; rfl
            have rbb : L.bump.bump.rest = r2 := rest_bump rb
            have hbb : L.bump.bump.remaining + 2 = L.remaining := by
              rw [remaining_eq_rest, remaining_eq_rest, rbb, hrest]; rfl
            have := ih L.bump.bump (acc.push (stringEscape e)) (by omega)
            rw [rbb] at this
            simp only [escaped, hbs, h1, if_true]
            rw [decodeString_escape]
            simpa [String.push, stringEscape_eq] using this
        · have := ih L.bump (acc.push c) (by omega)
          rw [rb] at this
          simp only [escaped, hbs, if_false]
          rw [decodeString_other c r hq hbs]
          simpa [String.push] using this


/-- A double quote at the cursor starts a `STRING` token: its lexeme is the
specified decoding of what follows, and the cursor ends just past the closing
quote, or at the end of the input when the literal is not closed. -/
theorem nextToken_string (L : Lexer) (body : List Char) (hr : L.rest = '"' :: body) :
    (nextToken L).1.type = .STRING ∧ (nextToken L).1.value = ⟨(decodeString body).1⟩ ∧
      match (decodeString body).2 with
      | some tail => (nextToken L).2.rest = tail
      | none => (nextToken L).2.rest = [] := by
  have h0 := head_of_rest hr
  have hb := remaining_bump h0
  rw [nextToken_of_start L '"' h0 (by decide) (by decide)]
  unfold lexToken
  dsimp only
  rw [if_neg (by decide), if_neg (by decide), if_pos rfl]
  have hspec := scanString_spec L.remaining L.bump "" (by omega)
  rw [rest_bump hr] at hspec
  generalize scanString L.remaining L.bump "" = r at hspec
  have he : ("" : String).data = [] := rfl
  refine ⟨rfl, by rw [hspec.1, he, List.nil_append], ?_⟩
  have h2 := hspec.2
  cases hd : (decodeString body).2 with
  | some tail =>
    rw [hd] at h2
    simp only at h2 ⊢
    have hlen : r.2.position < r.2.source.length := by
      have := remaining_eq_rest r.2
      rw [h2] at this
      simp only [remaining, List.length_cons] at this
      omega
    rw [if_pos hlen]
    exact rest_bump h2
  | none =>
    rw [hd] at h2
    simp only at h2 ⊢
    have hlen : ¬ r.2.position < r.2.source.length := by
      have := remaining_eq_rest r.2
      rw [h2] at this
      simp only [remaining, List.length_nil] at this
      omega
    rw [if_neg hlen]
    exact h2

/-- A single quote at the cursor with a character after it starts a `CHAR`
token holding one character: the escaped character decoded when a backslash
is followed by a character, else the character after the quote. -/
theorem nextToken_char (L : Lexer) (c : Char) (tail : List Char)
    (hr : L.rest = Char.ofNat 39 :: c :: tail) :
    (nextToken L).1.type = .CHAR ∧
      (nextToken L).1.value =
        String.singleton (if c = '\\' then tail.head?.elim c escapeValue else c) := by
  have h0 := head_of_rest hr
  have rb := rest_bump hr
  have h1 := head_of_rest rb
  have h2 := second_of_rest rb
  rw [nextToken_of_start L _ h0 (by decide) (by decide)]
  unfold lexToken
  dsimp only
  rw [if_neg (by decide), if_neg (by decide), if_neg (by decide), if_pos rfl]
  refine ⟨rfl, ?_⟩
  dsimp only
  unfold scanChar escaped
  rw [h1]
  dsimp only
  by_cases hbs : c = '\\'
  · rw [if_pos hbs, if_pos hbs, h2]
    cases tail with
    | nil => rfl
    | cons e t =>
      simp only [List.head?_cons, charEscape_eq, Option.elim]
      rfl
  · rw [if_neg hbs, if_neg hbs]
    rfl

/-- The string loop leaves the line counter as it is. -/
theorem scanString_line (fuel : Nat) (L : Lexer) (str : String) :
    (scanString fuel L str).2.line = L.line := by
  induction fuel generalizing L str with
  | zero => rfl
  | succ n ih =>
    rw [scanString]
    split
    · split
      · split
        · rw [ih]; rfl
        · rw [ih]; rfl
      · rfl
    · rfl

theorem operatorToken_unknown (c : Char) (n : Option Char)
    (h : c ∉ "+-*/=!<>&|()\x7b\x7d[];,.".toList) :
    operatorToken c n = (.UNKNOWN, String.singleton c, false) := by
  have hne : ∀ d ∈ "+-*/=!<>&|()\x7b\x7d[];,.".toList, c ≠ d := fun d hd e => h (e ▸ hd)
  unfold operatorToken
  rw [if_neg (hne '+' (by decide)), if_neg (hne '-' (by decide)), if_neg (hne '*' (by decide)),
    if_neg (hne '/' (by decide)), if_neg (hne '=' (by decide)), if_neg (hne '!' (by decide)),
    if_neg (hne '<' (by decide)), if_neg (hne '>' (by decide)), if_neg (hne '&' (by decide)),
    if_neg (hne '|' (by decide)), if_neg (hne '(' (by decide)), if_neg (hne ')' (by decide)),
    if_neg (hne '\x7b' (by decide)), if_neg (hne '\x7d' (by decide)),
    if_neg (hne '[' (by decide)), if_neg (hne ']' (by decide)), if_neg (hne ';' (by decide)),
    if_neg (hne ',' (by decide)), if_neg (hne '.' (by decide))]

end Lexer

/-- C13: line and column counters.  The string loop adds one column for every
character and never moves the line counter, whatever it passes: after the
literal `"a⏎b"`, which holds a raw newline, the identifier `x` is reported on
line 1 at column 7, not on line 2.  The block-comment loop and the whitespace
loop do count the newline: after the comment `/*a⏎b*/` the identifier is on
line 2.  A character literal holding a newline does not count it either. -/
theorem string_newline_not_counted :
    (∀ (fuel : Nat) (L : Lexer) (str : String),
      (Lexer.scanString fuel L str).2.line = L.line) ∧
    tokenize "\"a\nb\" x" =
      [⟨.STRING, "a\nb", 1, 1⟩, ⟨.IDENTIFIER, "x", 1, 7⟩, ⟨.EOF_TOKEN, "", 1, 8⟩] ∧
    tokenize "/*a\nb*/ x" = [⟨.IDENTIFIER, "x", 2, 5⟩, ⟨.EOF_TOKEN, "", 2, 6⟩] ∧
    tokenize "\x27\n\x27 x" =
      [⟨.CHAR, "\n", 1, 1⟩, ⟨.IDENTIFIER, "x", 1, 5⟩, ⟨.EOF_TOKEN, "", 1, 6⟩] := by
  refine ⟨Lexer.scanString_line, by decide, by decide, by decide⟩

/-- C14: string literals.  For every input starting with a double quote,
`nextToken` returns a `STRING` token whose lexeme is the specified decoding of
the content after the opening quote, up to the first unescaped double quote or
to the end of the input; the quotes are not in the lexeme; the closing quote
is consumed, the cursor being left on what follows it; after a literal that is
not closed the cursor is at the end and the next token is end-of-input. -/
theorem string_token (body : String) :
    (Lexer.nextToken (Lexer.new ('"' :: body.toList))).1.type = .STRING ∧
    (Lexer.nextToken (Lexer.new ('"' :: body.toList))).1.value =
      ⟨(decodeString body.toList).1⟩ ∧
    match (decodeString body.toList).2 with
    | some tail => (Lexer.nextToken (Lexer.new ('"' :: body.toList))).2.rest = tail
    | none =>
      (Lexer.nextToken (Lexer.new ('"' :: body.toList))).2.rest = [] ∧
      (Lexer.nextToken (Lexer.nextToken (Lexer.new ('"' :: body.toList))).2).1.type
        = .EOF_TOKEN := by
  have h := Lexer.nextToken_string (Lexer.new ('"' :: body.toList)) body.toList rfl
  refine ⟨h.1, h.2.1, ?_⟩
  have h2 := h.2.2
  cases hd : (decodeString body.toList).2 with
  | some tail =>
    rw [hd] at h2
    exact h2
  | none =>
    rw [hd] at h2
    simp only at h2 ⊢
    refine ⟨h2, ?_⟩
    rw [Lexer.nextToken_at_end _ (by rw [Lexer.remaining_eq_rest, h2]; rfl)]

/-- C15, as the code has it: for every input made of a single quote followed by
at least one character, `nextToken` returns a `CHAR` token whose lexeme has
length exactly 1: the escaped character, decoded as in string literals, when
the quote is followed by a backslash and one more character, and the character
after the quote otherwise. -/
theorem char_token (c : Char) (tail : String) :
    (Lexer.nextToken (Lexer.new (Char.ofNat 39 :: c :: tail.toList))).1.type = .CHAR ∧
    (Lexer.nextToken (Lexer.new (Char.ofNat 39 :: c :: tail.toList))).1.value.length = 1 ∧
    (Lexer.nextToken (Lexer.new (Char.ofNat 39 :: c :: tail.toList))).1.value =
      String.singleton (if c = '\\' then tail.toList.head?.elim c escapeValue else c) := by
  have h := Lexer.nextToken_char (Lexer.new (Char.ofNat 39 :: c :: tail.toList)) c tail.toList rfl
  refine ⟨h.1, ?_, h.2⟩
  rw [h.2]
  rfl

/-- C15, refuted as stated: for the input that is a lone single quote the
`CHAR` token has an empty lexeme, of length 0. -/
theorem char_token_empty :
    (Lexer.nextToken (Lexer.new "\x27".toList)).1 = ⟨.CHAR, "", 1, 1⟩ ∧
    (Lexer.nextToken (Lexer.new "\x27".toList)).1.value.length ≠ 1 := by
  decide

/-- C16: unknown characters.  `nextToken` returns for every source text and
cursor, within the bound on its self-calls.  A character at the cursor that
starts no token rule gives an `UNKNOWN` token whose lexeme is that one
character, at the current line and column, and the cursor moves one character
on.  The characters `%`, `#`, `@`, `^`, `~`, `:` and `?` are of this kind. -/
theorem unknown_token :
    (∀ L : Lexer, Lexer.nextTokenAux (L.remaining + 1) L = some (Lexer.nextToken L)) ∧
    (∀ (L : Lexer) (c : Char), L.source[L.position]? = some c → startsToken c = false →
      Lexer.nextToken L = (⟨.UNKNOWN, String.singleton c, L.line, L.column⟩, L.bump)) ∧
    (∀ c ∈ ['%', '#', '@', '^', '~', ':', '?'], startsToken c = false) := by
  refine ⟨fun L => (Lexer.nextToken_spec L).1, ?_, by decide⟩
  intro L c h hs
  unfold startsToken at hs
  simp only [Bool.or_eq_false_iff, beq_eq_false_iff_ne, ne_eq] at hs
  obtain ⟨⟨⟨⟨⟨⟨h1, h2⟩, h3⟩, h4⟩, h5⟩, h6⟩, h7⟩ := hs
  have hmem : c ∉ "+-*/=!<>&|()\x7b\x7d[];,.".toList := by
    intro hm
    have : "+-*/=!<>&|()\x7b\x7d[];,.".toList.contains c = true :=
      List.elem_eq_true_of_mem hm
    rw [h7] at this
    exact absurd this (by decide)
  have hslash : c ≠ '/' := fun e => hmem (e ▸ by decide)
  rw [Lexer.nextToken_of_start L c h h1 hslash]
  unfold Lexer.lexToken
  dsimp only
  rw [if_neg (by rw [h2]; decide), if_neg (by rw [h3]; simp [h4]), if_neg h5, if_neg h6,
    Lexer.operatorToken_unknown c _ hmem]
  rfl

/-- C16 at the `%` of `a % b`. -/
theorem unknown_token_witness :
    (Lexer.new "a % b".toList).bump.bump.source[(Lexer.new "a % b".toList).bump.bump.position]?
      = some '%' ∧ startsToken '%' = false ∧
    Lexer.nextToken (Lexer.new "a % b".toList).bump.bump =
      (⟨.UNKNOWN, "%", 1, 3⟩, (Lexer.new "a % b".toList).bump.bump.bump) :=
  ⟨by decide, by decide, unknown_token.2.1 _ '%' (by decide) (by decide)⟩

/-! ## The parser: recovery after a diagnostic -/

namespace Parser

theorem expect_semicolon_message (v : String) :
    "期望 \x27" ++ tokenTypeToString .SEMICOLON ++ "\x27, 但得到 \x27" ++ v ++ "\x27" =
      "期望 \x27;\x27, 但得到 \x27" ++ v ++ "\x27" := by
  apply String.ext
  simp only [String.data_append, tokenTypeToString]
  rfl

theorem kinds_reportError (P : Parser) (message : String) :
    (P.reportError message).kinds = P.kinds := rfl

/-- The recovery loop of the variables block passes tokens that are neither `;`
nor `}` and stops on the next `;`. -/
theorem skipToSemicolon_accepts (fuel : Nat) {P0 P : Parser} (junk rest : List TokenType)
    (hj : ∀ k ∈ junk, k ≠ .SEMICOLON ∧ k ≠ .RIGHT_BRACE)
    (h : Accepts P0 P (junk ++ .SEMICOLON :: rest)) (hf : junk.length < fuel) :
    ∃ P1, skipToSemicolon fuel P = some P1 ∧ Accepts P0 P1 (.SEMICOLON :: rest) := by
  induction junk generalizing fuel P with
  | nil =>
    obtain ⟨n, rfl⟩ : ∃ n, fuel = n + 1 := ⟨fuel - 1, by simp at hf; omega⟩
    refine ⟨P, ?_, h⟩
    have ht : P.current_token.type = .SEMICOLON := type_of_kinds h.1
    simp [skipToSemicolon, ht]
  | cons a as ih =>
    obtain ⟨n, rfl⟩ : ∃ n, fuel = n + 1 := ⟨fuel - 1, by simp at hf; omega⟩
    have ha : Accepts P0 P (a :: (as ++ .SEMICOLON :: rest)) := h
    have ht : P.current_token.type = a := type_of_kinds ha.1
    have hne : a ≠ .EOF_TOKEN := kinds_ne_eof ha.1 (by simp)
    have hja := hj a (by simp)
    obtain ⟨P1, h1, h2⟩ := ih n (fun k hk => hj k (List.mem_cons_of_mem _ hk))
      (ha.next (by simp)) (by simp at hf; omega)
    refine ⟨P1, ?_, h2⟩
    rw [skipToSemicolon, ht, if_pos ⟨hja.1, hja.2, hne⟩, h1]

/-- A declaration `T id` that is not followed by `;` fails at the expected
`;`: the diagnostic is recorded at the token found there, which stays the
lookahead. -/
theorem parseVariableDeclaration_missing {P0 P : Parser} (t k : TokenType)
    (ks : List TokenType) (ht : t ∈ typeKinds)
    (h : Accepts P0 P (t :: .IDENTIFIER :: k :: ks)) (hk : k ≠ .SEMICOLON) :
    parseVariableDeclaration P =
        (none, P.advance.advance.reportError
          ("期望 \x27;\x27, 但得到 \x27" ++ P.advance.advance.current_token.value ++ "\x27")) ∧
      Accepts P0 P.advance.advance (k :: ks) := by
  have h1 := h.next (by simp)
  have h2 := h1.next (by simp)
  refine ⟨?_, h2⟩
  have hty : ¬ (P.current_token.type ≠ .INT ∧ P.current_token.type ≠ .FLOAT_KW ∧
      P.current_token.type ≠ .CHAR_KW) := by
    rw [type_of_kinds h.1]
    simp only [typeKinds, List.mem_cons, List.mem_singleton, List.not_mem_nil, or_false] at ht
    rcases ht with rfl | rfl | rfl <;> simp
  have hex : P.advance.advance.expect .SEMICOLON =
      (false, P.advance.advance.reportError
        ("期望 \x27;\x27, 但得到 \x27" ++ P.advance.advance.current_token.value ++ "\x27")) := by
    unfold expect
    rw [if_neg (by rw [type_of_kinds h2.1]; exact hk), expect_semicolon_message]
  unfold parseVariableDeclaration
  rw [if_neg hty]
  simp only [type_of_kinds h1.1, ne_eq, not_true_eq_false, if_false, hex]

/-- The declaration loop of the variables block, on valid declarations, then
one that lacks its `;` and is followed by tokens other than `;` and `}` up
to the next `;`, then valid declarations again: every valid declaration gives
a child, and the one diagnostic is recorded at the token `Q` looks at. -/
theorem parseVariableDeclarations_recovers (fuel : Nat) {P0 P : Parser}
    (before after : List TokenType) (t : TokenType) (junk rest : List TokenType)
    (children : List ASTNode)
    (hb : ∀ x ∈ before, x ∈ typeKinds) (ha : ∀ x ∈ after, x ∈ typeKinds) (ht : t ∈ typeKinds)
    (hne : junk ≠ []) (hj : ∀ k ∈ junk, k ≠ .SEMICOLON ∧ k ≠ .RIGHT_BRACE)
    (h : Accepts P0 P (Declaration.variableKinds before ++ t :: .IDENTIFIER ::
      (junk ++ .SEMICOLON :: (Declaration.variableKinds after ++ .RIGHT_BRACE :: rest))))
    (hf : before.length + junk.length + after.length + 2 ≤ fuel) :
    ∃ Q P1, Accepts P0 Q
        (junk ++ .SEMICOLON :: (Declaration.variableKinds after ++ .RIGHT_BRACE :: rest)) ∧
      parseVariableDeclarations fuel P children =
        some (children ++ (before ++ after).map (fun _ => ASTNode.base .VARIABLE_DECL []), P1) ∧
      Accepts (Q.reportError ("期望 \x27;\x27, 但得到 \x27" ++ Q.current_token.value ++ "\x27"))
        P1 (.RIGHT_BRACE :: rest) := by
  induction before generalizing fuel P children with
  | nil =>
    obtain ⟨n, rfl⟩ : ∃ n, fuel = n + 1 := ⟨fuel - 1, by omega⟩
    obtain ⟨k, ks, hjk⟩ := List.exists_cons_of_ne_nil hne
    have h0 : Accepts P0 P (t :: .IDENTIFIER :: k ::
        (ks ++ .SEMICOLON :: (Declaration.variableKinds after ++ .RIGHT_BRACE :: rest))) := by
      rw [hjk] at h; exact h
    have hkk := hj k (by rw [hjk]; simp)
    obtain ⟨e1, h1⟩ := parseVariableDeclaration_missing t k _ ht h0 hkk.1
    have hcur : P.current_token.type ≠ .RIGHT_BRACE ∧ P.current_token.type ≠ .EOF_TOKEN := by
      rw [type_of_kinds h0.1]
      simp only [typeKinds, List.mem_cons, List.mem_singleton, List.not_mem_nil, or_false] at ht
      rcases ht with rfl | rfl | rfl <;> exact ⟨by decide, by decide⟩
    generalize P.advance.advance = Q at e1 h1
    have hQ : Accepts (Q.reportError ("期望 \x27;\x27, 但得到 \x27" ++ Q.current_token.value
        ++ "\x27")) (Q.reportError ("期望 \x27;\x27, 但得到 \x27" ++ Q.current_token.value
        ++ "\x27"))
        (junk ++ .SEMICOLON :: (Declaration.variableKinds after ++ .RIGHT_BRACE :: rest)) :=
      Accepts.start (by rw [kinds_reportError, h1.1, hjk]; rfl)
    obtain ⟨P2, e2, h2⟩ := skipToSemicolon_accepts n junk _ hj hQ (by omega)
    have h3 := h2.next (by simp)
    obtain ⟨P4, e4, h4⟩ := parseVariableDeclarations_accepts n after rest children ha h3
      (by omega)
    refine ⟨Q, P4, by rw [hjk]; exact h1, ?_, h4⟩
    rw [parseVariableDeclarations, if_pos hcur, e1]
    simp only [e2, type_of_kinds h2.1, if_true, e4, List.nil_append]
  | cons b bs ih =>
    obtain ⟨n, rfl⟩ : ∃ n, fuel = n + 1 := ⟨fuel - 1, by omega⟩
    have h0 : Accepts P0 P (b :: .IDENTIFIER :: .SEMICOLON ::
        (Declaration.variableKinds bs ++ t :: .IDENTIFIER ::
          (junk ++ .SEMICOLON :: (Declaration.variableKinds after ++ .RIGHT_BRACE :: rest)))) := h
    have hbk := hb b (by simp)
    have hcur : P.current_token.type ≠ .RIGHT_BRACE ∧ P.current_token.type ≠ .EOF_TOKEN := by
      rw [type_of_kinds h0.1]
      simp only [typeKinds, List.mem_cons, List.mem_singleton, List.not_mem_nil, or_false] at hbk
      rcases hbk with rfl | rfl | rfl <;> exact ⟨by decide, by decide⟩
    obtain ⟨P1, e1, h1⟩ := parseVariableDeclaration_accepts b _ hbk h0 (by simp)
    obtain ⟨Q, P2, hq, e2, h2⟩ := ih n (children ++ [ASTNode.base .VARIABLE_DECL []])
      (fun x hx => hb x (List.mem_cons_of_mem _ hx)) h1 (by simp at hf; omega)
    refine ⟨Q, P2, hq, ?_, h2⟩
    rw [parseVariableDeclarations, if_pos hcur, e1]
    simp only [e2, List.map_cons, List.append_assoc, List.singleton_append, List.cons_append,
      List.nil_append]

end Parser

/-- C17: recovery in a variables block.  Parsing `variables { int x bad y; }`
records exactly one diagnostic, the `;` expected after `x`.  More generally,
take a variables block made of valid declarations, then a declaration `T id`
that lacks its `;` and is followed by tokens other than `;` and `}` up to
the next `;`, then valid declarations again, then `}`.  The one diagnostic
is recorded at the token found in place of the `;`; the recovery passes the
tokens up to and including the next `;`; every valid declaration, before and
after, gives a `VARIABLE_DECL` child of the `BLOCK_STMT` node returned, and
nothing more is reported. -/
theorem variables_block_recovery :
    (parseSource "variables \x7b int x bad y; \x7d").2.getErrors =
      ["语法错误 (行 1, 列 19): 期望 \x27;\x27, 但得到 \x27bad\x27"] ∧
    ∀ (fuel : Nat) (P : Parser) (before after : List TokenType) (t : TokenType)
      (junk rest : List TokenType),
      (∀ x ∈ before, x ∈ typeKinds) → (∀ x ∈ after, x ∈ typeKinds) → t ∈ typeKinds →
      junk ≠ [] → (∀ k ∈ junk, k ≠ .SEMICOLON ∧ k ≠ .RIGHT_BRACE) → rest ≠ [] →
      P.kinds = .VARIABLES :: .LEFT_BRACE :: (Declaration.variableKinds before ++
        t :: .IDENTIFIER :: (junk ++ .SEMICOLON ::
          (Declaration.variableKinds after ++ .RIGHT_BRACE :: rest))) →
      P.kinds.length ≤ fuel →
      ∃ Q P1 : Parser, Q.kinds = junk ++ .SEMICOLON ::
          (Declaration.variableKinds after ++ .RIGHT_BRACE :: rest) ∧
        Parser.parseVariablesBlock fuel P =
          some (some (ASTNode.base .BLOCK_STMT
            ((before ++ after).map (fun _ => ASTNode.base .VARIABLE_DECL []))), P1) ∧
        P1.kinds = rest ∧
        P1.errors = P.errors ++
          ["语法错误 (行 " ++ toString Q.current_token.line ++ ", 列 " ++
            toString Q.current_token.column ++ "): " ++
            ("期望 \x27;\x27, 但得到 \x27" ++ Q.current_token.value ++ "\x27")] := by
  refine ⟨by decide, ?_⟩
  intro fuel P before after t junk rest hb ha ht hne hj hrest hk hf
  have h0 : Parser.Accepts P P (.VARIABLES :: .LEFT_BRACE :: (Declaration.variableKinds before ++
      t :: .IDENTIFIER :: (junk ++ .SEMICOLON ::
        (Declaration.variableKinds after ++ .RIGHT_BRACE :: rest)))) := Parser.Accepts.start hk
  have hlen : before.length + junk.length + after.length + 2 ≤ fuel := by
    have hl1 := Parser.variableKinds_length before
    have hl2 := Parser.variableKinds_length after
    rw [hk] at hf
    simp only [List.length_cons, List.length_append, hl1, hl2] at hf
    omega
  obtain ⟨e1, h1⟩ := Parser.expect_accepts h0 (by simp)
  obtain ⟨e2, h2⟩ := Parser.expect_accepts h1 (by simp)
  obtain ⟨Q, P3, hq, e3, h3⟩ := Parser.parseVariableDeclarations_recovers fuel before after t
    junk rest [] hb ha ht hne hj h2 hlen
  obtain ⟨e4, h4⟩ := Parser.expect_accepts h3 hrest
  refine ⟨Q, P3.advance, hq.1, ?_, h4.1, ?_⟩
  · unfold Parser.parseVariablesBlock
    simp only [e1, e2, e3, e4, List.nil_append]
  · rw [h4.2.1]
    show Q.errors ++ _ = _
    rw [hq.2.1]

/-- C17 at the source `variables { char a; int x bad y; float z; }`. -/
theorem variables_block_recovery_witness :
    (Parser.new (Lexer.new
      "variables \x7b char a; int x bad y; float z; \x7d".toList)).kinds =
      .VARIABLES :: .LEFT_BRACE :: (Declaration.variableKinds [.CHAR_KW] ++
        .INT :: .IDENTIFIER :: ([.IDENTIFIER, .IDENTIFIER] ++ .SEMICOLON ::
          (Declaration.variableKinds [.FLOAT_KW] ++ .RIGHT_BRACE :: [.EOF_TOKEN]))) ∧
    ∃ Q P1 : Parser, Q.kinds = [.IDENTIFIER, .IDENTIFIER] ++ .SEMICOLON ::
        (Declaration.variableKinds [.FLOAT_KW] ++ .RIGHT_BRACE :: [.EOF_TOKEN]) ∧
      Parser.parseVariablesBlock 20 (Parser.new (Lexer.new
        "variables \x7b char a; int x bad y; float z; \x7d".toList)) =
        some (some (ASTNode.base .BLOCK_STMT
          (([TokenType.CHAR_KW] ++ [TokenType.FLOAT_KW]).map (fun _ => ASTNode.base .VARIABLE_DECL []))), P1) ∧
      P1.kinds = [.EOF_TOKEN] ∧
      P1.errors = (Parser.new (Lexer.new
        "variables \x7b char a; int x bad y; float z; \x7d".toList)).errors ++
        ["语法错误 (行 " ++ toString Q.current_token.line ++ ", 列 " ++
          toString Q.current_token.column ++ "): " ++
          ("期望 \x27;\x27, 但得到 \x27" ++ Q.current_token.value ++ "\x27")] :=
  ⟨by decide, variables_block_recovery.2 20
    (Parser.new (Lexer.new "variables \x7b char a; int x bad y; float z; \x7d".toList))
    [.CHAR_KW] [.FLOAT_KW] .INT
    [.IDENTIFIER, .IDENTIFIER] [.EOF_TOKEN] (by decide) (by decide) (by decide) (by decide)
    (by decide) (by decide) (by decide) (by decide)⟩

namespace Parser

/-- On a lookahead that starts no statement and ends no block, `parseStatement`
reports it, skips it and returns no node. -/
theorem parseStatement_unexpected (fuel : Nat) (P : Parser)
    (h1 : P.current_token.type ≠ .IDENTIFIER) (h2 : P.current_token.type ≠ .IF)
    (h3 : P.current_token.type ≠ .WHILE) (h4 : P.current_token.type ≠ .FOR)
    (h5 : P.current_token.type ≠ .RIGHT_BRACE) (h6 : P.current_token.type ≠ .EOF_TOKEN) :
    parseStatement (fuel + 1) P =
      some (none, (P.reportError ("意外的语句: " ++ P.current_token.value)).advance) := by
  rw [parseStatement]
  split <;> first | rfl | contradiction

/-- On a lookahead that starts no declaration, `parseTopLevelDeclaration`
reports it and returns no node, leaving the token in place. -/
theorem parseTopLevelDeclaration_unexpected (fuel : Nat) (P : Parser)
    (h1 : P.current_token.type ≠ .VARIABLES) (h2 : P.current_token.type ≠ .ON) :
    parseTopLevelDeclaration fuel P =
      some (none, P.reportError ("意外的顶级声明: " ++ P.current_token.value)) := by
  rw [parseTopLevelDeclaration]
  split <;> first | rfl | contradiction

/-- The top-level loop stops once a diagnostic has been recorded. -/
theorem parseDeclarations_of_flag (fuel : Nat) (P : Parser) (children : List ASTNode)
    (h : P.has_errors = true) : parseDeclarations (fuel + 1) P children = some (children, P) := by
  rw [parseDeclarations, if_neg (by simp [h])]

end Parser

/-- C18, refuted as stated: the source `; ;` records one diagnostic, for the
first `;`, and none for the second. -/
theorem top_level_second_token_unreported :
    (parseSource "; ;").2.getErrors = ["语法错误 (行 1, 列 1): 意外的顶级声明: ;"] ∧
    (parseSource "; ;").2.getErrors.length ≠ 2 := by
  decide

/-- C18, as the code has it: the top-level loop runs only while no diagnostic
has been recorded.  After a top-level declaration that leaves the error flag
set, the loop keeps the node if there is one, else advances one token unless
at end-of-input, and stops there.  On a lookahead that cannot start a
declaration this is one diagnostic and one token; so a source that begins with
such a token has exactly that one diagnostic, whatever follows. -/
theorem top_level_stops_after_diagnostic :
    (∀ (fuel : Nat) (P : Parser) (children : List ASTNode) (r : Option ASTNode) (P1 : Parser),
      P.current_token.type ≠ .EOF_TOKEN → P.has_errors = false →
      Parser.parseTopLevelDeclaration (fuel + 1) P = some (r, P1) → P1.has_errors = true →
      Parser.parseDeclarations (fuel + 2) P children =
        some (match r with
          | some stmt => (children ++ [stmt], P1)
          | none =>
            (children, if P1.current_token.type ≠ .EOF_TOKEN then P1.advance else P1))) ∧
    (∀ (fuel : Nat) (P : Parser) (children : List ASTNode),
      P.current_token.type ≠ .VARIABLES → P.current_token.type ≠ .ON →
      P.current_token.type ≠ .EOF_TOKEN → P.has_errors = false →
      Parser.parseDeclarations (fuel + 2) P children =
        some (children,
          (P.reportError ("意外的顶级声明: " ++ P.current_token.value)).advance)) ∧
    (∀ source : String,
      (Parser.new (Lexer.new source.toList)).current_token.type ≠ .VARIABLES →
      (Parser.new (Lexer.new source.toList)).current_token.type ≠ .ON →
      (Parser.new (Lexer.new source.toList)).current_token.type ≠ .EOF_TOKEN →
      parseSource source =
        (none, ((Parser.new (Lexer.new source.toList)).reportError ("意外的顶级声明: " ++
          (Parser.new (Lexer.new source.toList)).current_token.value)).advance)) := by
  have general : ∀ (fuel : Nat) (P : Parser) (children : List ASTNode) (r : Option ASTNode)
      (P1 : Parser), P.current_token.type ≠ .EOF_TOKEN → P.has_errors = false →
      Parser.parseTopLevelDeclaration (fuel + 1) P = some (r, P1) → P1.has_errors = true →
      Parser.parseDeclarations (fuel + 2) P children =
        some (match r with
          | some stmt => (children ++ [stmt], P1)
          | none =>
            (children, if P1.current_token.type ≠ .EOF_TOKEN then P1.advance else P1)) := by
    intro fuel P children r P1 hne hflag htop h1
    rw [Parser.parseDeclarations, if_pos ⟨hne, hflag⟩, htop]
    cases r with
    | some stmt => exact Parser.parseDeclarations_of_flag _ _ _ h1
    | none =>
      simp only
      rw [Parser.parseDeclarations_of_flag]
      split
      · exact h1
      · exact h1
  have special : ∀ (fuel : Nat) (P : Parser) (children : List ASTNode),
      P.current_token.type ≠ .VARIABLES → P.current_token.type ≠ .ON →
      P.current_token.type ≠ .EOF_TOKEN → P.has_errors = false →
      Parser.parseDeclarations (fuel + 2) P children =
        some (children,
          (P.reportError ("意外的顶级声明: " ++ P.current_token.value)).advance) := by
    intro fuel P children h1 h2 h3 hflag
    rw [general fuel P children none _ h3 hflag
      (Parser.parseTopLevelDeclaration_unexpected _ P h1 h2) rfl]
    have : (P.reportError ("意外的顶级声明: " ++ P.current_token.value)).current_token.type
        ≠ .EOF_TOKEN := h3
    simp only [this, ne_eq, not_false_eq_true, if_true]
  refine ⟨general, special, ?_⟩
  intro source h1 h2 h3
  have hfuel : parseFuel source = (3 * source.length + 3) + 2 := rfl
  unfold parseSource Parser.parse Parser.parseProgram
  rw [hfuel, special _ _ [] h1 h2 h3 rfl]
  rfl

/-- C18 at the source `; ;`: the lookahead of the final state is the second
`;`, which has not been reported. -/
theorem top_level_stops_after_diagnostic_witness :
    (Parser.new (Lexer.new "; ;".toList)).current_token.type ≠ .VARIABLES ∧
    (Parser.new (Lexer.new "; ;".toList)).current_token.type ≠ .ON ∧
    (Parser.new (Lexer.new "; ;".toList)).current_token.type ≠ .EOF_TOKEN ∧
    parseSource "; ;" =
      (none, ((Parser.new (Lexer.new "; ;".toList)).reportError ("意外的顶级声明: " ++
        (Parser.new (Lexer.new "; ;".toList)).current_token.value)).advance) :=
  ⟨by decide, by decide, by decide,
   top_level_stops_after_diagnostic.2.2 "; ;" (by decide) (by decide) (by decide)⟩

/-- C19: recovery inside a body.  For `on start { ; x = 1; }` three
diagnostics are recorded, not one: `parseStatement` reports the stray `;` and
skips it, the statement loop of the handler then skips `x` as well, and the
parse resumes at `=`.  In general the loop shared by handler, `if`, `else`
and `while` bodies resumes two tokens after a token that cannot start a
statement, when the token in between is neither `}` nor end-of-input; the
loop of a `for` body resumes one token after it. -/
theorem statement_recovery_skips_two :
    (parseSource "on start \x7b ; x = 1; \x7d").2.getErrors =
      ["语法错误 (行 1, 列 12): 意外的语句: ;", "语法错误 (行 1, 列 16): 意外的语句: =",
       "语法错误 (行 1, 列 19): 意外的语句: ;"] ∧
    (∀ (fuel : Nat) (P : Parser) (children : List ASTNode),
      P.current_token.type ≠ .IDENTIFIER → P.current_token.type ≠ .IF →
      P.current_token.type ≠ .WHILE → P.current_token.type ≠ .FOR →
      P.current_token.type ≠ .RIGHT_BRACE → P.current_token.type ≠ .EOF_TOKEN →
      P.advance.current_token.type ≠ .RIGHT_BRACE →
      P.advance.current_token.type ≠ .EOF_TOKEN →
      Parser.parseBlockBody (fuel + 2) P children =
        Parser.parseBlockBody (fuel + 1)
          (P.reportError ("意外的语句: " ++ P.current_token.value)).advance.advance children ∧
      Parser.parseForBody (fuel + 2) P children =
        Parser.parseForBody (fuel + 1)
          (P.reportError ("意外的语句: " ++ P.current_token.value)).advance children) := by
  refine ⟨by decide, ?_⟩
  intro fuel P children h1 h2 h3 h4 h5 h6 h7 h8
  have hs := Parser.parseStatement_unexpected fuel P h1 h2 h3 h4 h5 h6
  have h7b : (P.reportError ("意外的语句: " ++ P.current_token.value)).advance.current_token.type
      ≠ .RIGHT_BRACE := h7
  have h8b : (P.reportError ("意外的语句: " ++ P.current_token.value)).advance.current_token.type
      ≠ .EOF_TOKEN := h8
  constructor
  · rw [Parser.parseBlockBody, if_pos ⟨h5, h6⟩, hs]
    simp only [h7b, h8b, ne_eq, not_false_eq_true, and_self, if_true]
  · rw [Parser.parseForBody, if_pos ⟨h5, h6⟩, hs]

/-- C19 at the body `; x = 1; }`. -/
theorem statement_recovery_skips_two_witness :
    (Parser.new (Lexer.new "; x = 1; \x7d".toList)).current_token.type = .SEMICOLON ∧
    (Parser.new (Lexer.new "; x = 1; \x7d".toList)).advance.current_token.type = .IDENTIFIER ∧
    Parser.parseBlockBody 2 (Parser.new (Lexer.new "; x = 1; \x7d".toList)) [] =
      Parser.parseBlockBody 1
        ((Parser.new (Lexer.new "; x = 1; \x7d".toList)).reportError ("意外的语句: " ++
          (Parser.new (Lexer.new "; x = 1; \x7d".toList)).current_token.value)).advance.advance
        [] :=
  ⟨by decide, by decide,
   ((statement_recovery_skips_two.2 0 (Parser.new (Lexer.new "; x = 1; \x7d".toList)) []
      (by decide) (by decide) (by decide) (by decide) (by decide) (by decide) (by decide)
      (by decide)).1)⟩

/-- C20: the header of a `for` statement.  Take a `for` statement with a
header free of `)` and a well-formed body.  With exactly two `;` in the
header, `parseForStatement` accepts the statement: it returns the `FOR_STMT`
node, stops right after the statement and records nothing.  With any other
count it returns no node and records the diagnostic `for 循环应该有两个分号`,
at the `)` that ends the header. -/
theorem for_header_two_semicolons (fuel : Nat) (P : Parser) (header : List TokenType)
    (body : List Statement) (rest : List TokenType)
    (hno : TokenType.RIGHT_PAREN ∉ header) (hwf : Statement.wellFormedList body = true)
    (hk : P.kinds = .FOR :: .LEFT_PAREN :: (header ++ .RIGHT_PAREN :: .LEFT_BRACE ::
      (Statement.kindsOfList body ++ .RIGHT_BRACE :: rest)))
    (hrest : rest ≠ []) (hf : 3 * P.kinds.length ≤ fuel) :
    (header.count .SEMICOLON = 2 →
      ∃ P1 : Parser, Parser.parseForStatement fuel P =
          some (some (ASTNode.base .FOR_STMT (Statement.nodes body)), P1) ∧
        P1.kinds = rest ∧ P1.errors = P.errors ∧ P1.has_errors = P.has_errors) ∧
    (header.count .SEMICOLON ≠ 2 →
      ∃ Q : Parser, Q.current_token.type = .RIGHT_PAREN ∧ Q.errors = P.errors ∧
        Parser.parseForStatement fuel P = some (none, Q.reportError "for 循环应该有两个分号") ∧
        (Q.reportError "for 循环应该有两个分号").errors = P.errors ++
          ["语法错误 (行 " ++ toString Q.current_token.line ++ ", 列 " ++
            toString Q.current_token.column ++ "): " ++ "for 循环应该有两个分号"]) := by
  have hl := Parser.kinds_length_pending P
  obtain ⟨n, rfl⟩ : ∃ n, fuel = n + 1 := ⟨fuel - 1, by omega⟩
  have h0 : Parser.Accepts P P (.FOR :: .LEFT_PAREN :: (header ++ .RIGHT_PAREN :: .LEFT_BRACE ::
      (Statement.kindsOfList body ++ .RIGHT_BRACE :: rest))) := Parser.Accepts.start hk
  have hlen : P.kinds.length = header.length + (Statement.kindsOfList body).length +
      rest.length + 5 := by
    rw [hk]
    simp only [List.length_cons, List.length_append]
    omega
  obtain ⟨e1, h1⟩ := Parser.expect_accepts h0 (by simp)
  obtain ⟨e2, h2⟩ := Parser.expect_accepts h1 (by simp)
  obtain ⟨P3, e3, h3⟩ := Parser.scanForHeader_accepts n header _ 0 hno h2 (by omega)
  rw [Nat.zero_add] at e3
  constructor
  · intro hcount
    obtain ⟨e4, h4⟩ := Parser.expect_accepts h3 (by simp)
    obtain ⟨e5, h5⟩ := Parser.expect_accepts h4 (by simp)
    have hbody := (Parser.statements_accepted n).2.2.2
    obtain ⟨P6, e6, h6⟩ := hbody P3.advance.advance body rest [] hwf h5.1 hrest (by
      rw [h5.1]
      simp only [List.length_cons, List.length_append]
      omega)
    have h6b : Parser.Accepts P P6 (.RIGHT_BRACE :: rest) := h5.andAlso h6
    obtain ⟨e7, h7⟩ := Parser.expect_accepts h6b hrest
    refine ⟨P6.advance, ?_, h7.1, h7.2.1, h7.2.2⟩
    rw [Parser.parseForStatement]
    simp only [e1, e2, e3, hcount, e4, e5, e6, e7, List.nil_append, ne_eq, not_true_eq_false,
      if_false]
  · intro hcount
    refine ⟨P3, Parser.type_of_kinds h3.1, h3.2.1, ?_, ?_⟩
    · rw [Parser.parseForStatement]
      simp only [e1, e2, e3, hcount, ne_eq, not_false_eq_true, if_true]
    · show P3.errors ++ _ = _
      rw [h3.2.1]

/-- C20 at the statements `for (i = 0; i < 3; i = i + 1) { x = 1; }`, with two
`;`, and `for (i = 0; i < 3) { x = 1; }`, with one. -/
theorem for_header_two_semicolons_witness :
    (∃ P1 : Parser, Parser.parseForStatement 80
        (Parser.new (Lexer.new "for (i = 0; i < 3; i = i + 1) \x7b x = 1; \x7d".toList)) =
          some (some (ASTNode.base .FOR_STMT
            (Statement.nodes [.assign (.operand .INTEGER)])), P1) ∧
        P1.kinds = [.EOF_TOKEN] ∧ P1.errors = [] ∧ P1.has_errors = false) ∧
    (∃ Q : Parser, Q.current_token.type = .RIGHT_PAREN ∧ Q.errors = [] ∧
        Parser.parseForStatement 80
          (Parser.new (Lexer.new "for (i = 0; i < 3) \x7b x = 1; \x7d".toList)) =
            some (none, Q.reportError "for 循环应该有两个分号") ∧
        (Q.reportError "for 循环应该有两个分号").errors = [] ++
          ["语法错误 (行 " ++ toString Q.current_token.line ++ ", 列 " ++
            toString Q.current_token.column ++ "): " ++ "for 循环应该有两个分号"]) :=
  ⟨(for_header_two_semicolons 80
      (Parser.new (Lexer.new "for (i = 0; i < 3; i = i + 1) \x7b x = 1; \x7d".toList))
      [.IDENTIFIER, .ASSIGN, .INTEGER, .SEMICOLON, .IDENTIFIER, .LESS, .INTEGER, .SEMICOLON,
        .IDENTIFIER, .ASSIGN, .IDENTIFIER, .PLUS, .INTEGER]
      [.assign (.operand .INTEGER)] [.EOF_TOKEN] (by decide) (by decide) (by decide) (by decide)
      (by decide)).1 (by decide),
   (for_header_two_semicolons 80
      (Parser.new (Lexer.new "for (i = 0; i < 3) \x7b x = 1; \x7d".toList))
      [.IDENTIFIER, .ASSIGN, .INTEGER, .SEMICOLON, .IDENTIFIER, .LESS, .INTEGER]
      [.assign (.operand .INTEGER)] [.EOF_TOKEN] (by decide) (by decide) (by decide) (by decide)
      (by decide)).2 (by decide)⟩

/-! ## The semantic analyzer: the walk, the table and the diagnostics -/

namespace SymbolTable

theorem addAll_append (T : SymbolTable) (xs ys : List Symbol) :
    T.addAll (xs ++ ys) = (T.addAll xs).addAll ys := by
  induction xs generalizing T with
  | nil => rfl
  | cons x rest ih => exact ih _

/-- After `addSymbol`, a name is looked up in the old table first and is that
of the new symbol otherwise. -/
theorem findSymbol_addSymbol (T : SymbolTable) (s : Symbol) (n : String) :
    (T.addSymbol s).2.findSymbol n =
      (T.findSymbol n).orElse (fun _ => if s.name = n then some s else none) := by
  unfold addSymbol findSymbol
  cases h : T.symbols.lookup s.name with
  | some v =>
    simp only [Option.isSome_some, if_true]
    by_cases hn : s.name = n
    · rw [← hn, h]; rfl
    · cases T.symbols.lookup n <;> simp [hn]
  | none =>
    simp only [Option.isSome_none, Bool.false_eq_true, if_false, assign_of_lookup_none _ _ _ h]
    by_cases hn : s.name = n
    · rw [← hn, lookup_append_new _ _ _ h, h]
      simp
    · rw [lookup_append_other _ _ _ _ (fun e => hn e.symm)]
      cases T.symbols.lookup n <;> simp [hn]

/-- After `addSymbol` of a list of symbols in order, a name is looked up in the
old table first, and is otherwise that of the first symbol of the list with
that name. -/
theorem findSymbol_addAll (T : SymbolTable) (ss : List Symbol) (n : String) :
    (T.addAll ss).findSymbol n =
      (T.findSymbol n).orElse (fun _ => ss.find? (fun s => s.name == n)) := by
  induction ss generalizing T with
  | nil =>
    rw [addAll]
    cases T.findSymbol n <;> rfl
  | cons s rest ih =>
    rw [addAll, ih, findSymbol_addSymbol]
    cases T.findSymbol n with
    | some v => rfl
    | none =>
      by_cases hn : s.name = n
      · rw [List.find?_cons_of_pos _ (by simp [hn])]
        simp [hn]
      · rw [List.find?_cons_of_neg _ (by simp [hn])]
        simp [hn]

theorem hasSymbol_eq (T : SymbolTable) (n : String) :
    T.hasSymbol n = (T.findSymbol n).isSome := rfl

end SymbolTable

namespace ASTNode

theorem declaredAmong_append (xs ys : List (ASTNodeType × NodeClass)) :
    declaredAmong (xs ++ ys) = declaredAmong xs ++ declaredAmong ys := by
  induction xs with
  | nil => rfl
  | cons x rest ih => simp [declaredAmong, ih]

end ASTNode

namespace SemanticAnalyzer

theorem visitAll_append (A : SemanticAnalyzer) (xs ys : List (ASTNodeType × NodeClass)) :
    A.visitAll (xs ++ ys) = (A.visitAll xs).visitAll ys := by
  induction xs generalizing A with
  | nil => rfl
  | cons x rest ih => exact ih _

mutual

/-- The walk of `analyzeNode` visits the nodes of the tree in pre-order. -/
theorem analyzeNode_eq (node : ASTNode) (A : SemanticAnalyzer) :
    analyzeNode node A = A.visitAll node.preorder := by
  match node with
  | .mk type cls children l c =>
    rw [analyzeNode, ASTNode.preorder, visitAll, analyzeChildren_eq children]

theorem analyzeChildren_eq (children : List ASTNode) (A : SemanticAnalyzer) :
    analyzeChildren children A = A.visitAll (ASTNode.preorderOfList children) := by
  match children with
  | [] => rfl
  | child :: rest =>
    rw [analyzeChildren, ASTNode.preorderOfList, visitAll_append, analyzeChildren_eq rest,
      analyzeNode_eq child]

end

theorem visit_table (A : SemanticAnalyzer) (type : ASTNodeType) (cls : NodeClass) :
    (A.visit type cls).symbol_table = A.symbol_table.addAll (ASTNode.declared type cls) := by
  cases type <;> cases cls <;>
    first
    | rfl
    | (simp only [visit]; split <;> rfl)

/-- The visits change the table by `addSymbol` of the declared symbols, in order. -/
theorem visitAll_table (A : SemanticAnalyzer) (nodes : List (ASTNodeType × NodeClass)) :
    (A.visitAll nodes).symbol_table = A.symbol_table.addAll (ASTNode.declaredAmong nodes) := by
  induction nodes generalizing A with
  | nil => rfl
  | cons x rest ih =>
    rw [visitAll, ih, visit_table, ASTNode.declaredAmong, SymbolTable.addAll_append]

theorem visit_diagnostics (A : SemanticAnalyzer) (type : ASTNodeType) (cls : NodeClass) :
    ∃ extra, (A.visit type cls).diagnostics = A.diagnostics ++ extra := by
  cases type <;> cases cls <;>
    first
    | exact ⟨[], (List.append_nil _).symm⟩
    | (simp only [visit]; split
       · exact ⟨[], (List.append_nil _).symm⟩
       · exact ⟨_, rfl⟩)

/-- The visits only append to the diagnostics. -/
theorem visitAll_diagnostics (A : SemanticAnalyzer) (nodes : List (ASTNodeType × NodeClass)) :
    ∃ extra, (A.visitAll nodes).diagnostics = A.diagnostics ++ extra := by
  induction nodes generalizing A with
  | nil => exact ⟨[], (List.append_nil _).symm⟩
  | cons x rest ih =>
    obtain ⟨e1, h1⟩ := visit_diagnostics A x.1 x.2
    obtain ⟨e2, h2⟩ := ih (A.visit x.1 x.2)
    exact ⟨e1 ++ e2, by rw [visitAll, h2, h1, List.append_assoc]⟩

end SemanticAnalyzer

namespace SymbolTable

theorem mem_addAll (T : SymbolTable) (ss : List Symbol) (e : String × Symbol)
    (h : e ∈ (T.addAll ss).symbols) : e ∈ T.symbols ∨ e.2 ∈ ss := by
  induction ss generalizing T with
  | nil => exact Or.inl h
  | cons s rest ih =>
    rw [addAll] at h
    rcases ih _ h with h1 | h1
    · unfold addSymbol at h1
      cases hl : T.symbols.lookup s.name with
      | some v =>
        rw [hl] at h1
        exact Or.inl h1
      | none =>
        rw [hl] at h1
        simp only [Option.isSome_none, Bool.false_eq_true, if_false,
          assign_of_lookup_none _ _ _ hl, List.mem_append, List.mem_singleton] at h1
        rcases h1 with h2 | h2
        · exact Or.inl h2
        · exact Or.inr (by rw [h2]; exact List.mem_cons_self _ _)
    · exact Or.inr (List.mem_cons_of_mem _ h1)

end SymbolTable

/-- C23: `SemanticAnalyzer::analyze` returns `false` exactly on an absent tree,
which it leaves unvisited; on every tree it returns `true`.  It does so also
when the walk has written diagnostics: on a program made of a reference to
the undeclared `x` and a call of the undeclared `f` both lines are written and
the result is `true`. -/
theorem analyze_false_iff_null :
    (∀ (A : SemanticAnalyzer) (ast : Option ASTNode), (A.analyze ast).1 = false ↔ ast = none) ∧
    (∀ A : SemanticAnalyzer, A.analyze none = (false, A)) ∧
    (∀ (A : SemanticAnalyzer) (ast : ASTNode), (A.analyze (some ast)).1 = true) ∧
    SemanticAnalyzer.new.analyze (some (.mk .PROGRAM .ProgramNode
      [.mk .IDENTIFIER (.IdentifierNode "x") [] 0 0,
       .mk .CALL_EXPR (.CallExprNode "f") [] 0 0] 0 0)) =
      (true, { symbol_table := SymbolTable.empty,
               diagnostics := ["Error: Undefined identifier \x27x\x27",
                               "Error: Undefined function \x27f\x27"] }) := by
  refine ⟨fun A ast => ?_, fun A => rfl, fun A ast => rfl, by decide⟩
  cases ast with
  | none => exact ⟨fun _ => rfl, fun _ => rfl⟩
  | some node =>
    constructor
    · intro h
      exact absurd h (by simp [SemanticAnalyzer.analyze])
    · intro h
      exact absurd h (by simp)

/-- C24: the table after the analysis of a tree, starting from the empty table.
Under every name it holds the symbol of the first node in pre-order that
declares the name: a function symbol with the declared return type for a named
function node, a variable symbol with the declared type for a named variable
declaration node; nodes that declare the name again are ignored.  A name is in
the table exactly when a node declares it, and every symbol of the table is
one of the declared symbols. -/
theorem analyze_registers_first_declaration (ast : ASTNode) :
    (∀ n : String,
      (SemanticAnalyzer.new.analyze (some ast)).2.getSymbolTable.findSymbol n =
        ast.declarations.find? (fun s => s.name == n)) ∧
    (∀ n : String,
      (SemanticAnalyzer.new.analyze (some ast)).2.getSymbolTable.hasSymbol n = true ↔
        ∃ s ∈ ast.declarations, s.name = n) ∧
    (∀ s ∈ (SemanticAnalyzer.new.analyze (some ast)).2.getSymbolTable.getAllSymbols,
      s ∈ ast.declarations) := by
  have htable : (SemanticAnalyzer.new.analyze (some ast)).2.getSymbolTable =
      SymbolTable.empty.addAll ast.declarations := by
    show (SemanticAnalyzer.analyzeNode ast SemanticAnalyzer.new).symbol_table = _
    rw [SemanticAnalyzer.analyzeNode_eq, SemanticAnalyzer.visitAll_table]
    rfl
  have hfind : ∀ n : String,
      (SymbolTable.empty.addAll ast.declarations).findSymbol n =
        ast.declarations.find? (fun s => s.name == n) := by
    intro n
    rw [SymbolTable.findSymbol_addAll]
    rfl
  rw [htable]
  refine ⟨hfind, fun n => ?_, fun s hs => ?_⟩
  · rw [SymbolTable.hasSymbol_eq, hfind, List.find?_isSome]
    simp
  · simp only [SymbolTable.getAllSymbols, List.mem_map] at hs
    obtain ⟨e, he, rfl⟩ := hs
    rcases SymbolTable.mem_addAll _ _ e he with h | h
    · simp [SymbolTable.empty] at h
    · exact h

/-- C24 at a program that declares the variable `v` twice, as `int` and then as
`float`, and the function `f`. -/
theorem analyze_registers_first_declaration_witness :
    (SemanticAnalyzer.new.analyze (some (.mk .PROGRAM .ProgramNode
      [.mk .VARIABLE_DECL (.VariableDeclNode "v" "int") [] 0 0,
       .mk .FUNCTION (.FunctionNode "f" "void")
         [.mk .VARIABLE_DECL (.VariableDeclNode "v" "float") [] 0 0] 0 0] 0 0))).2.getSymbolTable.findSymbol
        "v" =
      (ASTNode.declarations (.mk .PROGRAM .ProgramNode
      [.mk .VARIABLE_DECL (.VariableDeclNode "v" "int") [] 0 0,
       .mk .FUNCTION (.FunctionNode "f" "void")
         [.mk .VARIABLE_DECL (.VariableDeclNode "v" "float") [] 0 0] 0 0] 0 0)).find?
        (fun s => s.name == "v") ∧
    (ASTNode.declarations (.mk .PROGRAM .ProgramNode
      [.mk .VARIABLE_DECL (.VariableDeclNode "v" "int") [] 0 0,
       .mk .FUNCTION (.FunctionNode "f" "void")
         [.mk .VARIABLE_DECL (.VariableDeclNode "v" "float") [] 0 0] 0 0] 0 0)).find?
        (fun s => s.name == "v") = some (Symbol.new "v" .VARIABLE "int") :=
  ⟨(analyze_registers_first_declaration _).1 "v", by decide⟩

namespace SemanticAnalyzer

/-- The visit of an identifier node that carries a name: a diagnostic exactly
when the table does not hold the name. -/
theorem visit_identifier (A : SemanticAnalyzer) (x : String) :
    A.visit .IDENTIFIER (.IdentifierNode x) =
      if A.symbol_table.hasSymbol x then A
      else { A with diagnostics :=
        A.diagnostics ++ ["Error: Undefined identifier \x27" ++ x ++ "\x27"] } := rfl

/-- A name is in the table after a sequence of visits exactly when it was there
before or one of the visited nodes declares it. -/
theorem hasSymbol_visitAll (A : SemanticAnalyzer) (nodes : List (ASTNodeType × NodeClass))
    (x : String) :
    (A.visitAll nodes).symbol_table.hasSymbol x = true ↔
      A.symbol_table.hasSymbol x = true ∨ ∃ s ∈ ASTNode.declaredAmong nodes, s.name = x := by
  rw [visitAll_table, SymbolTable.hasSymbol_eq, SymbolTable.findSymbol_addAll,
    SymbolTable.hasSymbol_eq]
  cases A.symbol_table.findSymbol x with
  | some v => simp
  | none =>
    simp only [Option.orElse, Option.isSome_none, Bool.false_eq_true, false_or]
    rw [List.find?_isSome]
    simp

end SemanticAnalyzer

/-- C25, refuted as stated: in the program made of a reference to `x` followed
by the declaration `int x`, the reference is reported as undefined. -/
theorem forward_reference_is_reported :
    (SemanticAnalyzer.new.analyze (some (.mk .PROGRAM .ProgramNode
      [.mk .IDENTIFIER (.IdentifierNode "x") [] 0 0,
       .mk .VARIABLE_DECL (.VariableDeclNode "x" "int") [] 0 0] 0 0))).2.diagnostics =
      ["Error: Undefined identifier \x27x\x27"] := by
  decide

/-- C25, as the code has it: a reference is checked against the table as it is
at the visit of the reference.  Take a tree and a place in its pre-order where
an identifier node names `x`.  If `x` is not in the table at the start and no
node before that place declares it, the undefined-identifier diagnostic for
`x` is written at that place, whatever is declared after it.  If `x` is in
the table at the start or a node before that place declares it, the visit of
the reference writes nothing and changes nothing. -/
theorem reference_checked_at_visit (A : SemanticAnalyzer) (ast : ASTNode)
    (before after : List (ASTNodeType × NodeClass)) (x : String)
    (hplace : ast.preorder = before ++ (.IDENTIFIER, .IdentifierNode x) :: after) :
    (A.symbol_table.hasSymbol x = false →
      (∀ s ∈ ASTNode.declaredAmong before, s.name ≠ x) →
      ∃ rest, (A.analyze (some ast)).2.diagnostics =
        (A.visitAll before).diagnostics ++
          ("Error: Undefined identifier \x27" ++ x ++ "\x27") :: rest) ∧
    ((A.symbol_table.hasSymbol x = true ∨ ∃ s ∈ ASTNode.declaredAmong before, s.name = x) →
      (A.analyze (some ast)).2 = (A.visitAll before).visitAll after) := by
  have hrun : (A.analyze (some ast)).2 =
      ((A.visitAll before).visit .IDENTIFIER (.IdentifierNode x)).visitAll after := by
    show SemanticAnalyzer.analyzeNode ast A = _
    rw [SemanticAnalyzer.analyzeNode_eq, hplace, SemanticAnalyzer.visitAll_append]
    rfl
  have hiff := SemanticAnalyzer.hasSymbol_visitAll A before x
  constructor
  · intro h0 hnone
    have hno : (A.visitAll before).symbol_table.hasSymbol x = false := by
      cases hb : (A.visitAll before).symbol_table.hasSymbol x with
      | false => rfl
      | true =>
        rcases hiff.mp hb with h | ⟨s, hs, hsx⟩
        · rw [h0] at h; exact absurd h (by decide)
        · exact absurd hsx (hnone s hs)
    rw [hrun, SemanticAnalyzer.visit_identifier, hno]
    simp only [Bool.false_eq_true, if_false]
    obtain ⟨extra, hextra⟩ := SemanticAnalyzer.visitAll_diagnostics
      { A.visitAll before with diagnostics := (A.visitAll before).diagnostics ++
        ["Error: Undefined identifier \x27" ++ x ++ "\x27"] } after
    exact ⟨extra, by rw [hextra]; simp⟩
  · intro h
    rw [hrun, SemanticAnalyzer.visit_identifier, hiff.mpr h]
    rfl

/-- C25 at the program made of a reference to `x`, the declaration `int x` and
a second reference to `x`: the first reference is reported, whatever follows. -/
theorem reference_checked_at_visit_witness :
    ASTNode.preorder (.mk .PROGRAM .ProgramNode
        [.mk .IDENTIFIER (.IdentifierNode "x") [] 0 0,
         .mk .VARIABLE_DECL (.VariableDeclNode "x" "int") [] 0 0,
         .mk .IDENTIFIER (.IdentifierNode "x") [] 0 0] 0 0) =
      [(.PROGRAM, .ProgramNode)] ++ (.IDENTIFIER, .IdentifierNode "x") ::
        [(.VARIABLE_DECL, .VariableDeclNode "x" "int"), (.IDENTIFIER, .IdentifierNode "x")] ∧
    SemanticAnalyzer.new.symbol_table.hasSymbol "x" = false ∧
    ∃ rest, (SemanticAnalyzer.new.analyze (some (.mk .PROGRAM .ProgramNode
        [.mk .IDENTIFIER (.IdentifierNode "x") [] 0 0,
         .mk .VARIABLE_DECL (.VariableDeclNode "x" "int") [] 0 0,
         .mk .IDENTIFIER (.IdentifierNode "x") [] 0 0] 0 0))).2.diagnostics =
      (SemanticAnalyzer.new.visitAll [(.PROGRAM, .ProgramNode)]).diagnostics ++
        ("Error: Undefined identifier \x27" ++ "x" ++ "\x27") :: rest :=
  ⟨by decide, by decide,
   (reference_checked_at_visit SemanticAnalyzer.new
      (.mk .PROGRAM .ProgramNode
        [.mk .IDENTIFIER (.IdentifierNode "x") [] 0 0,
         .mk .VARIABLE_DECL (.VariableDeclNode "x" "int") [] 0 0,
         .mk .IDENTIFIER (.IdentifierNode "x") [] 0 0] 0 0)
      [(.PROGRAM, .ProgramNode)]
      [(.VARIABLE_DECL, .VariableDeclNode "x" "int"), (.IDENTIFIER, .IdentifierNode "x")] "x"
      (by decide)).1 (by decide) (by decide)⟩

/-- C26, refuted as stated: in the program made of the declaration `int f`
followed by a call of `f`, the table holds `f` as a variable and no function
symbol, and the call is not reported. -/
theorem call_of_variable_not_reported :
    (SemanticAnalyzer.new.analyze (some (.mk .PROGRAM .ProgramNode
      [.mk .VARIABLE_DECL (.VariableDeclNode "f" "int") [] 0 0,
       .mk .CALL_EXPR (.CallExprNode "f") [] 0 0] 0 0))).2 =
      { symbol_table := { symbols := [("f", Symbol.new "f" .VARIABLE "int")] },
        diagnostics := [] } := by
  decide

/-- C26, as the code has it: on a call node that carries a callee name the
analysis writes the undefined-function diagnostic naming the callee exactly
when the table holds no symbol of any kind under that name at the visit; the
table is left as it is, and the walk goes on to the children. -/
theorem call_checked_by_name (A : SemanticAnalyzer) (callee : String)
    (children : List ASTNode) (line column : Nat) :
    SemanticAnalyzer.analyzeNode (.mk .CALL_EXPR (.CallExprNode callee) children line column) A =
      SemanticAnalyzer.analyzeChildren children
        (if A.symbol_table.findSymbol callee = none then
          { A with diagnostics :=
            A.diagnostics ++ ["Error: Undefined function \x27" ++ callee ++ "\x27"] }
        else A) := by
  rw [SemanticAnalyzer.analyzeNode]
  congr 1
  show (if A.symbol_table.hasSymbol callee then A else _) = _
  rw [SymbolTable.hasSymbol_eq]
  cases A.symbol_table.findSymbol callee <;> rfl

/-- C27: the table is kept from one analysis to the next.  The analysis of a
tree starts from the table the analyzer holds: every name in it stays, with
its symbol, and the declarations of the tree are added for the other names.
So an analyzer that has analysed a program declaring `a` and then analyses a
program declaring `b` holds both `a` and `b`. -/
theorem table_kept_across_analyses :
    (∀ (A : SemanticAnalyzer) (ast : ASTNode) (n : String),
      (A.analyze (some ast)).2.getSymbolTable.findSymbol n =
        (A.getSymbolTable.findSymbol n).orElse
          (fun _ => ast.declarations.find? (fun s => s.name == n))) ∧
    ((SemanticAnalyzer.new.analyze (some (.mk .PROGRAM .ProgramNode
        [.mk .VARIABLE_DECL (.VariableDeclNode "a" "int") [] 0 0] 0 0))).2.analyze
      (some (.mk .PROGRAM .ProgramNode
        [.mk .VARIABLE_DECL (.VariableDeclNode "b" "int") [] 0 0] 0 0))).2.getSymbolTable =
      { symbols := [("a", Symbol.new "a" .VARIABLE "int"),
                    ("b", Symbol.new "b" .VARIABLE "int")] } := by
  refine ⟨fun A ast n => ?_, by decide⟩
  show (SemanticAnalyzer.analyzeNode ast A).symbol_table.findSymbol n = _
  rw [SemanticAnalyzer.analyzeNode_eq, SemanticAnalyzer.visitAll_table,
    SymbolTable.findSymbol_addAll]
  rfl

/-! ## The code generator: programs, calls and control statements -/

namespace CodeGenerator

theorem generateChildren_nil (indent : Nat) : generateChildren [] indent = some "" := by
  rw [generateChildren]

theorem generateChildren_cons (child : ASTNode) (rest : List ASTNode) (indent : Nat) :
    generateChildren (child :: rest) indent =
      (generateNode child indent).bind fun first =>
        (generateChildren rest indent).map fun others => first ++ others := by
  rw [generateChildren]
  cases generateNode child indent with
  | none => rfl
  | some first =>
    cases generateChildren rest indent with
    | none => rfl
    | some others => rfl

end CodeGenerator

set_option maxRecDepth 100000 in
/-- C28 (defect in the code): the output for a program.  On an absent tree
`generate` fails and writes nothing.  For a tree whose root is a `PROGRAM`
node and an output file that can be opened, when the walk of the children is
defined `generate` succeeds and writes the prologue, then `int main() {` and
the program-start comment, then the texts of the children in order at indent
level 1, then `    return 0;` and `}`, as claimed.  The walk is not defined for
every tree: a `FUNCTION`, `VARIABLE_DECL`, `CALL_EXPR`, literal or `IDENTIFIER`
node is cast to its node class by its kind alone, and on an object of another
class the behaviour is undefined.  The trees of the parser are such trees: for
the source `on start { }` the parser returns a `PROGRAM` node over a
base-class `FUNCTION` node, and neither `generate` on it nor the compilation
of the source has a defined result. -/
theorem generate_program :
    (∀ (T : SymbolTable) (writable : Bool),
      CodeGenerator.generate none T writable = some (false, none)) ∧
    (∀ (cls : NodeClass) (children : List ASTNode) (line column : Nat) (T : SymbolTable)
      (text : String), CodeGenerator.generateChildren children 1 = some text →
      CodeGenerator.generate (some (.mk .PROGRAM cls children line column)) T true =
        some (true, some (CodeGenerator.prologue ++
          ("int main() \x7b\n" ++ "    // CAPL 程序开始\n" ++ text ++ "    return 0;\n" ++
            "\x7d\n")))) ∧
    (∀ (cls : NodeClass) (children : List ASTNode) (line column : Nat) (T : SymbolTable),
      CodeGenerator.generateChildren children 1 = none →
      CodeGenerator.generate (some (.mk .PROGRAM cls children line column)) T true = none) ∧
    (∀ indent : Nat, CodeGenerator.generateChildren [] indent = some "") ∧
    (∀ (child : ASTNode) (rest : List ASTNode) (indent : Nat),
      CodeGenerator.generateChildren (child :: rest) indent =
        (CodeGenerator.generateNode child indent).bind fun first =>
          (CodeGenerator.generateChildren rest indent).map fun others => first ++ others) ∧
    CodeGenerator.prologue =
      "// 由 CAPL 编译器生成的 C++ 代码\n#include <iostream>\n#include <string>\n#include <vector>\n#include <map>\n\n// CAPL 运行时支持函数\nnamespace capl_runtime \x7b\n    void write(const std::string& msg) \x7b\n        std::cout << msg << std::endl;\n    \x7d\n    \n    void setTimer(const std::string& name, int ms) \x7b\n        // 定时器实现占位符\n    \x7d\n    \n    void output(int value) \x7b\n        std::cout << \"输出: \" << value << std::endl;\n    \x7d\n\x7d\n\nusing namespace capl_runtime;\n\n" ∧
    (parseSource "on start \x7b \x7d").1 = some (ASTNode.base .PROGRAM [ASTNode.base .FUNCTION []]) ∧
    (∀ T : SymbolTable,
      CodeGenerator.generate (some (ASTNode.base .PROGRAM [ASTNode.base .FUNCTION []])) T true
        = none) ∧
    CAPLCompiler.new.compileFromString "on start \x7b \x7d" true = none := by
  refine ⟨fun T writable => rfl, fun cls children line column T text h => ?_,
    fun cls children line column T h => ?_, CodeGenerator.generateChildren_nil,
    CodeGenerator.generateChildren_cons, by decide, by rfl, fun T => by rfl, by rfl⟩
  · simp only [CodeGenerator.generate, if_true, CodeGenerator.generateNode, h]
  · simp only [CodeGenerator.generate, if_true, CodeGenerator.generateNode, h]

set_option maxRecDepth 100000 in
/-- C28 at the program with the one child `VariableDeclNode("speed", "int")`:
the walk of the child is defined and the text is the prologue, the frame of
`main` and the line `    int speed;`. -/
theorem generate_program_witness :
    CodeGenerator.generateChildren [.mk .VARIABLE_DECL (.VariableDeclNode "speed" "int") [] 0 0] 1
      = some "    int speed;\n" ∧
    CodeGenerator.generate (some (.mk .PROGRAM .ProgramNode
      [.mk .VARIABLE_DECL (.VariableDeclNode "speed" "int") [] 0 0] 0 0)) SymbolTable.empty true =
      some (true, some (CodeGenerator.prologue ++
        ("int main() \x7b\n" ++ "    // CAPL 程序开始\n" ++ "    int speed;\n" ++
          "    return 0;\n" ++ "\x7d\n"))) :=
  ⟨by decide,
   generate_program.2.1 .ProgramNode [.mk .VARIABLE_DECL (.VariableDeclNode "speed" "int") [] 0 0]
     0 0 SymbolTable.empty "    int speed;\n" (by decide)⟩

set_option maxRecDepth 100000 in
/-- C29: the arguments of a call.  The text written for a call node is the
indent, the callee name and `();`, whatever children the node has: no child
is visited.  For a program with the one statement `write("hi", x)`, given as
a call node with a string literal child and an identifier child, the line
written is `write();`. -/
theorem call_arguments_not_emitted :
    (∀ (function_name : String) (children : List ASTNode) (line column indent : Nat),
      CodeGenerator.generateNode
        (.mk .CALL_EXPR (.CallExprNode function_name) children line column) indent =
        some (CodeGenerator.indentStr indent ++ function_name ++ "();\n")) ∧
    (∀ (cls : NodeClass) (children : List ASTNode) (line column indent : Nat),
      CodeGenerator.generateNode (.mk .CALL_EXPR cls children line column) indent =
        (CodeGenerator.callName cls).map fun name =>
          CodeGenerator.indentStr indent ++ name ++ "();\n") ∧
    CodeGenerator.generate (some (.mk .PROGRAM .ProgramNode
      [.mk .CALL_EXPR (.CallExprNode "write")
        [.mk .STRING_LITERAL (.LiteralNode "\"hi\"") [] 0 0,
         .mk .IDENTIFIER (.IdentifierNode "x") [] 0 0] 0 0] 0 0)) SymbolTable.empty true =
      some (true, some (CodeGenerator.prologue ++
        "int main() \x7b\n    // CAPL 程序开始\n    write();\n    return 0;\n\x7d\n")) := by
  refine ⟨fun function_name children line column indent => ?_,
    fun cls children line column indent => ?_, by decide⟩
  · rw [CodeGenerator.generateNode]
    rfl
  · rw [CodeGenerator.generateNode]
    cases CodeGenerator.callName cls <;> rfl

set_option maxRecDepth 100000 in
/-- C30: control constructs.  The text written for an `if`, a `while` or a
`for` node is the text of its children at the same indent and nothing else: no
keyword, no condition or header, no braces.  For the function `onStart` whose
body is an `if` node over the call `f()`, a `while` node over the call `g()`
and an empty `for` node, the text is the frame of the function around the two
lines `f();` and `g();`: none of the three statements leaves a trace in it. -/
theorem control_constructs_not_emitted :
    (∀ (cls : NodeClass) (children : List ASTNode) (line column indent : Nat),
      CodeGenerator.generateNode (.mk .IF_STMT cls children line column) indent =
        CodeGenerator.generateChildren children indent ∧
      CodeGenerator.generateNode (.mk .WHILE_STMT cls children line column) indent =
        CodeGenerator.generateChildren children indent ∧
      CodeGenerator.generateNode (.mk .FOR_STMT cls children line column) indent =
        CodeGenerator.generateChildren children indent) ∧
    CodeGenerator.generate (some (.mk .PROGRAM .ProgramNode
      [.mk .FUNCTION (.FunctionNode "onStart" "void")
        [.mk .IF_STMT .ASTNode [.mk .CALL_EXPR (.CallExprNode "f") [] 0 0] 0 0,
         .mk .WHILE_STMT .ASTNode [.mk .CALL_EXPR (.CallExprNode "g") [] 0 0] 0 0,
         .mk .FOR_STMT .ASTNode [] 0 0] 0 0] 0 0)) SymbolTable.empty true =
      some (true, some (CodeGenerator.prologue ++
        "int main() \x7b\n    // CAPL 程序开始\n    void onStart() \x7b\n        f();\n        g();\n    \x7d\n\n    return 0;\n\x7d\n")) ∧
    occursIn "if"
      "int main() \x7b\n    // CAPL 程序开始\n    void onStart() \x7b\n        f();\n        g();\n    \x7d\n\n    return 0;\n\x7d\n"
      = false ∧
    occursIn "while"
      "int main() \x7b\n    // CAPL 程序开始\n    void onStart() \x7b\n        f();\n        g();\n    \x7d\n\n    return 0;\n\x7d\n"
      = false ∧
    occursIn "for"
      "int main() \x7b\n    // CAPL 程序开始\n    void onStart() \x7b\n        f();\n        g();\n    \x7d\n\n    return 0;\n\x7d\n"
      = false := by
  refine ⟨fun cls children line column indent => ⟨?_, ?_, ?_⟩, by decide, by decide, by decide,
    by decide⟩
  · rw [CodeGenerator.generateNode] <;> exact fun h => ASTNodeType.noConfusion h
  · rw [CodeGenerator.generateNode] <;> exact fun h => ASTNodeType.noConfusion h
  · rw [CodeGenerator.generateNode] <;> exact fun h => ASTNodeType.noConfusion h

/-! ## The parser: nested parentheses in a `for` header, the children of an `if` node -/

/-- C21, refuted as stated: for the handler
`on start { for (i = 0; i < f(x); i = i + 1) { } }` the header scan stops at
the `)` of `f(x)`, after one `;`; the diagnostic for the header is recorded
at that `)`, and four more follow for the tokens after it. -/
theorem for_header_nested_call_rejected :
    (parseSource
      "on start \x7b for (i = 0; i < f(x); i = i + 1) \x7b \x7d \x7d").2.getErrors =
      ["语法错误 (行 1, 列 31): for 循环应该有两个分号", "语法错误 (行 1, 列 32): 意外的语句: ;",
       "语法错误 (行 1, 列 36): 意外的语句: =", "语法错误 (行 1, 列 40): 意外的语句: +",
       "语法错误 (行 1, 列 43): 意外的语句: )"] ∧
    (parseSource
      "on start \x7b for (i = 0; i < f(x); i = i + 1) \x7b \x7d \x7d").1.isNone = true := by
  decide

/-- C21, as the code has it: the header scan of a `for` statement runs up to the
first `)` after the opening `(`, whatever follows it, and counts the `;`
before it.  With a count other than two, `parseForStatement` returns no node
and records `for 循环应该有两个分号` at that `)`.  So a header with a nested
call before its second `;` is rejected; a header with two `;` and a nested
call after them is taken to end at the `)` of the call: `for (;; g(x) { }` is
accepted without a diagnostic, and `for (;; g(x)) { }` is rejected at its last
`)`, where `{` is expected. -/
theorem for_header_ends_at_first_paren :
    (∀ (fuel : Nat) (P : Parser) (header rest : List TokenType),
      TokenType.RIGHT_PAREN ∉ header →
      P.kinds = .FOR :: .LEFT_PAREN :: (header ++ .RIGHT_PAREN :: rest) →
      header.length + 1 < fuel → header.count .SEMICOLON ≠ 2 →
      ∃ Q : Parser, Q.kinds = .RIGHT_PAREN :: rest ∧ Q.errors = P.errors ∧
        Parser.parseForStatement fuel P =
          some (none, Q.reportError "for 循环应该有两个分号")) ∧
    (parseSource "on start \x7b for (;; g(x) \x7b \x7d \x7d").2.getErrors = [] ∧
    (parseSource "on start \x7b for (;; g(x)) \x7b \x7d \x7d").2.getErrors =
      ["语法错误 (行 1, 列 24): 期望 \x27\x7b\x27, 但得到 \x27)\x27",
       "语法错误 (行 1, 列 26): 意外的语句: \x7b"] := by
  refine ⟨?_, by decide, by decide⟩
  intro fuel P header rest hno hk hf hcount
  obtain ⟨n, rfl⟩ : ∃ n, fuel = n + 1 := ⟨fuel - 1, by omega⟩
  have h0 : Parser.Accepts P P (.FOR :: .LEFT_PAREN :: (header ++ .RIGHT_PAREN :: rest)) :=
    Parser.Accepts.start hk
  obtain ⟨e1, h1⟩ := Parser.expect_accepts h0 (by simp)
  obtain ⟨e2, h2⟩ := Parser.expect_accepts h1 (by simp)
  obtain ⟨P3, e3, h3⟩ := Parser.scanForHeader_accepts n header rest 0 hno h2 (by omega)
  rw [Nat.zero_add] at e3
  refine ⟨P3, h3.1, h3.2.1, ?_⟩
  rw [Parser.parseForStatement]
  simp only [e1, e2, e3, hcount, ne_eq, not_false_eq_true, if_true]

/-- C21 at the statement `for (i = 0; i < f(x); i = i + 1) { }`: the header up
to the first `)` is `i = 0; i < f(x`, with one `;`. -/
theorem for_header_ends_at_first_paren_witness :
    (Parser.new (Lexer.new
      "for (i = 0; i < f(x); i = i + 1) \x7b \x7d".toList)).kinds =
      .FOR :: .LEFT_PAREN :: ([.IDENTIFIER, .ASSIGN, .INTEGER, .SEMICOLON, .IDENTIFIER, .LESS,
        .IDENTIFIER, .LEFT_PAREN, .IDENTIFIER] ++ .RIGHT_PAREN ::
        [.SEMICOLON, .IDENTIFIER, .ASSIGN, .IDENTIFIER, .PLUS, .INTEGER, .RIGHT_PAREN,
         .LEFT_BRACE, .RIGHT_BRACE, .EOF_TOKEN]) ∧
    ∃ Q : Parser, Q.kinds = .RIGHT_PAREN ::
        [.SEMICOLON, .IDENTIFIER, .ASSIGN, .IDENTIFIER, .PLUS, .INTEGER, .RIGHT_PAREN,
         .LEFT_BRACE, .RIGHT_BRACE, .EOF_TOKEN] ∧
      Q.errors = (Parser.new (Lexer.new
        "for (i = 0; i < f(x); i = i + 1) \x7b \x7d".toList)).errors ∧
      Parser.parseForStatement 20 (Parser.new (Lexer.new
        "for (i = 0; i < f(x); i = i + 1) \x7b \x7d".toList)) =
        some (none, Q.reportError "for 循环应该有两个分号") :=
  ⟨by decide, for_header_ends_at_first_paren.1 20
    (Parser.new (Lexer.new "for (i = 0; i < f(x); i = i + 1) \x7b \x7d".toList))
    [.IDENTIFIER, .ASSIGN, .INTEGER, .SEMICOLON, .IDENTIFIER, .LESS, .IDENTIFIER, .LEFT_PAREN,
      .IDENTIFIER]
    [.SEMICOLON, .IDENTIFIER, .ASSIGN, .IDENTIFIER, .PLUS, .INTEGER, .RIGHT_PAREN,
      .LEFT_BRACE, .RIGHT_BRACE, .EOF_TOKEN]
    (by decide) (by decide) (by decide) (by decide)⟩

/-- C22: the children of an `IF_STMT` node.  `parseIfStatement` parses the
condition and does not keep it: for every well-formed `if` statement with an
`else`, the node returned has one child per statement of the then-block
followed by one child per statement of the else-block, and nothing else.  So
`if (a) { x = 1; } else { y = 2; }` and `if (a) { x = 1; y = 2; }` give the
same tree, an `IF_STMT` with two `EXPRESSION_STMT` children: the first child
is not the condition, and the two branches cannot be told apart. -/
theorem if_node_children :
    (∀ (fuel : Nat) (P : Parser) (condition : Expression) (thenBody elseBody : List Statement)
      (rest : List TokenType),
      (Statement.ifElse condition thenBody elseBody).wellFormed = true →
      P.kinds = (Statement.ifElse condition thenBody elseBody).kinds ++ rest →
      rest ≠ [] → rest.head? ≠ some .ELSE → 3 * P.kinds.length ≤ fuel + 1 →
      ∃ P1 : Parser, Parser.parseIfStatement fuel P =
        some (some (ASTNode.base .IF_STMT
          (Statement.nodes thenBody ++ Statement.nodes elseBody)), P1)) ∧
    (parseSource
      "on start \x7b if (a) \x7b x = 1; \x7d else \x7b y = 2; \x7d \x7d").1 =
      some (ASTNode.base .PROGRAM [ASTNode.base .FUNCTION [ASTNode.base .IF_STMT
        [ASTNode.base .EXPRESSION_STMT [], ASTNode.base .EXPRESSION_STMT []]]]) ∧
    (parseSource "on start \x7b if (a) \x7b x = 1; y = 2; \x7d \x7d").1 =
      (parseSource
        "on start \x7b if (a) \x7b x = 1; \x7d else \x7b y = 2; \x7d \x7d").1 := by
  refine ⟨?_, by rfl, by rfl⟩
  intro fuel P condition thenBody elseBody rest hwf hk hrest helse hf
  obtain ⟨P1, e1, _⟩ := (Parser.statements_accepted fuel).2.1 P
    (.ifElse condition thenBody elseBody) rest hwf hk hrest helse hf
  exact ⟨P1, e1⟩

/-- C22 at the statement `if (a) { x = 1; } else { y = 2; }`. -/
theorem if_node_children_witness :
    (Parser.new (Lexer.new
      "if (a) \x7b x = 1; \x7d else \x7b y = 2; \x7d".toList)).kinds =
      (Statement.ifElse (.operand .IDENTIFIER) [.assign (.operand .INTEGER)]
        [.assign (.operand .INTEGER)]).kinds ++ [.EOF_TOKEN] ∧
    ∃ P1 : Parser, Parser.parseIfStatement 60 (Parser.new (Lexer.new
      "if (a) \x7b x = 1; \x7d else \x7b y = 2; \x7d".toList)) =
      some (some (ASTNode.base .IF_STMT
        (Statement.nodes [.assign (.operand .INTEGER)] ++
          Statement.nodes [.assign (.operand .INTEGER)])), P1) :=
  ⟨by decide, if_node_children.1 60
    (Parser.new (Lexer.new "if (a) \x7b x = 1; \x7d else \x7b y = 2; \x7d".toList))
    (.operand .IDENTIFIER) [.assign (.operand .INTEGER)] [.assign (.operand .INTEGER)]
    [.EOF_TOKEN] (by decide) (by decide) (by decide) (by decide) (by decide)⟩

namespace SymbolTable

theorem lookup_none_not_mem (m : List (String × Symbol)) (key : String)
    (h : m.lookup key = none) : key ∉ m.map Prod.fst := by
  induction m with
  | nil => simp
  | cons e rest ih =>
    obtain ⟨k, v⟩ := e
    simp only [List.lookup] at h
    split at h
    · exact absurd h (by simp)
    · rename_i hne
      have hk : key ≠ k := by simpa using hne
      simp only [List.map_cons, List.mem_cons, not_or]
      exact ⟨hk, ih h⟩

theorem lookup_mem (m : List (String × Symbol)) (key : String) (value : Symbol)
    (h : m.lookup key = some value) : (key, value) ∈ m := by
  induction m with
  | nil => simp [List.lookup] at h
  | cons e rest ih =>
    obtain ⟨k, v⟩ := e
    simp only [List.lookup] at h
    split at h
    · rename_i heq
      have hk : key = k := by simpa using heq
      simp only [Option.some.injEq] at h
      rw [hk, h]
      exact List.mem_cons_self _ _
    · exact List.mem_cons_of_mem _ (ih h)

theorem wellKeyed_of_reachable (T : SymbolTable) (h : Reachable T) : WellKeyed T := by
  induction h with
  | empty => exact ⟨List.nodup_nil, fun e he => absurd he (List.not_mem_nil _)⟩
  | addSymbol T s _ ih =>
    unfold SymbolTable.addSymbol
    cases hl : T.symbols.lookup s.name with
    | some v => simpa using ih
    | none =>
      simp only [Option.isSome_none, Bool.false_eq_true, if_false,
        assign_of_lookup_none _ _ _ hl]
      refine ⟨?_, ?_⟩
      · simp only [List.map_append, List.map_cons, List.map_nil]
        rw [List.nodup_append]
        refine ⟨ih.1, List.nodup_singleton _, ?_⟩
        intro a ha hb
        simp only [List.mem_singleton] at hb
        rw [hb] at ha
        exact lookup_none_not_mem _ _ hl ha
      · intro e he
        simp only [List.mem_append, List.mem_singleton] at he
        rcases he with he | he
        · exact ih.2 e he
        · rw [he]
  | clear T _ _ => exact ⟨List.nodup_nil, fun e he => absurd he (List.not_mem_nil _)⟩

end SymbolTable

/-- The result of the parser is a tree exactly when no diagnostic is recorded. -/
theorem parseSource_isSome_iff (source : String) :
    (parseSource source).1.isSome = true ↔ (parseSource source).2.getErrors = [] := by
  obtain ⟨r, h, hflag, hiff, _⟩ := Parser.parse_total source
  have hr : parseSource source = r := by
    unfold parseSource
    rw [h]
  rw [hr, hiff]
  unfold Parser.FlagMatches at hflag
  unfold Parser.getErrors
  constructor
  · intro hf
    by_contra hne
    have := hflag.mpr hne
    rw [hf] at this
    exact Bool.noConfusion this
  · intro he
    cases hfl : r.2.has_errors with
    | false => rfl
    | true => exact absurd he (hflag.mp hfl)

set_option maxRecDepth 100000 in
/-- C31: literals and identifiers.  For an integer, float or string literal
node the text written is the value of the node, and for an identifier node
its name, with nothing before or after and whatever children the node has.
For a char or boolean literal node nothing of the node is written: the two
kinds have no case in the `switch` and only the children are visited.  A
program made of the char literal `'a'` and the boolean literal `true` gives
an empty body of `main`. -/
theorem literal_text_emitted :
    (∀ (value : String) (children : List ASTNode) (line column indent : Nat),
      CodeGenerator.generateNode (.mk .INTEGER_LITERAL (.LiteralNode value) children line column)
        indent = some value ∧
      CodeGenerator.generateNode (.mk .FLOAT_LITERAL (.LiteralNode value) children line column)
        indent = some value ∧
      CodeGenerator.generateNode (.mk .STRING_LITERAL (.LiteralNode value) children line column)
        indent = some value ∧
      CodeGenerator.generateNode (.mk .IDENTIFIER (.IdentifierNode value) children line column)
        indent = some value) ∧
    (∀ (cls : NodeClass) (children : List ASTNode) (line column indent : Nat),
      CodeGenerator.generateNode (.mk .CHAR_LITERAL cls children line column) indent =
        CodeGenerator.generateChildren children indent ∧
      CodeGenerator.generateNode (.mk .BOOLEAN_LITERAL cls children line column) indent =
        CodeGenerator.generateChildren children indent) ∧
    CodeGenerator.generate (some (.mk .PROGRAM .ProgramNode
      [.mk .CHAR_LITERAL (.LiteralNode "\x27a\x27") [] 0 0,
       .mk .BOOLEAN_LITERAL (.LiteralNode "true") [] 0 0] 0 0)) SymbolTable.empty true =
      some (true, some (CodeGenerator.prologue ++
        "int main() \x7b\n    // CAPL 程序开始\n    return 0;\n\x7d\n")) := by
  refine ⟨fun value children line column indent => ⟨?_, ?_, ?_, ?_⟩,
    fun cls children line column indent => ⟨?_, ?_⟩, by decide⟩
  · rw [CodeGenerator.generateNode]; rfl
  · rw [CodeGenerator.generateNode]; rfl
  · rw [CodeGenerator.generateNode]; rfl
  · rw [CodeGenerator.generateNode]; rfl
  · rw [CodeGenerator.generateNode] <;> exact fun h => ASTNodeType.noConfusion h
  · rw [CodeGenerator.generateNode] <;> exact fun h => ASTNodeType.noConfusion h

/-- C32: the error list after a failed compilation.  For every source with a
syntax error `compileFromString` fails and leaves exactly one entry in the
error list, the fixed text `语法分析失败`: the diagnostics of the parser are not
copied.  For the source `;` the parser records the diagnostic of line 1,
column 1; `getErrors` after `compileFromString` does not hold it, while
`getErrors` after `syntaxCheckFromString` does. -/
theorem compile_failure_drops_parser_diagnostics :
    (∀ (C : CAPLCompiler) (source : String) (writable : Bool),
      (parseSource source).2.getErrors ≠ [] →
      C.compileFromString source writable =
        some (false, { C with errors := ["语法分析失败"], warnings := [] }, none)) ∧
    (parseSource ";").2.getErrors = ["语法错误 (行 1, 列 1): 意外的顶级声明: ;"] ∧
    (CAPLCompiler.new.compileFromString ";" true).map (fun r => r.2.1.getErrors) =
      some ["语法分析失败"] ∧
    (CAPLCompiler.new.syntaxCheckFromString ";").2.getErrors =
      ["语法错误 (行 1, 列 1): 意外的顶级声明: ;"] := by
  refine ⟨fun C source writable hne => ?_, by decide, by decide, by decide⟩
  have hnone : (parseSource source).1 = none := by
    cases h : (parseSource source).1 with
    | none => rfl
    | some ast =>
      have : (parseSource source).1.isSome = true := by rw [h]; rfl
      exact absurd ((parseSource_isSome_iff source).mp this) hne
  unfold CAPLCompiler.compileFromString
  generalize parseSource source = r at hnone
  obtain ⟨ast, P⟩ := r
  simp only at hnone
  subst hnone
  rfl

/-- C32 at the source `; ;`. -/
theorem compile_failure_drops_parser_diagnostics_witness :
    (parseSource "; ;").2.getErrors ≠ [] ∧
    CAPLCompiler.new.compileFromString "; ;" true =
      some (false, { CAPLCompiler.new with errors := ["语法分析失败"], warnings := [] }, none) :=
  ⟨by decide, compile_failure_drops_parser_diagnostics.1 CAPLCompiler.new "; ;" true (by decide)⟩

/-- C33: the syntax check.  `syntaxCheckFromString` returns `true` exactly when
the parser records no diagnostic for the source.  When the parser records
diagnostics it returns `false` and the error list is the list of the parser,
in order; when it returns `true` the error list is empty.  In both cases what
the list held before the call is gone. -/
theorem syntax_check_result (C : CAPLCompiler) (source : String) :
    ((C.syntaxCheckFromString source).1 = true ↔ (parseSource source).2.getErrors = []) ∧
    ((parseSource source).2.getErrors ≠ [] →
      (C.syntaxCheckFromString source).1 = false ∧
      (C.syntaxCheckFromString source).2.getErrors = (parseSource source).2.getErrors) ∧
    ((parseSource source).2.getErrors = [] →
      (C.syntaxCheckFromString source).2.getErrors = []) := by
  have hiff := parseSource_isSome_iff source
  unfold CAPLCompiler.syntaxCheckFromString
  generalize parseSource source = r at hiff
  obtain ⟨ast, P⟩ := r
  simp only at hiff ⊢
  by_cases he : P.getErrors = []
  · have hs := hiff.mpr he
    cases ast with
    | none => exact absurd hs (by simp)
    | some node =>
      simp [he, SemanticAnalyzer.analyze, CAPLCompiler.getErrors]
  · simp [he, CAPLCompiler.getErrors]

/-- C33 at a compiler that holds an error from an earlier call, and the sources
`; ;` and `on start { }`. -/
theorem syntax_check_result_witness :
    (parseSource "; ;").2.getErrors ≠ [] ∧
    ({ CAPLCompiler.new with errors := ["语法分析失败"] }.syntaxCheckFromString "; ;").2.getErrors =
      (parseSource "; ;").2.getErrors ∧
    (parseSource "on start \x7b \x7d").2.getErrors = [] ∧
    ({ CAPLCompiler.new with errors := ["语法分析失败"] }.syntaxCheckFromString
      "on start \x7b \x7d").2.getErrors = [] :=
  ⟨by decide,
   ((syntax_check_result { CAPLCompiler.new with errors := ["语法分析失败"] } "; ;").2.1
      (by decide)).2,
   by decide,
   (syntax_check_result { CAPLCompiler.new with errors := ["语法分析失败"] }
      "on start \x7b \x7d").2.2 (by decide)⟩

/-- C34: the table in every reachable state.  `hasSymbol` is true exactly when
`findSymbol` returns a symbol, and that symbol has the name asked for; `size`
is the number of symbols `getAllSymbols` returns, and their names are pairwise
distinct; after `clear` the size is 0 and no name is in the table. -/
theorem table_invariants (T : SymbolTable) (h : SymbolTable.Reachable T) :
    (∀ n : String, T.hasSymbol n = true ↔ ∃ s, T.findSymbol n = some s) ∧
    (∀ (n : String) (s : Symbol), T.findSymbol n = some s → s.name = n) ∧
    T.size = T.getAllSymbols.length ∧
    (T.getAllSymbols.map Symbol.name).Nodup ∧
    T.clear.size = 0 ∧ (∀ n : String, T.clear.hasSymbol n = false) := by
  obtain ⟨hnodup, hname⟩ := SymbolTable.wellKeyed_of_reachable T h
  refine ⟨fun n => ?_, fun n s hs => ?_, ?_, ?_, rfl, fun n => rfl⟩
  · unfold SymbolTable.hasSymbol SymbolTable.findSymbol
    cases T.symbols.lookup n with
    | none => simp
    | some v => simp
  · exact hname _ (SymbolTable.lookup_mem _ _ _ hs)
  · simp [SymbolTable.size, SymbolTable.getAllSymbols]
  · have hmap : T.getAllSymbols.map Symbol.name = T.symbols.map Prod.fst := by
      unfold SymbolTable.getAllSymbols
      rw [List.map_map]
      apply List.map_congr_left
      intro e he
      exact hname e he
    rw [hmap]
    exact hnodup

/-- C34 at the table reached by adding `speed`, then `speed` again with
another type, then `start`. -/
theorem table_invariants_witness :
    (((SymbolTable.empty.addSymbol (Symbol.new "speed" .VARIABLE "int")).2.addSymbol
      (Symbol.new "speed" .VARIABLE "float")).2.addSymbol
      (Symbol.new "start" .FUNCTION "void")).2.size = 2 ∧
    ((((SymbolTable.empty.addSymbol (Symbol.new "speed" .VARIABLE "int")).2.addSymbol
      (Symbol.new "speed" .VARIABLE "float")).2.addSymbol
      (Symbol.new "start" .FUNCTION "void")).2.getAllSymbols.map Symbol.name).Nodup :=
  ⟨by decide,
   (table_invariants _ (.addSymbol _ _ (.addSymbol _ _ (.addSymbol _ _ .empty)))).2.2.2.1⟩

namespace Main

theorem find_last_of_absent (s chars : List Char)
    (h : ∀ c ∈ s, chars.contains c = false) : find_last_of s chars = npos := by
  unfold find_last_of
  have : s.reverse.findIdx? (fun c => chars.contains c) = none := by
    rw [List.findIdx?_eq_none_iff]
    intro c hc
    exact h c (List.mem_reverse.mp hc)
  rw [this]

theorem find_last_of_last (a b chars : List Char) (x : Char)
    (hx : chars.contains x = true) (hb : ∀ c ∈ b, chars.contains c = false) :
    find_last_of (a ++ x :: b) chars = a.length := by
  unfold find_last_of
  have hrev : (a ++ x :: b).reverse = b.reverse ++ x :: a.reverse := by simp
  have hnone : b.reverse.findIdx? (fun c => chars.contains c) = none := by
    rw [List.findIdx?_eq_none_iff]
    intro c hc
    exact hb c (List.mem_reverse.mp hc)
  rw [hrev, List.findIdx?_append, hnone]
  simp only [List.findIdx?_cons, hx, if_true, List.length_reverse, Option.none_orElse,
    Option.map_some', List.length_append, List.length_cons]
  simp only [Option.none_or]
  omega


theorem find_last_of_append_absent (s t chars : List Char)
    (ht : ∀ c ∈ t, chars.contains c = false) :
    find_last_of (s ++ t) chars = find_last_of s chars := by
  unfold find_last_of
  have hnone : t.reverse.findIdx? (fun c => chars.contains c) = none := by
    rw [List.findIdx?_eq_none_iff]
    intro c hc
    exact ht c (List.mem_reverse.mp hc)
  rw [List.reverse_append, List.findIdx?_append, hnone, Option.none_or]
  cases s.reverse.findIdx? (fun c => chars.contains c) with
  | none => rfl
  | some i =>
    simp only [Option.map_some', List.length_append, List.length_reverse]
    omega

theorem find_last_of_bound (s chars : List Char) :
    find_last_of s chars = npos ∨ find_last_of s chars < s.length := by
  unfold find_last_of
  cases s with
  | nil => exact Or.inl rfl
  | cons c t =>
    cases (c :: t).reverse.findIdx? (fun c => chars.contains c) with
    | none => exact Or.inl rfl
    | some i =>
      refine Or.inr ?_
      simp only [List.length_cons]
      omega

/-- A path without separator is returned whole, extension included. -/
theorem getBaseName_plain (filepath : String) (hlen : filepath.length ≤ npos)
    (hsep : ∀ c ∈ filepath.data, ['/', '\\'].contains c = false) :
    getBaseName filepath = filepath := by
  unfold getBaseName
  have h1 := find_last_of_absent filepath.data ['/', '\\'] hsep
  simp only [h1, if_true]
  rw [if_neg]
  intro h
  obtain ⟨h2, h3⟩ := h
  rcases find_last_of_bound filepath.data ['.'] with h4 | h4
  · exact h2 h4
  · have : filepath.data.length ≤ npos := hlen
    omega

theorem finalComponent_append (a b : List Char) (x : Char)
    (hx : ['/', '\\'].contains x = true)
    (hb : ∀ c ∈ b, ['/', '\\'].contains c = false) :
    finalComponent (a ++ x :: b) = b := by
  unfold finalComponent
  have hrev : (a ++ x :: b).reverse = b.reverse ++ x :: a.reverse := by simp
  rw [hrev, List.takeWhile_append_of_pos]
  · rw [List.takeWhile_cons, hx]
    simp
  · intro c hc
    rw [hb c (List.mem_reverse.mp hc)]
    rfl

theorem withoutExtension_plain (b : List Char) (h : '.' ∉ b) : withoutExtension b = b := by
  unfold withoutExtension
  rw [if_neg]
  intro hc
  exact h (List.contains_iff_exists_mem_beq.mp hc |>.elim fun d hd => by
    have : '.' = d := by simpa using hd.2
    rw [this]; exact hd.1)

theorem withoutExtension_dot (c d : List Char) (hd : '.' ∉ d) :
    withoutExtension (c ++ '.' :: d) = c := by
  unfold withoutExtension
  rw [if_pos (by simp)]
  have hrev : (c ++ '.' :: d).reverse = d.reverse ++ '.' :: c.reverse := by simp
  rw [hrev, List.dropWhile_append_of_pos]
  · rw [List.dropWhile_cons]
    simp
  · intro e he
    have : e ≠ '.' := fun h => hd (h ▸ List.mem_reverse.mp he)
    simpa using this

/-- A path with a separator, not longer than `npos`, gives the final component
without its extension. -/
theorem getBaseName_separated (a b : List Char) (x : Char)
    (hx : ['/', '\\'].contains x = true)
    (hb : ∀ c ∈ b, ['/', '\\'].contains c = false)
    (hlen : (a ++ x :: b).length ≤ npos) :
    getBaseName (String.mk (a ++ x :: b)) = baseNameSpec (String.mk (a ++ x :: b)) := by
  have hxdot : x ≠ '.' := by
    intro h
    rw [h] at hx
    exact absurd hx (by decide)
  have hl : a.length + 1 + b.length ≤ npos := by
    simp only [List.length_append, List.length_cons] at hlen
    omega
  unfold getBaseName baseNameSpec
  simp only []
  rw [find_last_of_last a b _ x hx hb, finalComponent_append a b x hx hb]
  have hne : a.length ≠ npos := by omega
  rw [if_neg hne, if_neg hne]
  have hfile : substr (a ++ x :: b) (a.length + 1) npos = b := by
    unfold substr
    have : (a ++ x :: b).drop (a.length + 1) = b := by
      rw [show a ++ x :: b = (a ++ [x]) ++ b by simp]
      exact List.drop_left' (by simp)
    rw [this]
    exact List.take_of_length_le (by omega)
  rw [hfile]
  by_cases hdot : '.' ∈ b
  · obtain ⟨d, c, hsplit, hnd⟩ := List.eq_append_cons_of_mem (List.mem_reverse.mpr hdot)
    have hb2 : b = c.reverse ++ '.' :: d.reverse := by
      have := congrArg List.reverse hsplit
      simpa using this
    have hnd2 : '.' ∉ d.reverse := fun h => hnd (List.mem_reverse.mp h)
    have hlast : find_last_of (a ++ x :: b) ['.'] = a.length + 1 + c.length := by
      rw [hb2, show a ++ x :: (c.reverse ++ '.' :: d.reverse) =
        (a ++ x :: c.reverse) ++ '.' :: d.reverse by simp]
      rw [find_last_of_last _ _ _ '.' (by decide)]
      · simp; omega
      · intro e he
        have : e ≠ '.' := fun h => hnd2 (h ▸ he)
        simpa using this
    have hl2 : a.length + 1 + c.length + 1 + d.length ≤ npos := by
      rw [hb2] at hl
      simp at hl
      omega
    rw [hlast, if_pos ⟨by omega, by omega⟩]
    rw [hb2, withoutExtension_dot _ _ hnd2]
    unfold substr
    congr 1
    rw [List.drop_zero, show a.length + 1 + c.length - (a.length + 1) = c.reverse.length by
      simp]
    exact List.take_left' rfl
  · have habs : ∀ e ∈ x :: b, ['.'].contains e = false := by
      intro e he
      have : e ≠ '.' := by
        rcases List.mem_cons.mp he with h | h
        · rw [h]; exact hxdot
        · exact fun h2 => hdot (h2 ▸ h)
      simpa using this
    rw [find_last_of_append_absent a (x :: b) ['.'] habs, withoutExtension_plain b hdot]
    rw [if_neg]
    intro h
    rcases find_last_of_bound a ['.'] with h4 | h4
    · exact h.1 h4
    · omega

set_option maxRecDepth 100000 in
/-- C35: the base name of a path.  For a path with a `/` or `\` the function
returns the final component with everything from its last `.` on removed, as
claimed (`dir/input.can` gives `input`).  For a path without separator the
test `lastDot > lastSlash` compares with `npos` and fails, so the path is
returned whole, extension included: `test.can` gives `test.can`, not `test`,
and the default output file of `test.can` is `test.can.cbf`, not `test.cbf`. -/
theorem base_name_of_path :
    (∀ filepath : String, filepath.length ≤ npos →
      (∀ c ∈ filepath.data, ['/', '\\'].contains c = false) →
      getBaseName filepath = filepath) ∧
    (∀ (a b : List Char) (x : Char), ['/', '\\'].contains x = true →
      (∀ c ∈ b, ['/', '\\'].contains c = false) → (a ++ x :: b).length ≤ npos →
      getBaseName (String.mk (a ++ x :: b)) = baseNameSpec (String.mk (a ++ x :: b))) ∧
    getBaseName "test.can" = "test.can" ∧ baseNameSpec "test.can" = "test" ∧
    defaultOutputFile "test.can" = "test.can.cbf" ∧
    getBaseName "dir/input.can" = "input" ∧ baseNameSpec "dir/input.can" = "input" :=
  ⟨getBaseName_plain, getBaseName_separated, by decide, by decide, by decide, by decide,
    by decide⟩

set_option maxRecDepth 100000 in
/-- C35 at the paths `main.can` and `a.b/c.d.can`. -/
theorem base_name_of_path_witness :
    getBaseName "main.can" = "main.can" ∧
    getBaseName "a.b/c.d.can" = baseNameSpec "a.b/c.d.can" ∧
    baseNameSpec "a.b/c.d.can" = "c.d" :=
  ⟨base_name_of_path.1 "main.can" (by decide) (by decide),
   base_name_of_path.2.1 "a.b".data "c.d.can".data '/' (by decide) (by decide) (by decide),
   by decide⟩

end Main

namespace ASTNode

theorem plainList_append (xs ys : List ASTNode) :
    plainList (xs ++ ys) = (plainList xs && plainList ys) := by
  induction xs with
  | nil => simp [plainList]
  | cons x r ih => simp [plainList, ih, Bool.and_assoc]

theorem plainList_snoc (xs : List ASTNode) (x : ASTNode) (hxs : plainList xs = true)
    (hx : plain x = true) : plainList (xs ++ [x]) = true := by
  rw [plainList_append, hxs]
  simp [plainList, hx]

theorem plain_base (type : ASTNodeType) (children : List ASTNode)
    (hk : parserKinds.contains type = true)
    (hc : (!(type = .VARIABLE_DECL || type = .EXPRESSION_STMT) || children.isEmpty) = true)
    (hp : plainList children = true) : plain (base type children) = true := by
  unfold base
  rw [plain, hk, hc, hp]
  rfl

end ASTNode

namespace Parser

theorem reportError_eq (P : Parser) (message : String) :
    P.reportError message =
      { P with has_errors := true
               errors := P.errors ++
                [diagnostic P.current_token.line P.current_token.column message] } := rfl

theorem good_of_errors {P P1 : Parser} (h : P1.errors = P.errors) (hP : Good P) : Good P1 := by
  intro m hm
  rw [h] at hm
  exact hP m hm

theorem good_advance {P : Parser} (hP : Good P) : Good P.advance :=
  good_of_errors rfl hP

theorem good_reportError {P : Parser} (hP : Good P) {message : String}
    (hm : KnownMessage message) : Good (P.reportError message) := by
  intro m hmem
  rw [reportError_eq] at hmem
  simp only [List.mem_append, List.mem_singleton] at hmem
  rcases hmem with h | h
  · exact hP m h
  · exact ⟨_, _, message, hm, h⟩

theorem expect_message (P : Parser) (ty : TokenType) (h : P.current_token.type ≠ ty) :
    P.expect ty =
      (false, P.reportError (expectMessage (tokenTypeToString ty) P.current_token.value)) := by
  unfold expect
  rw [if_neg h]
  rfl

theorem expect_of_type (P : Parser) (ty : TokenType) (h : P.current_token.type = ty) :
    P.expect ty = (true, P.advance) := by
  unfold expect
  rw [if_pos h]

theorem good_expect {P : Parser} (hP : Good P) (ty : TokenType) (hty : ty ∈ punctuationKinds) :
    Good (P.expect ty).2 := by
  by_cases h : P.current_token.type = ty
  · rw [expect_of_type P ty h]
    exact good_advance hP
  · rw [expect_message P ty h]
    exact good_reportError hP (.expect ty _ hty)

theorem good_parseExpression {P : Parser} (hP : Good P) : Good (parseExpression P).2 := by
  unfold parseExpression
  split
  · dsimp only
    split
    · split
      · exact good_advance (good_advance (good_advance hP))
      · exact good_reportError (good_advance (good_advance hP)) .operand
    · exact good_advance hP
  · exact good_reportError hP .expression

theorem skipArguments_errors (n : Nat) (P P1 : Parser) (h : skipArguments n P = some P1) :
    P1.errors = P.errors := by
  induction n generalizing P with
  | zero => simp [skipArguments] at h
  | succ n ih =>
    rw [skipArguments] at h
    split at h
    · exact (ih P.advance h).trans rfl
    · simp only [Option.some.injEq] at h
      rw [h]

theorem skipToSemicolon_errors (n : Nat) (P P1 : Parser) (h : skipToSemicolon n P = some P1) :
    P1.errors = P.errors := by
  induction n generalizing P with
  | zero => simp [skipToSemicolon] at h
  | succ n ih =>
    rw [skipToSemicolon] at h
    split at h
    · exact (ih P.advance h).trans rfl
    · simp only [Option.some.injEq] at h
      rw [h]

theorem scanForHeader_errors (n : Nat) (P : Parser) (count : Nat) (r : Nat × Parser)
    (h : scanForHeader n P count = some r) : r.2.errors = P.errors := by
  induction n generalizing P count with
  | zero => simp [scanForHeader] at h
  | succ n ih =>
    rw [scanForHeader] at h
    split at h
    · exact (ih P.advance _ h).trans rfl
    · simp only [Option.some.injEq] at h
      rw [← h]

theorem good_of_expect {P P1 : Parser} {b : Bool} {ty : TokenType} (hP : Good P)
    (hty : ty ∈ punctuationKinds) (h : P.expect ty = (b, P1)) : Good P1 := by
  have := good_expect hP ty hty
  rw [h] at this
  exact this

theorem good_of_parseExpression {P P1 : Parser} {o : Option ASTNode} (hP : Good P)
    (h : parseExpression P = (o, P1)) : Good P1 := by
  have := good_parseExpression hP
  rw [h] at this
  exact this

theorem sound_none {P : Parser} (hP : Good P) : Sound (none, P) :=
  ⟨hP, fun _ h => Option.noConfusion h⟩

theorem sound_some {P : Parser} {node : ASTNode} (hP : Good P) (hn : node.plain = true) :
    Sound (some node, P) :=
  ⟨hP, fun _ h => by
    simp only [Option.some.injEq] at h
    rw [← h]
    exact hn⟩

theorem parseAssignmentOrCall_sound (n : Nat) :
    SoundAt parseAssignmentOrCall (fun P => P.current_token.type = .IDENTIFIER) n := by
  intro P r hP ht h
  unfold parseAssignmentOrCall at h
  rw [if_neg (not_not.mpr ht)] at h
  dsimp only at h
  split at h
  · split at h
    · rename_i P3 heq
      simp only [Option.some.injEq] at h
      rw [← h]
      exact sound_none (good_of_parseExpression (good_advance (good_advance hP)) heq)
    · rename_i e P3 heq
      have h3 := good_of_parseExpression (good_advance (good_advance hP)) heq
      split at h
      · rename_i P4 heq4
        simp only [Option.some.injEq] at h
        rw [← h]
        exact sound_none (good_of_expect h3 (by decide) heq4)
      · rename_i P4 heq4
        simp only [Option.some.injEq] at h
        rw [← h]
        exact sound_some (good_of_expect h3 (by decide) heq4) (by decide)
  · split at h
    · split at h
      · simp at h
      · rename_i P2 heq2
        have h2 : Good P2 :=
          good_of_errors (skipArguments_errors _ _ _ heq2) (good_advance (good_advance hP))
        split at h
        · rename_i P3 heq3
          simp only [Option.some.injEq] at h
          rw [← h]
          exact sound_none (good_of_expect h2 (by decide) heq3)
        · rename_i P3 heq3
          have h3 := good_of_expect h2 (by decide) heq3
          split at h
          · rename_i P4 heq4
            simp only [Option.some.injEq] at h
            rw [← h]
            exact sound_none (good_of_expect h3 (by decide) heq4)
          · rename_i P4 heq4
            simp only [Option.some.injEq] at h
            rw [← h]
            exact sound_some (good_of_expect h3 (by decide) heq4) (by decide)
    · simp only [Option.some.injEq] at h
      rw [← h]
      exact sound_none (good_reportError (good_advance hP) .assignOrCall)

theorem parseBlockBody_sound_succ (n : Nat) (hs : SoundAt parseStatement (fun _ => True) n)
    (hb : SoundLoop parseBlockBody n) : SoundLoop parseBlockBody (n + 1) := by
  intro P children r hP hc h
  rw [parseBlockBody] at h
  split at h
  · cases hst : parseStatement n P with
    | none => rw [hst] at h; simp at h
    | some v =>
      obtain ⟨o, P1⟩ := v
      rw [hst] at h
      have hv := hs _ _ hP trivial hst
      cases o with
      | some stmt => exact hb _ _ _ hv.1 (ASTNode.plainList_snoc _ _ hc (hv.2 _ rfl)) h
      | none =>
        dsimp only at h
        split at h
        · exact hb _ _ _ (good_advance hv.1) hc h
        · exact hb _ _ _ hv.1 hc h
  · simp only [Option.some.injEq] at h
    rw [← h]
    exact ⟨hP, hc⟩

theorem parseForBody_sound_succ (n : Nat) (hs : SoundAt parseStatement (fun _ => True) n)
    (hb : SoundLoop parseForBody n) : SoundLoop parseForBody (n + 1) := by
  intro P children r hP hc h
  rw [parseForBody] at h
  split at h
  · cases hst : parseStatement n P with
    | none => rw [hst] at h; simp at h
    | some v =>
      obtain ⟨o, P1⟩ := v
      rw [hst] at h
      have hv := hs _ _ hP trivial hst
      cases o with
      | some stmt => exact hb _ _ _ hv.1 (ASTNode.plainList_snoc _ _ hc (hv.2 _ rfl)) h
      | none => exact hb _ _ _ hv.1 hc h
  · simp only [Option.some.injEq] at h
    rw [← h]
    exact ⟨hP, hc⟩

theorem parseWhileStatement_sound_succ (n : Nat) (hb : SoundLoop parseBlockBody n) :
    SoundAt parseWhileStatement (fun P => P.current_token.type = .WHILE) (n + 1) := by
  intro P r hP ht h
  rw [parseWhileStatement, expect_of_type P .WHILE ht] at h
  dsimp only at h
  have h1 := good_advance hP
  split at h
  · rename_i P2 heq2
    simp only [Option.some.injEq] at h
    rw [← h]
    exact sound_none (good_of_expect h1 (by decide) heq2)
  · rename_i P2 heq2
    have h2 := good_of_expect h1 (by decide) heq2
    split at h
    · rename_i P3 heq3
      simp only [Option.some.injEq] at h
      rw [← h]
      exact sound_none (good_of_parseExpression h2 heq3)
    · rename_i e P3 heq3
      have h3 := good_of_parseExpression h2 heq3
      split at h
      · rename_i P4 heq4
        simp only [Option.some.injEq] at h
        rw [← h]
        exact sound_none (good_of_expect h3 (by decide) heq4)
      · rename_i P4 heq4
        have h4 := good_of_expect h3 (by decide) heq4
        split at h
        · rename_i P5 heq5
          simp only [Option.some.injEq] at h
          rw [← h]
          exact sound_none (good_of_expect h4 (by decide) heq5)
        · rename_i P5 heq5
          have h5 := good_of_expect h4 (by decide) heq5
          split at h
          · simp at h
          · rename_i cs P6 heq6
            have h6 := hb P5 [] _ h5 rfl heq6
            split at h
            · rename_i P7 heq7
              simp only [Option.some.injEq] at h
              rw [← h]
              exact sound_none (good_of_expect h6.1 (by decide) heq7)
            · rename_i P7 heq7
              simp only [Option.some.injEq] at h
              rw [← h]
              exact sound_some (good_of_expect h6.1 (by decide) heq7)
                (ASTNode.plain_base _ _ (by decide) rfl h6.2)

theorem parseIfStatement_sound_succ (n : Nat) (hb : SoundLoop parseBlockBody n) :
    SoundAt parseIfStatement (fun P => P.current_token.type = .IF) (n + 1) := by
  intro P r hP ht h
  rw [parseIfStatement, expect_of_type P .IF ht] at h
  dsimp only at h
  have h1 := good_advance hP
  split at h
  · rename_i P2 heq2
    simp only [Option.some.injEq] at h
    rw [← h]
    exact sound_none (good_of_expect h1 (by decide) heq2)
  · rename_i P2 heq2
    have h2 := good_of_expect h1 (by decide) heq2
    split at h
    · rename_i P3 heq3
      simp only [Option.some.injEq] at h
      rw [← h]
      exact sound_none (good_of_parseExpression h2 heq3)
    · rename_i e P3 heq3
      have h3 := good_of_parseExpression h2 heq3
      split at h
      · rename_i P4 heq4
        simp only [Option.some.injEq] at h
        rw [← h]
        exact sound_none (good_of_expect h3 (by decide) heq4)
      · rename_i P4 heq4
        have h4 := good_of_expect h3 (by decide) heq4
        split at h
        · rename_i P5 heq5
          simp only [Option.some.injEq] at h
          rw [← h]
          exact sound_none (good_of_expect h4 (by decide) heq5)
        · rename_i P5 heq5
          have h5 := good_of_expect h4 (by decide) heq5
          split at h
          · simp at h
          · rename_i cs P6 heq6
            have h6 := hb P5 [] _ h5 rfl heq6
            split at h
            · rename_i P7 heq7
              simp only [Option.some.injEq] at h
              rw [← h]
              exact sound_none (good_of_expect h6.1 (by decide) heq7)
            · rename_i P7 heq7
              have h7 := good_of_expect h6.1 (by decide) heq7
              split at h
              · split at h
                · rename_i P8 heq8
                  simp only [Option.some.injEq] at h
                  rw [← h]
                  exact sound_none (good_of_expect (good_advance h7) (by decide) heq8)
                · rename_i P8 heq8
                  have h8 := good_of_expect (good_advance h7) (by decide) heq8
                  split at h
                  · simp at h
                  · rename_i cs2 P9 heq9
                    have h9 := hb P8 cs _ h8 h6.2 heq9
                    split at h
                    · rename_i P10 heq10
                      simp only [Option.some.injEq] at h
                      rw [← h]
                      exact sound_none (good_of_expect h9.1 (by decide) heq10)
                    · rename_i P10 heq10
                      simp only [Option.some.injEq] at h
                      rw [← h]
                      exact sound_some (good_of_expect h9.1 (by decide) heq10)
                        (ASTNode.plain_base _ _ (by decide) rfl h9.2)
              · simp only [Option.some.injEq] at h
                rw [← h]
                exact sound_some h7 (ASTNode.plain_base _ _ (by decide) rfl h6.2)

theorem parseForStatement_sound_succ (n : Nat) (hb : SoundLoop parseForBody n) :
    SoundAt parseForStatement (fun P => P.current_token.type = .FOR) (n + 1) := by
  intro P r hP ht h
  rw [parseForStatement, expect_of_type P .FOR ht] at h
  dsimp only at h
  have h1 := good_advance hP
  split at h
  · rename_i P2 heq2
    simp only [Option.some.injEq] at h
    rw [← h]
    exact sound_none (good_of_expect h1 (by decide) heq2)
  · rename_i P2 heq2
    have h2 := good_of_expect h1 (by decide) heq2
    split at h
    · simp at h
    · rename_i c P3 heq3
      have h3 : Good P3 := good_of_errors (scanForHeader_errors _ _ _ _ heq3) h2
      split at h
      · simp only [Option.some.injEq] at h
        rw [← h]
        exact sound_none (good_reportError h3 .forHeader)
      · split at h
        · rename_i P4 heq4
          simp only [Option.some.injEq] at h
          rw [← h]
          exact sound_none (good_of_expect h3 (by decide) heq4)
        · rename_i P4 heq4
          have h4 := good_of_expect h3 (by decide) heq4
          split at h
          · rename_i P5 heq5
            simp only [Option.some.injEq] at h
            rw [← h]
            exact sound_none (good_of_expect h4 (by decide) heq5)
          · rename_i P5 heq5
            have h5 := good_of_expect h4 (by decide) heq5
            split at h
            · simp at h
            · rename_i cs P6 heq6
              have h6 := hb P5 [] _ h5 rfl heq6
              split at h
              · rename_i P7 heq7
                simp only [Option.some.injEq] at h
                rw [← h]
                exact sound_none (good_of_expect h6.1 (by decide) heq7)
              · rename_i P7 heq7
                simp only [Option.some.injEq] at h
                rw [← h]
                exact sound_some (good_of_expect h6.1 (by decide) heq7)
                  (ASTNode.plain_base _ _ (by decide) rfl h6.2)

theorem parseStatement_sound_succ (n : Nat)
    (hi : SoundAt parseIfStatement (fun P => P.current_token.type = .IF) n)
    (hw : SoundAt parseWhileStatement (fun P => P.current_token.type = .WHILE) n)
    (hf : SoundAt parseForStatement (fun P => P.current_token.type = .FOR) n) :
    SoundAt parseStatement (fun _ => True) (n + 1) := by
  intro P r hP _ h
  rw [parseStatement] at h
  split at h
  · rename_i ht
    exact parseAssignmentOrCall_sound n _ _ hP ht h
  · rename_i ht
    exact hi _ _ hP ht h
  · rename_i ht
    exact hw _ _ hP ht h
  · rename_i ht
    exact hf _ _ hP ht h
  · simp only [Option.some.injEq] at h
    rw [← h]
    exact sound_none hP
  · simp only [Option.some.injEq] at h
    rw [← h]
    exact sound_none hP
  · simp only [Option.some.injEq] at h
    rw [← h]
    exact sound_none (good_advance (good_reportError hP (.statement _)))

/-- The statement parsers give sound results. -/
theorem statement_parsers_sound (n : Nat) :
    SoundAt parseStatement (fun _ => True) n ∧ SoundLoop parseBlockBody n ∧
      SoundLoop parseForBody n ∧
      SoundAt parseIfStatement (fun P => P.current_token.type = .IF) n ∧
      SoundAt parseWhileStatement (fun P => P.current_token.type = .WHILE) n ∧
      SoundAt parseForStatement (fun P => P.current_token.type = .FOR) n := by
  induction n with
  | zero =>
    refine ⟨?_, ?_, ?_, ?_, ?_, ?_⟩
    · intro P r _ _ h; simp [parseStatement] at h
    · intro P cs r _ _ h; simp [parseBlockBody] at h
    · intro P cs r _ _ h; simp [parseForBody] at h
    · intro P r _ _ h; simp [parseIfStatement] at h
    · intro P r _ _ h; simp [parseWhileStatement] at h
    · intro P r _ _ h; simp [parseForStatement] at h
  | succ n ih =>
    obtain ⟨hs, hb, hfb, hi, hw, hf⟩ := ih
    exact ⟨parseStatement_sound_succ n hi hw hf, parseBlockBody_sound_succ n hs hb,
      parseForBody_sound_succ n hs hfb, parseIfStatement_sound_succ n hb,
      parseWhileStatement_sound_succ n hb, parseForStatement_sound_succ n hfb⟩

theorem parseVariableDeclaration_sound {P : Parser} (hP : Good P) :
    Sound (parseVariableDeclaration P) := by
  unfold parseVariableDeclaration
  split
  · exact sound_none (good_advance (good_reportError hP (.variableType _)))
  · dsimp only
    split
    · exact sound_none (good_advance (good_reportError (good_advance hP) .variableName))
    · split
      · rename_i P2 heq2
        exact sound_none (good_of_expect (good_advance (good_advance hP)) (by decide) heq2)
      · rename_i P2 heq2
        exact sound_some (good_of_expect (good_advance (good_advance hP)) (by decide) heq2)
          (by decide)

theorem parseVariableDeclarations_sound (n : Nat) : SoundLoop parseVariableDeclarations n := by
  induction n with
  | zero => intro P cs r _ _ h; simp [parseVariableDeclarations] at h
  | succ n ih =>
    intro P children r hP hc h
    rw [parseVariableDeclarations] at h
    split at h
    · have hv := parseVariableDeclaration_sound hP
      split at h
      · rename_i d P1 heq
        rw [heq] at hv
        exact ih _ _ _ hv.1 (ASTNode.plainList_snoc _ _ hc (hv.2 _ rfl)) h
      · rename_i P1 heq
        rw [heq] at hv
        split at h
        · simp at h
        · rename_i P2 heq2
          have h2 : Good P2 := good_of_errors (skipToSemicolon_errors _ _ _ heq2) hv.1
          refine ih _ _ _ ?_ hc h
          split
          · exact good_advance h2
          · exact h2
    · simp only [Option.some.injEq] at h
      rw [← h]
      exact ⟨hP, hc⟩

theorem parseVariablesBlock_sound (n : Nat) :
    SoundAt parseVariablesBlock (fun P => P.current_token.type = .VARIABLES) n := by
  intro P r hP ht h
  unfold parseVariablesBlock at h
  rw [expect_of_type P .VARIABLES ht] at h
  dsimp only at h
  have h1 := good_advance hP
  split at h
  · rename_i P2 heq2
    simp only [Option.some.injEq] at h
    rw [← h]
    exact sound_none (good_of_expect h1 (by decide) heq2)
  · rename_i P2 heq2
    have h2 := good_of_expect h1 (by decide) heq2
    split at h
    · simp at h
    · rename_i cs P3 heq3
      have h3 := parseVariableDeclarations_sound n P2 [] _ h2 rfl heq3
      split at h
      · rename_i P4 heq4
        simp only [Option.some.injEq] at h
        rw [← h]
        exact sound_none (good_of_expect h3.1 (by decide) heq4)
      · rename_i P4 heq4
        simp only [Option.some.injEq] at h
        rw [← h]
        exact sound_some (good_of_expect h3.1 (by decide) heq4)
          (ASTNode.plain_base _ _ (by decide) rfl h3.2)

theorem parseEventHandler_sound (n : Nat) :
    SoundAt parseEventHandler (fun P => P.current_token.type = .ON) n := by
  intro P r hP ht h
  unfold parseEventHandler at h
  rw [expect_of_type P .ON ht] at h
  dsimp only at h
  have h1 := good_advance hP
  split at h
  · have h3 : Good (if P.advance.advance.current_token.type = .INTEGER
        then P.advance.advance.advance else P.advance.advance) := by
      split
      · exact good_advance (good_advance h1)
      · exact good_advance h1
    split at h
    · rename_i P4 heq4
      simp only [Option.some.injEq] at h
      rw [← h]
      exact sound_none (good_of_expect h3 (by decide) heq4)
    · rename_i P4 heq4
      have h4 := good_of_expect h3 (by decide) heq4
      split at h
      · simp at h
      · rename_i cs P5 heq5
        have h5 := (statement_parsers_sound n).2.1 P4 [] _ h4 rfl heq5
        split at h
        · rename_i P6 heq6
          simp only [Option.some.injEq] at h
          rw [← h]
          exact sound_none (good_of_expect h5.1 (by decide) heq6)
        · rename_i P6 heq6
          simp only [Option.some.injEq] at h
          rw [← h]
          exact sound_some (good_of_expect h5.1 (by decide) heq6)
            (ASTNode.plain_base _ _ (by decide) rfl h5.2)
  · simp only [Option.some.injEq] at h
    rw [← h]
    exact sound_none (good_reportError h1 .eventKind)

theorem parseTopLevelDeclaration_sound (n : Nat) :
    SoundAt parseTopLevelDeclaration (fun _ => True) n := by
  intro P r hP _ h
  unfold parseTopLevelDeclaration at h
  split at h
  · rename_i ht
    exact parseVariablesBlock_sound n _ _ hP ht h
  · rename_i ht
    exact parseEventHandler_sound n _ _ hP ht h
  · simp only [Option.some.injEq] at h
    rw [← h]
    exact sound_none (good_reportError hP (.topLevel _))

theorem parseDeclarations_sound (n : Nat) : SoundLoop parseDeclarations n := by
  induction n with
  | zero => intro P cs r _ _ h; simp [parseDeclarations] at h
  | succ n ih =>
    intro P children r hP hc h
    rw [parseDeclarations] at h
    split at h
    · split at h
      · simp at h
      · rename_i stmt P1 heq
        have hv := parseTopLevelDeclaration_sound n _ _ hP trivial heq
        exact ih _ _ _ hv.1 (ASTNode.plainList_snoc _ _ hc (hv.2 _ rfl)) h
      · rename_i P1 heq
        have hv := parseTopLevelDeclaration_sound n _ _ hP trivial heq
        refine ih _ _ _ ?_ hc h
        split
        · exact good_advance hv.1
        · exact hv.1
    · simp only [Option.some.injEq] at h
      rw [← h]
      exact ⟨hP, hc⟩

theorem parse_sound (n : Nat) : SoundAt parse (fun _ => True) n := by
  intro P r hP _ h
  unfold parse parseProgram at h
  cases hd : parseDeclarations n P [] with
  | none => rw [hd] at h; simp at h
  | some v =>
    obtain ⟨cs, P1⟩ := v
    rw [hd] at h
    have hv := parseDeclarations_sound n P [] _ hP rfl hd
    dsimp only at h
    split at h
    · simp only [Option.some.injEq] at h
      rw [← h]
      exact sound_none hv.1
    · simp only [Option.some.injEq] at h
      rw [← h]
      exact sound_some hv.1 (ASTNode.plain_base _ _ (by decide) rfl hv.2)

end Parser

/-- The result of parsing a source is sound: its diagnostics carry known
messages and its tree, if any, is plain. -/
theorem parseSource_sound (source : String) : Parser.Sound (parseSource source) := by
  obtain ⟨r, h, _⟩ := Parser.parse_total source
  have hr : parseSource source = r := by
    unfold parseSource
    rw [h]
  rw [hr]
  refine Parser.parse_sound _ _ _ ?_ trivial h
  intro m hm
  exact absurd hm (List.not_mem_nil _)

theorem digitChar_isDigit (k : Nat) (h : k < 10) : (Nat.digitChar k).isDigit = true := by
  interval_cases k <;> rfl

theorem toDigitsCore_isDigit (f : Nat) : ∀ (n : Nat) (acc : List Char),
    (∀ c ∈ acc, c.isDigit = true) → ∀ c ∈ Nat.toDigitsCore 10 f n acc, c.isDigit = true := by
  induction f with
  | zero =>
    intro n acc hacc c hc
    simp only [Nat.toDigitsCore] at hc
    exact hacc c hc
  | succ f ih =>
    intro n acc hacc c hc
    simp only [Nat.toDigitsCore] at hc
    have hd : ∀ c ∈ Nat.digitChar (n % 10) :: acc, c.isDigit = true := by
      intro c hc
      rcases List.mem_cons.mp hc with h | h
      · rw [h]
        exact digitChar_isDigit _ (Nat.mod_lt _ (by decide))
      · exact hacc c h
    split at hc
    · exact hd c hc
    · exact ih _ _ hd c hc

theorem toString_isDigit (n : Nat) : ∀ c ∈ (toString n).data, c.isDigit = true := by
  intro c hc
  exact toDigitsCore_isDigit _ _ [] (fun _ h => absurd h (List.not_mem_nil _)) c hc

theorem append_cons_unique (s : Char) : ∀ (xs ys r1 r2 : List Char), s ∉ xs → s ∉ ys →
    xs ++ s :: r1 = ys ++ s :: r2 → r1 = r2 := by
  intro xs
  induction xs with
  | nil =>
    intro ys r1 r2 _ hy h
    cases ys with
    | nil => simpa using h
    | cons y t =>
      simp only [List.nil_append, List.cons_append, List.cons.injEq] at h
      exact absurd (h.1 ▸ List.mem_cons_self _ _) hy
  | cons x t ih =>
    intro ys r1 r2 hx hy h
    cases ys with
    | nil =>
      simp only [List.nil_append, List.cons_append, List.cons.injEq] at h
      exact absurd (h.1 ▸ List.mem_cons_self _ _) hx
    | cons y u =>
      simp only [List.cons_append, List.cons.injEq] at h
      exact ih u r1 r2 (fun hm => hx (List.mem_cons_of_mem _ hm))
        (fun hm => hy (List.mem_cons_of_mem _ hm)) h.2

namespace Parser

theorem diagnostic_data (line column : Nat) (message : String) :
    (diagnostic line column message).data =
      "语法错误 (行 ".data ++ ((toString line).data ++ ',' ::
        (" 列 ".data ++ ((toString column).data ++ ')' :: (": ".data ++ message.data)))) := by
  unfold diagnostic
  simp only [String.data_append, List.append_assoc]
  rfl

/-- The message of a diagnostic is determined by the recorded line. -/
theorem diagnostic_message (l1 c1 l2 c2 : Nat) (m1 m2 : String)
    (h : diagnostic l1 c1 m1 = diagnostic l2 c2 m2) : m1 = m2 := by
  have hd := congrArg String.data h
  rw [diagnostic_data, diagnostic_data] at hd
  have h1 := List.append_cancel_left hd
  have nd : ∀ n : Nat, ∀ s : Char, s.isDigit = false → s ∉ (toString n).data := by
    intro n s hs hmem
    rw [toString_isDigit n s hmem] at hs
    exact Bool.noConfusion hs
  have h2 := append_cons_unique ',' _ _ _ _ (nd l1 ',' (by decide)) (nd l2 ',' (by decide)) h1
  have h3 := List.append_cancel_left h2
  have h4 := append_cons_unique ')' _ _ _ _ (nd c1 ')' (by decide)) (nd c2 ')' (by decide)) h3
  have h5 := List.append_cancel_left h4
  exact String.ext h5

theorem take_data_append (s t : String) (k : Nat) (hk : k ≤ s.data.length) :
    (s ++ t).data.take k = s.data.take k := by
  rw [String.data_append, List.take_append_of_le_length hk]

theorem le_length_append (s t : String) (k : Nat) (hk : k ≤ s.data.length) :
    k ≤ (s ++ t).data.length := by
  rw [String.data_append, List.length_append]
  omega

theorem expectMessage_take (e v : String) (hk : 7 ≤ (("期望 \x27" ++ e) ++ "\x27, 但得到 \x27").data.length) :
    (expectMessage e v).data.take 7 = (("期望 \x27" ++ e) ++ "\x27, 但得到 \x27").data.take 7 := by
  unfold expectMessage
  rw [take_data_append _ _ 7 (le_length_append _ _ 7 hk), take_data_append _ _ 7 hk]

theorem tokenTypeToString_cases (ty : TokenType) :
    ty ∈ punctuationKinds ∨ tokenTypeToString ty = "标识符" ∨ tokenTypeToString ty = "整数" ∨
      tokenTypeToString ty = "=" ∨ tokenTypeToString ty = "未知" := by
  cases ty <;> first
    | exact Or.inl (by decide)
    | exact Or.inr (Or.inl rfl)
    | exact Or.inr (Or.inr (Or.inl rfl))
    | exact Or.inr (Or.inr (Or.inr (Or.inl rfl)))
    | exact Or.inr (Or.inr (Or.inr (Or.inr rfl)))

theorem knownMessage_take (b : String) (hb : KnownMessage b) :
    b.data.take 7 ∈ [(expectMessage ";" "").data.take 7, (expectMessage "\x7b" "").data.take 7,
      (expectMessage "\x7d" "").data.take 7, (expectMessage "(" "").data.take 7,
      (expectMessage ")" "").data.take 7, "期望表达式的右操作数".data.take 7, "期望表达式".data,
      "期望 \x27=\x27 或 \x27(\x27 在标识符后".data.take 7, "意外的语句: ".data,
      "for 循环应该有两个分号".data.take 7, "期望变量类型 (int, float, char), 但得到 \x27".data.take 7,
      "期望变量名".data, "期望事件类型 (start, message, timer, key)".data.take 7,
      "意外的顶级声明: ".data.take 7] := by
  cases hb with
  | expect ty value hty =>
    simp only [punctuationKinds, List.mem_cons, List.mem_singleton, List.not_mem_nil,
      or_false] at hty
    rcases hty with h | h | h | h | h <;> subst h <;>
      rw [expectMessage_take _ value (by decide)] <;> decide
  | operand => decide
  | expression => decide
  | assignOrCall => decide
  | statement value => rw [take_data_append _ _ 7 (by decide)]; decide
  | forHeader => decide
  | variableType value =>
    rw [take_data_append _ _ 7 (le_length_append _ _ 7 (by decide)),
      take_data_append _ _ 7 (by decide)]
    decide
  | variableName => decide
  | eventKind => decide
  | topLevel value => rw [take_data_append _ _ 7 (by decide)]; decide

/-- A known message that has the form of a failed `expect` names one of the
five punctuation kinds. -/
theorem knownMessage_expect (b : String) (hb : KnownMessage b) (ty : TokenType) (v : String)
    (h : b = expectMessage (tokenTypeToString ty) v) : ty ∈ punctuationKinds := by
  have hk := knownMessage_take b hb
  rw [h] at hk
  rcases tokenTypeToString_cases ty with hp | he | he | he | he
  · exact hp
  all_goals
    rw [he, expectMessage_take _ v (by decide)] at hk
    exact absurd hk (by decide)

/-- The message of the first branch of `parseAssignmentOrCall` is not among the
known ones. -/
theorem knownMessage_not_identifier (b : String) (hb : KnownMessage b) : b ≠ "期望标识符" := by
  intro h
  have hk := knownMessage_take b hb
  rw [h] at hk
  exact absurd hk (by decide)

end Parser

namespace SemanticAnalyzer

mutual

/-- The walk over a plain tree leaves the analyzer as it was. -/
theorem analyzeNode_plain : ∀ (node : ASTNode) (A : SemanticAnalyzer),
    node.plain = true → analyzeNode node A = A
  | .mk type cls children _ _, A, h => by
    rw [ASTNode.plain] at h
    simp only [Bool.and_eq_true, decide_eq_true_eq] at h
    obtain ⟨⟨⟨hcls, _⟩, _⟩, hl⟩ := h
    rw [analyzeNode, hcls]
    have hv : A.visit type .ASTNode = A := by
      cases type <;> rfl
    rw [hv]
    exact analyzeChildren_plain children A hl

/-- The walk over plain trees leaves the analyzer as it was. -/
theorem analyzeChildren_plain : ∀ (nodes : List ASTNode) (A : SemanticAnalyzer),
    ASTNode.plainList nodes = true → analyzeChildren nodes A = A
  | [], A, _ => by rw [analyzeChildren]
  | child :: rest, A, h => by
    rw [ASTNode.plainList] at h
    simp only [Bool.and_eq_true] at h
    rw [analyzeChildren, analyzeNode_plain child A h.1]
    exact analyzeChildren_plain rest A h.2

end

end SemanticAnalyzer

/-- C39: the trees of the parser.  A tree returned by `Parser::parse` is
`plain`: every node is a base-class object, without name, type, operator or
literal field, of one of the kinds PROGRAM, BLOCK_STMT, VARIABLE_DECL,
FUNCTION, EXPRESSION_STMT, IF_STMT, WHILE_STMT and FOR_STMT, and its
VARIABLE_DECL and EXPRESSION_STMT nodes have no children.  The analysis of
such a tree succeeds and leaves the analyzer as it was: no symbol is
registered and no diagnostic is written. -/
theorem parse_tree_is_plain (source : String) (ast : ASTNode)
    (h : (parseSource source).1 = some ast) :
    ast.plain = true ∧
    (∀ A : SemanticAnalyzer, A.analyze (some ast) = (true, A)) ∧
    (SemanticAnalyzer.new.analyze (some ast)).2.getSymbolTable.getAllSymbols = [] ∧
    (SemanticAnalyzer.new.analyze (some ast)).2.diagnostics = [] := by
  have hp : ast.plain = true := (parseSource_sound source).2 ast h
  have ha : ∀ A : SemanticAnalyzer, A.analyze (some ast) = (true, A) := by
    intro A
    unfold SemanticAnalyzer.analyze
    dsimp only
    rw [SemanticAnalyzer.analyzeNode_plain ast A hp]
  refine ⟨hp, ha, ?_, ?_⟩
  · rw [ha]
    rfl
  · rw [ha]
    rfl

/-- C39 at the source `variables { int speed; } on start { speed = 1; }`. -/
theorem parse_tree_is_plain_witness :
    (parseSource "variables \x7b int speed; \x7d on start \x7b speed = 1; \x7d").1 =
      some (.base .PROGRAM [.base .BLOCK_STMT [.base .VARIABLE_DECL []],
        .base .FUNCTION [.base .EXPRESSION_STMT []]]) ∧
    (SemanticAnalyzer.new.analyze (some (.base .PROGRAM [.base .BLOCK_STMT
      [.base .VARIABLE_DECL []], .base .FUNCTION
      [.base .EXPRESSION_STMT []]]))).2.getSymbolTable.getAllSymbols = [] :=
  ⟨by rfl,
   (parse_tree_is_plain "variables \x7b int speed; \x7d on start \x7b speed = 1; \x7d"
      (.base .PROGRAM [.base .BLOCK_STMT [.base .VARIABLE_DECL []],
        .base .FUNCTION [.base .EXPRESSION_STMT []]]) (by rfl)).2.2.1⟩

/-- C40: the diagnostics of `expect`.  Every diagnostic a parse records
carries one of the messages of `KnownMessage`, where a failed `expect` names
one of `;`, `\x7b`, `\x7d`, `(`, `)`.  A diagnostic that has the form of a failed
`expect` for a kind `ty` has `ty` among these five, so none names the expected
token as `未知` (the name of VARIABLES, ON, IF, WHILE and FOR): these calls are
made at a token of the expected kind and succeed.  The message `期望标识符` of
the first branch of `parseAssignmentOrCall` is in no diagnostic. -/
theorem expect_fails_for_punctuation_only (source : String) :
    ∀ m ∈ (parseSource source).2.getErrors,
      Parser.KnownDiagnostic m ∧
      (∀ (line column : Nat) (ty : TokenType) (value : String),
        m = Parser.diagnostic line column
          (Parser.expectMessage (Parser.tokenTypeToString ty) value) →
        ty ∈ Parser.punctuationKinds) ∧
      (∀ (line column : Nat) (value : String),
        m ≠ Parser.diagnostic line column (Parser.expectMessage "未知" value)) ∧
      (∀ line column : Nat, m ≠ Parser.diagnostic line column "期望标识符") := by
  intro m hm
  have hk : Parser.KnownDiagnostic m := (parseSource_sound source).1 m hm
  obtain ⟨l0, c0, b, hb, hmb⟩ := hk
  have hexp : ∀ (line column : Nat) (ty : TokenType) (value : String),
      m = Parser.diagnostic line column
        (Parser.expectMessage (Parser.tokenTypeToString ty) value) →
      ty ∈ Parser.punctuationKinds := by
    intro line column ty value h
    rw [hmb] at h
    exact Parser.knownMessage_expect b hb ty value (Parser.diagnostic_message _ _ _ _ _ _ h)
  refine ⟨⟨l0, c0, b, hb, hmb⟩, hexp, ?_, ?_⟩
  · intro line column value h
    exact absurd (hexp line column .IF value h) (by decide)
  · intro line column h
    rw [hmb] at h
    exact Parser.knownMessage_not_identifier b hb (Parser.diagnostic_message _ _ _ _ _ _ h)

set_option maxRecDepth 100000 in
/-- C40 at the source `on start \x7b if x \x7d`: the call `expect(IF)` succeeds
and the one diagnostic names `(`. -/
theorem expect_fails_for_punctuation_only_witness :
    (parseSource "on start \x7b if x \x7d").2.getErrors =
      ["语法错误 (行 1, 列 15): 期望 \x27(\x27, 但得到 \x27x\x27"] ∧
    (∀ (line column : Nat) (value : String),
      "语法错误 (行 1, 列 15): 期望 \x27(\x27, 但得到 \x27x\x27" ≠
        Parser.diagnostic line column (Parser.expectMessage "未知" value)) :=
  ⟨by decide,
   (expect_fails_for_punctuation_only "on start \x7b if x \x7d"
      "语法错误 (行 1, 列 15): 期望 \x27(\x27, 但得到 \x27x\x27" (by decide)).2.2.1⟩

namespace Lexer

theorem take_succ_of_getElem? (source : List Char) (p : Nat) (c : Char)
    (h : source[p]? = some c) : source.take (p + 1) = source.take p ++ [c] := by
  rw [List.take_succ, h]
  rfl

theorem lineAt_succ (source : List Char) (p : Nat) (c : Char) (h : source[p]? = some c) :
    lineAt source (p + 1) = if c = '\n' then lineAt source p + 1 else lineAt source p := by
  unfold lineAt
  rw [take_succ_of_getElem? source p c h, List.count_append]
  by_cases hc : c = '\n'
  · rw [if_pos hc, hc]
    simp
    omega
  · rw [if_neg hc]
    have : List.count '\n' [c] = 0 := by
      rw [List.count_eq_zero]
      simp only [List.mem_singleton]
      exact fun h => hc h.symm
    rw [this]
    rfl

theorem columnAt_succ (source : List Char) (p : Nat) (c : Char) (h : source[p]? = some c) :
    columnAt source (p + 1) = if c = '\n' then 1 else columnAt source p + 1 := by
  unfold columnAt
  rw [take_succ_of_getElem? source p c h, List.reverse_append, List.reverse_singleton,
    List.singleton_append, List.takeWhile_cons]
  by_cases hc : c = '\n'
  · rw [if_pos hc, hc]
    rfl
  · rw [if_neg hc]
    have : (c != '\n') = true := by simpa using hc
    rw [this]
    simp only [if_true, List.length_cons]
    omega

theorem within_of_tracked {L : Lexer} (h : Tracked L) : Within L := h.1

theorem tracked_new (source : List Char) : Tracked (Lexer.new source) :=
  ⟨Nat.zero_le _, rfl, rfl⟩

theorem lt_of_getElem? {L : Lexer} {c : Char} (h : L.source[L.position]? = some c) :
    L.position < L.source.length := by
  have := remaining_pos h
  unfold remaining at this
  omega

theorem within_bump {L : Lexer} {c : Char} (h : L.source[L.position]? = some c) :
    Within L.bump := by
  have := lt_of_getElem? h
  unfold Within bump
  simp only
  omega

theorem within_bumpLine {L : Lexer} {c : Char} (d : Char)
    (h : L.source[L.position]? = some c) : Within (L.bumpLine d) := by
  have := lt_of_getElem? h
  unfold Within bumpLine
  split <;> (simp only; omega)

theorem tracked_bumpLine {L : Lexer} {c : Char} (hL : Tracked L)
    (h : L.source[L.position]? = some c) : Tracked (L.bumpLine c) := by
  have hlt := lt_of_getElem? h
  obtain ⟨_, hl, hc⟩ := hL
  unfold bumpLine
  by_cases hn : c = '\n'
  · rw [if_pos hn]
    refine ⟨by simp only; omega, ?_, ?_⟩
    · simp only
      rw [lineAt_succ _ _ _ h, if_pos hn, hl]
    · simp only
      rw [columnAt_succ _ _ _ h, if_pos hn]
  · rw [if_neg hn]
    refine ⟨by simp only; omega, ?_, ?_⟩
    · simp only
      rw [lineAt_succ _ _ _ h, if_neg hn, hl]
    · simp only
      rw [columnAt_succ _ _ _ h, if_neg hn, hc]

theorem tracked_bump {L : Lexer} {c : Char} (hL : Tracked L)
    (h : L.source[L.position]? = some c) (hn : c ≠ '\n') : Tracked L.bump := by
  have := tracked_bumpLine hL h
  unfold bumpLine at this
  rw [if_neg hn] at this
  exact this

theorem skipWhitespace_tracked (fuel : Nat) (L : Lexer) :
    (Within L → Within (skipWhitespace fuel L)) ∧
      (Tracked L → Tracked (skipWhitespace fuel L)) := by
  induction fuel generalizing L with
  | zero => exact ⟨fun h => h, fun h => h⟩
  | succ n ih =>
    rw [skipWhitespace]
    cases hc : L.source[L.position]? with
    | none => exact ⟨fun h => h, fun h => h⟩
    | some c =>
      simp only
      split
      · exact ⟨fun _ => (ih _).1 (within_bumpLine c hc),
          fun h => (ih _).2 (tracked_bumpLine h hc)⟩
      · exact ⟨fun h => h, fun h => h⟩

theorem skipLineComment_tracked (fuel : Nat) (L : Lexer) :
    (Within L → Within (skipLineComment fuel L)) ∧
      (Tracked L → Tracked (skipLineComment fuel L)) := by
  induction fuel generalizing L with
  | zero => exact ⟨fun h => h, fun h => h⟩
  | succ n ih =>
    rw [skipLineComment]
    cases hc : L.source[L.position]? with
    | none => exact ⟨fun h => h, fun h => h⟩
    | some c =>
      simp only
      split
      · rename_i hn
        exact ⟨fun _ => (ih _).1 (within_bump hc), fun h => (ih _).2 (tracked_bump h hc hn)⟩
      · exact ⟨fun h => h, fun h => h⟩

theorem tracked_two {L : Lexer} {c d : Char} (hL : Tracked L)
    (hc : L.source[L.position]? = some c) (hd : L.source[L.position + 1]? = some d)
    (hcn : c ≠ '\n') (hdn : d ≠ '\n') :
    Tracked { L with position := L.position + 2, column := L.column + 2 } := by
  have h1 := tracked_bump hL hc hcn
  have h2 : Tracked L.bump.bump := tracked_bump h1 hd hdn
  exact h2

theorem within_two {L : Lexer} {d : Char} (hd : L.source[L.position + 1]? = some d) :
    Within { L with position := L.position + 2, column := L.column + 2 } := by
  have : L.position + 1 < L.source.length := (List.getElem?_eq_some_iff.mp hd).1
  unfold Within
  simp only
  omega

theorem skipBlockComment_tracked (fuel : Nat) (L : Lexer) :
    (Within L → Within (skipBlockComment fuel L)) ∧
      (Tracked L → Tracked (skipBlockComment fuel L)) := by
  induction fuel generalizing L with
  | zero => exact ⟨fun h => h, fun h => h⟩
  | succ n ih =>
    rw [skipBlockComment]
    split
    · rename_i c d hc hd
      split
      · rename_i hcd
        exact ⟨fun _ => within_two hd,
          fun h => tracked_two h hc hd (by rw [hcd.1]; decide) (by rw [hcd.2]; decide)⟩
      · exact ⟨fun _ => (ih _).1 (within_bumpLine c hc),
          fun h => (ih _).2 (tracked_bumpLine h hc)⟩
    · exact ⟨fun h => h, fun h => h⟩

/-- The lexeme of an operator is the characters it consumes: the character at
the cursor and, for a two-character operator, the one after it. -/
theorem operatorToken_lexeme (c : Char) (n : Option Char) :
    (operatorToken c n).2.1.data = c :: (if (operatorToken c n).2.2 then n.toList else []) ∧
      ((operatorToken c n).2.2 = true → ∃ d, n = some d ∧ d ≠ '\n') := by
  unfold operatorToken
  by_cases h0 : c = '+'
  · rw [if_pos h0]
    subst h0
    exact ⟨rfl, fun h => absurd h (by decide)⟩
  rw [if_neg h0]
  by_cases h1 : c = '-'
  · rw [if_pos h1]
    subst h1
    exact ⟨rfl, fun h => absurd h (by decide)⟩
  rw [if_neg h1]
  by_cases h2 : c = '*'
  · rw [if_pos h2]
    subst h2
    exact ⟨rfl, fun h => absurd h (by decide)⟩
  rw [if_neg h2]
  by_cases h3 : c = '/'
  · rw [if_pos h3]
    subst h3
    exact ⟨rfl, fun h => absurd h (by decide)⟩
  rw [if_neg h3]
  by_cases h4 : c = '='
  · rw [if_pos h4]
    subst h4
    by_cases hn : n = some '='
    · rw [if_pos hn]
      subst hn
      exact ⟨rfl, fun _ => ⟨'=', rfl, by decide⟩⟩
    · rw [if_neg hn]
      exact ⟨rfl, fun h => absurd h (by decide)⟩
  rw [if_neg h4]
  by_cases h5 : c = '!'
  · rw [if_pos h5]
    subst h5
    by_cases hn : n = some '='
    · rw [if_pos hn]
      subst hn
      exact ⟨rfl, fun _ => ⟨'=', rfl, by decide⟩⟩
    · rw [if_neg hn]
      exact ⟨rfl, fun h => absurd h (by decide)⟩
  rw [if_neg h5]
  by_cases h6 : c = '<'
  · rw [if_pos h6]
    subst h6
    by_cases hn : n = some '='
    · rw [if_pos hn]
      subst hn
      exact ⟨rfl, fun _ => ⟨'=', rfl, by decide⟩⟩
    · rw [if_neg hn]
      exact ⟨rfl, fun h => absurd h (by decide)⟩
  rw [if_neg h6]
  by_cases h7 : c = '>'
  · rw [if_pos h7]
    subst h7
    by_cases hn : n = some '='
    · rw [if_pos hn]
      subst hn
      exact ⟨rfl, fun _ => ⟨'=', rfl, by decide⟩⟩
    · rw [if_neg hn]
      exact ⟨rfl, fun h => absurd h (by decide)⟩
  rw [if_neg h7]
  by_cases h8 : c = '&'
  · rw [if_pos h8]
    subst h8
    by_cases hn : n = some '&'
    · rw [if_pos hn]
      subst hn
      exact ⟨rfl, fun _ => ⟨'&', rfl, by decide⟩⟩
    · rw [if_neg hn]
      exact ⟨rfl, fun h => absurd h (by decide)⟩
  rw [if_neg h8]
  by_cases h9 : c = '|'
  · rw [if_pos h9]
    subst h9
    by_cases hn : n = some '|'
    · rw [if_pos hn]
      subst hn
      exact ⟨rfl, fun _ => ⟨'|', rfl, by decide⟩⟩
    · rw [if_neg hn]
      exact ⟨rfl, fun h => absurd h (by decide)⟩
  rw [if_neg h9]
  by_cases h10 : c = '('
  · rw [if_pos h10]
    subst h10
    exact ⟨rfl, fun h => absurd h (by decide)⟩
  rw [if_neg h10]
  by_cases h11 : c = ')'
  · rw [if_pos h11]
    subst h11
    exact ⟨rfl, fun h => absurd h (by decide)⟩
  rw [if_neg h11]
  by_cases h12 : c = '\x7b'
  · rw [if_pos h12]
    subst h12
    exact ⟨rfl, fun h => absurd h (by decide)⟩
  rw [if_neg h12]
  by_cases h13 : c = '\x7d'
  · rw [if_pos h13]
    subst h13
    exact ⟨rfl, fun h => absurd h (by decide)⟩
  rw [if_neg h13]
  by_cases h14 : c = '['
  · rw [if_pos h14]
    subst h14
    exact ⟨rfl, fun h => absurd h (by decide)⟩
  rw [if_neg h14]
  by_cases h15 : c = ']'
  · rw [if_pos h15]
    subst h15
    exact ⟨rfl, fun h => absurd h (by decide)⟩
  rw [if_neg h15]
  by_cases h16 : c = ';'
  · rw [if_pos h16]
    subst h16
    exact ⟨rfl, fun h => absurd h (by decide)⟩
  rw [if_neg h16]
  by_cases h17 : c = ','
  · rw [if_pos h17]
    subst h17
    exact ⟨rfl, fun h => absurd h (by decide)⟩
  rw [if_neg h17]
  by_cases h18 : c = '.'
  · rw [if_pos h18]
    subst h18
    exact ⟨rfl, fun h => absurd h (by decide)⟩
  rw [if_neg h18]
  exact ⟨rfl, fun h => Bool.noConfusion h⟩

theorem take_length_takeWhile (p : Char → Bool) (l : List Char) :
    l.take (l.takeWhile p).length = l.takeWhile p := by
  induction l with
  | nil => rfl
  | cons a t ih =>
    rw [List.takeWhile_cons]
    split
    · rw [List.length_cons, List.take_succ_cons, ih]
    · rfl

theorem length_takeWhile_le (p : Char → Bool) (l : List Char) :
    (l.takeWhile p).length ≤ l.length := by
  induction l with
  | nil => exact Nat.le_refl _
  | cons a t ih =>
    rw [List.takeWhile_cons]
    split
    · simp only [List.length_cons]
      omega
    · simp

theorem shift_shift (L : Lexer) (j k : Nat) : (L.shift j).shift k = L.shift (j + k) := by
  unfold shift
  simp only [Lexer.mk.injEq, true_and]
  omega

theorem remaining_shift (L : Lexer) (k : Nat) : (L.shift k).remaining = L.remaining - k := by
  unfold remaining shift
  simp only
  omega

theorem scanString_shift (fuel : Nat) (L : Lexer) (acc : String) :
    ∃ k, (scanString fuel L acc).2 = L.shift k ∧ k ≤ L.remaining := by
  induction fuel generalizing L acc with
  | zero => exact ⟨0, rfl, Nat.zero_le _⟩
  | succ n ih =>
    rw [scanString]
    cases hc : L.source[L.position]? with
    | none => exact ⟨0, rfl, Nat.zero_le _⟩
    | some c =>
      have hlt := lt_of_getElem? hc
      simp only
      split
      · split
        · rename_i e he
          obtain ⟨k, hk, hle⟩ := ih L.bump.bump (acc.push (stringEscape e))
          have he2 : L.source[L.position + 1]? = some e := by
            unfold escaped at he
            split at he
            · exact he
            · exact absurd he (by simp)
          have hlt2 : L.position + 1 < L.source.length := (List.getElem?_eq_some_iff.mp he2).1
          refine ⟨k + 2, ?_, ?_⟩
          · rw [hk, bump_shift, bump_shift]
          · have : L.bump.bump.remaining = L.remaining - 2 := by
              unfold remaining bump
              simp only
              omega
            unfold remaining at *
            omega
        · obtain ⟨k, hk, hle⟩ := ih L.bump (acc.push c)
          refine ⟨k + 1, ?_, ?_⟩
          · rw [hk, bump_shift]
          · have := remaining_bump hc
            omega
      · exact ⟨0, rfl, Nat.zero_le _⟩

theorem scanChar_shift (L : Lexer) : ∃ k, (scanChar L).2 = L.shift k ∧ k ≤ L.remaining := by
  unfold scanChar
  cases hc : L.source[L.position]? with
  | none => exact ⟨0, rfl, Nat.zero_le _⟩
  | some c =>
    have hlt := lt_of_getElem? hc
    simp only
    split
    · rename_i e he
      have he2 : L.source[L.position + 1]? = some e := by
        unfold escaped at he
        split at he
        · exact he
        · exact absurd he (by simp)
      have hlt2 : L.position + 1 < L.source.length := (List.getElem?_eq_some_iff.mp he2).1
      refine ⟨2, rfl, ?_⟩
      unfold remaining
      omega
    · refine ⟨1, rfl, ?_⟩
      unfold remaining
      omega

end Lexer

namespace Lexer

theorem hexPrefix_some {S : Lexer} {c x : Char} (h : S.hexPrefix c = some x) :
    S.source[S.position + 1]? = some x ∧ (x = 'x' ∨ x = 'X') := by
  unfold hexPrefix at h
  split at h
  · rename_i y hy
    split at h
    · rename_i hc
      simp only [Option.some.injEq] at h
      rw [← h]
      exact ⟨hy, hc.2⟩
    · exact absurd h (by simp)
  · exact absurd h (by simp)

/-- The token built at a cursor on a character that is not white space: the
cursor moves `k ≥ 1` characters along the line, the token carries the line
and column of the cursor before, and the lexeme of a token that is neither a
string nor a character literal is the `k` characters passed, none of them a
newline. -/
theorem lexToken_shape (S : Lexer) (c : Char) (h : S.source[S.position]? = some c)
    (hs : isspace c = false) :
    ∃ (ty : TokenType) (value : List Char) (k : Nat),
      lexToken S c = (⟨ty, ⟨value⟩, S.line, S.column⟩, S.shift k) ∧ 0 < k ∧ k ≤ S.remaining ∧
      ((ty ≠ .STRING ∧ ty ≠ .CHAR) → value = S.rest.take k ∧ '\n' ∉ S.rest.take k) := by
  have hrest := rest_of_some h
  have hlt := lt_of_getElem? h
  have hrem : S.remaining = S.source.length - S.position := rfl
  have hcn : c ≠ '\n' := by
    intro e
    rw [e] at hs
    exact absurd hs (by decide)
  unfold lexToken
  simp only
  split
  · rename_i hd
    split
    · rename_i x hx
      obtain ⟨hx1, hx2⟩ := hexPrefix_some hx
      have hlt2 : S.position + 1 < S.source.length := (List.getElem?_eq_some_iff.mp hx1).1
      have hrest2 : S.bump.rest = x :: S.bump.bump.rest := @rest_of_some S.bump x hx1
      rw [scanHex_spec _ _ _ (by unfold remaining bump; simp only; omega)]
      refine ⟨.INTEGER, ("".push c |>.push x).data ++ S.bump.bump.rest.takeWhile isxdigit,
        (S.bump.bump.rest.takeWhile isxdigit).length + 2, ?_, by omega, ?_,
        fun _ => ⟨?_, ?_⟩⟩
      · rw [bump_shift, bump_shift]
        rfl
      · have := length_takeWhile_le isxdigit S.bump.bump.rest
        rw [← remaining_eq_rest] at this
        have hr2 : S.bump.bump.remaining = S.source.length - (S.position + 1 + 1) := rfl
        omega
      · rw [hrest, hrest2, List.take_succ_cons, List.take_succ_cons, take_length_takeWhile]
        rfl
      · rw [hrest, hrest2, List.take_succ_cons, List.take_succ_cons, take_length_takeWhile]
        intro hm
        rcases List.mem_cons.mp hm with e | hm
        · exact hcn e.symm
        · rcases List.mem_cons.mp hm with e | hm
          · rcases hx2 with hx2 | hx2 <;> (rw [hx2] at e; exact absurd e (by decide))
          · exact absurd (List.mem_takeWhile_imp hm) (by decide)
    · obtain ⟨run, tail, hr, hsd, hall, _, hend⟩ := scanDecimal_spec S.remaining S "" false
        (Nat.le_refl _)
      rw [hsd]
      have hne : run ≠ [] := by
        intro e
        rw [e, List.nil_append] at hr
        have := (hend c S.bump.rest (by rw [← hr, hrest])).1
        rw [hd] at this
        exact Bool.noConfusion this
      have hlen : 0 < run.length := List.length_pos.mpr hne
      have htake : S.rest.take run.length = run := by
        rw [hr]
        exact List.take_left' rfl
      refine ⟨_, _, run.length, rfl, hlen, ?_, fun _ => ⟨?_, ?_⟩⟩
      · rw [remaining_eq_rest, hr, List.length_append]
        omega
      · rw [htake]
        rfl
      · rw [htake]
        intro hm
        rcases hall _ hm with e | e
        · exact absurd e (by decide)
        · exact absurd e (by decide)
  · split
    · rename_i ha
      rw [scanIdentifier_spec _ _ _ (Nat.le_refl _)]
      have hic : isIdentChar c = true := by
        unfold isIdentChar
        rcases ha with ha | ha
        · simp [isalnum, ha]
        · simp [ha]
      have hlen : 0 < (S.rest.takeWhile isIdentChar).length := by
        rw [hrest, List.takeWhile_cons, hic]
        simp
      have hle : (S.rest.takeWhile isIdentChar).length ≤ S.remaining := by
        rw [remaining_eq_rest]
        exact length_takeWhile_le _ _
      have hnl : '\n' ∉ S.rest.take (S.rest.takeWhile isIdentChar).length := by
        rw [take_length_takeWhile]
        intro hm
        exact absurd (List.mem_takeWhile_imp hm) (by decide)
      split
      · exact ⟨_, _, _, rfl, hlen, hle, fun _ => ⟨by rw [take_length_takeWhile]; rfl, hnl⟩⟩
      · exact ⟨_, _, _, rfl, hlen, hle, fun _ => ⟨by rw [take_length_takeWhile]; rfl, hnl⟩⟩
    · split
      · obtain ⟨k, hk, hle⟩ := scanString_shift S.remaining S.bump ""
        have hb := remaining_bump h
        rw [hk, bump_shift]
        by_cases hp : (S.shift (k + 1)).position < (S.shift (k + 1)).source.length
        · rw [if_pos hp]
          refine ⟨.STRING, (scanString S.remaining S.bump "").1.data, k + 2, rfl, by omega, ?_,
            fun hne => absurd rfl hne.1⟩
          unfold shift at hp
          simp only at hp
          omega
        · rw [if_neg hp]
          exact ⟨.STRING, (scanString S.remaining S.bump "").1.data, k + 1, rfl, by omega,
            by omega, fun hne => absurd rfl hne.1⟩
      · split
        · obtain ⟨k, hk, hle⟩ := scanChar_shift S.bump
          have hb := remaining_bump h
          rw [hk, bump_shift]
          by_cases hp : (S.shift (k + 1)).source[(S.shift (k + 1)).position]? =
              some (Char.ofNat 39)
          · rw [if_pos hp]
            refine ⟨.CHAR, (scanChar S.bump).1.data, k + 2, rfl, by omega, ?_,
              fun hne => absurd rfl hne.2⟩
            have := (List.getElem?_eq_some_iff.mp hp).1
            unfold shift at this
            simp only at this
            omega
          · rw [if_neg hp]
            exact ⟨.CHAR, (scanChar S.bump).1.data, k + 1, rfl, by omega, by omega,
              fun hne => absurd rfl hne.2⟩
        · obtain ⟨hop1, hop2⟩ := operatorToken_lexeme c S.bump.source[S.bump.position]?
          cases hb : (operatorToken c S.bump.source[S.bump.position]?).2.2 with
          | false =>
            rw [hb] at hop1
            simp only [Bool.false_eq_true, if_false] at hop1 ⊢
            refine ⟨_, _, 1, rfl, Nat.one_pos, by omega, fun _ => ⟨?_, ?_⟩⟩
            · rw [hop1, hrest]
              rfl
            · rw [hrest]
              simp only [List.take_succ_cons, List.take_zero, List.mem_singleton]
              exact fun e => hcn e.symm
          | true =>
            obtain ⟨d, hd1, hd2⟩ := hop2 hb
            rw [hb] at hop1
            have hrest2 : S.bump.rest = d :: S.bump.bump.rest := @rest_of_some S.bump d hd1
            have hlt2 : S.bump.position < S.bump.source.length := lt_of_getElem? hd1
            simp only [if_true] at hop1 ⊢
            refine ⟨_, _, 2, rfl, by omega, ?_, fun _ => ⟨?_, ?_⟩⟩
            · unfold bump at hlt2
              simp only at hlt2
              omega
            · rw [hop1, hd1, hrest, hrest2]
              rfl
            · rw [hrest, hrest2]
              simp only [List.take_succ_cons, List.take_zero, List.mem_cons, List.mem_singleton,
                List.not_mem_nil, or_false]
              rintro (e | e)
              · exact hcn e.symm
              · exact hd2 e.symm

theorem skipWhitespace_not_space (fuel : Nat) (L : Lexer) (hf : L.remaining ≤ fuel) (c : Char)
    (h : (skipWhitespace fuel L).source[(skipWhitespace fuel L).position]? = some c) :
    isspace c = false := by
  induction fuel generalizing L with
  | zero =>
    rw [skipWhitespace] at h
    have := remaining_pos h
    omega
  | succ n ih =>
    rw [skipWhitespace] at h
    cases hc : L.source[L.position]? with
    | none =>
      rw [hc] at h
      simp only at h
      rw [hc] at h
      exact absurd h (by simp)
    | some d =>
      rw [hc] at h
      simp only at h
      by_cases hd : isspace d = true
      · rw [if_pos hd] at h
        refine ih (L.bumpLine d) ?_ h
        have := @remaining_bumpLine L d d hc
        omega
      · rw [if_neg hd] at h
        rw [hc] at h
        simp only [Option.some.injEq] at h
        rw [← h]
        simpa using hd

/-- The specification of `tokenStartAux`: with fuel above the number of
characters left it returns a state `S` at which `nextTokenAux` builds its
token; `S` is not before `L`, is within the source and tracked when `L` is,
and its cursor is not on white space. -/
theorem tokenStartAux_spec (fuel : Nat) (L : Lexer) (hf : L.remaining < fuel) :
    ∃ S, tokenStartAux fuel L = some S ∧ nextTokenAux fuel L = some (tokenAt S) ∧ Follows L S ∧
      (Within L → Within S) ∧ (Tracked L → Tracked S) ∧
      (∀ c, S.source[S.position]? = some c → isspace c = false) := by
  induction fuel generalizing L with
  | zero => omega
  | succ n ih =>
    unfold tokenStartAux nextTokenAux
    simp only
    have hws := skipWhitespace_follows L.remaining L
    have hwt := skipWhitespace_tracked L.remaining L
    have hwn := skipWhitespace_not_space L.remaining L (Nat.le_refl _)
    generalize skipWhitespace L.remaining L = L1 at hws hwt hwn ⊢
    have hr1 := remaining_le_of_follows hws
    cases hcur : L1.source[L1.position]? with
    | none =>
      refine ⟨L1, rfl, ?_, hws, hwt.1, hwt.2, ?_⟩
      · unfold tokenAt
        rw [hcur]
      · intro c hc
        rw [hcur] at hc
        exact absurd hc (by simp)
    | some current =>
      have hpos := remaining_pos hcur
      simp only
      split
      · rename_i hc
        have hp := skipLineComment_progress L1 current hcur (by rw [hc.1]; decide)
        have hfo := skipLineComment_follows L1.remaining L1
        have hlt := remaining_lt_of_follows hfo.1 hp hpos
        have htr := skipLineComment_tracked L1.remaining L1
        obtain ⟨S, h1, h2, h3, h4, h5, h6⟩ := ih (skipLineComment L1.remaining L1) (by omega)
        exact ⟨S, h1, h2, hws.chain (hfo.chain h3), fun h => h4 (htr.1 (hwt.1 h)),
          fun h => h5 (htr.2 (hwt.2 h)), h6⟩
      · split
        · rename_i hc
          have hfo := skipBlockComment_follows L1.remaining
            { L1 with position := L1.position + 2, column := L1.column + 2 }
          have htr := skipBlockComment_tracked L1.remaining
            { L1 with position := L1.position + 2, column := L1.column + 2 }
          have hlt : (skipBlockComment L1.remaining
              { L1 with position := L1.position + 2, column := L1.column + 2 }).remaining
              < L1.remaining := by
            apply @remaining_lt_of_follows L1 _ hfo.1 _ hpos
            have := hfo.2
            simp only at this
            omega
          obtain ⟨S, h1, h2, h3, h4, h5, h6⟩ := ih _ (Nat.lt_of_lt_of_le hlt (by omega))
          refine ⟨S, h1, h2, hws.chain (Follows.chain ⟨hfo.1, ?_⟩ h3),
            fun h => h4 (htr.1 (within_two hc.2)),
            fun h => h5 (htr.2 (tracked_two (hwt.2 h) hcur hc.2 (by rw [hc.1]; decide)
              (by decide))), h6⟩
          have := hfo.2
          simp only at this
          omega
        · refine ⟨L1, rfl, ?_, hws, hwt.1, hwt.2, ?_⟩
          · unfold tokenAt
            rw [hcur]
          · intro c hc
            exact hwn c hc

/-- The specification of `tokenStart`: `nextToken` builds its token at
`tokenStart L`. -/
theorem tokenStart_spec (L : Lexer) :
    nextToken L = tokenAt (tokenStart L) ∧ Follows L (tokenStart L) ∧
      (Within L → Within (tokenStart L)) ∧ (Tracked L → Tracked (tokenStart L)) ∧
      (∀ c, (tokenStart L).source[(tokenStart L).position]? = some c → isspace c = false) := by
  obtain ⟨S, h1, h2, h3, h4, h5, h6⟩ := tokenStartAux_spec (L.remaining + 1) L (Nat.lt_succ_self _)
  have hS : tokenStart L = S := by
    unfold tokenStart
    rw [h1]
  have hN : nextToken L = tokenAt S := by
    unfold nextToken
    rw [h2]
  rw [hS, hN]
  exact ⟨rfl, h3, h4, h5, h6⟩

theorem within_shift (S : Lexer) (k : Nat) (hk : k ≤ S.remaining) (hS : Within S) :
    Within (S.shift k) := by
  unfold Within remaining shift at *
  simp only
  omega

theorem tracked_shift (k : Nat) : ∀ (S : Lexer), Tracked S → k ≤ S.remaining →
    '\n' ∉ S.rest.take k → Tracked (S.shift k) := by
  induction k with
  | zero => exact fun S hS _ _ => hS
  | succ k ih =>
    intro S hS hk hn
    have hlt : S.position < S.source.length := by
      unfold remaining at hk
      omega
    obtain ⟨c, hc⟩ : ∃ c, S.source[S.position]? = some c :=
      ⟨_, List.getElem?_eq_getElem hlt⟩
    have hrest := rest_of_some hc
    rw [hrest, List.take_succ_cons] at hn
    rw [← bump_shift]
    refine ih S.bump (tracked_bump hS hc ?_) ?_ ?_
    · exact fun e => hn (e ▸ List.mem_cons_self _ _)
    · have := remaining_bump hc
      omega
    · exact fun hm => hn (List.mem_cons_of_mem _ hm)

end Lexer

namespace Lexer

theorem afterCalls_succ (k : Nat) : ∀ L : Lexer,
    L.afterCalls (k + 1) = (nextToken (L.afterCalls k)).2 := by
  induction k with
  | zero => intro L; rfl
  | succ k ih =>
    intro L
    rw [afterCalls, ih (nextToken L).2]
    rfl

theorem afterCalls_source (k : Nat) (L : Lexer) : (L.afterCalls k).source = L.source := by
  induction k with
  | zero => rfl
  | succ k ih =>
    rw [afterCalls_succ, (nextToken_spec _).2.1.1, ih]

theorem afterCalls_remaining (k : Nat) (L : Lexer) :
    (L.afterCalls k).remaining ≤ L.remaining - k := by
  induction k with
  | zero => exact Nat.le_refl _
  | succ k ih =>
    rw [afterCalls_succ]
    have hs := nextToken_spec (L.afterCalls k)
    by_cases he : (nextToken (L.afterCalls k)).1.type = .EOF_TOKEN
    · have := (hs.2.2.2 he).1
      omega
    · have := hs.2.2.1 he
      omega

theorem afterCalls_at_end (k : Nat) (L : Lexer) (h : L.remaining = 0) : L.afterCalls k = L := by
  induction k with
  | zero => rfl
  | succ k ih =>
    rw [afterCalls_succ, ih, nextToken_at_end L h]

theorem afterCalls_add (j k : Nat) (L : Lexer) :
    L.afterCalls (j + k) = (L.afterCalls j).afterCalls k := by
  induction k with
  | zero => rfl
  | succ k ih =>
    rw [← Nat.add_assoc, afterCalls_succ, ih, afterCalls_succ]

theorem slice_eq_take_rest (S : Lexer) (k : Nat) :
    slice S.source S.position (S.position + k) = S.rest.take k := by
  unfold slice rest
  rw [Nat.add_sub_cancel_left]

/-- One call of `nextToken`: the token is built at `tokenStart L`; the cursor
stays within the source; if the call is clean and the state tracked, the
token carries the line and column of its first character and the state after
is tracked. -/
theorem nextToken_step (L : Lexer) :
    (Within L → Within (nextToken L).2) ∧
    (Tracked L → CleanCall L →
      Tracked (nextToken L).2 ∧
      (nextToken L).1.line = lineAt L.source (tokenStart L).position ∧
      (nextToken L).1.column = columnAt L.source (tokenStart L).position) := by
  obtain ⟨hN, hF, hW, hT, hsp⟩ := tokenStart_spec L
  unfold CleanCall
  rw [hN]
  generalize tokenStart L = S at hN hF hW hT hsp ⊢
  unfold tokenAt
  cases hc : S.source[S.position]? with
  | none =>
    simp only
    refine ⟨hW, fun hL _ => ⟨hT hL, ?_, ?_⟩⟩
    · rw [← hF.1]
      exact (hT hL).2.1
    · rw [← hF.1]
      exact (hT hL).2.2
  | some c =>
    simp only
    obtain ⟨ty, value, k, heq, hk0, hk, hv⟩ := lexToken_shape S c hc (hsp c hc)
    rw [heq]
    simp only
    refine ⟨fun hL => within_shift S k hk (hW hL), fun hL hclean => ⟨?_, ?_, ?_⟩⟩
    · apply tracked_shift k S (hT hL) hk
      by_cases hty : ty = .STRING ∨ ty = .CHAR
      · have := hclean hty
        rw [← hF.1] at this
        have e : (S.shift k).position = S.position + k := rfl
        rw [e, slice_eq_take_rest] at this
        exact this
      · have hty2 : ty ≠ .STRING ∧ ty ≠ .CHAR := by
          constructor
          · exact fun e => hty (Or.inl e)
          · exact fun e => hty (Or.inr e)
        exact (hv hty2).2
    · rw [← hF.1]
      exact (hT hL).2.1
    · rw [← hF.1]
      exact (hT hL).2.2

theorem tokens_getElem? (k : Nat) : ∀ (L : Lexer) (t : Token),
    (tokens L)[k]? = some t → t = (nextToken (L.afterCalls k)).1 := by
  induction k with
  | zero =>
    intro L t h
    rw [tokens_unfold] at h
    split at h
    · simp only [List.getElem?_cons_zero, Option.some.injEq] at h
      exact h.symm
    · simp only [List.getElem?_cons_zero, Option.some.injEq] at h
      exact h.symm
  | succ k ih =>
    intro L t h
    rw [tokens_unfold] at h
    split at h
    · simp at h
    · simp only [List.getElem?_cons_succ] at h
      exact ih _ t h

theorem within_afterCalls (k : Nat) (L : Lexer) (hL : Within L) : Within (L.afterCalls k) := by
  induction k with
  | zero => exact hL
  | succ k ih =>
    rw [afterCalls_succ]
    exact (nextToken_step _).1 ih

theorem tracked_afterCalls (source : List Char) (h : CleanLiterals source) (k : Nat) :
    Tracked ((Lexer.new source).afterCalls k) := by
  induction k with
  | zero => exact tracked_new source
  | succ k ih =>
    rw [afterCalls_succ]
    exact ((nextToken_step _).2 ih (h k)).1

/-- A source is clean when the calls before the end of input are. -/
theorem cleanLiterals_of_calls (source : List Char) (n : Nat)
    (hn : ((Lexer.new source).afterCalls n).remaining = 0)
    (h : ∀ k < n, CleanCall ((Lexer.new source).afterCalls k)) : CleanLiterals source := by
  intro k
  by_cases hk : k < n
  · exact h k hk
  · obtain ⟨j, hj⟩ : ∃ j, k = n + j := ⟨k - n, by omega⟩
    rw [hj, afterCalls_add, afterCalls_at_end j _ hn]
    intro hty
    rw [nextToken_at_end _ hn] at hty
    rcases hty with e | e <;> exact TokenType.noConfusion e

end Lexer

/-- C36: the cursor of the lexer.  After any number of `nextToken` calls on a
source the cursor is within the source.  A call with the cursor before the end
moves it forward; a call with the cursor at the end returns the end-of-input
token and leaves position, line and column as they are.  Hence the calls
from the `n`-th on, `n` the length of the source, return end-of-input, the
token sequence has at most `n + 1` tokens, and a call after one that returned
end-of-input returns the same token and state. -/
theorem cursor_stays_within_source (source : String) (k : Nat) :
    ((Lexer.new source.toList).afterCalls k).source = source.toList ∧
    ((Lexer.new source.toList).afterCalls k).position ≤ source.length ∧
    (∀ L : Lexer, L.position < L.source.length → L.position < (L.nextToken).2.position) ∧
    (∀ L : Lexer, L.source.length ≤ L.position →
      L.nextToken = (⟨.EOF_TOKEN, "", L.line, L.column⟩, L)) ∧
    (source.length ≤ k →
      (((Lexer.new source.toList).afterCalls k).nextToken).1.type = .EOF_TOKEN) ∧
    (tokenize source).length ≤ source.length + 1 ∧
    (∀ L : Lexer, (L.nextToken).1.type = .EOF_TOKEN →
      (L.nextToken).2.nextToken = L.nextToken) := by
  refine ⟨Lexer.afterCalls_source k _, ?_, ?_, ?_, ?_, ?_, ?_⟩
  · have := Lexer.within_afterCalls k (Lexer.new source.toList) (Nat.zero_le _)
    unfold Lexer.Within at this
    rw [Lexer.afterCalls_source] at this
    exact this
  · intro L hlt
    have hs := Lexer.nextToken_spec L
    have hsrc := hs.2.1.1
    by_cases he : (L.nextToken).1.type = .EOF_TOKEN
    · have := (hs.2.2.2 he).1
      unfold Lexer.remaining at this
      rw [hsrc] at this
      omega
    · have := hs.2.2.1 he
      unfold Lexer.remaining at this
      rw [hsrc] at this
      omega
  · intro L hle
    exact Lexer.nextToken_at_end L (by unfold Lexer.remaining; omega)
  · intro hk
    have hr := Lexer.afterCalls_remaining k (Lexer.new source.toList)
    have h0 : (Lexer.new source.toList).remaining = source.length := rfl
    rw [Lexer.nextToken_at_end _ (by omega)]
  · exact Lexer.tokensAux_length _ _
  · intro L he
    have hs := (Lexer.nextToken_spec L).2.2.2 he
    rw [Lexer.nextToken_at_end _ hs.1]
    exact Prod.ext hs.2.symm rfl

/-- C36 at the source `a b`: five calls leave the cursor within the three
characters, and the fourth call returns end-of-input. -/
theorem cursor_stays_within_source_witness :
    ((Lexer.new "a b".toList).afterCalls 5).position ≤ 3 ∧
    (((Lexer.new "a b".toList).afterCalls 3).nextToken).1.type = .EOF_TOKEN :=
  ⟨(cursor_stays_within_source "a b" 5).2.1,
   (cursor_stays_within_source "a b" 3).2.2.2.2.1 (by decide)⟩

/-- C37: the position a token carries.  For a source in which no call consumes
a newline as part of a string or character literal, the token of every call,
the end-of-input token included, is built at `tokenStart`, the cursor on its
first character, and carries the true line and column of that character: one
more than the number of newlines before it, and one more than the number of
characters since the preceding newline or the start of the source.  The same
holds of every token of the token sequence. -/
theorem token_carries_true_position (source : String)
    (hclean : Lexer.CleanLiterals source.toList) (k : Nat) :
    ((Lexer.new source.toList).afterCalls k).nextToken =
      ((Lexer.new source.toList).afterCalls k).tokenStart.tokenAt ∧
    (((Lexer.new source.toList).afterCalls k).nextToken).1.line =
      Lexer.lineAt source.toList ((Lexer.new source.toList).afterCalls k).tokenStart.position ∧
    (((Lexer.new source.toList).afterCalls k).nextToken).1.column =
      Lexer.columnAt source.toList ((Lexer.new source.toList).afterCalls k).tokenStart.position ∧
    (∀ t, (tokenize source)[k]? = some t →
      t.line = Lexer.lineAt source.toList
        ((Lexer.new source.toList).afterCalls k).tokenStart.position ∧
      t.column = Lexer.columnAt source.toList
        ((Lexer.new source.toList).afterCalls k).tokenStart.position) := by
  have htr := Lexer.tracked_afterCalls source.toList hclean k
  have hstep := (Lexer.nextToken_step _).2 htr (hclean k)
  rw [Lexer.afterCalls_source] at hstep
  refine ⟨(Lexer.tokenStart_spec _).1, hstep.2.1, hstep.2.2, ?_⟩
  intro t ht
  have := Lexer.tokens_getElem? k _ t ht
  rw [this]
  exact ⟨hstep.2.1, hstep.2.2⟩

set_option maxRecDepth 100000 in
/-- C37 at a source with a string, a block comment over two lines, a character
literal and a line comment: the keyword `if` on line 3 carries line 3,
column 5. -/
theorem token_carries_true_position_witness :
    Lexer.CleanLiterals "x = \"a b\";\n  /* c\n */ if (\x27y\x27) // z\n".toList ∧
    (tokenize "x = \"a b\";\n  /* c\n */ if (\x27y\x27) // z\n")[4]? =
      some ⟨.IF, "if", 3, 5⟩ ∧
    Lexer.lineAt "x = \"a b\";\n  /* c\n */ if (\x27y\x27) // z\n".toList 22 = 3 ∧
    Lexer.columnAt "x = \"a b\";\n  /* c\n */ if (\x27y\x27) // z\n".toList 22 = 5 ∧
    (((Lexer.new "x = \"a b\";\n  /* c\n */ if (\x27y\x27) // z\n".toList).afterCalls
      4).nextToken).1.line =
      Lexer.lineAt "x = \"a b\";\n  /* c\n */ if (\x27y\x27) // z\n".toList
        ((Lexer.new "x = \"a b\";\n  /* c\n */ if (\x27y\x27) // z\n".toList).afterCalls
          4).tokenStart.position :=
  ⟨Lexer.cleanLiterals_of_calls _ 9 (by decide) (by decide), by decide, by decide, by decide,
   (token_carries_true_position "x = \"a b\";\n  /* c\n */ if (\x27y\x27) // z\n"
      (Lexer.cleanLiterals_of_calls _ 9 (by decide) (by decide)) 4).2.1⟩

/-- C38: the lexeme of a token.  For a token that is neither a string, nor a
character literal, nor end-of-input, the lexeme is the slice of the source
from the first character of the token, the cursor of `tokenStart`, up to the
cursor after the call.  The characters from the cursor before the call on are
the skipped white space and comments, then the lexeme, then the characters
from the cursor after the call on. -/
theorem lexeme_is_source_slice (L : Lexer)
    (hty : (L.nextToken).1.type ≠ .STRING ∧ (L.nextToken).1.type ≠ .CHAR ∧
      (L.nextToken).1.type ≠ .EOF_TOKEN) :
    L.nextToken = L.tokenStart.tokenAt ∧
    L.position ≤ L.tokenStart.position ∧
    L.tokenStart.position < (L.nextToken).2.position ∧
    (L.nextToken).2.position ≤ L.source.length ∧
    (L.nextToken).1.value.data =
      Lexer.slice L.source L.tokenStart.position (L.nextToken).2.position ∧
    L.rest = Lexer.slice L.source L.position L.tokenStart.position ++
      (L.nextToken).1.value.data ++ (L.nextToken).2.rest := by
  obtain ⟨hN, hF, _, _, hsp⟩ := Lexer.tokenStart_spec L
  rw [hN] at hty ⊢
  generalize L.tokenStart = S at hN hF hsp hty ⊢
  unfold Lexer.tokenAt at hty ⊢
  cases hc : S.source[S.position]? with
  | none =>
    rw [hc] at hty
    exact absurd rfl hty.2.2
  | some c =>
    rw [hc] at hty
    simp only at hty ⊢
    obtain ⟨ty, value, k, heq, hk0, hk, hv⟩ := Lexer.lexToken_shape S c hc (hsp c hc)
    rw [heq] at hty ⊢
    simp only at hty ⊢
    obtain ⟨hval, _⟩ := hv ⟨hty.1, hty.2.1⟩
    have hlt := Lexer.lt_of_getElem? hc
    have hpos : (S.shift k).position = S.position + k := rfl
    have hslice : Lexer.slice L.source S.position (S.position + k) = S.rest.take k := by
      rw [← hF.1]
      exact Lexer.slice_eq_take_rest S k
    refine ⟨trivial, hF.2, ?_, ?_, ?_, ?_⟩
    · rw [hpos]
      omega
    · rw [hpos, ← hF.1]
      unfold Lexer.remaining at hk
      omega
    · rw [hpos, hslice, hval]
    · rw [hval, Lexer.rest_shift]
      unfold Lexer.slice Lexer.rest
      rw [hF.1]
      have h1 : List.drop S.position L.source =
          List.drop (S.position - L.position) (List.drop L.position L.source) := by
        rw [List.drop_drop]
        congr 1
        have := hF.2
        omega
      rw [List.append_assoc, List.take_append_drop, h1, List.take_append_drop]

/-- C38 at the source `  /* c */ speed == 10`: the first call skips the white
space and the comment and returns the word `speed`, the characters 10 to 14. -/
theorem lexeme_is_source_slice_witness :
    ((Lexer.new "  /* c */ speed == 10".toList).nextToken).1.value.data =
      Lexer.slice "  /* c */ speed == 10".toList 10 15 ∧
    (Lexer.new "  /* c */ speed == 10".toList).tokenStart.position = 10 ∧
    ((Lexer.new "  /* c */ speed == 10".toList).nextToken).2.position = 15 ∧
    ((Lexer.new "  /* c */ speed == 10".toList).nextToken).1.value.data =
      Lexer.slice (Lexer.new "  /* c */ speed == 10".toList).source
        (Lexer.new "  /* c */ speed == 10".toList).tokenStart.position
        ((Lexer.new "  /* c */ speed == 10".toList).nextToken).2.position :=
  ⟨by decide, by decide, by decide,
   (lexeme_is_source_slice (Lexer.new "  /* c */ speed == 10".toList)
      ⟨by decide, by decide, by decide⟩).2.2.2.2.1⟩

end Capl
